import Mathlib

/-!
# Skip list containers (`skip_list`, `multi_skip_list`, `skip_list_map`)

A shallow embedding of the skip list engine `goodliffe::detail::sl_impl`
(`skip_list_detail.h`) and of the container classes built on it
(`skip_list.h`, `skip_list_map.h`).

## Memory model

* A pointer is a natural number; `0` is the null pointer and is never
  allocated.
* The engine owns a store `mem` mapping an address to the node allocated
  there; `brk` is the next address the allocator hands out.
* A node carries `value` (absent until `construct` ran: the two sentinels
  never get one), `level`, `prev` and the array `next` of `level + 1`
  forward pointers.  A slot of `next` that was never written holds `0`.
* Every operation returns an `Option`: `none` stands for undefined behaviour
  of the C++ code (following a null or dangling pointer, indexing `next`
  out of bounds, reading the value slot of a sentinel) or for a loop that
  never ends.  Loops that follow pointers carry fuel `brk`: a walk over
  allocated nodes that is longer than `brk` steps has met some node twice.
* `size_type` and `unsigned` are modelled by `Nat`; the counters never come
  near their width.
* The level generator is modelled by its output: every `insert` receives the
  level `g` drawn for it.
-/

namespace goodliffe

namespace detail

/-- Equivalence derived from the comparator: `detail::equivalent`. -/
def equivalent {K : Type} (less : K → K → Bool) (lhs rhs : K) : Bool :=
  !less lhs rhs && !less rhs lhs

/-- Derived comparison `detail::less_or_equal`. -/
def less_or_equal {K : Type} (less : K → K → Bool) (lhs rhs : K) : Bool :=
  !less rhs lhs

/-- Output of `bit_based_skip_list_level_generator::new_level` for the random
word `number`: the loop counts trailing one bits. The recursion is bounded by the
width of the word. -/
def bit_based_new_level : Nat → Nat → Nat
  | 0, _ => 0
  | width + 1, number =>
    if number % 2 = 1 then bit_based_new_level width (number / 2) + 1 else 0

/-- Method `bit_based_skip_list_level_generator<ML>::new_level` for the word
`number` that `unsigned(rand())` yields, an `unsigned` of 32 bits. The template
argument `ML` appears in an assertion only. -/
def bit_based_skip_list_level_generator.new_level (_ML : Nat) (number : Nat) : Nat :=
  bit_based_new_level 32 (number % 2 ^ 32)

/-- Node of the list: `sl_node<T>`. -/
structure sl_node (T : Type) where
  value : Option T
  level : Nat
  prev : Nat
  next : List Nat

/-- Template parameters of `sl_impl`: the key projection, the number of
levels of the level generator and the duplicate policy. -/
structure sl_traits (T K : Type) where
  KeyFromValue : T → K
  num_levels : Nat
  AllowDuplicates : Bool

/-- Data members of `sl_impl` together with the store holding its nodes. -/
structure sl_impl (T K : Type) where
  less : K → K → Bool
  levels : Nat
  head : Nat
  tail : Nat
  item_count : Nat
  mem : Nat → Option (sl_node T)
  brk : Nat

/-- An argument handed over as `const value_type &`: the object it refers to
lives outside the container, or it is the value slot of the node `p` of the
container, as in `m.erase(*m.begin())`. -/
inductive value_ref (T : Type) where
  | outside (v : T)
  | node (p : Nat)

namespace sl_impl

variable {T K : Type}

/-- Read `p->next[l]`. -/
def get_next (s : sl_impl T K) (p l : Nat) : Option Nat :=
  match s.mem p with
  | some n => n.next[l]?
  | none => none

/-- Read `p->prev`. -/
def get_prev (s : sl_impl T K) (p : Nat) : Option Nat :=
  match s.mem p with
  | some n => some n.prev
  | none => none

/-- Read `p->level`. -/
def get_level (s : sl_impl T K) (p : Nat) : Option Nat :=
  match s.mem p with
  | some n => some n.level
  | none => none

/-- Read `p->value`; undefined when the slot was never constructed. -/
def get_value (s : sl_impl T K) (p : Nat) : Option T :=
  match s.mem p with
  | some n => n.value
  | none => none

/-- Write `p->next[l] = q`. -/
def set_next (s : sl_impl T K) (p l q : Nat) : Option (sl_impl T K) :=
  match s.mem p with
  | some n =>
    if l < n.next.length then
      some { s with mem := Function.update s.mem p (some { n with next := n.next.set l q }) }
    else none
  | none => none

/-- Write `p->prev = q`. -/
def set_prev (s : sl_impl T K) (p q : Nat) : Option (sl_impl T K) :=
  match s.mem p with
  | some n => some { s with mem := Function.update s.mem p (some { n with prev := q }) }
  | none => none

/-- Allocation `allocate(level)`: a fresh node with `level + 1` forward slots. -/
def allocate (s : sl_impl T K) (level : Nat) : Nat × sl_impl T K :=
  (s.brk,
   { s with
     mem := Function.update s.mem s.brk
       (some { value := none, level := level, prev := 0, next := List.replicate (level + 1) 0 })
     brk := s.brk + 1 })

/-- Construction of the value: `alloc.construct(&p->value, value)`. -/
def construct (s : sl_impl T K) (p : Nat) (value : T) : Option (sl_impl T K) :=
  match s.mem p with
  | some n => some { s with mem := Function.update s.mem p (some { n with value := some value }) }
  | none => none

/-- Destruction and release of a node: `alloc.destroy(&p->value); deallocate(p)`. -/
def deallocate (s : sl_impl T K) (p : Nat) : Option (sl_impl T K) :=
  match s.mem p with
  | some _ => some { s with mem := Function.update s.mem p none }
  | none => none

/-- Validity test `is_valid(node)`. -/
def is_valid (s : sl_impl T K) (node : Nat) : Bool :=
  decide (node ≠ 0) && decide (node ≠ s.head) && decide (node ≠ s.tail)

/-- Accessor `size()`. -/
def size (s : sl_impl T K) : Nat := s.item_count

/-- Accessor `front()`, the node `head->next[0]`. -/
def front (s : sl_impl T K) : Option Nat := s.get_next s.head 0

/-- Accessor `one_past_front()`. -/
def one_past_front (s : sl_impl T K) : Nat := s.head

/-- Accessor `one_past_end()`. -/
def one_past_end (s : sl_impl T K) : Nat := s.tail

/-- Initialisation loop of the constructor:
`for (n = 0; n < num_levels; n++) { head->next[n] = tail; tail->next[n] = 0; }`
run for `n = from, ..., from + count - 1`. -/
def init_lanes : Nat → Nat → sl_impl T K → Option (sl_impl T K)
  | 0, _, s => some s
  | count + 1, n, s =>
    match s.set_next s.head n s.tail with
    | none => none
    | some s1 =>
      match s1.set_next s1.tail n 0 with
      | none => none
      | some s2 => init_lanes count (n + 1) s2

/-- Constructor `sl_impl::sl_impl`. The store starts empty with address `0`
reserved for the null pointer. -/
def create (P : sl_traits T K) (less : K → K → Bool) : Option (sl_impl T K) :=
  let s0 : sl_impl T K :=
    { less := less, levels := 0, head := 0, tail := 0, item_count := 0,
      mem := fun _ => none, brk := 1 }
  let (h, s1) := s0.allocate P.num_levels
  let (t, s2) := s1.allocate P.num_levels
  let s3 : sl_impl T K := { s2 with head := h, tail := t }
  match init_lanes P.num_levels 0 s3 with
  | none => none
  | some s4 =>
    match s4.set_prev s4.head 0 with
    | none => none
    | some s5 => s5.set_prev s5.tail s5.head

/-- The search loop that find, insert, remove and remove_between all contain:
`while (p->next[l] != tail && pred(p->next[l]->value)) p = p->next[l];` -/
def advance (s : sl_impl T K) (l : Nat) (pred : T → Bool) : Nat → Nat → Option Nat
  | 0, _ => none
  | fuel + 1, p =>
    match s.get_next p l with
    | none => none
    | some nx =>
      if nx = s.tail then some p
      else
        match s.get_value nx with
        | none => none
        | some v => if pred v then advance s l pred fuel nx else some p

/-- Lane loop of `find`: `for (l = levels; l; ) { --l; while (...) search = search->next[l]; }`. -/
def find_lanes (P : sl_traits T K) (s : sl_impl T K) (key : K) : Nat → Nat → Option Nat
  | 0, search => some search
  | l + 1, search =>
    match s.advance l (fun v => less_or_equal s.less (P.KeyFromValue v) key) s.brk search with
    | none => none
    | some search1 => find_lanes P s key l search1

/-- Engine operation `sl_impl::find`. -/
def find (P : sl_traits T K) (s : sl_impl T K) (key : K) : Option Nat :=
  find_lanes P s key s.levels s.head

/-- Reading through a reference: an object outside the container is there to
be read; the value slot of a node is undefined once the node was destroyed. -/
def read_ref (s : sl_impl T K) : value_ref T → Option T
  | .outside v => some v
  | .node p => s.get_value p

/-- The search loop of `find` with its key behind a reference:
`while (p->next[l] != tail && pred(key, p->next[l]->value)) p = p->next[l];`.
`key` is what reading the reference gives; it is read for every comparison. -/
def advance_ref (s : sl_impl T K) (l : Nat) (pred : K → T → Bool) (key : Option K) :
    Nat → Nat → Option Nat
  | 0, _ => none
  | fuel + 1, p =>
    match s.get_next p l with
    | none => none
    | some nx =>
      if nx = s.tail then some p
      else
        match s.get_value nx with
        | none => none
        | some v =>
          match key with
          | none => none
          | some k => if pred k v then advance_ref s l pred key fuel nx else some p

/-- Lane loop of `find` with its key behind a reference. -/
def find_lanes_ref (P : sl_traits T K) (s : sl_impl T K) (key : Option K) :
    Nat → Nat → Option Nat
  | 0, search => some search
  | l + 1, search =>
    match s.advance_ref l (fun k v => less_or_equal s.less (P.KeyFromValue v) k) key s.brk
        search with
    | none => none
    | some search1 => find_lanes_ref P s key l search1

/-- Engine operation `sl_impl::find(const key_type &key)` with the object `key`
refers to made explicit: `key` is what reading the reference gives, nothing when
the object was destroyed before the call. -/
def find_ref (P : sl_traits T K) (s : sl_impl T K) (key : Option K) : Option Nat :=
  find_lanes_ref P s key s.levels s.head

/-- Backward loop of `find_first`:
`while (node != head && node->prev != head && equivalent(key(node->prev->value), key)) node = node->prev;` -/
def find_first_back (P : sl_traits T K) (s : sl_impl T K) (key : K) : Nat → Nat → Option Nat
  | 0, _ => none
  | fuel + 1, node =>
    if node = s.head then some node
    else
      match s.get_prev node with
      | none => none
      | some pv =>
        if pv = s.head then some node
        else
          match s.get_value pv with
          | none => none
          | some v =>
            if equivalent s.less (P.KeyFromValue v) key then find_first_back P s key fuel pv
            else some node

/-- Engine operation `sl_impl::find_first`. -/
def find_first (P : sl_traits T K) (s : sl_impl T K) (key : K) : Option Nat :=
  match find P s key with
  | none => none
  | some node0 =>
    match find_first_back P s key s.brk node0 with
    | none => none
    | some node =>
      if node ≠ s.head ∧ node ≠ s.tail then
        match s.get_value node with
        | none => none
        | some v => if s.less (P.KeyFromValue v) key then s.get_next node 0 else some node
      else some node

/-- Engine operation `sl_impl::lower_bound`. -/
def lower_bound (P : sl_traits T K) (s : sl_impl T K) (key : K) : Option Nat :=
  match find_first P s key with
  | none => none
  | some node => if node = s.one_past_front then s.get_next node 0 else some node

/-- Forward loop of `upper_bound`:
`while (is_valid(node) && equivalent(key(node->value), key)) node = node->next[0];` -/
def skip_equivalent (P : sl_traits T K) (s : sl_impl T K) (key : K) : Nat → Nat → Option Nat
  | 0, _ => none
  | fuel + 1, node =>
    if s.is_valid node then
      match s.get_value node with
      | none => none
      | some v =>
        if equivalent s.less (P.KeyFromValue v) key then
          match s.get_next node 0 with
          | none => none
          | some nx => skip_equivalent P s key fuel nx
        else some node
    else some node

/-- Engine operation `sl_impl::upper_bound`. -/
def upper_bound (P : sl_traits T K) (s : sl_impl T K) (key : K) : Option Nat :=
  match find_first P s key with
  | none => none
  | some node0 =>
    match (if node0 = s.one_past_front then s.get_next node0 0 else some node0) with
    | none => none
    | some node => skip_equivalent P s key s.brk node

/-- Engine operation `sl_impl::new_level`, given the generator output `g`:
the level of the new node and the engine with `levels` raised when `g >= levels`. -/
def new_level (s : sl_impl T K) (g : Nat) : Nat × sl_impl T K :=
  if g ≥ s.levels then (s.levels, { s with levels := s.levels + 1 }) else (g, s)

/-- Second loop of `remove`, run when duplicates are allowed: starting at `cur2`
it follows lane `l` along nodes equivalent to `key` looking for `node`:
`while (cur2 != tail) { next = cur2->next[l]; if (next == tail) break;
if (next == node) { cur = cur2; break; }
if (equivalent(key(cur2->next[l]->value), key)) cur2 = next; else break; }`.
The result is the final value of `cur`. -/
def remove_scan (P : sl_traits T K) (s : sl_impl T K) (key : K) (node l : Nat) (cur : Nat) :
    Nat → Nat → Option Nat
  | 0, _ => none
  | fuel + 1, cur2 =>
    if cur2 = s.tail then some cur
    else
      match s.get_next cur2 l with
      | none => none
      | some next =>
        if next = s.tail then some cur
        else if next = node then some cur2
        else
          match s.get_value next with
          | none => none
          | some v =>
            if equivalent s.less (P.KeyFromValue v) key then
              remove_scan P s key node l cur fuel next
            else some cur

/-- Lane loop of `remove`: `for (l = levels; l; ) { --l; ... }`, patching every
forward pointer that refers to `node`. -/
def remove_lanes (P : sl_traits T K) (key : K) (node : Nat) :
    Nat → sl_impl T K → Nat → Option (sl_impl T K)
  | 0, s, _ => some s
  | l + 1, s, cur0 =>
    match s.advance l (fun v => s.less (P.KeyFromValue v) key) s.brk cur0 with
    | none => none
    | some cur1 =>
      match (if P.AllowDuplicates then remove_scan P s key node l cur1 s.brk cur1
             else some cur1) with
      | none => none
      | some cur =>
        match s.get_next cur l with
        | none => none
        | some cn =>
          if cn = node then
            match s.get_next node l with
            | none => none
            | some nn =>
              match s.set_next cur l nn with
              | none => none
              | some s1 => remove_lanes P key node l s1 cur
          else remove_lanes P key node l s cur

/-- Engine operation `sl_impl::remove`. -/
def remove (P : sl_traits T K) (s : sl_impl T K) (node : Nat) : Option (sl_impl T K) :=
  match s.get_value node with
  | none => none
  | some v =>
    match s.get_next node 0 with
    | none => none
    | some n0 =>
      match s.get_prev node with
      | none => none
      | some np =>
        match s.set_prev n0 np with
        | none => none
        | some s1 =>
          match remove_lanes P (P.KeyFromValue v) node s1.levels s1 s1.head with
          | none => none
          | some s2 =>
            match s2.deallocate node with
            | none => none
            | some s3 => some { s3 with item_count := s3.item_count - 1 }

/-- Lane loop of `insert`: `while (l) { --l; ... }`. On every lane it walks to
the last node whose key is less than `key` and, when `l <= level`, splices
`new_node` in after it. The result is the engine and the final `insert_point`. -/
def insert_lanes (P : sl_traits T K) (key : K) (level new_node : Nat) :
    Nat → sl_impl T K → Nat → Option (sl_impl T K × Nat)
  | 0, s, insert_point => some (s, insert_point)
  | l + 1, s, insert_point0 =>
    match s.advance l (fun v => s.less (P.KeyFromValue v) key) s.brk insert_point0 with
    | none => none
    | some insert_point =>
      if l ≤ level then
        match s.get_next insert_point l with
        | none => none
        | some next =>
          match s.set_next new_node l next with
          | none => none
          | some s1 =>
            match s1.set_next insert_point l new_node with
            | none => none
            | some s2 => insert_lanes P key level new_node l s2 insert_point
      else insert_lanes P key level new_node l s insert_point

/-- The test `good_hint` of `insert`:
`is_valid(hint) && hint->level == levels-1 && !less_or_equal(key, key(hint->value))`. -/
def good_hint (P : sl_traits T K) (s : sl_impl T K) (key : K) (hint : Nat) : Option Bool :=
  if s.is_valid hint then
    match s.get_level hint with
    | none => none
    | some hl =>
      if hl = s.levels - 1 then
        match s.get_value hint with
        | none => none
        | some hv => some (!less_or_equal s.less key (P.KeyFromValue hv))
      else some false
  else some false

/-- Engine operation `sl_impl::insert(value, hint)`; `g` is the level the
generator draws. The result is the engine and the returned node pointer
(`tail` when the value was rejected as a duplicate). -/
def insert (P : sl_traits T K) (s : sl_impl T K) (value : T) (hint : Nat) (g : Nat) :
    Option (sl_impl T K × Nat) :=
  let key := P.KeyFromValue value
  let (level, sa) := s.new_level g
  let (new_node, sb) := sa.allocate level
  match sb.construct new_node value with
  | none => none
  | some sc =>
    match good_hint P sc key hint with
    | none => none
    | some gh =>
      match insert_lanes P key level new_node sc.levels sc (if gh then hint else sc.head) with
      | none => none
      | some (sd, insert_point) =>
        match sd.get_next new_node 0 with
        | none => none
        | some next =>
          match sd.set_prev new_node insert_point with
          | none => none
          | some se =>
            match se.set_prev next new_node with
            | none => none
            | some sf =>
              let sg : sl_impl T K := { sf with item_count := sf.item_count + 1 }
              if !P.AllowDuplicates && decide (next ≠ sg.tail) then
                match sg.get_value next with
                | none => none
                | some nv =>
                  if equivalent sg.less (P.KeyFromValue nv) key then
                    match remove P sg new_node with
                    | none => none
                    | some sh => some (sh, sh.tail)
                  else some (sg, new_node)
              else some (sg, new_node)

/-- Engine operation `sl_impl::insert` when `allocate(level)` throws
(`std::bad_alloc` from the node allocator or from the allocator of the array
`next`): the exception leaves `insert` after `const unsigned level = new_level();`
has run and before any node exists, so the engine is the one `new_level` left;
`g` is the level the generator drew. -/
def insert_bad_alloc (s : sl_impl T K) (g : Nat) : sl_impl T K :=
  (s.new_level g).2

/-- Engine operation `sl_impl::erase(key)`: the engine and the number of
removed elements. -/
def erase (P : sl_traits T K) (s : sl_impl T K) (key : K) : Option (sl_impl T K × Nat) :=
  match find P s key with
  | none => none
  | some node =>
    if s.is_valid node then
      match s.get_value node with
      | none => none
      | some v =>
        if equivalent s.less (P.KeyFromValue v) key then
          match remove P s node with
          | none => none
          | some s1 => some (s1, 1)
        else some (s, 0)
    else some (s, 0)

/-- First loop of `remove_all`: it walks lane 0 and frees every node up to `tail`. -/
def remove_all_nodes : Nat → sl_impl T K → Nat → Option (sl_impl T K)
  | 0, _, _ => none
  | fuel + 1, s, node =>
    if node = s.tail then some s
    else
      match s.get_next node 0 with
      | none => none
      | some next =>
        match s.deallocate node with
        | none => none
        | some s1 => remove_all_nodes fuel s1 next

/-- Second loop of `remove_all`: `for (l = 0; l < num_levels; ++l) head->next[l] = tail;`
run for `l = from, ..., from + count - 1`. -/
def reset_lanes : Nat → Nat → sl_impl T K → Option (sl_impl T K)
  | 0, _, s => some s
  | count + 1, l, s =>
    match s.set_next s.head l s.tail with
    | none => none
    | some s1 => reset_lanes count (l + 1) s1

/-- Engine operation `sl_impl::remove_all`. -/
def remove_all (P : sl_traits T K) (s : sl_impl T K) : Option (sl_impl T K) :=
  match s.get_next s.head 0 with
  | none => none
  | some first =>
    match remove_all_nodes s.brk s first with
    | none => none
    | some s1 =>
      match reset_lanes P.num_levels 0 s1 with
      | none => none
      | some s2 =>
        match s2.set_prev s2.tail s2.head with
        | none => none
        | some s3 => some { s3 with item_count := 0 }

/-- The values met on lane 0 from `node` up to `tail`: what iterating from an
iterator at `node` to `end()` reads. -/
def values_from (s : sl_impl T K) : Nat → Nat → Option (List T)
  | 0, _ => none
  | fuel + 1, node =>
    if node = s.tail then some []
    else
      match s.get_value node with
      | none => none
      | some v =>
        match s.get_next node 0 with
        | none => none
        | some nx =>
          match values_from s fuel nx with
          | none => none
          | some vs => some (v :: vs)

/-- The sequence of stored values read by iterating from `begin()` to `end()`. -/
def lane0 (s : sl_impl T K) : Option (List T) :=
  match s.front with
  | none => none
  | some first => values_from s s.brk first

/-- The values read by a reverse iterator with base `base` up to `rend()`, the
reverse iterator with base `first`: dereferencing reads the node before the base
(`operator--` of the iterator, `node = node->prev`), and incrementing moves the
base there. -/
def values_back (s : sl_impl T K) (first : Nat) : Nat → Nat → Option (List T)
  | 0, _ => none
  | fuel + 1, base =>
    if base = first then some []
    else
      match s.get_prev base with
      | none => none
      | some node =>
        match s.get_value node with
        | none => none
        | some v =>
          match values_back s first fuel node with
          | none => none
          | some vs => some (v :: vs)

/-- The sequence of stored values read by iterating from `rbegin()`, whose base
is `end()`, to `rend()`, whose base is `begin()`. -/
def lane0_reversed (s : sl_impl T K) : Option (List T) :=
  match s.front with
  | none => none
  | some first => values_back s first s.brk s.one_past_end

/-- First loop of `count`:
`while (back != head && equivalent(key(back->value), key)) { ++count; back = back->prev; }`. -/
def count_back (P : sl_traits T K) (s : sl_impl T K) (key : K) : Nat → Nat → Nat → Option Nat
  | 0, _, _ => none
  | fuel + 1, back, count =>
    if back = s.head then some count
    else
      match s.get_value back with
      | none => none
      | some v =>
        if equivalent s.less (P.KeyFromValue v) key then
          match s.get_prev back with
          | none => none
          | some pv => count_back P s key fuel pv (count + 1)
        else some count

/-- Second loop of `count`:
`while (is_valid(node) && equivalent(key(node->value), key)) { ++count; node = node->next[0]; }`. -/
def count_forward (P : sl_traits T K) (s : sl_impl T K) (key : K) : Nat → Nat → Nat → Option Nat
  | 0, _, _ => none
  | fuel + 1, node, count =>
    if s.is_valid node then
      match s.get_value node with
      | none => none
      | some v =>
        if equivalent s.less (P.KeyFromValue v) key then
          match s.get_next node 0 with
          | none => none
          | some nx => count_forward P s key fuel nx (count + 1)
        else some count
    else some count

/-- Engine operation `sl_impl::count`, used by `multi_skip_list`. -/
def count (P : sl_traits T K) (s : sl_impl T K) (key : K) : Option Nat :=
  match find P s key with
  | none => none
  | some node =>
    match (if node ≠ s.head then
             match s.get_prev node with
             | none => none
             | some back => count_back P s key s.brk back 0
           else some 0) with
    | none => none
    | some count => count_forward P s key s.brk node count

/-- Inner loop of `remove_between`:
`while (end != tail && less_or_equal(key(end->value), last_key)) end = end->next[l];`. -/
def skip_range (P : sl_traits T K) (s : sl_impl T K) (last_key : K) (l : Nat) :
    Nat → Nat → Option Nat
  | 0, _ => none
  | fuel + 1, e =>
    if e = s.tail then some e
    else
      match s.get_value e with
      | none => none
      | some v =>
        if less_or_equal s.less (P.KeyFromValue v) last_key then
          match s.get_next e l with
          | none => none
          | some nx => skip_range P s last_key l fuel nx
        else some e

/-- Lane loop of `remove_between`. -/
def remove_between_lanes (P : sl_traits T K) (first_key last_key : K) :
    Nat → sl_impl T K → Nat → Option (sl_impl T K)
  | 0, s, _ => some s
  | l + 1, s, cur0 =>
    match s.advance l (fun v => s.less (P.KeyFromValue v) first_key) s.brk cur0 with
    | none => none
    | some cur =>
      match s.get_next cur l with
      | none => none
      | some cn =>
        if cn = s.tail then remove_between_lanes P first_key last_key l s cur
        else
          match s.get_value cn with
          | none => none
          | some v =>
            if less_or_equal s.less (P.KeyFromValue v) last_key then
              match skip_range P s last_key l s.brk cn with
              | none => none
              | some e =>
                match s.set_next cur l e with
                | none => none
                | some s1 => remove_between_lanes P first_key last_key l s1 cur
            else remove_between_lanes P first_key last_key l s cur

/-- Final loop of `remove_between`:
`while (first != one_past_end) { next = first->next[0]; ...; deallocate(first); item_count--; first = next; }`. -/
def remove_between_nodes (one_past_end : Nat) : Nat → sl_impl T K → Nat → Option (sl_impl T K)
  | 0, _, _ => none
  | fuel + 1, s, first =>
    if first = one_past_end then some s
    else
      match s.get_next first 0 with
      | none => none
      | some next =>
        match s.deallocate first with
        | none => none
        | some s1 =>
          remove_between_nodes one_past_end fuel { s1 with item_count := s1.item_count - 1 } next

/-- Engine operation `sl_impl::remove_between(first, last)`. -/
def remove_between (P : sl_traits T K) (s : sl_impl T K) (first last : Nat) :
    Option (sl_impl T K) :=
  match s.get_prev first with
  | none => none
  | some prev =>
    match s.get_next last 0 with
    | none => none
    | some one_past_end =>
      match s.get_value first with
      | none => none
      | some fv =>
        match s.get_value last with
        | none => none
        | some lv =>
          match s.set_prev one_past_end prev with
          | none => none
          | some s1 =>
            match remove_between_lanes P (P.KeyFromValue fv) (P.KeyFromValue lv)
                s1.levels s1 s1.head with
            | none => none
            | some s2 => remove_between_nodes one_past_end s2.brk s2 first

/-- Engine operation `sl_impl::swap`: every data member changes sides,
`swap(alloc, other.alloc); swap(less, other.less); swap(generator, other.generator);
swap(levels, other.levels); swap(head, other.head); swap(tail, other.tail);
swap(item_count, other.item_count);`. The store and `brk` go with the allocator;
the generator has no state. The result is the pair of `*this` and `other`. -/
def swap (a b : sl_impl T K) : sl_impl T K × sl_impl T K :=
  ({ less := b.less, levels := b.levels, head := b.head, tail := b.tail,
     item_count := b.item_count, mem := b.mem, brk := b.brk },
   { less := a.less, levels := a.levels, head := a.head, tail := a.tail,
     item_count := a.item_count, mem := a.mem, brk := a.brk })

/-- The nodes met on lane `l` from `node` up to `tail`, following the forward
pointers of that lane: the walk `while (n != tail) { ...; n = n->next[l]; }` of
`check()`. -/
def nodes_from (s : sl_impl T K) (l : Nat) : Nat → Nat → Option (List Nat)
  | 0, _ => none
  | fuel + 1, node =>
    if node = s.tail then some []
    else
      match s.get_next node l with
      | none => none
      | some next =>
        match nodes_from s l fuel next with
        | none => none
        | some ns => some (node :: ns)

/-- The real nodes of lane `l`: the nodes met between `head` and `tail`. -/
def lane (s : sl_impl T K) (l : Nat) : Option (List Nat) :=
  match s.get_next s.head l with
  | none => none
  | some first => nodes_from s l s.brk first

end sl_impl

end detail

/-! ## The containers -/

/-- The comparator `std::less<int>`, on numbers. -/
def std_less (a b : Nat) : Bool := decide (a < b)

/-- Engine parameters behind `skip_list<T, Compare, Allocator, LevelGenerator, AllowDuplicates>`:
the key of a value is the value itself (`detail::identity<T>`). -/
def skip_list.traits {T : Type} (num_levels : Nat) (AllowDuplicates : Bool) :
    detail.sl_traits T T :=
  { KeyFromValue := fun t => t, num_levels := num_levels, AllowDuplicates := AllowDuplicates }

/-- Engine parameters behind `skip_list_map<Key, MappedTo, ...>`: values are pairs, the
key is the first component (`detail::select1st`), duplicates are not allowed. -/
def skip_list_map.traits {Key MappedTo : Type} (num_levels : Nat) :
    detail.sl_traits (Key × MappedTo) Key :=
  { KeyFromValue := fun p => p.1, num_levels := num_levels, AllowDuplicates := false }

namespace skip_list

open detail

variable {T : Type}

/-- Constructor `skip_list::skip_list`. -/
def create (N : Nat) (D : Bool) (less : T → T → Bool) : Option (sl_impl T T) :=
  sl_impl.create (traits N D) less

/-- Iterator `begin()`. -/
def cbegin (s : sl_impl T T) : Option Nat := s.front

/-- Iterator `end()`. -/
def cend (s : sl_impl T T) : Nat := s.one_past_end

/-- Query `empty()`. -/
def empty (s : sl_impl T T) : Bool := s.size == 0

/-- Query `size()`. -/
def size (s : sl_impl T T) : Nat := s.size

/-- Modifier `clear()`. -/
def clear (N : Nat) (D : Bool) (s : sl_impl T T) : Option (sl_impl T T) :=
  sl_impl.remove_all (traits N D) s

/-- Modifier `insert(value)`: the container, the returned iterator and the flag. -/
def insert (N : Nat) (D : Bool) (s : sl_impl T T) (value : T) (g : Nat) :
    Option (sl_impl T T × Nat × Bool) :=
  match sl_impl.insert (traits N D) s value 0 g with
  | none => none
  | some (s1, node) => some (s1, node, s1.is_valid node)

/-- Modifier `insert(hint, value)`. -/
def insert_hint (N : Nat) (D : Bool) (s : sl_impl T T) (hint : Nat) (value : T) (g : Nat) :
    Option (sl_impl T T × Nat) :=
  if s.is_valid hint then
    match s.get_value hint with
    | none => none
    | some hv =>
      if less_or_equal s.less value hv then sl_impl.insert (traits N D) s value 0 g
      else sl_impl.insert (traits N D) s value hint g
  else sl_impl.insert (traits N D) s value hint g

/-- Modifier `insert(first, last)`: every value is inserted with the previous
result as hint; `last_inserted` starts as `end()`. Each value comes with the
level drawn for it. -/
def insert_range (N : Nat) (D : Bool) :
    List (T × Nat) → sl_impl T T → Nat → Option (sl_impl T T)
  | [], s, _ => some s
  | (value, g) :: rest, s, last_inserted =>
    match insert_hint N D s last_inserted value g with
    | none => none
    | some (s1, it) => insert_range N D rest s1 it

/-- Modifier `erase(value)`. -/
def erase (N : Nat) (D : Bool) (s : sl_impl T T) (value : T) : Option (sl_impl T T × Nat) :=
  match sl_impl.find (traits N D) s value with
  | none => none
  | some node =>
    if s.is_valid node then
      match s.get_value node with
      | none => none
      | some v =>
        if equivalent s.less v value then
          match sl_impl.remove (traits N D) s node with
          | none => none
          | some s1 => some (s1, 1)
        else some (s, 0)
    else some (s, 0)

/-- Modifier `erase(position)`: the container and the iterator after the erased one. -/
def erase_at (N : Nat) (D : Bool) (s : sl_impl T T) (position : Nat) :
    Option (sl_impl T T × Nat) :=
  match s.get_next position 0 with
  | none => none
  | some next =>
    match sl_impl.remove (traits N D) s position with
    | none => none
    | some s1 => some (s1, next)

/-- Modifier `erase(first, last)`. -/
def erase_range (N : Nat) (D : Bool) (s : sl_impl T T) (first last : Nat) :
    Option (sl_impl T T × Nat) :=
  if first ≠ last then
    match s.get_prev last with
    | none => none
    | some last_node =>
      match sl_impl.remove_between (traits N D) s first last_node with
      | none => none
      | some s1 => some (s1, last)
  else some (s, last)

/-- Helper `to_iterator(node, value)`. -/
def to_iterator (s : sl_impl T T) (node : Nat) (value : T) : Option Nat :=
  if s.is_valid node then
    match s.get_value node with
    | none => none
    | some v => if equivalent s.less v value then some node else some (cend s)
  else some (cend s)

/-- Lookup `count(value)`. -/
def count (N : Nat) (D : Bool) (s : sl_impl T T) (value : T) : Option Nat :=
  match sl_impl.find (traits N D) s value with
  | none => none
  | some node =>
    if s.is_valid node then
      match s.get_value node with
      | none => none
      | some v => if equivalent s.less v value then some 1 else some 0
    else some 0

/-- Lookup `contains(value)`. -/
def contains (N : Nat) (D : Bool) (s : sl_impl T T) (value : T) : Option Bool :=
  match count N D s value with
  | none => none
  | some c => some (c != 0)

/-- Lookup `find(value)`. -/
def find (N : Nat) (D : Bool) (s : sl_impl T T) (value : T) : Option Nat :=
  match sl_impl.find (traits N D) s value with
  | none => none
  | some node => to_iterator s node value

/-- Lookup `lower_bound(value)`. -/
def lower_bound (N : Nat) (D : Bool) (s : sl_impl T T) (value : T) : Option Nat :=
  match sl_impl.find_first (traits N D) s value with
  | none => none
  | some node => if node = s.one_past_front then s.get_next node 0 else some node

/-- Loop of `upper_bound`:
`while (impl.is_valid(node) && equivalent(node->value, value, impl.less)) node = node->next[0];`. -/
def upper_bound_walk (s : sl_impl T T) (value : T) : Nat → Nat → Option Nat
  | 0, _ => none
  | fuel + 1, node =>
    if s.is_valid node then
      match s.get_value node with
      | none => none
      | some v =>
        if equivalent s.less v value then
          match s.get_next node 0 with
          | none => none
          | some nx => upper_bound_walk s value fuel nx
        else some node
    else some node

/-- Lookup `upper_bound(value)`. -/
def upper_bound (N : Nat) (D : Bool) (s : sl_impl T T) (value : T) : Option Nat :=
  match sl_impl.find_first (traits N D) s value with
  | none => none
  | some node0 =>
    match (if node0 = s.one_past_front then s.get_next node0 0 else some node0) with
    | none => none
    | some node => upper_bound_walk s value s.brk node

/-- Element access `front()`. -/
def front (s : sl_impl T T) : Option T :=
  match s.front with
  | none => none
  | some node => s.get_value node

/-- Element access `back()`. -/
def back (s : sl_impl T T) : Option T :=
  match s.get_prev s.one_past_end with
  | none => none
  | some node => s.get_value node

/-- Member `assign(first, last)`, also the body of the range constructor:
`clear(); while (first != last) insert(*first++);`. Each value comes with the
level drawn for it. -/
def assign_loop (N : Nat) (D : Bool) : List (T × Nat) → sl_impl T T → Option (sl_impl T T)
  | [], s => some s
  | (value, g) :: rest, s =>
    match insert N D s value g with
    | none => none
    | some (s1, _) => assign_loop N D rest s1

/-- Member `assign(first, last)`. -/
def assign (N : Nat) (D : Bool) (s : sl_impl T T) (values : List (T × Nat)) :
    Option (sl_impl T T) :=
  match clear N D s with
  | none => none
  | some s1 => assign_loop N D values s1

/-- Member `swap(other)`: `impl.swap(other.impl)`. -/
def swap (a b : sl_impl T T) : sl_impl T T × sl_impl T T := sl_impl.swap a b

/-- A call of a modifier of a `skip_list`; an insertion comes with the level the
generator draws for it. -/
inductive call (T : Type) where
  | insert (value : T) (g : Nat)
  | erase (value : T)
  | clear

/-- The container after one call. -/
def step (N : Nat) (D : Bool) (s : sl_impl T T) : call T → Option (sl_impl T T)
  | .insert value g =>
    match insert N D s value g with
    | none => none
    | some (s1, _) => some s1
  | .erase value =>
    match erase N D s value with
    | none => none
    | some (s1, _) => some s1
  | .clear => clear N D s

/-- The container after a sequence of calls. -/
def run (N : Nat) (D : Bool) : List (call T) → sl_impl T T → Option (sl_impl T T)
  | [], s => some s
  | c :: cs, s =>
    match step N D s c with
    | none => none
    | some s1 => run N D cs s1

end skip_list

namespace multi_skip_list

open detail

variable {T : Type}

/-- Lookup `multi_skip_list::count(value)`. -/
def count (N : Nat) (s : sl_impl T T) (value : T) : Option Nat :=
  sl_impl.count (skip_list.traits N true) s value

/-- Lookup `multi_skip_list::equal_range(value)`. -/
def equal_range (N : Nat) (s : sl_impl T T) (value : T) : Option (Nat × Nat) :=
  match skip_list.lower_bound N true s value with
  | none => none
  | some lo =>
    match skip_list.upper_bound N true s value with
    | none => none
    | some hi => some (lo, hi)

/-- Loop of `multi_skip_list::erase(const value_type &value)`:
`for (node = impl.find(value); is_valid(node) && equivalent(node->value, value); node = impl.find(value))
{ impl.remove(node); ++count; }`. The argument is a reference and is read again
in every round, also after `remove` destroyed the node it may refer to. Every
round frees a node, so `brk + 1` rounds suffice. -/
def erase_loop (N : Nat) (value : value_ref T) :
    Nat → sl_impl T T → Nat → Option (sl_impl T T × Nat)
  | 0, _, _ => none
  | fuel + 1, s, count =>
    match sl_impl.find_ref (skip_list.traits N true) s (s.read_ref value) with
    | none => none
    | some node =>
      if s.is_valid node then
        match s.get_value node with
        | none => none
        | some v =>
          match s.read_ref value with
          | none => none
          | some w =>
            if equivalent s.less v w then
              match sl_impl.remove (skip_list.traits N true) s node with
              | none => none
              | some s1 => erase_loop N value fuel s1 (count + 1)
            else some (s, count)
      else some (s, count)

/-- Modifier `multi_skip_list::erase(const value_type &value)`. -/
def erase (N : Nat) (s : sl_impl T T) (value : value_ref T) : Option (sl_impl T T × Nat) :=
  erase_loop N value (s.brk + 1) s 0

/-- Loop of `multi_skip_list::erase(first, last)`:
`while (first != last) { to_remove = first++; impl.remove(to_remove); }`. -/
def erase_range_loop (N : Nat) (last : Nat) : Nat → sl_impl T T → Nat → Option (sl_impl T T)
  | 0, _, _ => none
  | fuel + 1, s, first =>
    if first = last then some s
    else
      match s.get_next first 0 with
      | none => none
      | some next =>
        match sl_impl.remove (skip_list.traits N true) s first with
        | none => none
        | some s1 => erase_range_loop N last fuel s1 next

/-- Modifier `multi_skip_list::erase(first, last)`. -/
def erase_range (N : Nat) (s : sl_impl T T) (first last : Nat) : Option (sl_impl T T × Nat) :=
  match erase_range_loop N last (s.brk + 1) s first with
  | none => none
  | some s1 => some (s1, last)

/-- The container after one call of a modifier of a `multi_skip_list`; the
argument of a call is an object outside the container. -/
def step (N : Nat) (s : sl_impl T T) : skip_list.call T → Option (sl_impl T T)
  | .insert value g =>
    match skip_list.insert N true s value g with
    | none => none
    | some (s1, _) => some s1
  | .erase value =>
    match erase N s (.outside value) with
    | none => none
    | some (s1, _) => some s1
  | .clear => skip_list.clear N true s

/-- The container after a sequence of calls. -/
def run (N : Nat) : List (skip_list.call T) → sl_impl T T → Option (sl_impl T T)
  | [], s => some s
  | c :: cs, s =>
    match step N s c with
    | none => none
    | some s1 => run N cs s1

end multi_skip_list

namespace skip_list_map

open detail

variable {Key MappedTo : Type}

/-- Constructor `skip_list_map::skip_list_map`. -/
def create (N : Nat) (less : Key → Key → Bool) : Option (sl_impl (Key × MappedTo) Key) :=
  sl_impl.create (traits N) less

/-- Iterator `begin()`. -/
def cbegin (s : sl_impl (Key × MappedTo) Key) : Option Nat := s.front

/-- Iterator `end()`. -/
def cend (s : sl_impl (Key × MappedTo) Key) : Nat := s.one_past_end

/-- Query `empty()`. -/
def empty (s : sl_impl (Key × MappedTo) Key) : Bool := s.size == 0

/-- Query `size()`. -/
def size (s : sl_impl (Key × MappedTo) Key) : Nat := s.size

/-- Modifier `clear()`. -/
def clear (N : Nat) (s : sl_impl (Key × MappedTo) Key) : Option (sl_impl (Key × MappedTo) Key) :=
  sl_impl.remove_all (traits N) s

/-- Modifier `insert(value)`: the container, the returned iterator and the flag. -/
def insert (N : Nat) (s : sl_impl (Key × MappedTo) Key) (value : Key × MappedTo) (g : Nat) :
    Option (sl_impl (Key × MappedTo) Key × Nat × Bool) :=
  match sl_impl.insert (traits N) s value 0 g with
  | none => none
  | some (s1, node) => some (s1, node, s1.is_valid node)

/-- Modifier `insert(hint, value)`: the hint goes to the engine unchecked. -/
def insert_hint (N : Nat) (s : sl_impl (Key × MappedTo) Key) (hint : Nat)
    (value : Key × MappedTo) (g : Nat) : Option (sl_impl (Key × MappedTo) Key × Nat) :=
  sl_impl.insert (traits N) s value hint g

/-- Modifier `insert(first, last)`. -/
def insert_range (N : Nat) :
    List ((Key × MappedTo) × Nat) → sl_impl (Key × MappedTo) Key → Nat →
      Option (sl_impl (Key × MappedTo) Key)
  | [], s, _ => some s
  | (value, g) :: rest, s, last_inserted =>
    match insert_hint N s last_inserted value g with
    | none => none
    | some (s1, it) => insert_range N rest s1 it

/-- Modifier `erase(key)`. -/
def erase (N : Nat) (s : sl_impl (Key × MappedTo) Key) (key : Key) :
    Option (sl_impl (Key × MappedTo) Key × Nat) :=
  sl_impl.erase (traits N) s key

/-- Modifier `erase(position)`. -/
def erase_at (N : Nat) (s : sl_impl (Key × MappedTo) Key) (position : Nat) :
    Option (sl_impl (Key × MappedTo) Key × Nat) :=
  match s.get_next position 0 with
  | none => none
  | some next =>
    match sl_impl.remove (traits N) s position with
    | none => none
    | some s1 => some (s1, next)

/-- Modifier `erase(first, last)`. -/
def erase_range (N : Nat) (s : sl_impl (Key × MappedTo) Key) (first last : Nat) :
    Option (sl_impl (Key × MappedTo) Key × Nat) :=
  if first ≠ last then
    match s.get_prev last with
    | none => none
    | some last_node =>
      match sl_impl.remove_between (traits N) s first last_node with
      | none => none
      | some s1 => some (s1, last)
  else some (s, last)

/-- Helper `to_iterator(node, key)`. -/
def to_iterator (s : sl_impl (Key × MappedTo) Key) (node : Nat) (key : Key) : Option Nat :=
  if s.is_valid node then
    match s.get_value node with
    | none => none
    | some v => if equivalent s.less v.1 key then some node else some (cend s)
  else some (cend s)

/-- Lookup `count(key)`. -/
def count (N : Nat) (s : sl_impl (Key × MappedTo) Key) (key : Key) : Option Nat :=
  match sl_impl.find (traits N) s key with
  | none => none
  | some node =>
    if s.is_valid node then
      match s.get_value node with
      | none => none
      | some v => if equivalent s.less v.1 key then some 1 else some 0
    else some 0

/-- Lookup `contains(key)`. -/
def contains (N : Nat) (s : sl_impl (Key × MappedTo) Key) (key : Key) : Option Bool :=
  match count N s key with
  | none => none
  | some c => some (c != 0)

/-- Lookup `find(key)`. -/
def find (N : Nat) (s : sl_impl (Key × MappedTo) Key) (key : Key) : Option Nat :=
  match sl_impl.find (traits N) s key with
  | none => none
  | some node => to_iterator s node key

/-- Lookup `lower_bound(key)`. -/
def lower_bound (N : Nat) (s : sl_impl (Key × MappedTo) Key) (key : Key) : Option Nat :=
  sl_impl.lower_bound (traits N) s key

/-- Lookup `upper_bound(key)`. -/
def upper_bound (N : Nat) (s : sl_impl (Key × MappedTo) Key) (key : Key) : Option Nat :=
  sl_impl.upper_bound (traits N) s key

/-- Element access `front()`. -/
def front (s : sl_impl (Key × MappedTo) Key) : Option (Key × MappedTo) :=
  match s.front with
  | none => none
  | some node => s.get_value node

/-- Element access `back()`. -/
def back (s : sl_impl (Key × MappedTo) Key) : Option (Key × MappedTo) :=
  match s.get_prev s.one_past_end with
  | none => none
  | some node => s.get_value node

/-- Loop of `skip_list_map::assign`: `while (first != last) insert(*first++);`.
Each pair comes with the level drawn for it. -/
def assign_loop (N : Nat) :
    List ((Key × MappedTo) × Nat) → sl_impl (Key × MappedTo) Key →
      Option (sl_impl (Key × MappedTo) Key)
  | [], s => some s
  | (value, g) :: rest, s =>
    match insert N s value g with
    | none => none
    | some (s1, _) => assign_loop N rest s1

/-- Member `skip_list_map::assign(first, last)`, also the body of the range
constructor: `clear(); while (first != last) insert(*first++);`. -/
def assign (N : Nat) (s : sl_impl (Key × MappedTo) Key) (values : List ((Key × MappedTo) × Nat)) :
    Option (sl_impl (Key × MappedTo) Key) :=
  match clear N s with
  | none => none
  | some s1 => assign_loop N values s1

/-- Member `swap(other)`: `impl.swap(other.impl)`. -/
def swap (a b : sl_impl (Key × MappedTo) Key) :
    sl_impl (Key × MappedTo) Key × sl_impl (Key × MappedTo) Key := sl_impl.swap a b

/-- A call of a modifier of a `skip_list_map`; an insertion comes with the
level the generator draws for it. -/
inductive call (Key MappedTo : Type) where
  | insert (value : Key × MappedTo) (g : Nat)
  | erase (key : Key)
  | clear

/-- The container after one call. -/
def step (N : Nat) (s : sl_impl (Key × MappedTo) Key) :
    call Key MappedTo → Option (sl_impl (Key × MappedTo) Key)
  | .insert value g =>
    match insert N s value g with
    | none => none
    | some (s1, _) => some s1
  | .erase key =>
    match erase N s key with
    | none => none
    | some (s1, _) => some s1
  | .clear => clear N s

/-- The container after a sequence of calls. -/
def run (N : Nat) :
    List (call Key MappedTo) → sl_impl (Key × MappedTo) Key →
      Option (sl_impl (Key × MappedTo) Key)
  | [], s => some s
  | c :: cs, s =>
    match step N s c with
    | none => none
    | some s1 => run N cs s1

end skip_list_map

/-! ## Abstract view of an engine

The list of real nodes of an engine in lane 0 order is described by a list of
`Item`s; `Shape` says how the store realises such a list, `Inv` adds the order
of the keys. -/

namespace detail

/-- A real node as the abstract view records it: where it lives, its level and
the value stored in it. -/
structure Item (T : Type) where
  addr : Nat
  level : Nat
  value : T

variable {T K : Type}

/-- Length of the array `p->next`. -/
def sl_impl.get_len (s : sl_impl T K) (p : Nat) : Option Nat :=
  match s.mem p with
  | some n => some n.next.length
  | none => none

/-- The comparator is a strict weak ordering, as the standard asks of `Compare`. -/
structure StrictWeakOrder (less : K → K → Bool) : Prop where
  irrefl : ∀ a, less a a = false
  trans : ∀ a b c, less a b = true → less b c = true → less a c = true
  equiv_trans : ∀ a b c, equivalent less a b = true → equivalent less b c = true →
    equivalent less a c = true

/-- Order two neighbours of lane 0 must be in: strictly increasing keys, or
non-decreasing keys when duplicates are allowed. -/
def ordered (AllowDuplicates : Bool) (less : K → K → Bool) (a b : K) : Prop :=
  if AllowDuplicates then less b a = false else less a b = true

/-- Addresses of the nodes of `es` that take part in lane `l`. -/
def onLane (l : Nat) (es : List (Item T)) : List Nat :=
  (es.filter (fun e => decide (l ≤ e.level))).map Item.addr

/-- The last address of `xs`, or `d` when `xs` is empty. -/
def lastD (d : Nat) (xs : List Nat) : Nat := xs.getLast?.getD d

/-- Forward pointers of lane `l` lead from `a` through exactly `xs` to `t`. -/
def Linked (s : sl_impl T K) (l : Nat) : Nat → List Nat → Nat → Prop
  | a, [], t => s.get_next a l = some t
  | a, b :: bs, t => s.get_next a l = some b ∧ Linked s l b bs t

/-- Back pointers lead from `t` through exactly `xs` (read backwards) to `a`. -/
def BackLinked (s : sl_impl T K) : Nat → List Nat → Nat → Prop
  | a, [], t => s.get_prev t = some a
  | a, b :: bs, t => s.get_prev b = some a ∧ BackLinked s b bs t

/-- The store of `s` realises the list `es` of real nodes: the structural
invariants of the engine. -/
structure Shape (P : sl_traits T K) (s : sl_impl T K) (es : List (Item T)) : Prop where
  null_free : s.get_level 0 = none
  above_brk : ∀ a, s.brk ≤ a → s.get_level a = none
  head_ne_tail : s.head ≠ s.tail
  head_len : s.get_len s.head = some (P.num_levels + 1)
  head_top : s.get_next s.head P.num_levels = some 0
  head_value : s.get_value s.head = none
  tail_level : s.get_level s.tail ≠ none
  tail_value : s.get_value s.tail = none
  nodup : (es.map Item.addr).Nodup
  head_notin : s.head ∉ es.map Item.addr
  tail_notin : s.tail ∉ es.map Item.addr
  nodes : ∀ e ∈ es, s.get_value e.addr = some e.value ∧ s.get_level e.addr = some e.level ∧
    s.get_len e.addr = some (e.level + 1) ∧ e.level < s.levels
  levels_le : s.levels ≤ P.num_levels
  levels_pos : 0 < P.num_levels
  lanes : ∀ l, l < P.num_levels → Linked s l s.head (onLane l es) s.tail
  back : BackLinked s s.head (es.map Item.addr) s.tail
  count : s.item_count = es.length

/-- Invariant of an engine holding the nodes `es`: the structure is sound and
the keys are in order. -/
structure Inv (P : sl_traits T K) (s : sl_impl T K) (es : List (Item T)) : Prop where
  shape : Shape P s es
  sorted : es.Pairwise
    (fun a b => ordered P.AllowDuplicates s.less (P.KeyFromValue a.value) (P.KeyFromValue b.value))

/-- Two engines differ at most in forward pointers of lanes below `l`. -/
structure LaneFrame (l : Nat) (s s1 : sl_impl T K) : Prop where
  less : s1.less = s.less
  levels : s1.levels = s.levels
  head : s1.head = s.head
  tail : s1.tail = s.tail
  item_count : s1.item_count = s.item_count
  brk : s1.brk = s.brk
  value : ∀ a, s1.get_value a = s.get_value a
  prev : ∀ a, s1.get_prev a = s.get_prev a
  level : ∀ a, s1.get_level a = s.get_level a
  len : ∀ a, s1.get_len a = s.get_len a
  next : ∀ a j, l ≤ j → s1.get_next a j = s.get_next a j

/-- Engine `s1` is `s` after the write `p->next[l] = q`. -/
structure NextWrite (s s1 : sl_impl T K) (p l q : Nat) : Prop where
  frame : LaneFrame (l + 1) s s1
  next : ∀ a j, s1.get_next a j = if a = p ∧ j = l then some q else s.get_next a j

/-- Engine `s1` is `s` after the write `p->prev = q`. -/
structure PrevWrite (s s1 : sl_impl T K) (p q : Nat) : Prop where
  less : s1.less = s.less
  levels : s1.levels = s.levels
  head : s1.head = s.head
  tail : s1.tail = s.tail
  item_count : s1.item_count = s.item_count
  brk : s1.brk = s.brk
  value : ∀ a, s1.get_value a = s.get_value a
  level : ∀ a, s1.get_level a = s.get_level a
  len : ∀ a, s1.get_len a = s.get_len a
  next : ∀ a j, s1.get_next a j = s.get_next a j
  prev : ∀ a, s1.get_prev a = if a = p then some q else s.get_prev a

/-- Engine `s1` is `s` after node `p` was released. -/
structure Released (s s1 : sl_impl T K) (p : Nat) : Prop where
  less : s1.less = s.less
  levels : s1.levels = s.levels
  head : s1.head = s.head
  tail : s1.tail = s.tail
  item_count : s1.item_count = s.item_count
  brk : s1.brk = s.brk
  gone : s1.get_level p = none
  value : ∀ a, a ≠ p → s1.get_value a = s.get_value a
  level : ∀ a, a ≠ p → s1.get_level a = s.get_level a
  len : ∀ a, a ≠ p → s1.get_len a = s.get_len a
  next : ∀ a j, a ≠ p → s1.get_next a j = s.get_next a j
  prev : ∀ a, a ≠ p → s1.get_prev a = s.get_prev a

/-- Engine `s1` is `s` after a node of level `level` was allocated at `p` and
`value` was constructed in it. -/
structure Fresh (s s1 : sl_impl T K) (p level : Nat) (value : T) : Prop where
  less : s1.less = s.less
  levels : s1.levels = s.levels
  head : s1.head = s.head
  tail : s1.tail = s.tail
  item_count : s1.item_count = s.item_count
  brk : s1.brk = s.brk + 1
  addr : p = s.brk
  new_value : s1.get_value p = some value
  new_level : s1.get_level p = some level
  new_len : s1.get_len p = some (level + 1)
  value : ∀ a, a ≠ p → s1.get_value a = s.get_value a
  level : ∀ a, a ≠ p → s1.get_level a = s.get_level a
  len : ∀ a, a ≠ p → s1.get_len a = s.get_len a
  next : ∀ a j, a ≠ p → s1.get_next a j = s.get_next a j
  prev : ∀ a, a ≠ p → s1.get_prev a = s.get_prev a

/-- Engine `s1` is `s` after the nodes `ps` were released one by one, `item_count`
going down by one with each. -/
structure ReleasedRun (s s1 : sl_impl T K) (ps : List Nat) : Prop where
  less : s1.less = s.less
  levels : s1.levels = s.levels
  head : s1.head = s.head
  tail : s1.tail = s.tail
  item_count : s1.item_count = s.item_count - ps.length
  brk : s1.brk = s.brk
  gone : ∀ p ∈ ps, s1.get_level p = none
  value : ∀ a, a ∉ ps → s1.get_value a = s.get_value a
  level : ∀ a, a ∉ ps → s1.get_level a = s.get_level a
  len : ∀ a, a ∉ ps → s1.get_len a = s.get_len a
  next : ∀ a j, a ∉ ps → s1.get_next a j = s.get_next a j
  prev : ∀ a, a ∉ ps → s1.get_prev a = s.get_prev a

end detail

/-! ## Reading and writing the store -/

namespace detail

namespace sl_impl

variable {T K : Type}

theorem get_level_eq_none {s : sl_impl T K} {p : Nat} : s.get_level p = none ↔ s.mem p = none := by
  unfold get_level
  cases s.mem p <;> simp

theorem get_len_eq_none {s : sl_impl T K} {p : Nat} : s.get_len p = none ↔ s.mem p = none := by
  unfold get_len
  cases s.mem p <;> simp

theorem get_value_of_unallocated {s : sl_impl T K} {p : Nat} (h : s.get_level p = none) :
    s.get_value p = none := by
  rw [get_level_eq_none] at h
  simp [get_value, h]

theorem get_next_of_unallocated {s : sl_impl T K} {p l : Nat} (h : s.get_level p = none) :
    s.get_next p l = none := by
  rw [get_level_eq_none] at h
  simp [get_next, h]

theorem get_len_of_level {s : sl_impl T K} {p : Nat} (h : s.get_level p ≠ none) :
    ∃ k, s.get_len p = some k := by
  unfold get_level at h
  unfold get_len
  cases hm : s.mem p <;> simp_all

theorem get_level_of_len {s : sl_impl T K} {p k : Nat} (h : s.get_len p = some k) :
    s.get_level p ≠ none := by
  unfold get_len at h
  unfold get_level
  cases hm : s.mem p <;> simp_all

theorem get_level_of_value {s : sl_impl T K} {p : Nat} {v : T} (h : s.get_value p = some v) :
    s.get_level p ≠ none := by
  unfold get_value at h
  unfold get_level
  cases hm : s.mem p <;> simp_all

theorem get_next_lt_len {s : sl_impl T K} {p l q : Nat} (h : s.get_next p l = some q) :
    ∃ k, s.get_len p = some k ∧ l < k := by
  unfold get_next at h
  unfold get_len
  cases hm : s.mem p with
  | none => simp [hm] at h
  | some n =>
    simp only [hm] at h
    refine ⟨n.next.length, rfl, ?_⟩
    by_contra hlt
    rw [List.getElem?_eq_none (by omega)] at h
    cases h

theorem get_next_of_lt_len {s : sl_impl T K} {p l k : Nat} (h : s.get_len p = some k)
    (hl : l < k) : ∃ q, s.get_next p l = some q := by
  unfold get_len at h
  unfold get_next
  cases hm : s.mem p with
  | none => simp [hm] at h
  | some n =>
    simp only [hm, Option.some.injEq] at h
    subst h
    exact ⟨n.next[l], by simp [List.getElem?_eq_getElem hl]⟩

theorem set_next_spec {s : sl_impl T K} {p l k : Nat} (q : Nat) (h : s.get_len p = some k)
    (hl : l < k) : ∃ s1, s.set_next p l q = some s1 ∧ NextWrite s s1 p l q := by
  unfold get_len at h
  cases hm : s.mem p with
  | none => simp [hm] at h
  | some n =>
    simp only [hm, Option.some.injEq] at h
    subst h
    refine ⟨{ s with mem := Function.update s.mem p (some { n with next := n.next.set l q }) },
      by simp [set_next, hm, hl], ?_⟩
    have key : ∀ a j, get_next
        { s with mem := Function.update s.mem p (some { n with next := n.next.set l q }) } a j
        = if a = p ∧ j = l then some q else s.get_next a j := by
      intro a j
      by_cases hap : a = p
      · subst hap
        by_cases hjl : j = l
        · subst hjl
          simp [get_next, hl]
        · simp [get_next, hm, hjl, List.getElem?_set_ne (Ne.symm hjl)]
      · simp [get_next, Function.update, hap]
    refine ⟨⟨rfl, rfl, rfl, rfl, rfl, rfl, ?_, ?_, ?_, ?_, ?_⟩, key⟩
    · intro a
      by_cases hap : a = p
      · subst hap; simp [get_value, hm]
      · simp [get_value, Function.update, hap]
    · intro a
      by_cases hap : a = p
      · subst hap; simp [get_prev, hm]
      · simp [get_prev, Function.update, hap]
    · intro a
      by_cases hap : a = p
      · subst hap; simp [get_level, hm]
      · simp [get_level, Function.update, hap]
    · intro a
      by_cases hap : a = p
      · subst hap; simp [get_len, hm]
      · simp [get_len, Function.update, hap]
    · intro a j hj
      rw [key]
      have : ¬ (a = p ∧ j = l) := by omega
      simp [this]


theorem set_prev_spec {s : sl_impl T K} {p : Nat} (q : Nat) (h : s.get_level p ≠ none) :
    ∃ s1, s.set_prev p q = some s1 ∧ PrevWrite s s1 p q := by
  unfold get_level at h
  cases hm : s.mem p with
  | none => simp [hm] at h
  | some n =>
    refine ⟨{ s with mem := Function.update s.mem p (some { n with prev := q }) },
      by simp [set_prev, hm], ⟨rfl, rfl, rfl, rfl, rfl, rfl, ?_, ?_, ?_, ?_, ?_⟩⟩
    · intro a
      by_cases hap : a = p
      · subst hap; simp [get_value, hm]
      · simp [get_value, Function.update, hap]
    · intro a
      by_cases hap : a = p
      · subst hap; simp [get_level, hm]
      · simp [get_level, Function.update, hap]
    · intro a
      by_cases hap : a = p
      · subst hap; simp [get_len, hm]
      · simp [get_len, Function.update, hap]
    · intro a j
      by_cases hap : a = p
      · subst hap; simp [get_next, hm]
      · simp [get_next, Function.update, hap]
    · intro a
      by_cases hap : a = p
      · subst hap; simp [get_prev]
      · simp [get_prev, Function.update, hap]

theorem deallocate_spec {s : sl_impl T K} {p : Nat} (h : s.get_level p ≠ none) :
    ∃ s1, s.deallocate p = some s1 ∧ Released s s1 p := by
  unfold get_level at h
  cases hm : s.mem p with
  | none => simp [hm] at h
  | some n =>
    refine ⟨{ s with mem := Function.update s.mem p none },
      by simp [deallocate, hm], ⟨rfl, rfl, rfl, rfl, rfl, rfl, ?_, ?_, ?_, ?_, ?_, ?_⟩⟩
    · simp [get_level]
    · intro a hap; simp [get_value, Function.update, hap]
    · intro a hap; simp [get_level, Function.update, hap]
    · intro a hap; simp [get_len, Function.update, hap]
    · intro a j hap; simp [get_next, Function.update, hap]
    · intro a hap; simp [get_prev, Function.update, hap]

theorem allocate_construct_spec (s : sl_impl T K) (level : Nat) (value : T) :
    ∃ s1, (s.allocate level).2.construct (s.allocate level).1 value = some s1 ∧
      Fresh s s1 (s.allocate level).1 level value := by
  refine ⟨{ s with
      mem := Function.update (Function.update s.mem s.brk
        (some { value := none, level := level, prev := 0, next := List.replicate (level + 1) 0 }))
        s.brk (some { value := some value, level := level, prev := 0,
                      next := List.replicate (level + 1) 0 })
      brk := s.brk + 1 }, ?_, ?_⟩
  · simp [allocate, construct]
  · refine ⟨rfl, rfl, rfl, rfl, rfl, rfl, rfl, ?_, ?_, ?_, ?_, ?_, ?_, ?_, ?_⟩
    · simp [allocate, get_value]
    · simp [allocate, get_level]
    · simp [allocate, get_len]
    · intro a ha
      simp only [allocate] at ha
      simp [get_value, Function.update, ha]
    · intro a ha
      simp only [allocate] at ha
      simp [get_level, Function.update, ha]
    · intro a ha
      simp only [allocate] at ha
      simp [get_len, Function.update, ha]
    · intro a j ha
      simp only [allocate] at ha
      simp [get_next, Function.update, ha]
    · intro a ha
      simp only [allocate] at ha
      simp [get_prev, Function.update, ha]

end sl_impl

end detail

/-! ## Lanes as lists -/

namespace detail

variable {T K : Type}

theorem lastD_nil (d : Nat) : lastD d [] = d := rfl

theorem lastD_cons (d x : Nat) (xs : List Nat) : lastD d (x :: xs) = lastD x xs := by
  simp [lastD, List.getLast?_cons]

theorem lastD_append (d : Nat) (xs ys : List Nat) :
    lastD d (xs ++ ys) = lastD (lastD d xs) ys := by
  induction xs generalizing d with
  | nil => rfl
  | cons x xs ih => simp only [List.cons_append, lastD_cons, ih]

theorem lastD_concat (d x : Nat) (xs : List Nat) : lastD d (xs ++ [x]) = x := by
  rw [lastD_append, lastD_cons, lastD_nil]

theorem lastD_mem (d : Nat) (xs : List Nat) : lastD d xs = d ∨ lastD d xs ∈ xs := by
  induction xs generalizing d with
  | nil => exact Or.inl rfl
  | cons x xs ih =>
    rw [lastD_cons]
    rcases ih x with h | h
    · exact Or.inr (by rw [h]; exact List.mem_cons_self _ _)
    · exact Or.inr (List.mem_cons_of_mem _ h)

theorem lastD_mem_of_ne_nil (d : Nat) {xs : List Nat} (h : xs ≠ []) : lastD d xs ∈ xs := by
  cases xs with
  | nil => exact absurd rfl h
  | cons x xs =>
    rw [lastD_cons]
    rcases lastD_mem x xs with h1 | h1
    · rw [h1]; exact List.mem_cons_self _ _
    · exact List.mem_cons_of_mem _ h1

theorem eq_nil_of_lastD_eq {d : Nat} {xs : List Nat} (h : lastD d xs = d) (hd : d ∉ xs) :
    xs = [] := by
  by_contra hne
  exact hd (h ▸ lastD_mem_of_ne_nil d hne)

theorem lastD_of_ne_nil (d d1 : Nat) {xs : List Nat} (h : xs ≠ []) : lastD d xs = lastD d1 xs := by
  cases xs with
  | nil => exact absurd rfl h
  | cons x xs => rw [lastD_cons, lastD_cons]

theorem onLane_nil (l : Nat) : onLane l ([] : List (Item T)) = [] := rfl

theorem onLane_append (l : Nat) (xs ys : List (Item T)) :
    onLane l (xs ++ ys) = onLane l xs ++ onLane l ys := by
  simp [onLane]

theorem onLane_cons_of_le {l : Nat} {e : Item T} (h : l ≤ e.level) (es : List (Item T)) :
    onLane l (e :: es) = e.addr :: onLane l es := by
  simp [onLane, h]

theorem onLane_cons_of_lt {l : Nat} {e : Item T} (h : e.level < l) (es : List (Item T)) :
    onLane l (e :: es) = onLane l es := by
  have : ¬ l ≤ e.level := by omega
  simp [onLane, this]

theorem onLane_zero (es : List (Item T)) : onLane 0 es = es.map Item.addr := by
  simp [onLane]

theorem onLane_eq_nil {l : Nat} {es : List (Item T)} (h : ∀ e ∈ es, e.level < l) :
    onLane l es = [] := by
  induction es with
  | nil => rfl
  | cons e es ih =>
    rw [onLane_cons_of_lt (h e (List.mem_cons_self _ _))]
    exact ih (fun x hx => h x (List.mem_cons_of_mem _ hx))

theorem mem_onLane {l a : Nat} {es : List (Item T)} :
    a ∈ onLane l es ↔ ∃ e ∈ es, l ≤ e.level ∧ e.addr = a := by
  simp [onLane, and_assoc]

theorem onLane_subset (l : Nat) (es : List (Item T)) : onLane l es ⊆ es.map Item.addr := by
  intro a ha
  obtain ⟨e, he, _, rfl⟩ := mem_onLane.mp ha
  exact List.mem_map_of_mem _ he

theorem onLane_sublist (l : Nat) (es : List (Item T)) :
    List.Sublist (onLane l es) (es.map Item.addr) := by
  unfold onLane
  exact (List.filter_sublist es).map _

theorem onLane_nodup {l : Nat} {es : List (Item T)} (h : (es.map Item.addr).Nodup) :
    (onLane l es).Nodup :=
  h.sublist (onLane_sublist l es)

/-- The part of lane `l` that lies above lane `l + 1` can be cut off behind the
last node of lane `l + 1`. -/
theorem onLane_split (l : Nat) (es : List (Item T)) (d : Nat) :
    ∃ xs ys : List (Item T), es.filter (fun e => decide (l ≤ e.level)) = xs ++ ys ∧
      lastD d (xs.map Item.addr) = lastD d (onLane (l + 1) es) ∧
      ∀ e ∈ ys, e ∈ es := by
  induction es using List.reverseRecOn with
  | nil => exact ⟨[], [], rfl, rfl, by simp⟩
  | append_singleton es e ih =>
    obtain ⟨xs, ys, hxy, hlast, hys⟩ := ih
    by_cases h1 : l + 1 ≤ e.level
    · refine ⟨(es ++ [e]).filter (fun e => decide (l ≤ e.level)), [], by simp, ?_, by simp⟩
      have h0 : l ≤ e.level := by omega
      rw [onLane_append, onLane_cons_of_le h1, onLane_nil, lastD_concat]
      simp [List.filter_append, h0, lastD_concat]
    · by_cases h0 : l ≤ e.level
      · refine ⟨xs, ys ++ [e], ?_, ?_, ?_⟩
        · simp [List.filter_append, h0, hxy]
        · rw [hlast, onLane_append, onLane_cons_of_lt (by omega), onLane_nil, List.append_nil]
        · intro x hx
          rcases List.mem_append.mp hx with hx | hx
          · exact List.mem_append_left _ (hys x hx)
          · exact List.mem_append_right _ hx
      · refine ⟨xs, ys, ?_, ?_, ?_⟩
        · simp [List.filter_append, h0, hxy]
        · rw [hlast, onLane_append, onLane_cons_of_lt (by omega), onLane_nil, List.append_nil]
        · intro x hx
          exact List.mem_append_left _ (hys x hx)

theorem Linked_append {s : sl_impl T K} {l : Nat} {a : Nat} {xs ys : List Nat} {t : Nat} :
    Linked s l a (xs ++ ys) t ↔ Linked s l a xs (ys.headD t) ∧ Linked s l (lastD a xs) ys t := by
  induction xs generalizing a with
  | nil =>
    constructor
    · intro h
      refine ⟨?_, h⟩
      cases ys with
      | nil => exact h
      | cons y ys => exact h.1
    · intro h
      exact h.2
  | cons x xs ih =>
    have ih1 := ih (a := x)
    simp only [List.cons_append, Linked, lastD_cons]
    constructor
    · rintro ⟨h1, h2⟩
      exact ⟨⟨h1, (ih1.mp h2).1⟩, (ih1.mp h2).2⟩
    · rintro ⟨⟨h1, h2⟩, h3⟩
      exact ⟨h1, ih1.mpr ⟨h2, h3⟩⟩

theorem Linked.suffix {s : sl_impl T K} {l : Nat} {a : Nat} {xs ys : List Nat} {t : Nat}
    (h : Linked s l a (xs ++ ys) t) : Linked s l (lastD a xs) ys t :=
  (Linked_append.mp h).2

theorem Linked.next_first {s : sl_impl T K} {l : Nat} {a : Nat} {xs : List Nat} {t : Nat}
    (h : Linked s l a xs t) : s.get_next a l = some (xs.headD t) := by
  cases xs with
  | nil => exact h
  | cons x xs => exact h.1

theorem Linked.next_last {s : sl_impl T K} {l : Nat} {a : Nat} {xs : List Nat} {t : Nat}
    (h : Linked s l a xs t) : s.get_next (lastD a xs) l = some t := by
  have := (@Linked_append _ _ s l a xs [] t).mp
    (by simpa using h)
  exact this.2

theorem Linked.frame {s s1 : sl_impl T K} {l : Nat} {a : Nat} {xs : List Nat} {t : Nat}
    (h : Linked s l a xs t) (hf : ∀ x, x = a ∨ x ∈ xs → s1.get_next x l = s.get_next x l) :
    Linked s1 l a xs t := by
  induction xs generalizing a with
  | nil =>
    show s1.get_next a l = some t
    rw [hf a (Or.inl rfl)]
    exact h
  | cons x xs ih =>
    refine ⟨?_, ih h.2 ?_⟩
    · rw [hf a (Or.inl rfl)]
      exact h.1
    · intro y hy
      apply hf
      rcases hy with hy | hy
      · exact Or.inr (by rw [hy]; exact List.mem_cons_self _ _)
      · exact Or.inr (List.mem_cons_of_mem _ hy)

theorem BackLinked_append {s : sl_impl T K} {a : Nat} {xs ys : List Nat} {t : Nat} :
    BackLinked s a (xs ++ ys) t ↔
      BackLinked s a xs (ys.headD t) ∧ BackLinked s (lastD a xs) ys t := by
  induction xs generalizing a with
  | nil =>
    constructor
    · intro h
      refine ⟨?_, h⟩
      cases ys with
      | nil => exact h
      | cons y ys => exact h.1
    · intro h
      exact h.2
  | cons x xs ih =>
    have ih1 := ih (a := x)
    simp only [List.cons_append, BackLinked, lastD_cons]
    constructor
    · rintro ⟨h1, h2⟩
      exact ⟨⟨h1, (ih1.mp h2).1⟩, (ih1.mp h2).2⟩
    · rintro ⟨⟨h1, h2⟩, h3⟩
      exact ⟨h1, ih1.mpr ⟨h2, h3⟩⟩

theorem BackLinked.prev_first {s : sl_impl T K} {a : Nat} {xs : List Nat} {t : Nat}
    (h : BackLinked s a xs t) : s.get_prev (xs.headD t) = some a := by
  cases xs with
  | nil => exact h
  | cons x xs => exact h.1

theorem BackLinked.prev_last {s : sl_impl T K} {a : Nat} {xs : List Nat} {t : Nat}
    (h : BackLinked s a xs t) : s.get_prev t = some (lastD a xs) := by
  have := (@BackLinked_append _ _ s a xs [] t).mp
    (by simpa using h)
  exact this.2

theorem BackLinked.frame_prev {s s1 : sl_impl T K} {a : Nat} {xs : List Nat} {t : Nat}
    (h : BackLinked s a xs t) (hf : ∀ x, x = t ∨ x ∈ xs → s1.get_prev x = s.get_prev x) :
    BackLinked s1 a xs t := by
  induction xs generalizing a with
  | nil =>
    show s1.get_prev t = some a
    rw [hf t (Or.inl rfl)]
    exact h
  | cons x xs ih =>
    refine ⟨?_, ih h.2 ?_⟩
    · rw [hf x (Or.inr (List.mem_cons_self _ _))]
      exact h.1
    · intro y hy
      apply hf
      rcases hy with hy | hy
      · exact Or.inl hy
      · exact Or.inr (List.mem_cons_of_mem _ hy)

end detail

/-! ## The comparator -/

namespace detail

variable {T K : Type}

theorem StrictWeakOrder.asymm {less : K → K → Bool} (h : StrictWeakOrder less) {a b : K}
    (hab : less a b = true) : less b a = false := by
  cases hba : less b a with
  | false => rfl
  | true =>
    have := h.trans a b a hab hba
    rw [h.irrefl] at this
    cases this

theorem StrictWeakOrder.neg_trans {less : K → K → Bool} (h : StrictWeakOrder less) {a b c : K}
    (hab : less a b = false) (hbc : less b c = false) : less a c = false := by
  cases hac : less a c with
  | false => rfl
  | true =>
    cases hba : less b a with
    | true =>
      have := h.trans b a c hba hac
      rw [hbc] at this
      cases this
    | false =>
      cases hcb : less c b with
      | true =>
        have := h.trans a c b hac hcb
        rw [hab] at this
        cases this
      | false =>
        have h1 : equivalent less a b = true := by simp [equivalent, hab, hba]
        have h2 : equivalent less b c = true := by simp [equivalent, hbc, hcb]
        have h3 := h.equiv_trans a b c h1 h2
        simp [equivalent, hac] at h3

theorem StrictWeakOrder.lt_of_lt_of_not_lt {less : K → K → Bool} (h : StrictWeakOrder less)
    {a b c : K} (hab : less a b = true) (hcb : less c b = false) : less a c = true := by
  cases hac : less a c with
  | true => rfl
  | false =>
    have := h.neg_trans hac hcb
    rw [hab] at this
    cases this

theorem StrictWeakOrder.lt_of_not_lt_of_lt {less : K → K → Bool} (h : StrictWeakOrder less)
    {a b c : K} (hba : less b a = false) (hbc : less b c = true) : less a c = true := by
  cases hac : less a c with
  | true => rfl
  | false =>
    have := h.neg_trans hba hac
    rw [hbc] at this
    cases this

/-- The natural order of the numbers is a strict weak ordering. -/
theorem strictWeakOrder_nat : StrictWeakOrder (fun a b : Nat => decide (a < b)) where
  irrefl := by intro a; simp
  trans := by
    intro a b c hab hbc
    simp only [decide_eq_true_eq] at *
    omega
  equiv_trans := by
    intro a b c hab hbc
    simp only [equivalent, Bool.and_eq_true, Bool.not_eq_true', decide_eq_false_iff_not] at *
    omega

/-! ## Lists cut by a predicate -/

theorem dropWhile_all_false {α : Type} {R : α → α → Prop} {p : α → Bool} {es : List α}
    (hs : es.Pairwise R) (hmono : ∀ a b, R a b → p b = true → p a = true) :
    ∀ b ∈ es.dropWhile p, p b = false := by
  induction es with
  | nil => simp
  | cons e es ih =>
    rw [List.pairwise_cons] at hs
    by_cases hp : p e = true
    · rw [List.dropWhile_cons_of_pos hp]
      exact ih hs.2
    · rw [List.dropWhile_cons_of_neg hp]
      intro b hb
      rcases List.mem_cons.mp hb with rfl | hb
      · simpa using hp
      · cases hpb : p b with
        | false => rfl
        | true => exact absurd (hmono e b (hs.1 b hb) hpb) hp

theorem takeWhile_all_true {α : Type} {p : α → Bool} {es : List α} :
    ∀ b ∈ es.takeWhile p, p b = true := by
  intro b hb
  exact (List.mem_takeWhile_imp hb)

theorem head?_dropWhile_eq_find? {α : Type} (p : α → Bool) (es : List α) :
    (es.dropWhile p).head? = es.find? (fun e => !p e) := by
  induction es with
  | nil => rfl
  | cons e es ih =>
    by_cases hp : p e = true
    · rw [List.dropWhile_cons_of_pos hp, ih]
      simp [List.find?_cons, hp]
    · rw [List.dropWhile_cons_of_neg hp]
      simp [List.find?_cons, hp]

theorem countP_eq_length_of_cut {α : Type} (p : α → Bool) {A B : List α}
    (hA : ∀ a ∈ A, p a = true) (hB : ∀ b ∈ B, p b = false) :
    (A ++ B).countP p = A.length := by
  rw [List.countP_append]
  have h1 : A.countP p = A.length := List.countP_eq_length.mpr hA
  have h2 : B.countP p = 0 := by
    rw [List.countP_eq_zero]
    intro b hb
    simp [hB b hb]
  omega

theorem filter_eq_of_cut {α : Type} (p : α → Bool) {A B : List α}
    (hA : ∀ a ∈ A, p a = true) (hB : ∀ b ∈ B, p b = false) :
    (A ++ B).filter p = A := by
  rw [List.filter_append]
  have h1 : A.filter p = A := List.filter_eq_self.mpr hA
  have h2 : B.filter p = [] := by
    rw [List.filter_eq_nil_iff]
    intro b hb
    simp [hB b hb]
  rw [h1, h2, List.append_nil]

/-! ## Walking one lane -/

theorem advance_spec {s : sl_impl T K} {l : Nat} {pred : T → Bool} (xs : List (Item T))
    (ys : List Nat) (a fuel : Nat)
    (hlink : Linked s l a (xs.map Item.addr ++ ys) s.tail)
    (hxs : ∀ e ∈ xs, s.get_value e.addr = some e.value ∧ e.addr ≠ s.tail ∧ pred e.value = true)
    (hys : ∀ y, ys.head? = some y → y ≠ s.tail ∧ ∃ v, s.get_value y = some v ∧ pred v = false)
    (hfuel : xs.length < fuel) :
    s.advance l pred fuel a = some (lastD a (xs.map Item.addr)) := by
  induction xs generalizing a fuel with
  | nil =>
    cases fuel with
    | zero => simp at hfuel
    | succ fuel =>
      simp only [List.map_nil, List.nil_append] at hlink
      unfold sl_impl.advance
      rw [hlink.next_first]
      cases ys with
      | nil => simp [lastD]
      | cons y ys =>
        obtain ⟨hy, v, hv, hp⟩ := hys y rfl
        simp [hy, hv, hp, lastD]
  | cons e xs ih =>
    cases fuel with
    | zero => simp at hfuel
    | succ fuel =>
      obtain ⟨hv, ht, hp⟩ := hxs e (List.mem_cons_self _ _)
      simp only [List.map_cons, List.cons_append] at hlink
      unfold sl_impl.advance
      rw [hlink.1]
      simp only [ht, if_false, hv, hp, if_true]
      rw [List.map_cons, lastD_cons]
      exact ih e.addr fuel hlink.2 (fun x hx => hxs x (List.mem_cons_of_mem _ hx))
        (by simpa using hfuel)

/-- One round of a lane loop: from the last node of lane `l + 1` whose value
satisfies `pred` the walk along lane `l` ends at the last such node of lane `l`. -/
theorem advance_lane {s : sl_impl T K} {l : Nat} {pred : T → Bool} {A B : List (Item T)}
    {fuel : Nat}
    (hlink : Linked s l s.head (onLane l (A ++ B)) s.tail)
    (hval : ∀ e ∈ A ++ B, s.get_value e.addr = some e.value)
    (htail : ∀ e ∈ A ++ B, e.addr ≠ s.tail)
    (hA : ∀ e ∈ A, pred e.value = true) (hB : ∀ e ∈ B, pred e.value = false)
    (hfuel : A.length < fuel) :
    s.advance l pred fuel (lastD s.head (onLane (l + 1) A))
      = some (lastD s.head (onLane l A)) := by
  obtain ⟨xs, ys, hxy, hlast, hys⟩ := onLane_split l A s.head
  have hA_lane : onLane l A = xs.map Item.addr ++ ys.map Item.addr := by
    unfold onLane
    rw [hxy, List.map_append]
  rw [onLane_append, hA_lane, List.append_assoc] at hlink
  have hsuf := hlink.suffix
  rw [hlast] at hsuf
  have hlen : ys.length ≤ A.length := by
    have h1 : (xs ++ ys).length ≤ A.length := by
      rw [← hxy]
      exact List.length_filter_le _ _
    rw [List.length_append] at h1
    omega
  have := @advance_spec _ _ _ _ pred ys (onLane l B) _ fuel hsuf
    (fun e he => ⟨hval e (List.mem_append_left _ (hys e he)),
      htail e (List.mem_append_left _ (hys e he)), hA e (hys e he)⟩)
    (by
      intro y hy
      have hmem : y ∈ onLane l B := List.mem_of_mem_head? hy
      obtain ⟨e, he, _, rfl⟩ := mem_onLane.mp hmem
      exact ⟨htail e (List.mem_append_right _ he), e.value,
        hval e (List.mem_append_right _ he), hB e he⟩)
    (by omega)
  rw [this, hA_lane, lastD_append, hlast]

end detail

/-! ## Keys behind a reference -/

namespace detail

variable {T K : Type}

/-- While the referenced object is there, the search loop with its key behind a
reference is the search loop. -/
theorem advance_ref_some {s : sl_impl T K} {l : Nat} (pred : K → T → Bool) (k : K) :
    ∀ (fuel p : Nat), s.advance_ref l pred (some k) fuel p = s.advance l (pred k) fuel p := by
  intro fuel
  induction fuel with
  | zero =>
    intro p
    rfl
  | succ fuel ih =>
    intro p
    unfold sl_impl.advance_ref sl_impl.advance
    cases s.get_next p l with
    | none => rfl
    | some nx =>
      simp only
      split
      · rfl
      · cases s.get_value nx with
        | none => rfl
        | some v =>
          simp only
          split
          · exact ih nx
          · rfl

theorem find_lanes_ref_some (P : sl_traits T K) (s : sl_impl T K) (k : K) :
    ∀ (l search : Nat),
      sl_impl.find_lanes_ref P s (some k) l search = sl_impl.find_lanes P s k l search := by
  intro l
  induction l with
  | zero =>
    intro search
    rfl
  | succ l ih =>
    intro search
    unfold sl_impl.find_lanes_ref sl_impl.find_lanes
    rw [advance_ref_some]
    cases s.advance l (fun v => less_or_equal s.less (P.KeyFromValue v) k) s.brk search with
    | none => rfl
    | some search1 => exact ih search1

/-- With the referenced object there, `find` reads it like a key handed over by
value. -/
theorem find_ref_some (P : sl_traits T K) (s : sl_impl T K) (k : K) :
    sl_impl.find_ref P s (some k) = sl_impl.find P s k :=
  find_lanes_ref_some P s k s.levels s.head

end detail

/-! ## Consequences of the structural invariant -/

namespace detail

variable {T K : Type}

theorem Shape.value {P : sl_traits T K} {s : sl_impl T K} {es : List (Item T)}
    (h : Shape P s es) {e : Item T} (he : e ∈ es) : s.get_value e.addr = some e.value :=
  (h.nodes e he).1

theorem Shape.ne_tail {P : sl_traits T K} {s : sl_impl T K} {es : List (Item T)}
    (h : Shape P s es) {e : Item T} (he : e ∈ es) : e.addr ≠ s.tail := by
  intro heq
  exact h.tail_notin (heq ▸ List.mem_map_of_mem _ he)

theorem Shape.ne_head {P : sl_traits T K} {s : sl_impl T K} {es : List (Item T)}
    (h : Shape P s es) {e : Item T} (he : e ∈ es) : e.addr ≠ s.head := by
  intro heq
  exact h.head_notin (heq ▸ List.mem_map_of_mem _ he)

theorem Shape.ne_null {P : sl_traits T K} {s : sl_impl T K} {es : List (Item T)}
    (h : Shape P s es) {e : Item T} (he : e ∈ es) : e.addr ≠ 0 := by
  intro heq
  have := (h.nodes e he).2.1
  rw [heq, h.null_free] at this
  cases this

theorem Shape.tail_ne_null {P : sl_traits T K} {s : sl_impl T K} {es : List (Item T)}
    (h : Shape P s es) : s.tail ≠ 0 := by
  intro heq
  have := h.tail_level
  rw [heq] at this
  exact this h.null_free

theorem Shape.is_valid {P : sl_traits T K} {s : sl_impl T K} {es : List (Item T)}
    (h : Shape P s es) {e : Item T} (he : e ∈ es) : s.is_valid e.addr = true := by
  simp [sl_impl.is_valid, h.ne_null he, h.ne_head he, h.ne_tail he]

theorem Shape.is_valid_head {P : sl_traits T K} {s : sl_impl T K} {es : List (Item T)}
    (_h : Shape P s es) : s.is_valid s.head = false := by
  simp [sl_impl.is_valid]

theorem Shape.is_valid_tail {P : sl_traits T K} {s : sl_impl T K} {es : List (Item T)}
    (_h : Shape P s es) : s.is_valid s.tail = false := by
  simp [sl_impl.is_valid]

/-- The fuel `brk` outlasts every walk over the nodes of the list. -/
theorem Shape.length_lt_brk {P : sl_traits T K} {s : sl_impl T K} {es : List (Item T)}
    (h : Shape P s es) : es.length + 2 ≤ s.brk := by
  have hnd : (s.head :: s.tail :: es.map Item.addr).Nodup := by
    refine List.nodup_cons.mpr ⟨?_, List.nodup_cons.mpr ⟨h.tail_notin, h.nodup⟩⟩
    intro hm
    rcases List.mem_cons.mp hm with hm | hm
    · exact h.head_ne_tail hm
    · exact h.head_notin hm
  have hsub : (s.head :: s.tail :: es.map Item.addr) ⊆ List.range s.brk := by
    intro a ha
    rw [List.mem_range]
    by_contra hge
    have hnone := h.above_brk a (by omega)
    rcases List.mem_cons.mp ha with rfl | ha
    · exact sl_impl.get_level_of_len h.head_len hnone
    · rcases List.mem_cons.mp ha with rfl | ha
      · exact h.tail_level hnone
      · obtain ⟨e, he, rfl⟩ := List.mem_map.mp ha
        have := (h.nodes e he).2.1
        rw [hnone] at this
        cases this
  have := (List.subperm_of_subset hnd hsub).length_le
  simpa using this

theorem Shape.onLane_levels {P : sl_traits T K} {s : sl_impl T K} {es : List (Item T)}
    (h : Shape P s es) {A : List (Item T)} (hA : ∀ e ∈ A, e ∈ es) : onLane s.levels A = [] :=
  onLane_eq_nil (fun e he => (h.nodes e (hA e he)).2.2.2)

/-! ## `find` -/

theorem find_lanes_spec {P : sl_traits T K} {s : sl_impl T K} {A B : List (Item T)} {key : K}
    (hs : Shape P s (A ++ B))
    (hA : ∀ e ∈ A, less_or_equal s.less (P.KeyFromValue e.value) key = true)
    (hB : ∀ e ∈ B, less_or_equal s.less (P.KeyFromValue e.value) key = false)
    (l : Nat) (hl : l ≤ P.num_levels) :
    sl_impl.find_lanes P s key l (lastD s.head (onLane l A))
      = some (lastD s.head (A.map Item.addr)) := by
  induction l with
  | zero => simp [sl_impl.find_lanes, onLane_zero]
  | succ l ih =>
    unfold sl_impl.find_lanes
    have hstep := @advance_lane _ _ s l
      (fun v => less_or_equal s.less (P.KeyFromValue v) key) A B s.brk
      (hs.lanes l (by omega)) (fun e he => hs.value he) (fun e he => hs.ne_tail he) hA hB
      (by have := hs.length_lt_brk; rw [List.length_append] at this; omega)
    rw [hstep]
    exact ih (by omega)

/-- The engine-level `find` ends at the last node whose key is not greater than
`key`, or at `head` when there is none. -/
theorem find_spec {P : sl_traits T K} {s : sl_impl T K} {A B : List (Item T)} {key : K}
    (hs : Shape P s (A ++ B))
    (hA : ∀ e ∈ A, less_or_equal s.less (P.KeyFromValue e.value) key = true)
    (hB : ∀ e ∈ B, less_or_equal s.less (P.KeyFromValue e.value) key = false) :
    sl_impl.find P s key = some (lastD s.head (A.map Item.addr)) := by
  have := find_lanes_spec hs hA hB s.levels hs.levels_le
  rw [hs.onLane_levels (fun e he => List.mem_append_left _ he)] at this
  exact this

end detail

/-! ## Sorted lists cut at a key -/

namespace detail

variable {T K : Type}

theorem ordered_lt_mono {D : Bool} {less : K → K → Bool} (hswo : StrictWeakOrder less)
    {a b k : K} (hab : ordered D less a b) (hb : less b k = true) : less a k = true := by
  unfold ordered at hab
  cases D with
  | false => exact hswo.trans a b k (by simpa using hab) hb
  | true => exact hswo.lt_of_not_lt_of_lt (by simpa using hab) hb

theorem ordered_le_mono {D : Bool} {less : K → K → Bool} (hswo : StrictWeakOrder less)
    {a b k : K} (hab : ordered D less a b) (hb : less k b = false) : less k a = false := by
  unfold ordered at hab
  cases D with
  | false =>
    cases hka : less k a with
    | false => rfl
    | true =>
      have := hswo.trans k a b hka (by simpa using hab)
      rw [hb] at this
      cases this
  | true => exact hswo.neg_trans hb (by simpa using hab)

/-- A list in order splits at any key into the elements below it, the elements
equivalent to it and the elements above it. -/
theorem sorted_cut {D : Bool} {less : K → K → Bool} (hswo : StrictWeakOrder less)
    (keyOf : T → K) {es : List (Item T)}
    (hsorted : es.Pairwise (fun a b => ordered D less (keyOf a.value) (keyOf b.value)))
    (k : K) :
    ∃ A1 A2 B : List (Item T), es = A1 ++ A2 ++ B ∧
      (∀ e ∈ A1, less (keyOf e.value) k = true) ∧
      (∀ e ∈ A2, equivalent less (keyOf e.value) k = true) ∧
      (∀ e ∈ B, less k (keyOf e.value) = true) ∧
      A1 = es.takeWhile (fun e => less (keyOf e.value) k) := by
  let lt : Item T → Bool := fun e => less (keyOf e.value) k
  let le : Item T → Bool := fun e => !less k (keyOf e.value)
  have hR : (es.dropWhile lt).Pairwise
      (fun a b => ordered D less (keyOf a.value) (keyOf b.value)) :=
    hsorted.sublist (List.dropWhile_sublist _)
  have hRf : ∀ b ∈ es.dropWhile lt, lt b = false :=
    dropWhile_all_false hsorted (fun a b hab hb => ordered_lt_mono hswo hab hb)
  have hBf : ∀ b ∈ (es.dropWhile lt).dropWhile le, le b = false :=
    dropWhile_all_false hR (fun a b hab hb => by
      have h1 : less k (keyOf b.value) = false := by simpa [le] using hb
      have := ordered_le_mono hswo hab h1
      simp [le, this])
  refine ⟨es.takeWhile lt, (es.dropWhile lt).takeWhile le, (es.dropWhile lt).dropWhile le,
    ?_, ?_, ?_, ?_, rfl⟩
  · rw [List.append_assoc, List.takeWhile_append_dropWhile, List.takeWhile_append_dropWhile]
  · intro e he
    exact takeWhile_all_true e he
  · intro e he
    have h1 : le e = true := takeWhile_all_true e he
    have h2 : lt e = false := hRf e ((List.takeWhile_sublist _).subset he)
    have h3 : less k (keyOf e.value) = false := by simpa [le] using h1
    have h4 : less (keyOf e.value) k = false := h2
    simp [equivalent, h3, h4]
  · intro e he
    have := hBf e he
    simpa [le] using this

/-- Without duplicates at most one element is equivalent to a given key. -/
theorem unique_equiv_length {less : K → K → Bool} (hswo : StrictWeakOrder less)
    (keyOf : T → K) {A2 : List (Item T)}
    (hsorted : A2.Pairwise (fun a b => ordered false less (keyOf a.value) (keyOf b.value)))
    {k : K} (heq : ∀ e ∈ A2, equivalent less (keyOf e.value) k = true) : A2.length ≤ 1 := by
  cases A2 with
  | nil => simp
  | cons a A2 =>
    cases A2 with
    | nil => simp
    | cons b A2 =>
      exfalso
      have hab : less (keyOf a.value) (keyOf b.value) = true := by
        have := (List.pairwise_cons.mp hsorted).1 b (List.mem_cons_self _ _)
        simpa [ordered] using this
      have ha := heq a (List.mem_cons_self _ _)
      have hb := heq b (List.mem_cons_of_mem _ (List.mem_cons_self _ _))
      simp only [equivalent, Bool.and_eq_true, Bool.not_eq_true'] at ha hb
      have := hswo.neg_trans ha.1 hb.2
      rw [hab] at this
      cases this

/-! ## Neighbours on lane 0 -/

theorem Shape.lane0 {P : sl_traits T K} {s : sl_impl T K} {es : List (Item T)}
    (hs : Shape P s es) : Linked s 0 s.head (es.map Item.addr) s.tail := by
  have := hs.lanes 0 hs.levels_pos
  rwa [onLane_zero] at this

theorem Shape.next0 {P : sl_traits T K} {s : sl_impl T K} {X Y : List (Item T)}
    (hs : Shape P s (X ++ Y)) :
    s.get_next (lastD s.head (X.map Item.addr)) 0 = some ((Y.map Item.addr).headD s.tail) := by
  have := hs.lane0
  rw [List.map_append] at this
  exact this.suffix.next_first

theorem Shape.prev0 {P : sl_traits T K} {s : sl_impl T K} {X Y : List (Item T)}
    (hs : Shape P s (X ++ Y)) :
    s.get_prev ((Y.map Item.addr).headD s.tail) = some (lastD s.head (X.map Item.addr)) := by
  have := hs.back
  rw [List.map_append] at this
  exact (BackLinked_append.mp this).2.prev_first

theorem Shape.lastD_ne_tail {P : sl_traits T K} {s : sl_impl T K} {es X : List (Item T)}
    (hs : Shape P s es) (hX : ∀ e ∈ X, e ∈ es) : lastD s.head (X.map Item.addr) ≠ s.tail := by
  rcases lastD_mem s.head (X.map Item.addr) with h | h
  · rw [h]; exact hs.head_ne_tail
  · obtain ⟨e, he, heq⟩ := List.mem_map.mp h
    rw [← heq]
    exact hs.ne_tail (hX e he)

theorem Shape.headD_ne_head {P : sl_traits T K} {s : sl_impl T K} {es Y : List (Item T)}
    (hs : Shape P s es) (hY : ∀ e ∈ Y, e ∈ es) : (Y.map Item.addr).headD s.tail ≠ s.head := by
  cases Y with
  | nil => exact fun h => hs.head_ne_tail h.symm
  | cons y Y => exact hs.ne_head (hY y (List.mem_cons_self _ _))

end detail

/-! ## `find_first`, `lower_bound`, `upper_bound` -/

namespace detail

variable {T K : Type}

theorem lastD_map_cases (d : Nat) (X : List (Item T)) :
    (X = [] ∧ lastD d (X.map Item.addr) = d) ∨
      ∃ e, e ∈ X ∧ lastD d (X.map Item.addr) = e.addr := by
  rcases List.eq_nil_or_concat X with h | ⟨X1, e, h⟩
  · exact Or.inl ⟨h, by rw [h]; rfl⟩
  · refine Or.inr ⟨e, by rw [h]; simp, ?_⟩
    rw [h, List.concat_eq_append, List.map_append, List.map_cons, List.map_nil, lastD_concat]

theorem equivalent_eq_false_of_lt {less : K → K → Bool} {a k : K} (h : less a k = true) :
    equivalent less a k = false := by
  simp [equivalent, h]

theorem not_lt_of_equivalent {less : K → K → Bool} {a k : K} (h : equivalent less a k = true) :
    less a k = false := by
  simp only [equivalent, Bool.and_eq_true, Bool.not_eq_true'] at h
  exact h.1

theorem not_gt_of_equivalent {less : K → K → Bool} {a k : K} (h : equivalent less a k = true) :
    less k a = false := by
  simp only [equivalent, Bool.and_eq_true, Bool.not_eq_true'] at h
  exact h.2

theorem equivalent_eq_false_of_gt {less : K → K → Bool} {a k : K} (h : less k a = true) :
    equivalent less a k = false := by
  simp [equivalent, h]

theorem find_first_back_spec {P : sl_traits T K} {s : sl_impl T K} {A1 : List (Item T)}
    {key : K} (h1 : ∀ e ∈ A1, equivalent s.less (P.KeyFromValue e.value) key = false)
    (A2 : List (Item T)) :
    ∀ (B : List (Item T)) (fuel : Nat), Shape P s (A1 ++ A2 ++ B) →
      (∀ e ∈ A2, equivalent s.less (P.KeyFromValue e.value) key = true) →
      A2.length < fuel →
      sl_impl.find_first_back P s key fuel (lastD s.head ((A1 ++ A2).map Item.addr))
        = some ((A2.map Item.addr).headD (lastD s.head (A1.map Item.addr))) := by
  induction A2 using List.reverseRecOn with
  | nil =>
    intro B fuel hs _ hfuel
    cases fuel with
    | zero => simp at hfuel
    | succ fuel =>
      simp only [List.append_nil, List.map_nil, List.headD_nil]
      unfold sl_impl.find_first_back
      rcases List.eq_nil_or_concat A1 with hA | ⟨X, e, hA⟩
      · subst hA
        simp [lastD]
      · rw [List.concat_eq_append] at hA
        subst hA
        have he : e ∈ X ++ [e] ++ [] ++ B := by simp
        have hlast : lastD s.head ((X ++ [e]).map Item.addr) = e.addr := by
          rw [List.map_append, List.map_cons, List.map_nil, lastD_concat]
        rw [hlast]
        simp only [hs.ne_head he, if_false]
        have hs1 : Shape P s (X ++ (e :: B)) := by
          have : X ++ [e] ++ [] ++ B = X ++ (e :: B) := by simp
          rwa [this] at hs
        have hprev := hs1.prev0
        simp only [List.map_cons, List.headD_cons] at hprev
        rw [hprev]
        rcases lastD_map_cases s.head X with ⟨_, hX⟩ | ⟨x, hx, hX⟩
        · simp [hX]
        · have hxm : x ∈ X ++ (e :: B) := List.mem_append_left _ hx
          rw [hX]
          simp only [hs1.ne_head hxm, if_false, hs1.value hxm]
          rw [h1 x (List.mem_append_left _ hx)]
          simp
  | append_singleton A2 e ih =>
    intro B fuel hs h2 hfuel
    cases fuel with
    | zero => simp at hfuel
    | succ fuel =>
      have hs1 : Shape P s (A1 ++ A2 ++ (e :: B)) := by
        have : A1 ++ (A2 ++ [e]) ++ B = A1 ++ A2 ++ (e :: B) := by simp
        rwa [this] at hs
      have he : e ∈ A1 ++ A2 ++ (e :: B) := by simp
      have hlast : lastD s.head ((A1 ++ (A2 ++ [e])).map Item.addr) = e.addr := by
        rw [← List.append_assoc, List.map_append, List.map_cons, List.map_nil, lastD_concat]
      have hhead : ((A2 ++ [e]).map Item.addr).headD (lastD s.head (A1.map Item.addr))
          = (A2.map Item.addr).headD e.addr := by
        cases A2 <;> simp
      rw [hlast, hhead]
      unfold sl_impl.find_first_back
      simp only [hs1.ne_head he, if_false]
      have hprev := hs1.prev0
      simp only [List.map_cons, List.headD_cons] at hprev
      rw [hprev]
      cases A2 with
      | nil =>
        simp only [List.append_nil, List.map_nil, List.headD_nil]
        rcases lastD_map_cases s.head A1 with ⟨_, hX⟩ | ⟨x, hx, hX⟩
        · simp [hX]
        · have hxm : x ∈ A1 ++ [] ++ (e :: B) := by simp [hx]
          rw [hX]
          simp only [hs1.ne_head hxm, if_false, hs1.value hxm]
          rw [h1 x hx]
          simp
      | cons a A2 =>
        have hne : (a :: A2) ≠ [] := by simp
        rcases lastD_map_cases s.head (A1 ++ a :: A2) with ⟨hnil, _⟩ | ⟨x, _, hX⟩
        · simp at hnil
        · have hxl : lastD s.head ((A1 ++ a :: A2).map Item.addr) ∈ (a :: A2).map Item.addr := by
            rw [List.map_append, lastD_append]
            exact lastD_mem_of_ne_nil _ (by simp)
          obtain ⟨y, hy, hyx⟩ := List.mem_map.mp hxl
          have hym : y ∈ A1 ++ (a :: A2) ++ (e :: B) := by
            exact List.mem_append_left _ (List.mem_append_right _ hy)
          have hpv : s.get_value (lastD s.head ((A1 ++ a :: A2).map Item.addr))
              = some y.value := by
            rw [← hyx]; exact hs1.value hym
          have hnh : lastD s.head ((A1 ++ a :: A2).map Item.addr) ≠ s.head := by
            rw [← hyx]; exact hs1.ne_head hym
          simp only [hnh, if_false, hpv]
          rw [h2 y (List.mem_append_left _ hy)]
          simp only [if_true]
          have := ih (e :: B) fuel hs1 (fun z hz => h2 z (List.mem_append_left _ hz))
            (by simp at hfuel ⊢; omega)
          rw [this]
          simp

/-- The engine-level `find_first`: the first node of the run equivalent to `key`
when there is one; otherwise `head` when no key is below `key`, and the node
after the keys below `key` (possibly `tail`) in the remaining case. -/
theorem find_first_spec {P : sl_traits T K} {s : sl_impl T K} {A1 A2 B : List (Item T)}
    {key : K} (hs : Shape P s (A1 ++ A2 ++ B)) (hswo : StrictWeakOrder s.less)
    (h1 : ∀ e ∈ A1, s.less (P.KeyFromValue e.value) key = true)
    (h2 : ∀ e ∈ A2, equivalent s.less (P.KeyFromValue e.value) key = true)
    (h3 : ∀ e ∈ B, s.less key (P.KeyFromValue e.value) = true) :
    sl_impl.find_first P s key
      = some ((A2.map Item.addr).headD
          (if A1.isEmpty then s.head else (B.map Item.addr).headD s.tail)) := by
  have hfind : sl_impl.find P s key = some (lastD s.head ((A1 ++ A2).map Item.addr)) := by
    apply find_spec hs
    · intro e he
      rcases List.mem_append.mp he with he | he
      · simp [less_or_equal, hswo.asymm (h1 e he)]
      · simp [less_or_equal, not_gt_of_equivalent (h2 e he)]
    · intro e he
      simp [less_or_equal, h3 e he]
  have hback := @find_first_back_spec _ _ P s _ key
    (fun e he => equivalent_eq_false_of_lt (h1 e he)) A2 B s.brk hs h2
    (by have := hs.length_lt_brk; simp only [List.length_append] at this; omega)
  unfold sl_impl.find_first
  rw [hfind]
  simp only [hback]
  cases A2 with
  | cons a A2 =>
    have ha : a ∈ A1 ++ (a :: A2) ++ B := by simp
    simp only [List.map_cons, List.headD_cons, hs.ne_head ha, hs.ne_tail ha, ne_eq,
      not_false_eq_true, and_self, if_true, hs.value ha]
    rw [not_lt_of_equivalent (h2 a (List.mem_cons_self _ _))]
    simp
  | nil =>
    simp only [List.map_nil, List.headD_nil]
    rcases lastD_map_cases s.head A1 with ⟨hnil, hX⟩ | ⟨x, hx, hX⟩
    · subst hnil
      simp [lastD]
    · have hxm : x ∈ A1 ++ [] ++ B := by simp [hx]
      have hne : A1.isEmpty = false := by
        cases A1 with
        | nil => simp at hx
        | cons a A1 => rfl
      have hnext : s.get_next (lastD s.head (A1.map Item.addr)) 0
          = some ((B.map Item.addr).headD s.tail) := by
        have hs1 : Shape P s (A1 ++ B) := by simpa using hs
        exact hs1.next0
      rw [hX] at hnext ⊢
      simp only [hs.ne_head hxm, hs.ne_tail hxm, ne_eq, not_false_eq_true, and_self, if_true,
        hs.value hxm, h1 x hx, hnext, hne, if_false]
      simp

/-- The engine-level `lower_bound` is the first node whose key is not below `key`. -/
theorem lower_bound_spec {P : sl_traits T K} {s : sl_impl T K} {A1 A2 B : List (Item T)}
    {key : K} (hs : Shape P s (A1 ++ A2 ++ B)) (hswo : StrictWeakOrder s.less)
    (h1 : ∀ e ∈ A1, s.less (P.KeyFromValue e.value) key = true)
    (h2 : ∀ e ∈ A2, equivalent s.less (P.KeyFromValue e.value) key = true)
    (h3 : ∀ e ∈ B, s.less key (P.KeyFromValue e.value) = true) :
    sl_impl.lower_bound P s key = some (((A2 ++ B).map Item.addr).headD s.tail) := by
  unfold sl_impl.lower_bound
  rw [find_first_spec hs hswo h1 h2 h3]
  simp only [sl_impl.one_past_front]
  cases A2 with
  | cons a A2 =>
    have ha : a ∈ A1 ++ (a :: A2) ++ B := by simp
    simp [hs.ne_head ha]
  | nil =>
    simp only [List.map_nil, List.headD_nil, List.nil_append]
    cases A1 with
    | nil =>
      have hs1 : Shape P s ([] ++ B) := by simpa using hs
      have := hs1.next0
      simp only [List.map_nil, lastD_nil] at this
      simp [this]
    | cons a A1 =>
      have hne : (B.map Item.addr).headD s.tail ≠ s.head :=
        hs.headD_ne_head (fun e he => List.mem_append_right _ he)
      simp only [List.isEmpty_cons, if_false, Bool.false_eq_true, hne]

theorem skip_equivalent_spec {P : sl_traits T K} {s : sl_impl T K} {key : K}
    (A2 : List (Item T)) :
    ∀ (X B : List (Item T)) (fuel : Nat), Shape P s (X ++ A2 ++ B) →
      (∀ e ∈ A2, equivalent s.less (P.KeyFromValue e.value) key = true) →
      (∀ e ∈ B, equivalent s.less (P.KeyFromValue e.value) key = false) →
      A2.length < fuel →
      sl_impl.skip_equivalent P s key fuel (((A2 ++ B).map Item.addr).headD s.tail)
        = some ((B.map Item.addr).headD s.tail) := by
  induction A2 with
  | nil =>
    intro X B fuel hs _ h3 hfuel
    cases fuel with
    | zero => simp at hfuel
    | succ fuel =>
      unfold sl_impl.skip_equivalent
      cases B with
      | nil => simp [hs.is_valid_tail]
      | cons b B =>
        have hb : b ∈ X ++ [] ++ (b :: B) := by simp
        simp [hs.is_valid hb, hs.value hb, h3 b (List.mem_cons_self _ _)]
  | cons a A2 ih =>
    intro X B fuel hs h2 h3 hfuel
    cases fuel with
    | zero => simp at hfuel
    | succ fuel =>
      unfold sl_impl.skip_equivalent
      have ha : a ∈ X ++ (a :: A2) ++ B := by simp
      have hs1 : Shape P s ((X ++ [a]) ++ (A2 ++ B)) := by
        have : X ++ (a :: A2) ++ B = (X ++ [a]) ++ (A2 ++ B) := by simp
        rwa [this] at hs
      have hnext := hs1.next0
      rw [List.map_append, List.map_cons, List.map_nil, lastD_concat] at hnext
      simp only [List.cons_append, List.map_cons, List.headD_cons, hs.is_valid ha, if_true,
        hs.value ha, h2 a (List.mem_cons_self _ _), hnext]
      have hs2 : Shape P s ((X ++ [a]) ++ A2 ++ B) := by
        have : (X ++ [a]) ++ (A2 ++ B) = (X ++ [a]) ++ A2 ++ B := by simp
        rwa [this] at hs1
      exact ih (X ++ [a]) B fuel hs2 (fun e he => h2 e (List.mem_cons_of_mem _ he)) h3
        (by simpa using hfuel)

/-- The engine-level `upper_bound` is the first node whose key is above `key`. -/
theorem upper_bound_spec {P : sl_traits T K} {s : sl_impl T K} {A1 A2 B : List (Item T)}
    {key : K} (hs : Shape P s (A1 ++ A2 ++ B)) (hswo : StrictWeakOrder s.less)
    (h1 : ∀ e ∈ A1, s.less (P.KeyFromValue e.value) key = true)
    (h2 : ∀ e ∈ A2, equivalent s.less (P.KeyFromValue e.value) key = true)
    (h3 : ∀ e ∈ B, s.less key (P.KeyFromValue e.value) = true) :
    sl_impl.upper_bound P s key = some ((B.map Item.addr).headD s.tail) := by
  have hlb := lower_bound_spec hs hswo h1 h2 h3
  unfold sl_impl.lower_bound at hlb
  unfold sl_impl.upper_bound
  cases hff : sl_impl.find_first P s key with
  | none => rw [hff] at hlb; cases hlb
  | some node0 =>
    rw [hff] at hlb
    simp only at hlb ⊢
    rw [hlb]
    exact skip_equivalent_spec A2 A1 B s.brk hs h2
      (fun e he => equivalent_eq_false_of_gt (h3 e he))
      (by have := hs.length_lt_brk; simp only [List.length_append] at this; omega)

end detail

/-! ## Frames -/

namespace detail

variable {T K : Type}

theorem LaneFrame.refl (l : Nat) (s : sl_impl T K) : LaneFrame l s s :=
  ⟨rfl, rfl, rfl, rfl, rfl, rfl, fun _ => rfl, fun _ => rfl, fun _ => rfl, fun _ => rfl,
    fun _ _ _ => rfl⟩

theorem LaneFrame.trans {l : Nat} {s s1 s2 : sl_impl T K} (h1 : LaneFrame l s s1)
    (h2 : LaneFrame l s1 s2) : LaneFrame l s s2 where
  less := h2.less.trans h1.less
  levels := h2.levels.trans h1.levels
  head := h2.head.trans h1.head
  tail := h2.tail.trans h1.tail
  item_count := h2.item_count.trans h1.item_count
  brk := h2.brk.trans h1.brk
  value := fun a => (h2.value a).trans (h1.value a)
  prev := fun a => (h2.prev a).trans (h1.prev a)
  level := fun a => (h2.level a).trans (h1.level a)
  len := fun a => (h2.len a).trans (h1.len a)
  next := fun a j hj => (h2.next a j hj).trans (h1.next a j hj)

theorem LaneFrame.mono {l l1 : Nat} {s s1 : sl_impl T K} (h : LaneFrame l s s1) (hl : l ≤ l1) :
    LaneFrame l1 s s1 :=
  { h with next := fun a j hj => h.next a j (by omega) }

theorem LaneFrame.linked {l j : Nat} {s s1 : sl_impl T K} (h : LaneFrame l s s1) (hj : l ≤ j)
    {a : Nat} {xs : List Nat} {t : Nat} (hl : Linked s j a xs t) : Linked s1 j a xs t :=
  hl.frame (fun x _ => h.next x j hj)

theorem LaneFrame.backLinked {l : Nat} {s s1 : sl_impl T K} (h : LaneFrame l s s1)
    {a : Nat} {xs : List Nat} {t : Nat} (hl : BackLinked s a xs t) : BackLinked s1 a xs t :=
  hl.frame_prev (fun x _ => h.prev x)

theorem NextWrite.linked_other {s s1 : sl_impl T K} {p l q j : Nat} (h : NextWrite s s1 p l q)
    (hj : j ≠ l) {a : Nat} {xs : List Nat} {t : Nat} (hl : Linked s j a xs t) :
    Linked s1 j a xs t := by
  apply hl.frame
  intro x _
  rw [h.next]
  have : ¬ (x = p ∧ j = l) := fun hc => hj hc.2
  simp [this]

theorem NextWrite.linked_away {s s1 : sl_impl T K} {p l q : Nat} (h : NextWrite s s1 p l q)
    {a : Nat} {xs : List Nat} {t : Nat} (hl : Linked s l a xs t) (hpa : p ≠ a) (hp : p ∉ xs) :
    Linked s1 l a xs t := by
  apply hl.frame
  intro x hx
  rw [h.next]
  have : ¬ x = p := by
    intro hc
    rcases hx with hx | hx
    · exact hpa (hc.symm.trans hx)
    · exact hp (hc ▸ hx)
  simp [this]

/-- Writing the forward pointer of the last node of a chain redirects the chain. -/
theorem NextWrite.linked_redirect {s s1 : sl_impl T K} {l q : Nat} {a : Nat} {xs : List Nat}
    {t : Nat} (hl : Linked s l a xs t) (hnd : (a :: xs).Nodup)
    (h : NextWrite s s1 (lastD a xs) l q) : Linked s1 l a xs q := by
  induction xs generalizing a with
  | nil =>
    show s1.get_next a l = some q
    rw [h.next]
    simp [lastD]
  | cons x xs ih =>
    rw [lastD_cons] at h
    have hnd1 : (x :: xs).Nodup := (List.nodup_cons.mp hnd).2
    refine ⟨?_, ih hl.2 hnd1 h⟩
    rw [h.next]
    have hne : a ≠ lastD x xs := by
      intro hc
      have hmem : lastD x xs ∈ x :: xs := by
        rcases lastD_mem x xs with h1 | h1
        · rw [h1]; exact List.mem_cons_self _ _
        · exact List.mem_cons_of_mem _ h1
      exact (List.nodup_cons.mp hnd).1 (hc ▸ hmem)
    simp only [hne, false_and, if_false]
    exact hl.1

/-- Unlinking the node `n` from a lane: the forward pointer of its predecessor
is redirected to its successor. -/
theorem NextWrite.linked_unlink {s s1 : sl_impl T K} {l : Nat} {a n : Nat} {xs ys : List Nat}
    {t : Nat} (hl : Linked s l a (xs ++ n :: ys) t) (hnd : (a :: (xs ++ n :: ys)).Nodup)
    (h : NextWrite s s1 (lastD a xs) l (ys.headD t)) : Linked s1 l a (xs ++ ys) t := by
  obtain ⟨h1, h2⟩ := Linked_append.mp hl
  have hnd1 : (a :: xs).Nodup := by
    have : (a :: xs ++ n :: ys).Nodup := hnd
    exact (List.nodup_append.mp this).1
  have hdisj : ∀ y ∈ ys, y ≠ lastD a xs := by
    intro y hy hc
    have hmem : lastD a xs ∈ a :: xs := by
      rcases lastD_mem a xs with h3 | h3
      · rw [h3]; exact List.mem_cons_self _ _
      · exact List.mem_cons_of_mem _ h3
    have hnd2 : (a :: xs ++ n :: ys).Nodup := hnd
    have := (List.nodup_append.mp hnd2).2.2
    exact List.disjoint_left.mp this hmem (List.mem_cons_of_mem _ (hc ▸ hy))
  refine Linked_append.mpr ⟨h.linked_redirect h1 hnd1, ?_⟩
  cases ys with
  | nil =>
    show s1.get_next (lastD a xs) l = some t
    rw [h.next]
    simp
  | cons y ys =>
    refine ⟨?_, ?_⟩
    · rw [h.next]
      simp
    · have h3 : Linked s l y ys t := h2.2.2
      apply h.linked_away h3
      · exact (hdisj y (List.mem_cons_self _ _)).symm
      · intro hc
        exact hdisj _ (List.mem_cons_of_mem _ hc) rfl

/-- Splicing the node `n` into a lane behind the last node of `xs`. -/
theorem NextWrite.linked_splice {s s1 s2 : sl_impl T K} {l : Nat} {a n : Nat} {xs ys : List Nat}
    {t : Nat} (hl : Linked s l a (xs ++ ys) t) (hnd : (a :: (xs ++ ys)).Nodup)
    (hn : n ∉ a :: (xs ++ ys))
    (h1 : NextWrite s s1 n l (ys.headD t)) (h2 : NextWrite s1 s2 (lastD a xs) l n) :
    Linked s2 l a (xs ++ n :: ys) t := by
  obtain ⟨hp, hq⟩ := Linked_append.mp hl
  have hna : n ≠ a := fun hc => hn (hc ▸ List.mem_cons_self _ _)
  have hnxs : n ∉ xs := fun hc => hn (List.mem_cons_of_mem _ (List.mem_append_left _ hc))
  have hnys : n ∉ ys := fun hc => hn (List.mem_cons_of_mem _ (List.mem_append_right _ hc))
  have hnd1 : (a :: xs).Nodup := by
    have : (a :: xs ++ ys).Nodup := hnd
    exact (List.nodup_append.mp this).1
  have hlast : lastD a xs ∈ a :: xs := by
    rcases lastD_mem a xs with h3 | h3
    · rw [h3]; exact List.mem_cons_self _ _
    · exact List.mem_cons_of_mem _ h3
  have hdisj : ∀ y ∈ ys, y ≠ lastD a xs := by
    intro y hy hc
    have hnd2 : (a :: xs ++ ys).Nodup := hnd
    have := (List.nodup_append.mp hnd2).2.2
    exact List.disjoint_left.mp this hlast (hc ▸ hy)
  have hnl : n ≠ lastD a xs := by
    intro hc
    rcases List.mem_cons.mp hlast with h3 | h3
    · exact hna (hc.trans h3)
    · exact hnxs (hc ▸ h3)
  have hp1 : Linked s1 l a xs (ys.headD t) := h1.linked_away hp hna hnxs
  refine Linked_append.mpr ⟨?_, ?_, ?_⟩
  · exact h2.linked_redirect hp1 hnd1
  · rw [h2.next]
    simp
  · cases ys with
    | nil =>
      show s2.get_next n l = some t
      rw [h2.next, h1.next]
      simp [hnl]
    | cons y ys =>
      refine ⟨?_, ?_⟩
      · rw [h2.next, h1.next]
        simp [hnl]
      · have h3 : Linked s l y ys t := hq.2
        have hy := hdisj y (List.mem_cons_self _ _)
        have h4 : Linked s1 l y ys t :=
          h1.linked_away h3 (fun hc => hnys (hc ▸ List.mem_cons_self _ _))
            (fun hc => hnys (List.mem_cons_of_mem _ hc))
        exact h2.linked_away h4 hy.symm
          (fun hc => hdisj _ (List.mem_cons_of_mem _ hc) rfl)

theorem PrevWrite.linked_kept {s s1 : sl_impl T K} {p q : Nat} (h : PrevWrite s s1 p q) {l : Nat}
    {a : Nat} {xs : List Nat} {t : Nat} (hl : Linked s l a xs t) : Linked s1 l a xs t :=
  hl.frame (fun x _ => h.next x l)

theorem PrevWrite.backLinked_away {s s1 : sl_impl T K} {p q : Nat} (h : PrevWrite s s1 p q)
    {a : Nat} {xs : List Nat} {t : Nat} (hl : BackLinked s a xs t) (hpt : p ≠ t) (hp : p ∉ xs) :
    BackLinked s1 a xs t := by
  apply hl.frame_prev
  intro x hx
  rw [h.prev]
  have : x ≠ p := by
    intro hc
    rcases hx with hx | hx
    · exact hpt (hc ▸ hx)
    · exact hp (hc ▸ hx)
  simp [this]

end detail

/-! ## Back pointers under writes -/

namespace detail

variable {T K : Type}

theorem BackLinked.retarget {s s1 : sl_impl T K} {a m q : Nat} {xs : List Nat}
    (hl : BackLinked s a xs m) (hsame : ∀ x ∈ xs, s1.get_prev x = s.get_prev x)
    (hq : s1.get_prev q = some (lastD a xs)) : BackLinked s1 a xs q := by
  induction xs generalizing a with
  | nil => exact hq
  | cons x xs ih =>
    rw [lastD_cons] at hq
    refine ⟨?_, ih hl.2 (fun y hy => hsame y (List.mem_cons_of_mem _ hy)) hq⟩
    rw [hsame x (List.mem_cons_self _ _)]
    exact hl.1

/-- Unlinking `n` from the chain of back pointers. -/
theorem PrevWrite.backLinked_unlink {s s1 : sl_impl T K} {a n t : Nat} {xs ys : List Nat}
    (hl : BackLinked s a (xs ++ n :: ys) t) (hnd : (xs ++ n :: ys ++ [t]).Nodup)
    (h : PrevWrite s s1 (ys.headD t) (lastD a xs)) : BackLinked s1 a (xs ++ ys) t := by
  obtain ⟨h1, h2⟩ := BackLinked_append.mp hl
  have hq_notin : ys.headD t ∉ xs := by
    intro hc
    have hmem : ys.headD t ∈ n :: ys ++ [t] := by
      cases ys with
      | nil => simp
      | cons y ys => simp
    have hnd1 : (xs ++ (n :: ys ++ [t])).Nodup := by simpa using hnd
    exact List.disjoint_left.mp (List.nodup_append.mp hnd1).2.2 hc hmem
  refine BackLinked_append.mpr ⟨?_, ?_⟩
  · apply h1.retarget
    · intro x hx
      have : x ≠ ys.headD t := fun hc => hq_notin (hc ▸ hx)
      rw [h.prev, if_neg this]
    · rw [h.prev, if_pos rfl]
  · cases ys with
    | nil =>
      show s1.get_prev t = some (lastD a xs)
      rw [h.prev]
      exact if_pos rfl
    | cons y ys =>
      refine ⟨by rw [h.prev]; exact if_pos rfl, ?_⟩
      have h3 : BackLinked s y ys t := h2.2.2
      have hnd2 : (y :: ys ++ [t]).Nodup := by
        have hnd1 : (xs ++ [n] ++ (y :: ys ++ [t])).Nodup := by simpa using hnd
        exact (List.nodup_append.mp hnd1).2.1
      have hy : y ∉ ys ++ [t] := (List.nodup_cons.mp hnd2).1
      apply h.backLinked_away h3
      · intro hc
        exact hy (by simp only [List.headD_cons] at hc; rw [hc]; simp)
      · intro hc
        exact hy (List.mem_append_left _ (by simpa using hc))

/-- Splicing `n` into the chain of back pointers. -/
theorem PrevWrite.backLinked_splice {s s1 s2 : sl_impl T K} {a n t : Nat} {xs ys : List Nat}
    (hl : BackLinked s a (xs ++ ys) t) (hnd : (xs ++ ys ++ [t]).Nodup)
    (hn : n ∉ xs ++ ys ++ [t])
    (h1 : PrevWrite s s1 n (lastD a xs)) (h2 : PrevWrite s1 s2 (ys.headD t) n) :
    BackLinked s2 a (xs ++ n :: ys) t := by
  obtain ⟨hp, hq⟩ := BackLinked_append.mp hl
  have hnxs : n ∉ xs := fun hc => hn (by simp [hc])
  have hnys : n ∉ ys := fun hc => hn (by simp [hc])
  have hnt : n ≠ t := fun hc => hn (by simp [hc])
  have hhd : ys.headD t ∈ ys ++ [t] := by
    cases ys with
    | nil => simp
    | cons y ys => simp
  have hq_notin : ys.headD t ∉ xs := by
    intro hc
    have hnd1 : (xs ++ (ys ++ [t])).Nodup := by simpa using hnd
    exact List.disjoint_left.mp (List.nodup_append.mp hnd1).2.2 hc hhd
  have hnq : n ≠ ys.headD t := by
    intro hc
    rcases List.mem_append.mp hhd with h3 | h3
    · exact hnys (hc ▸ h3)
    · exact hnt (hc.trans (List.mem_singleton.mp h3))
  refine BackLinked_append.mpr ⟨?_, ?_, ?_⟩
  · apply hp.retarget
    · intro x hx
      have hx1 : x ≠ ys.headD t := fun hc => hq_notin (hc ▸ hx)
      have hx2 : x ≠ n := fun hc => hnxs (hc ▸ hx)
      rw [h2.prev, if_neg hx1, h1.prev, if_neg hx2]
    · show s2.get_prev n = some (lastD a xs)
      rw [h2.prev, if_neg hnq, h1.prev, if_pos rfl]
  · rw [h2.prev, if_neg hnq, h1.prev, if_pos rfl]
  · cases ys with
    | nil =>
      show s2.get_prev t = some n
      rw [h2.prev]
      exact if_pos rfl
    | cons y ys =>
      refine ⟨by rw [h2.prev]; exact if_pos rfl, ?_⟩
      have h3 : BackLinked s y ys t := hq.2
      have hnd2 : (y :: ys ++ [t]).Nodup := by
        have hnd1 : (xs ++ (y :: ys ++ [t])).Nodup := by simpa using hnd
        exact (List.nodup_append.mp hnd1).2.1
      have hy : y ∉ ys ++ [t] := (List.nodup_cons.mp hnd2).1
      have h4 : BackLinked s1 y ys t := by
        apply h1.backLinked_away h3 hnt
        exact fun hc => hnys (List.mem_cons_of_mem _ hc)
      apply h2.backLinked_away h4
      · intro hc
        exact hy (by simp only [List.headD_cons] at hc; rw [hc]; simp)
      · intro hc
        exact hy (List.mem_append_left _ (by simpa using hc))

/-! ## `remove` without duplicates -/

theorem remove_lanes_spec {P : sl_traits T K} {X Y : List (Item T)} {e : Item T} {key : K}
    (hdup : P.AllowDuplicates = false) (l : Nat) :
    ∀ (s : sl_impl T K),
      (∀ j, j < l → Linked s j s.head (onLane j (X ++ e :: Y)) s.tail) →
      (∀ x ∈ X ++ e :: Y, s.get_value x.addr = some x.value) →
      (∀ x ∈ X ++ e :: Y, x.addr ≠ s.tail) →
      (s.head :: (X ++ e :: Y).map Item.addr).Nodup →
      (∀ x ∈ X, s.less (P.KeyFromValue x.value) key = true) →
      (∀ x ∈ e :: Y, s.less (P.KeyFromValue x.value) key = false) →
      X.length < s.brk →
      ∃ s1, sl_impl.remove_lanes P key e.addr l s (lastD s.head (onLane l X)) = some s1 ∧
        LaneFrame l s s1 ∧ ∀ j, j < l → Linked s1 j s.head (onLane j (X ++ Y)) s.tail := by
  induction l with
  | zero =>
    intro s _ _ _ _ _ _ _
    exact ⟨s, rfl, LaneFrame.refl 0 s, fun j hj => absurd hj (by omega)⟩
  | succ l ih =>
    intro s hlanes hval htail hnd hX hY hfuel
    have hstep := @advance_lane _ _ s l
      (fun v => s.less (P.KeyFromValue v) key) X (e :: Y) s.brk
      (hlanes l (by omega)) hval htail hX hY hfuel
    have hlink := hlanes l (by omega)
    rw [onLane_append] at hlink
    have hsuf := hlink.suffix
    have hcn := hsuf.next_first
    unfold sl_impl.remove_lanes
    rw [hstep]
    simp only [hdup, Bool.false_eq_true, if_false, hcn]
    have hnd_lane : (s.head :: (onLane l X ++ onLane l (e :: Y))).Nodup := by
      rw [← onLane_append]
      exact List.nodup_cons.mpr ⟨fun hc => (List.nodup_cons.mp hnd).1 (onLane_subset _ _ hc),
        onLane_nodup (List.nodup_cons.mp hnd).2⟩
    by_cases hle : l ≤ e.level
    · rw [onLane_cons_of_le hle] at hsuf hcn hnd_lane ⊢
      simp only [List.headD_cons, if_true]
      have hnn := hsuf.2.next_first
      rw [hnn]
      obtain ⟨k, hk, hlk⟩ := sl_impl.get_next_lt_len hcn
      obtain ⟨s1, hs1, hw⟩ := sl_impl.set_next_spec ((onLane l Y).headD s.tail) hk hlk
      simp only [hs1]
      have hfr := hw.frame
      obtain ⟨s2, hs2, hfr2, hl2⟩ := ih s1
        (fun j hj => by
          rw [hfr.head, hfr.tail]
          exact hw.linked_other (by omega) (hlanes j (by omega)))
        (fun x hx => by rw [hfr.value]; exact hval x hx)
        (fun x hx => by rw [hfr.tail]; exact htail x hx)
        (by rw [hfr.head]; exact hnd)
        (fun x hx => by rw [hfr.less]; exact hX x hx)
        (fun x hx => by rw [hfr.less]; exact hY x hx)
        (by rw [hfr.brk]; exact hfuel)
      rw [hfr.head] at hs2 hl2
      rw [hfr.tail] at hl2
      refine ⟨s2, hs2, hfr.trans (hfr2.mono (by omega)), ?_⟩
      intro j hj
      by_cases hjl : j = l
      · subst hjl
        rw [onLane_append]
        have := hw.linked_unlink (by rw [onLane_cons_of_le hle] at hlink; exact hlink) hnd_lane
        exact hfr2.linked (le_refl _) this
      · exact hl2 j (by omega)
    · have hlt : e.level < l := by omega
      rw [onLane_cons_of_lt hlt] at hsuf hcn ⊢
      have hne : (onLane l Y).headD s.tail ≠ e.addr := by
        intro hc
        have he : e ∈ X ++ e :: Y := by simp
        cases hY1 : onLane l Y with
        | nil =>
          rw [hY1] at hc
          exact htail e he hc.symm
        | cons y ys =>
          rw [hY1] at hc
          simp only [List.headD_cons] at hc
          have hy : e.addr ∈ Y.map Item.addr :=
            onLane_subset l Y (by rw [hY1, hc]; exact List.mem_cons_self _ _)
          have hnd1 : (X.map Item.addr ++ e.addr :: Y.map Item.addr).Nodup := by
            have := (List.nodup_cons.mp hnd).2
            simpa using this
          have := (List.nodup_append.mp hnd1).2.1
          exact (List.nodup_cons.mp this).1 hy
      simp only [hne, if_false]
      obtain ⟨s2, hs2, hfr2, hl2⟩ := ih s (fun j hj => hlanes j (by omega)) hval htail hnd hX hY
        hfuel
      refine ⟨s2, hs2, hfr2.mono (by omega), ?_⟩
      intro j hj
      by_cases hjl : j = l
      · subst hjl
        have h0 := hlanes j (by omega)
        rw [onLane_append, onLane_cons_of_lt hlt, ← onLane_append] at h0
        exact hfr2.linked (le_refl _) h0
      · exact hl2 j (by omega)

end detail

namespace detail

variable {T K : Type}

theorem Shape.headD_allocated {P : sl_traits T K} {s : sl_impl T K} {es Y : List (Item T)}
    (hs : Shape P s es) (hY : ∀ e ∈ Y, e ∈ es) :
    s.get_level ((Y.map Item.addr).headD s.tail) ≠ none := by
  cases Y with
  | nil => exact hs.tail_level
  | cons y Y =>
    have := (hs.nodes y (hY y (List.mem_cons_self _ _))).2.1
    simp [this]

theorem Shape.nodup_head {P : sl_traits T K} {s : sl_impl T K} {es : List (Item T)}
    (hs : Shape P s es) : (s.head :: es.map Item.addr).Nodup :=
  List.nodup_cons.mpr ⟨hs.head_notin, hs.nodup⟩

theorem Shape.nodup_tail {P : sl_traits T K} {s : sl_impl T K} {es : List (Item T)}
    (hs : Shape P s es) : (es.map Item.addr ++ [s.tail]).Nodup := by
  rw [List.nodup_append]
  refine ⟨hs.nodup, List.nodup_singleton _, ?_⟩
  intro a ha hb
  rw [List.mem_singleton] at hb
  exact hs.tail_notin (hb ▸ ha)

/-- Removing a node from an engine without duplicates: every lane is patched,
the node is released and the remaining nodes keep their order. The keys before
the node must be below its key and no key behind it may be. -/
theorem remove_spec {P : sl_traits T K} {s : sl_impl T K} {X Y : List (Item T)} {e : Item T}
    (hs : Shape P s (X ++ e :: Y)) (hdup : P.AllowDuplicates = false)
    (hX : ∀ x ∈ X, s.less (P.KeyFromValue x.value) (P.KeyFromValue e.value) = true)
    (hY : ∀ x ∈ e :: Y, s.less (P.KeyFromValue x.value) (P.KeyFromValue e.value) = false) :
    ∃ s1, sl_impl.remove P s e.addr = some s1 ∧ Shape P s1 (X ++ Y) ∧ s1.less = s.less ∧
      s1.levels = s.levels ∧ s1.head = s.head ∧ s1.tail = s.tail ∧ s1.brk = s.brk := by
  have he : e ∈ X ++ e :: Y := by simp
  have hXm : ∀ x ∈ X, x ∈ X ++ e :: Y := fun x hx => List.mem_append_left _ hx
  have hYm : ∀ x ∈ Y, x ∈ X ++ e :: Y := fun x hx =>
    List.mem_append_right _ (List.mem_cons_of_mem _ hx)
  have hXYm : ∀ x ∈ X ++ Y, x ∈ X ++ e :: Y := by
    intro x hx
    rcases List.mem_append.mp hx with h | h
    · exact hXm x h
    · exact hYm x h
  have hv := hs.value he
  have hn0 : s.get_next e.addr 0 = some ((Y.map Item.addr).headD s.tail) := by
    have hs1 : Shape P s ((X ++ [e]) ++ Y) := by
      have : X ++ e :: Y = (X ++ [e]) ++ Y := by simp
      rwa [this] at hs
    have := hs1.next0
    rwa [List.map_append, List.map_cons, List.map_nil, lastD_concat] at this
  have hnp : s.get_prev e.addr = some (lastD s.head (X.map Item.addr)) := by
    have := hs.prev0
    simpa using this
  obtain ⟨s1, hs1, hw1⟩ := sl_impl.set_prev_spec (lastD s.head (X.map Item.addr))
    (hs.headD_allocated hYm)
  have hnd : (X.map Item.addr ++ e.addr :: Y.map Item.addr).Nodup := by
    have := hs.nodup
    simpa using this
  have he_notin : e.addr ∉ (X ++ Y).map Item.addr := by
    intro hc
    rw [List.map_append] at hc
    rcases List.mem_append.mp hc with h | h
    · exact List.disjoint_left.mp (List.nodup_append.mp hnd).2.2 h (List.mem_cons_self _ _)
    · exact (List.nodup_cons.mp (List.nodup_append.mp hnd).2.1).1 h
  have hstart : lastD s1.head (onLane s1.levels X) = s1.head := by
    rw [hw1.levels, hs.onLane_levels hXm]
    rfl
  obtain ⟨s2, hs2, hfr, hl2⟩ := @remove_lanes_spec _ _ P X Y e
    (P.KeyFromValue e.value) hdup s1.levels s1
    (fun j hj => by
      rw [hw1.head, hw1.tail]
      rw [hw1.levels] at hj
      exact hw1.linked_kept (hs.lanes j (by have := hs.levels_le; omega)))
    (fun x hx => by rw [hw1.value]; exact hs.value hx)
    (fun x hx => by rw [hw1.tail]; exact hs.ne_tail hx)
    (by rw [hw1.head]; exact hs.nodup_head)
    (fun x hx => by rw [hw1.less]; exact hX x hx)
    (fun x hx => by rw [hw1.less]; exact hY x hx)
    (by
      rw [hw1.brk]
      have := hs.length_lt_brk
      simp only [List.length_append, List.length_cons] at this
      omega)
  rw [hstart] at hs2
  have halloc2 : s2.get_level e.addr ≠ none := by
    rw [hfr.level, hw1.level, (hs.nodes e he).2.1]
    simp
  obtain ⟨s3, hs3, hr⟩ := sl_impl.deallocate_spec halloc2
  refine ⟨{ s3 with item_count := s3.item_count - 1 }, ?_, ?_, ?_, ?_, ?_, ?_, ?_⟩
  · unfold sl_impl.remove
    simp only [hv, hn0, hnp, hs1, hs2, hs3]
  · have hhead : s3.head = s.head := hr.head.trans (hfr.head.trans hw1.head)
    have htail : s3.tail = s.tail := hr.tail.trans (hfr.tail.trans hw1.tail)
    have hlevels : s3.levels = s.levels := hr.levels.trans (hfr.levels.trans hw1.levels)
    have hhe : s.head ≠ e.addr := fun hc => hs.ne_head he hc.symm
    have hte : s.tail ≠ e.addr := fun hc => hs.ne_tail he hc.symm
    have hvalue : ∀ a, a ≠ e.addr → s3.get_value a = s.get_value a := fun a ha =>
      (hr.value a ha).trans ((hfr.value a).trans (hw1.value a))
    have hlevel : ∀ a, a ≠ e.addr → s3.get_level a = s.get_level a := fun a ha =>
      (hr.level a ha).trans ((hfr.level a).trans (hw1.level a))
    have hlen : ∀ a, a ≠ e.addr → s3.get_len a = s.get_len a := fun a ha =>
      (hr.len a ha).trans ((hfr.len a).trans (hw1.len a))
    have hxe : ∀ x ∈ X ++ Y, x.addr ≠ e.addr := fun x hx hc =>
      he_notin (hc ▸ List.mem_map_of_mem _ hx)
    have hlane_ne : ∀ j x, x = s.head ∨ x ∈ onLane j (X ++ Y) → x ≠ e.addr := by
      intro j x hx
      rcases hx with rfl | hx
      · exact hhe
      · exact fun hc => he_notin (hc ▸ onLane_subset j _ hx)
    constructor
    · show s3.get_level 0 = none
      rw [hlevel 0 (fun hc => hs.ne_null he hc.symm)]
      exact hs.null_free
    · intro a ha
      show s3.get_level a = none
      by_cases hae : a = e.addr
      · rw [hae]; exact hr.gone
      · rw [hlevel a hae]
        have hb : s3.brk = s.brk := hr.brk.trans (hfr.brk.trans hw1.brk)
        exact hs.above_brk a (by
          have : ({ s3 with item_count := s3.item_count - 1 } : sl_impl T K).brk = s3.brk := rfl
          rw [this, hb] at ha
          exact ha)
    · show s3.head ≠ s3.tail
      rw [hhead, htail]; exact hs.head_ne_tail
    · show s3.get_len s3.head = _
      rw [hhead, hlen _ hhe]; exact hs.head_len
    · show s3.get_next s3.head P.num_levels = _
      rw [hhead, hr.next _ _ hhe, hfr.next _ _ (by rw [hw1.levels]; exact hs.levels_le),
        hw1.next]
      exact hs.head_top
    · show s3.get_value s3.head = none
      rw [hhead, hvalue _ hhe]; exact hs.head_value
    · show s3.get_level s3.tail ≠ none
      rw [htail, hlevel _ hte]; exact hs.tail_level
    · show s3.get_value s3.tail = none
      rw [htail, hvalue _ hte]; exact hs.tail_value
    · have : List.Sublist ((X ++ Y).map Item.addr) ((X ++ e :: Y).map Item.addr) := by
        apply List.Sublist.map
        exact List.Sublist.append (List.Sublist.refl _) (List.sublist_cons_self _ _)
      exact hs.nodup.sublist this
    · show s3.head ∉ _
      rw [hhead]
      intro hc
      obtain ⟨x, hx, hxe1⟩ := List.mem_map.mp hc
      exact hs.ne_head (hXYm x hx) hxe1
    · show s3.tail ∉ _
      rw [htail]
      intro hc
      obtain ⟨x, hx, hxe1⟩ := List.mem_map.mp hc
      exact hs.ne_tail (hXYm x hx) hxe1
    · intro x hx
      have hx1 := hs.nodes x (hXYm x hx)
      have hne := hxe x hx
      refine ⟨?_, ?_, ?_, ?_⟩
      · show s3.get_value x.addr = _
        rw [hvalue _ hne]; exact hx1.1
      · show s3.get_level x.addr = _
        rw [hlevel _ hne]; exact hx1.2.1
      · show s3.get_len x.addr = _
        rw [hlen _ hne]; exact hx1.2.2.1
      · show x.level < s3.levels
        rw [hlevels]; exact hx1.2.2.2
    · show s3.levels ≤ _
      rw [hlevels]; exact hs.levels_le
    · exact hs.levels_pos
    · intro j hj
      refine Linked.frame (s := s3) ?_ (fun _ _ => rfl)
      show Linked s3 j s3.head (onLane j (X ++ Y)) s3.tail
      rw [hhead, htail]
      have h2 : Linked s2 j s.head (onLane j (X ++ Y)) s.tail := by
        by_cases hjl : j < s.levels
        · have := hl2 j (by rw [hw1.levels]; exact hjl)
          rwa [hw1.head, hw1.tail] at this
        · have h0 := hs.lanes j hj
          have hnil1 : onLane j (X ++ e :: Y) = [] :=
            onLane_eq_nil (fun x hx => by have := (hs.nodes x hx).2.2.2; omega)
          have hnil2 : onLane j (X ++ Y) = [] :=
            onLane_eq_nil (fun x hx => by have := (hs.nodes x (hXYm x hx)).2.2.2; omega)
          rw [hnil1] at h0
          rw [hnil2]
          exact hfr.linked (by rw [hw1.levels]; omega) (hw1.linked_kept h0)
      exact h2.frame (fun x hx => hr.next x j (hlane_ne j x hx))
    · refine BackLinked.frame_prev (s := s3) ?_ (fun _ _ => rfl)
      show BackLinked s3 s3.head ((X ++ Y).map Item.addr) s3.tail
      rw [hhead, htail]
      have h0 := hs.back
      rw [List.map_append, List.map_cons] at h0
      have hndt : (X.map Item.addr ++ e.addr :: Y.map Item.addr ++ [s.tail]).Nodup := by
        have := hs.nodup_tail
        simpa using this
      have h1 := hw1.backLinked_unlink h0 hndt
      have h2 := hfr.backLinked h1
      rw [List.map_append]
      apply h2.frame_prev
      intro x hx
      apply hr.prev
      rcases hx with rfl | hx
      · exact hte
      · rw [← List.map_append] at hx
        exact fun hc => he_notin (hc ▸ hx)
    · show s3.item_count - 1 = (X ++ Y).length
      rw [hr.item_count, hfr.item_count, hw1.item_count, hs.count]
      simp
  · exact hr.less.trans (hfr.less.trans hw1.less)
  · exact hr.levels.trans (hfr.levels.trans hw1.levels)
  · exact hr.head.trans (hfr.head.trans hw1.head)
  · exact hr.tail.trans (hfr.tail.trans hw1.tail)
  · exact hr.brk.trans (hfr.brk.trans hw1.brk)

end detail

/-! ## `insert` -/

namespace detail

variable {T K : Type}

theorem insert_lanes_spec {P : sl_traits T K} {A B : List (Item T)} {n : Item T} {key : K}
    (l : Nat) :
    ∀ (s : sl_impl T K),
      (∀ j, j < l → Linked s j s.head (onLane j (A ++ B)) s.tail) →
      (∀ x ∈ A ++ B, s.get_value x.addr = some x.value) →
      (∀ x ∈ A ++ B, x.addr ≠ s.tail) →
      (s.head :: (A ++ B).map Item.addr).Nodup →
      n.addr ∉ s.head :: (A ++ B).map Item.addr →
      s.get_len n.addr = some (n.level + 1) →
      (∀ x ∈ A, s.less (P.KeyFromValue x.value) key = true) →
      (∀ x ∈ B, s.less (P.KeyFromValue x.value) key = false) →
      A.length < s.brk →
      ∃ s1, sl_impl.insert_lanes P key n.level n.addr l s (lastD s.head (onLane l A))
          = some (s1, lastD s.head (A.map Item.addr)) ∧
        LaneFrame l s s1 ∧ ∀ j, j < l → Linked s1 j s.head (onLane j (A ++ n :: B)) s.tail := by
  induction l with
  | zero =>
    intro s _ _ _ _ _ _ _ _ _
    refine ⟨s, ?_, LaneFrame.refl 0 s, fun j hj => absurd hj (by omega)⟩
    simp [sl_impl.insert_lanes, onLane_zero]
  | succ l ih =>
    intro s hlanes hval htail hnd hn hlen hA hB hfuel
    have hstep := @advance_lane _ _ s l
      (fun v => s.less (P.KeyFromValue v) key) A B s.brk
      (hlanes l (by omega)) hval htail hA hB hfuel
    have hlink := hlanes l (by omega)
    rw [onLane_append] at hlink
    have hcn := hlink.suffix.next_first
    unfold sl_impl.insert_lanes
    rw [hstep]
    simp only
    have hnd_lane : (s.head :: (onLane l A ++ onLane l B)).Nodup := by
      rw [← onLane_append]
      exact List.nodup_cons.mpr ⟨fun hc => (List.nodup_cons.mp hnd).1 (onLane_subset _ _ hc),
        onLane_nodup (List.nodup_cons.mp hnd).2⟩
    have hn_lane : n.addr ∉ s.head :: (onLane l A ++ onLane l B) := by
      rw [← onLane_append]
      intro hc
      rcases List.mem_cons.mp hc with h | h
      · exact hn (h ▸ List.mem_cons_self _ _)
      · exact hn (List.mem_cons_of_mem _ (onLane_subset _ _ h))
    by_cases hle : l ≤ n.level
    · simp only [hle, if_true, hcn]
      obtain ⟨s1, hs1, hw1⟩ := sl_impl.set_next_spec (s := s) (p := n.addr) (l := l)
        ((onLane l B).headD s.tail) hlen (by omega)
      simp only [hs1]
      obtain ⟨k, hk, hlk⟩ := sl_impl.get_next_lt_len hcn
      obtain ⟨s2, hs2, hw2⟩ := sl_impl.set_next_spec (s := s1) n.addr
        (by rw [hw1.frame.len]; exact hk) hlk
      simp only [hs2]
      have hfr : LaneFrame (l + 1) s s2 := hw1.frame.trans hw2.frame
      obtain ⟨s3, hs3, hfr3, hl3⟩ := ih s2
        (fun j hj => by
          rw [hfr.head, hfr.tail]
          exact hw2.linked_other (by omega) (hw1.linked_other (by omega) (hlanes j (by omega))))
        (fun x hx => by rw [hfr.value]; exact hval x hx)
        (fun x hx => by rw [hfr.tail]; exact htail x hx)
        (by rw [hfr.head]; exact hnd)
        (by rw [hfr.head]; exact hn)
        (by rw [hfr.len]; exact hlen)
        (fun x hx => by rw [hfr.less]; exact hA x hx)
        (fun x hx => by rw [hfr.less]; exact hB x hx)
        (by rw [hfr.brk]; exact hfuel)
      rw [hfr.head] at hs3 hl3
      rw [hfr.tail] at hl3
      refine ⟨s3, hs3, hfr.trans (hfr3.mono (by omega)), ?_⟩
      intro j hj
      by_cases hjl : j = l
      · subst hjl
        rw [onLane_append, onLane_cons_of_le hle]
        have := NextWrite.linked_splice hlink hnd_lane hn_lane hw1 hw2
        exact hfr3.linked (le_refl _) this
      · exact hl3 j (by omega)
    · have hlt : n.level < l := by omega
      simp only [hle, if_false]
      obtain ⟨s3, hs3, hfr3, hl3⟩ := ih s (fun j hj => hlanes j (by omega)) hval htail hnd hn
        hlen hA hB hfuel
      refine ⟨s3, hs3, hfr3.mono (by omega), ?_⟩
      intro j hj
      by_cases hjl : j = l
      · subst hjl
        have h0 := hlanes j (by omega)
        rw [onLane_append] at h0
        rw [onLane_append, onLane_cons_of_lt hlt]
        exact hfr3.linked (le_refl _) h0
      · exact hl3 j (by omega)

end detail

namespace detail

variable {T K : Type}

theorem new_level_fst (s : sl_impl T K) (g : Nat) :
    (s.new_level g).1 = if g ≥ s.levels then s.levels else g := by
  unfold sl_impl.new_level
  split <;> rfl

theorem new_level_levels (s : sl_impl T K) (g : Nat) :
    (s.new_level g).2.levels = if g ≥ s.levels then s.levels + 1 else s.levels := by
  unfold sl_impl.new_level
  split <;> rfl

theorem new_level_frame (s : sl_impl T K) (g : Nat) :
    (s.new_level g).2.less = s.less ∧ (s.new_level g).2.head = s.head ∧
      (s.new_level g).2.tail = s.tail ∧ (s.new_level g).2.item_count = s.item_count ∧
      (s.new_level g).2.brk = s.brk ∧ (s.new_level g).2.mem = s.mem := by
  unfold sl_impl.new_level
  split <;> exact ⟨rfl, rfl, rfl, rfl, rfl, rfl⟩

theorem new_level_lt (s : sl_impl T K) (g : Nat) :
    (s.new_level g).1 < (s.new_level g).2.levels := by
  rw [new_level_fst, new_level_levels]
  split <;> omega

theorem new_level_le (s : sl_impl T K) (g : Nat) :
    s.levels ≤ (s.new_level g).2.levels := by
  rw [new_level_levels]
  split <;> omega

theorem get_value_congr {s s1 : sl_impl T K} (h : s1.mem = s.mem) (a : Nat) :
    s1.get_value a = s.get_value a := by
  simp [sl_impl.get_value, h]

theorem get_level_congr {s s1 : sl_impl T K} (h : s1.mem = s.mem) (a : Nat) :
    s1.get_level a = s.get_level a := by
  simp [sl_impl.get_level, h]

theorem get_len_congr {s s1 : sl_impl T K} (h : s1.mem = s.mem) (a : Nat) :
    s1.get_len a = s.get_len a := by
  simp [sl_impl.get_len, h]

theorem get_next_congr {s s1 : sl_impl T K} (h : s1.mem = s.mem) (a j : Nat) :
    s1.get_next a j = s.get_next a j := by
  simp [sl_impl.get_next, h]

theorem get_prev_congr {s s1 : sl_impl T K} (h : s1.mem = s.mem) (a : Nat) :
    s1.get_prev a = s.get_prev a := by
  simp [sl_impl.get_prev, h]

theorem Shape.brk_unallocated {P : sl_traits T K} {s : sl_impl T K} {es : List (Item T)}
    (hs : Shape P s es) : s.get_level s.brk = none :=
  hs.above_brk s.brk (le_refl _)

theorem Shape.ne_brk {P : sl_traits T K} {s : sl_impl T K} {es : List (Item T)}
    (hs : Shape P s es) {a : Nat} (ha : s.get_level a ≠ none) : a ≠ s.brk := by
  intro hc
  exact ha (hc ▸ hs.brk_unallocated)

/-- The part of `insert` before the duplicate check: the new node is spliced into
every lane up to its level behind the keys below the new key, and `insert`
continues with the duplicate check on the resulting engine `sg`. -/
theorem insert_front {P : sl_traits T K} {s : sl_impl T K} {A B : List (Item T)} {value : T}
    {g : Nat} (hs : Shape P s (A ++ B))
    (hov : (s.new_level g).2.levels ≤ P.num_levels)
    (hA : ∀ x ∈ A, s.less (P.KeyFromValue x.value) (P.KeyFromValue value) = true)
    (hB : ∀ x ∈ B, s.less (P.KeyFromValue x.value) (P.KeyFromValue value) = false) :
    ∃ sg, Shape P sg (A ++ ⟨s.brk, (s.new_level g).1, value⟩ :: B) ∧ sg.less = s.less ∧
      sg.head = s.head ∧ sg.tail = s.tail ∧ sg.brk = s.brk + 1 ∧
      sg.levels = (s.new_level g).2.levels ∧
      sl_impl.insert P s value 0 g =
        (if (!P.AllowDuplicates && decide ((B.map Item.addr).headD s.tail ≠ sg.tail)) = true then
          match sg.get_value ((B.map Item.addr).headD s.tail) with
          | none => none
          | some nv =>
            if equivalent sg.less (P.KeyFromValue nv) (P.KeyFromValue value) = true then
              match sl_impl.remove P sg s.brk with
              | none => none
              | some sh => some (sh, sh.tail)
            else some (sg, s.brk)
        else some (sg, s.brk)) := by
  obtain ⟨hsa_less, hsa_head, hsa_tail, hsa_count, hsa_brk, hsa_mem⟩ := new_level_frame s g
  have hlev_lt := new_level_lt s g
  have hlev_le := new_level_le s g
  obtain ⟨sc, hsc, hf⟩ := sl_impl.allocate_construct_spec (s.new_level g).2 (s.new_level g).1
    value
  have hnew : ((s.new_level g).2.allocate (s.new_level g).1).1 = s.brk := by
    simp [sl_impl.allocate, hsa_brk]
  rw [hnew] at hsc hf
  -- views of `sc` away from the new node
  have hne_new : ∀ a, s.get_level a ≠ none → a ≠ s.brk := fun a ha => hs.ne_brk ha
  have hc_value : ∀ a, a ≠ s.brk → sc.get_value a = s.get_value a := fun a ha =>
    (hf.value a ha).trans (get_value_congr hsa_mem a)
  have hc_level : ∀ a, a ≠ s.brk → sc.get_level a = s.get_level a := fun a ha =>
    (hf.level a ha).trans (get_level_congr hsa_mem a)
  have hc_len : ∀ a, a ≠ s.brk → sc.get_len a = s.get_len a := fun a ha =>
    (hf.len a ha).trans (get_len_congr hsa_mem a)
  have hc_next : ∀ a j, a ≠ s.brk → sc.get_next a j = s.get_next a j := fun a j ha =>
    (hf.next a j ha).trans (get_next_congr hsa_mem a j)
  have hc_prev : ∀ a, a ≠ s.brk → sc.get_prev a = s.get_prev a := fun a ha =>
    (hf.prev a ha).trans (get_prev_congr hsa_mem a)
  have hc_head : sc.head = s.head := hf.head.trans hsa_head
  have hc_tail : sc.tail = s.tail := hf.tail.trans hsa_tail
  have hc_less : sc.less = s.less := hf.less.trans hsa_less
  have hc_brk : sc.brk = s.brk + 1 := by rw [hf.brk, hsa_brk]
  have hc_levels : sc.levels = (s.new_level g).2.levels := hf.levels
  have hhead_ne : s.head ≠ s.brk := hne_new _ (sl_impl.get_level_of_len hs.head_len)
  have htail_ne : s.tail ≠ s.brk := hne_new _ hs.tail_level
  have hx_ne : ∀ x ∈ A ++ B, x.addr ≠ s.brk := fun x hx =>
    hne_new _ (by rw [(hs.nodes x hx).2.1]; simp)
  have hlane_ne : ∀ j x, x = s.head ∨ x ∈ onLane j (A ++ B) → x ≠ s.brk := by
    intro j x hx
    rcases hx with rfl | hx
    · exact hhead_ne
    · obtain ⟨y, hy, _, rfl⟩ := mem_onLane.mp hx
      exact hx_ne y hy
  have hn_notin : s.brk ∉ s.head :: (A ++ B).map Item.addr := by
    intro hc
    rcases List.mem_cons.mp hc with h | h
    · exact hhead_ne h.symm
    · obtain ⟨x, hx, hxe⟩ := List.mem_map.mp h
      exact hx_ne x hx hxe
  have hgh : sl_impl.good_hint P sc (P.KeyFromValue value) 0 = some false := by
    simp [sl_impl.good_hint, sl_impl.is_valid]
  have hstart : lastD sc.head (onLane sc.levels A) = sc.head := by
    have : onLane sc.levels A = [] :=
      onLane_eq_nil (fun x hx => by
        have := (hs.nodes x (List.mem_append_left _ hx)).2.2.2
        rw [hc_levels]; omega)
    rw [this]; rfl
  obtain ⟨sd, hsd, hfr, hl⟩ := @insert_lanes_spec _ _ P A B
    ⟨s.brk, (s.new_level g).1, value⟩ (P.KeyFromValue value) sc.levels sc
    (fun j hj => by
      rw [hc_head, hc_tail]
      rw [hc_levels] at hj
      exact (hs.lanes j (by omega)).frame (fun x hx => hc_next x j (hlane_ne j x hx)))
    (fun x hx => by rw [hc_value _ (hx_ne x hx)]; exact hs.value hx)
    (fun x hx => by rw [hc_tail]; exact hs.ne_tail hx)
    (by rw [hc_head]; exact hs.nodup_head)
    (by rw [hc_head]; exact hn_notin)
    hf.new_len
    (fun x hx => by rw [hc_less]; exact hA x hx)
    (fun x hx => by rw [hc_less]; exact hB x hx)
    (by
      rw [hc_brk]
      have := hs.length_lt_brk
      simp only [List.length_append] at this
      omega)
  rw [hstart] at hsd
  rw [show lastD sc.head (A.map Item.addr) = lastD s.head (A.map Item.addr) by rw [hc_head]]
    at hsd
  rw [hc_head] at hl
  rw [hc_tail] at hl
  simp only at hsd hl
  have hlev_pos : 0 < sc.levels := by rw [hc_levels]; omega
  have hlane0 := hl 0 hlev_pos
  rw [onLane_zero, List.map_append, List.map_cons] at hlane0
  have hnext : sd.get_next s.brk 0 = some ((B.map Item.addr).headD s.tail) :=
    (Linked_append.mp hlane0).2.2.next_first
  have hd_level_new : sd.get_level s.brk ≠ none := by
    rw [hfr.level, hf.new_level]; simp
  obtain ⟨se, hse, hwe⟩ := sl_impl.set_prev_spec (lastD s.head (A.map Item.addr)) hd_level_new
  have hnext_alloc : se.get_level ((B.map Item.addr).headD s.tail) ≠ none := by
    have h0 := hs.headD_allocated (Y := B) (fun e he => List.mem_append_right _ he)
    rw [hwe.level, hfr.level, hc_level _ (hne_new _ h0)]
    exact h0
  obtain ⟨sf, hsf, hwf⟩ := sl_impl.set_prev_spec s.brk hnext_alloc
  have hg_head : sf.head = s.head := hwf.head.trans (hwe.head.trans (hfr.head.trans hc_head))
  have hg_tail : sf.tail = s.tail := hwf.tail.trans (hwe.tail.trans (hfr.tail.trans hc_tail))
  have hg_less : sf.less = s.less := hwf.less.trans (hwe.less.trans (hfr.less.trans hc_less))
  have hg_brk : sf.brk = s.brk + 1 := by rw [hwf.brk, hwe.brk, hfr.brk, hc_brk]
  have hg_levels : sf.levels = (s.new_level g).2.levels := by
    rw [hwf.levels, hwe.levels, hfr.levels, hc_levels]
  have hg_value : ∀ a, sf.get_value a = sc.get_value a := fun a =>
    (hwf.value a).trans ((hwe.value a).trans (hfr.value a))
  have hg_level : ∀ a, sf.get_level a = sc.get_level a := fun a =>
    (hwf.level a).trans ((hwe.level a).trans (hfr.level a))
  have hg_len : ∀ a, sf.get_len a = sc.get_len a := fun a =>
    (hwf.len a).trans ((hwe.len a).trans (hfr.len a))
  have hg_next : ∀ a j, sf.get_next a j = sd.get_next a j := fun a j =>
    (hwf.next a j).trans (hwe.next a j)
  refine ⟨{ sf with item_count := sf.item_count + 1 }, ?_, hg_less, hg_head, hg_tail, hg_brk,
    hg_levels, ?_⟩
  · constructor
    · show sf.get_level 0 = none
      have h0 : (0 : Nat) ≠ s.brk := by
        have := hs.length_lt_brk
        omega
      rw [hg_level, hc_level _ h0]
      exact hs.null_free
    · intro a ha
      show sf.get_level a = none
      have ha1 : s.brk + 1 ≤ a := by
        have : ({ sf with item_count := sf.item_count + 1 } : sl_impl T K).brk = sf.brk := rfl
        rw [this, hg_brk] at ha
        exact ha
      rw [hg_level, hc_level _ (by omega)]
      exact hs.above_brk a (by omega)
    · show sf.head ≠ sf.tail
      rw [hg_head, hg_tail]; exact hs.head_ne_tail
    · show sf.get_len sf.head = _
      rw [hg_head, hg_len, hc_len _ hhead_ne]; exact hs.head_len
    · show sf.get_next sf.head P.num_levels = _
      rw [hg_head, hg_next, hfr.next _ _ (by rw [hc_levels]; exact hov), hc_next _ _ hhead_ne]
      exact hs.head_top
    · show sf.get_value sf.head = none
      rw [hg_head, hg_value, hc_value _ hhead_ne]; exact hs.head_value
    · show sf.get_level sf.tail ≠ none
      rw [hg_tail, hg_level, hc_level _ htail_ne]; exact hs.tail_level
    · show sf.get_value sf.tail = none
      rw [hg_tail, hg_value, hc_value _ htail_ne]; exact hs.tail_value
    · rw [List.map_append, List.map_cons]
      have hnd := hs.nodup
      rw [List.map_append] at hnd
      have hnA : s.brk ∉ A.map Item.addr := fun hc =>
        hn_notin (List.mem_cons_of_mem _ (by rw [List.map_append]; exact List.mem_append_left _ hc))
      have hnB : s.brk ∉ B.map Item.addr := fun hc =>
        hn_notin (List.mem_cons_of_mem _ (by rw [List.map_append]; exact List.mem_append_right _ hc))
      rw [List.nodup_append] at hnd ⊢
      refine ⟨hnd.1, List.nodup_cons.mpr ⟨hnB, hnd.2.1⟩, ?_⟩
      intro a ha hb
      rcases List.mem_cons.mp hb with h | h
      · have h1 : a = s.brk := h
        exact hnA (h1 ▸ ha)
      · exact hnd.2.2 ha h
    · show sf.head ∉ _
      rw [hg_head, List.map_append, List.map_cons]
      intro hc
      rcases List.mem_append.mp hc with h | h
      · exact hs.head_notin (by rw [List.map_append]; exact List.mem_append_left _ h)
      · rcases List.mem_cons.mp h with h | h
        · exact hhead_ne h
        · exact hs.head_notin (by rw [List.map_append]; exact List.mem_append_right _ h)
    · show sf.tail ∉ _
      rw [hg_tail, List.map_append, List.map_cons]
      intro hc
      rcases List.mem_append.mp hc with h | h
      · exact hs.tail_notin (by rw [List.map_append]; exact List.mem_append_left _ h)
      · rcases List.mem_cons.mp h with h | h
        · exact htail_ne h
        · exact hs.tail_notin (by rw [List.map_append]; exact List.mem_append_right _ h)
    · intro x hx
      have hcases : x = ⟨s.brk, (s.new_level g).1, value⟩ ∨ x ∈ A ++ B := by
        rcases List.mem_append.mp hx with h | h
        · exact Or.inr (List.mem_append_left _ h)
        · rcases List.mem_cons.mp h with h | h
          · exact Or.inl h
          · exact Or.inr (List.mem_append_right _ h)
      rcases hcases with rfl | hx1
      · refine ⟨?_, ?_, ?_, ?_⟩
        · show sf.get_value s.brk = _
          rw [hg_value]; exact hf.new_value
        · show sf.get_level s.brk = _
          rw [hg_level]; exact hf.new_level
        · show sf.get_len s.brk = _
          rw [hg_len]; exact hf.new_len
        · show (s.new_level g).1 < sf.levels
          rw [hg_levels]; exact hlev_lt
      · have h0 := hs.nodes x hx1
        have hne := hx_ne x hx1
        refine ⟨?_, ?_, ?_, ?_⟩
        · show sf.get_value x.addr = _
          rw [hg_value, hc_value _ hne]; exact h0.1
        · show sf.get_level x.addr = _
          rw [hg_level, hc_level _ hne]; exact h0.2.1
        · show sf.get_len x.addr = _
          rw [hg_len, hc_len _ hne]; exact h0.2.2.1
        · show x.level < sf.levels
          rw [hg_levels]; omega
    · show sf.levels ≤ _
      rw [hg_levels]; exact hov
    · exact hs.levels_pos
    · intro j hj
      refine Linked.frame (s := sd) ?_ (fun x _ => hg_next x j)
      show Linked sd j sf.head _ sf.tail
      rw [hg_head, hg_tail]
      by_cases hjl : j < sc.levels
      · exact hl j hjl
      · have h0 := hs.lanes j hj
        have hnil1 : onLane j (A ++ B) = [] :=
          onLane_eq_nil (fun x hx => by
            have := (hs.nodes x hx).2.2.2
            rw [hc_levels] at hjl; omega)
        have hnil2 : onLane j (A ++ ⟨s.brk, (s.new_level g).1, value⟩ :: B) = [] := by
          rw [onLane_append, onLane_cons_of_lt (by rw [hc_levels] at hjl; simp only; omega),
            ← onLane_append]
          exact hnil1
        rw [hnil1] at h0
        rw [hnil2]
        have h1 : Linked sc j s.head [] s.tail :=
          h0.frame (fun x hx => hc_next x j (by
            rcases hx with rfl | hx
            · exact hhead_ne
            · simp at hx))
        exact hfr.linked (by omega) h1
    · refine BackLinked.frame_prev (s := sf) ?_ (fun _ _ => rfl)
      show BackLinked sf sf.head _ sf.tail
      rw [hg_head, hg_tail, List.map_append, List.map_cons]
      have h0 := hs.back
      rw [List.map_append] at h0
      have hndt : (A.map Item.addr ++ B.map Item.addr ++ [s.tail]).Nodup := by
        have := hs.nodup_tail
        simpa using this
      have hnt : s.brk ∉ A.map Item.addr ++ B.map Item.addr ++ [s.tail] := by
        intro hc
        rcases List.mem_append.mp hc with h | h
        · exact hn_notin (List.mem_cons_of_mem _ (by rw [List.map_append]; exact h))
        · exact htail_ne (List.mem_singleton.mp h).symm
      have hd : BackLinked sd s.head (A.map Item.addr ++ B.map Item.addr) s.tail := by
        apply h0.frame_prev
        intro x hx
        rw [hfr.prev]
        apply hc_prev
        rcases hx with rfl | hx
        · exact htail_ne
        · intro hc
          exact hn_notin (List.mem_cons_of_mem _ (by rw [List.map_append, ← hc]; exact hx))
      exact PrevWrite.backLinked_splice hd hndt hnt hwe hwf
    · show sf.item_count + 1 = _
      rw [hwf.item_count, hwe.item_count, hfr.item_count, hf.item_count, hsa_count, hs.count]
      simp only [List.length_append, List.length_cons]
      omega
  · unfold sl_impl.insert
    simp only [hnew, hsc, hgh, hsd, hnext, hse, hsf, Bool.false_eq_true, if_false]

end detail

namespace detail

variable {T K : Type}

/-! ## Reading the list back -/

theorem values_from_spec {P : sl_traits T K} {s : sl_impl T K} (Y : List (Item T)) :
    ∀ (X : List (Item T)) (fuel : Nat), Shape P s (X ++ Y) → Y.length < fuel →
      sl_impl.values_from s fuel ((Y.map Item.addr).headD s.tail)
        = some (Y.map Item.value) := by
  induction Y with
  | nil =>
    intro X fuel _ hfuel
    cases fuel with
    | zero => simp at hfuel
    | succ fuel => simp [sl_impl.values_from]
  | cons y Y ih =>
    intro X fuel hs hfuel
    cases fuel with
    | zero => simp at hfuel
    | succ fuel =>
      have hy : y ∈ X ++ y :: Y := by simp
      have hs1 : Shape P s ((X ++ [y]) ++ Y) := by
        have : X ++ y :: Y = (X ++ [y]) ++ Y := by simp
        rwa [this] at hs
      have hnext := hs1.next0
      rw [List.map_append, List.map_cons, List.map_nil, lastD_concat] at hnext
      unfold sl_impl.values_from
      simp only [List.map_cons, List.headD_cons, hs.ne_tail hy, if_false, hs.value hy, hnext]
      rw [ih (X ++ [y]) fuel hs1 (by simpa using hfuel)]

/-- Iterating over an engine reads the values of its nodes in order. -/
theorem Shape.lane0_eq {P : sl_traits T K} {s : sl_impl T K} {es : List (Item T)}
    (hs : Shape P s es) : s.lane0 = some (es.map Item.value) := by
  have hs1 : Shape P s ([] ++ es) := by simpa using hs
  have hfront := hs1.next0
  simp only [List.map_nil, lastD_nil] at hfront
  unfold sl_impl.lane0 sl_impl.front
  rw [hfront]
  exact values_from_spec es [] s.brk hs1 (by have := hs.length_lt_brk; omega)

/-! ## `insert` on an engine satisfying the invariant -/

theorem Inv.below_key {P : sl_traits T K} {s : sl_impl T K} {es : List (Item T)}
    (_h : Inv P s es) (key : K) :
    ∀ x ∈ es.takeWhile (fun e => s.less (P.KeyFromValue e.value) key),
      s.less (P.KeyFromValue x.value) key = true :=
  fun x hx => takeWhile_all_true x hx

theorem Inv.not_below_key {P : sl_traits T K} {s : sl_impl T K} {es : List (Item T)}
    (h : Inv P s es) (hswo : StrictWeakOrder s.less) (key : K) :
    ∀ x ∈ es.dropWhile (fun e => s.less (P.KeyFromValue e.value) key),
      s.less (P.KeyFromValue x.value) key = false :=
  dropWhile_all_false h.sorted (fun _ _ hab hb => ordered_lt_mono hswo hab hb)

theorem Inv.shape_cut {P : sl_traits T K} {s : sl_impl T K} {es : List (Item T)}
    (h : Inv P s es) (p : Item T → Bool) : Shape P s (es.takeWhile p ++ es.dropWhile p) := by
  rw [List.takeWhile_append_dropWhile]
  exact h.shape

/-- An accepted insertion: the new node is spliced in behind the keys below its
key. The value is accepted when duplicates are allowed or no stored key is
equivalent to the new one. -/
theorem insert_accept {P : sl_traits T K} {s : sl_impl T K} {es : List (Item T)} {value : T}
    {g : Nat} (hinv : Inv P s es) (hswo : StrictWeakOrder s.less)
    (hov : (s.new_level g).2.levels ≤ P.num_levels)
    (hacc : P.AllowDuplicates = true ∨
      ∀ e ∈ es, equivalent s.less (P.KeyFromValue e.value) (P.KeyFromValue value) = false) :
    ∃ s1, sl_impl.insert P s value 0 g = some (s1, s.brk) ∧
      Inv P s1 (es.takeWhile (fun e => s.less (P.KeyFromValue e.value) (P.KeyFromValue value))
        ++ ⟨s.brk, (s.new_level g).1, value⟩ ::
          es.dropWhile (fun e => s.less (P.KeyFromValue e.value) (P.KeyFromValue value))) ∧
      s1.less = s.less ∧ s1.head = s.head ∧ s1.tail = s.tail ∧ s1.brk = s.brk + 1 ∧
      s1.levels = (s.new_level g).2.levels := by
  have hA := hinv.below_key (P.KeyFromValue value)
  have hB := hinv.not_below_key hswo (P.KeyFromValue value)
  obtain ⟨sg, hshape, hless, hhead, htail, hbrk, hlevels, hins⟩ :=
    insert_front (hinv.shape_cut _) hov hA hB
  have hBm : ∀ x ∈ es.dropWhile (fun e => s.less (P.KeyFromValue e.value) (P.KeyFromValue value)),
      x ∈ es := fun x hx => (List.dropWhile_sublist _).subset hx
  have hAm : ∀ x ∈ es.takeWhile (fun e => s.less (P.KeyFromValue e.value) (P.KeyFromValue value)),
      x ∈ es := fun x hx => (List.takeWhile_sublist _).subset hx
  refine ⟨sg, ?_, ⟨hshape, ?_⟩, hless, hhead, htail, hbrk, hlevels⟩
  · rw [hins]
    rcases hacc with hd | hne
    · simp [hd]
    · cases hB1 : es.dropWhile
          (fun e => s.less (P.KeyFromValue e.value) (P.KeyFromValue value)) with
      | nil => simp [htail]
      | cons b B =>
        have hb : b ∈ es.dropWhile
            (fun e => s.less (P.KeyFromValue e.value) (P.KeyFromValue value)) := by
          rw [hB1]; exact List.mem_cons_self _ _
        rw [hB1] at hshape
        have hbv : sg.get_value b.addr = some b.value :=
          hshape.value (List.mem_append_right _ (List.mem_cons_of_mem _ (List.mem_cons_self _ _)))
        simp only [List.map_cons, List.headD_cons, hbv, hless, hne b (hBm b hb)]
        simp
  · rw [hless]
    have hsorted := hinv.sorted
    rw [← List.takeWhile_append_dropWhile
      (fun e => s.less (P.KeyFromValue e.value) (P.KeyFromValue value)) es] at hsorted
    rw [List.pairwise_append] at hsorted ⊢
    refine ⟨hsorted.1, List.pairwise_cons.mpr ⟨?_, hsorted.2.1⟩, ?_⟩
    · intro b hb
      show ordered P.AllowDuplicates s.less (P.KeyFromValue value) (P.KeyFromValue b.value)
      have hb1 := hB b hb
      unfold ordered
      cases hd : P.AllowDuplicates with
      | true => simpa using hb1
      | false =>
        rcases hacc with hd1 | hne
        · rw [hd] at hd1; cases hd1
        · have h2 := hne b (hBm b hb)
          simp only [equivalent, hb1, Bool.not_false, Bool.true_and, Bool.not_eq_false'] at h2
          simpa using h2
    · intro a ha b hb
      rcases List.mem_cons.mp hb with rfl | hb
      · show ordered P.AllowDuplicates s.less (P.KeyFromValue a.value) (P.KeyFromValue value)
        have ha1 := hA a ha
        unfold ordered
        cases hd : P.AllowDuplicates with
        | true => simpa using hswo.asymm ha1
        | false => simpa using ha1
      · exact hsorted.2.2 a ha b hb

/-- A rejected insertion: without duplicates a value whose key is equivalent to a
stored key leaves the list of nodes as it was and returns `tail`. -/
theorem insert_reject {P : sl_traits T K} {s : sl_impl T K} {es : List (Item T)} {value : T}
    {g : Nat} (hinv : Inv P s es) (hswo : StrictWeakOrder s.less)
    (hov : (s.new_level g).2.levels ≤ P.num_levels) (hdup : P.AllowDuplicates = false)
    (hex : ∃ e ∈ es, equivalent s.less (P.KeyFromValue e.value) (P.KeyFromValue value) = true) :
    ∃ s1, sl_impl.insert P s value 0 g = some (s1, s1.tail) ∧ Inv P s1 es ∧
      s1.less = s.less ∧ s1.head = s.head ∧ s1.tail = s.tail ∧ s1.brk = s.brk + 1 ∧
      s1.levels = (s.new_level g).2.levels := by
  have hA := hinv.below_key (P.KeyFromValue value)
  have hB := hinv.not_below_key hswo (P.KeyFromValue value)
  obtain ⟨sg, hshape, hless, hhead, htail, hbrk, hlevels, hins⟩ :=
    insert_front (hinv.shape_cut _) hov hA hB
  obtain ⟨e, he, heq⟩ := hex
  have hsplit := List.takeWhile_append_dropWhile
    (fun e => s.less (P.KeyFromValue e.value) (P.KeyFromValue value)) es
  have he_drop : e ∈ es.dropWhile
      (fun e => s.less (P.KeyFromValue e.value) (P.KeyFromValue value)) := by
    rw [← hsplit] at he
    rcases List.mem_append.mp he with h | h
    · have := hA e h
      rw [not_lt_of_equivalent heq] at this
      cases this
    · exact h
  cases hB1 : es.dropWhile
      (fun e => s.less (P.KeyFromValue e.value) (P.KeyFromValue value)) with
  | nil => rw [hB1] at he_drop; cases he_drop
  | cons b B =>
    rw [hB1] at hshape hB hins he_drop
    have hb_eq : equivalent s.less (P.KeyFromValue b.value) (P.KeyFromValue value) = true := by
      rcases List.mem_cons.mp he_drop with rfl | heB
      · exact heq
      · have hsorted : (b :: B).Pairwise (fun a b => ordered P.AllowDuplicates s.less
            (P.KeyFromValue a.value) (P.KeyFromValue b.value)) := by
          rw [← hB1]
          exact hinv.sorted.sublist (List.dropWhile_sublist _)
        have hbe := (List.pairwise_cons.mp hsorted).1 e heB
        simp only [ordered, hdup, Bool.false_eq_true, if_false] at hbe
        have h1 := hB b (List.mem_cons_self _ _)
        have h2 : s.less (P.KeyFromValue value) (P.KeyFromValue b.value) = false := by
          cases h3 : s.less (P.KeyFromValue value) (P.KeyFromValue b.value) with
          | false => rfl
          | true =>
            have := hswo.trans _ _ _ h3 hbe
            rw [not_gt_of_equivalent heq] at this
            cases this
        simp [equivalent, h1, h2]
    have hbm : b ∈ es.takeWhile
        (fun e => s.less (P.KeyFromValue e.value) (P.KeyFromValue value))
        ++ ⟨s.brk, (s.new_level g).1, value⟩ :: b :: B := by simp
    have hrem := remove_spec (e := ⟨s.brk, (s.new_level g).1, value⟩) hshape hdup
      (fun x hx => by rw [hless]; exact hA x hx)
      (fun x hx => by
        rw [hless]
        rcases List.mem_cons.mp hx with rfl | hx
        · exact hswo.irrefl _
        · exact hB x hx)
    obtain ⟨sh, hsh, hshape2, hless2, hlevels2, hhead2, htail2, hbrk2⟩ := hrem
    simp only at hsh
    refine ⟨sh, ?_, ⟨?_, ?_⟩, hless2.trans hless, hhead2.trans hhead, htail2.trans htail,
      hbrk2.trans hbrk, hlevels2.trans hlevels⟩
    · rw [hins]
      have hne : b.addr ≠ sg.tail := hshape.ne_tail hbm
      simp only [List.map_cons, List.headD_cons, hdup, Bool.not_false, Bool.true_and,
        decide_eq_true_eq, ne_eq, hne, not_false_eq_true, if_true, hshape.value hbm, hless, hb_eq,
        hsh]
    · rw [← hB1, hsplit] at hshape2
      exact hshape2
    · rw [hless2, hless]
      exact hinv.sorted

end detail

namespace detail

variable {T K : Type}

/-! ## The constructor -/

theorem init_lanes_spec (count : Nat) :
    ∀ (n : Nat) (s : sl_impl T K) (k1 k2 : Nat), s.get_len s.head = some k1 →
      s.get_len s.tail = some k2 → n + count ≤ k1 → n + count ≤ k2 → s.head ≠ s.tail →
      ∃ s1, sl_impl.init_lanes count n s = some s1 ∧ LaneFrame (n + count) s s1 ∧
        (∀ a j, j < n → s1.get_next a j = s.get_next a j) ∧
        (∀ j, n ≤ j → j < n + count → s1.get_next s.head j = some s.tail) := by
  induction count with
  | zero =>
    intro n s k1 k2 _ _ _ _ _
    exact ⟨s, rfl, LaneFrame.refl _ s, fun _ _ _ => rfl, fun j h1 h2 => absurd h2 (by omega)⟩
  | succ count ih =>
    intro n s k1 k2 hk1 hk2 hn1 hn2 hne
    obtain ⟨s1, hs1, hw1⟩ := sl_impl.set_next_spec (s := s) (p := s.head) (l := n) s.tail hk1
      (by omega)
    obtain ⟨s2, hs2, hw2⟩ := sl_impl.set_next_spec (s := s1) (p := s1.tail) (l := n) 0
      (k := k2) (by rw [hw1.frame.tail, hw1.frame.len]; exact hk2) (by omega)
    have hfr : LaneFrame (n + 1) s s2 := hw1.frame.trans hw2.frame
    obtain ⟨s3, hs3, hfr3, hlow, hset⟩ := ih (n + 1) s2 k1 k2
      (by rw [hfr.head, hfr.len]; exact hk1) (by rw [hfr.tail, hfr.len]; exact hk2)
      (by omega) (by omega) (by rw [hfr.head, hfr.tail]; exact hne)
    refine ⟨s3, ?_, ?_, ?_, ?_⟩
    · unfold sl_impl.init_lanes
      simp only [hs1, hs2, hs3]
    · have : n + (count + 1) = n + 1 + count := by omega
      rw [this]
      exact (hfr.mono (by omega)).trans hfr3
    · intro a j hj
      rw [hlow a j (by omega), hw2.next, hw1.next]
      have h1 : ¬ (a = s1.tail ∧ j = n) := by omega
      have h2 : ¬ (a = s.head ∧ j = n) := by omega
      simp [h1, h2]
    · intro j hj1 hj2
      rw [hfr.head] at hset
      rw [hfr.tail] at hset
      by_cases hjn : j = n
      · subst hjn
        rw [hlow s.head j (by omega), hw2.next, hw1.next]
        have h1 : ¬ s.head = s1.tail := by
          rw [hw1.frame.tail]
          exact hne
        simp [h1]
      · exact hset j (by omega) (by omega)

/-- The constructor yields an engine that satisfies the invariant with no
nodes: `head` is node 1, `tail` is node 2. -/
theorem create_spec (P : sl_traits T K) (less : K → K → Bool) (hN : 0 < P.num_levels) :
    ∃ s, sl_impl.create P less = some s ∧ Inv P s [] ∧ s.less = less ∧ s.head = 1 ∧
      s.tail = 2 ∧ s.brk = 3 ∧ s.levels = 0 ∧ s.item_count = 0 := by
  let node0 : sl_node T :=
    { value := none, level := P.num_levels, prev := 0,
      next := List.replicate (P.num_levels + 1) 0 }
  let s3 : sl_impl T K :=
    { less := less, levels := 0, head := 1, tail := 2, item_count := 0,
      mem := Function.update (Function.update (fun _ => none) 1 (some node0)) 2 (some node0),
      brk := 3 }
  have hmem1 : s3.mem 1 = some node0 := by simp [s3, Function.update]
  have hmem2 : s3.mem 2 = some node0 := by simp [s3, Function.update]
  have hmem_other : ∀ a, a ≠ 1 → a ≠ 2 → s3.mem a = none := by
    intro a h1 h2
    simp [s3, Function.update, h1, h2]
  have hlen1 : s3.get_len s3.head = some (P.num_levels + 1) := by
    show s3.get_len 1 = _
    simp [sl_impl.get_len, hmem1, node0]
  have hlen2 : s3.get_len s3.tail = some (P.num_levels + 1) := by
    show s3.get_len 2 = _
    simp [sl_impl.get_len, hmem2, node0]
  obtain ⟨s4, hs4, hfr4, _, hset4⟩ := init_lanes_spec P.num_levels 0 s3 _ _ hlen1 hlen2
    (by omega) (by omega) (by show (1 : Nat) ≠ 2; omega)
  rw [Nat.zero_add] at hfr4
  have h4_head : s4.head = 1 := hfr4.head
  have h4_tail : s4.tail = 2 := hfr4.tail
  have h4_lvl1 : s4.get_level 1 ≠ none := by
    rw [hfr4.level]
    simp [sl_impl.get_level, hmem1]
  obtain ⟨s5, hs5, hw5⟩ := sl_impl.set_prev_spec (s := s4) (p := 1) 0 h4_lvl1
  have h5_lvl2 : s5.get_level 2 ≠ none := by
    rw [hw5.level, hfr4.level]
    simp [sl_impl.get_level, hmem2]
  obtain ⟨s6, hs6, hw6⟩ := sl_impl.set_prev_spec (s := s5) (p := 2) 1 h5_lvl2
  have h6_value : ∀ a, s6.get_value a = s3.get_value a := fun a =>
    (hw6.value a).trans ((hw5.value a).trans (hfr4.value a))
  have h6_level : ∀ a, s6.get_level a = s3.get_level a := fun a =>
    (hw6.level a).trans ((hw5.level a).trans (hfr4.level a))
  have h6_len : ∀ a, s6.get_len a = s3.get_len a := fun a =>
    (hw6.len a).trans ((hw5.len a).trans (hfr4.len a))
  have h6_next : ∀ a j, s6.get_next a j = s4.get_next a j := fun a j =>
    (hw6.next a j).trans (hw5.next a j)
  have h6_head : s6.head = 1 := hw6.head.trans (hw5.head.trans h4_head)
  have h6_tail : s6.tail = 2 := hw6.tail.trans (hw5.tail.trans h4_tail)
  refine ⟨s6, ?_, ⟨?_, List.Pairwise.nil⟩, ?_, h6_head, h6_tail, ?_, ?_, ?_⟩
  · show (match sl_impl.init_lanes P.num_levels 0 s3 with
      | none => none
      | some s4 =>
        match s4.set_prev s4.head 0 with
        | none => none
        | some s5 => s5.set_prev s5.tail s5.head) = some s6
    rw [hs4]
    simp only [h4_head, hs5]
    rw [show s5.tail = 2 from hw5.tail.trans h4_tail, show s5.head = 1 from hw5.head.trans h4_head]
    exact hs6
  · constructor
    · rw [h6_level]
      have := hmem_other 0 (by omega) (by omega)
      unfold sl_impl.get_level
      rw [this]
    · intro a ha
      have hb : s6.brk = 3 := hw6.brk.trans (hw5.brk.trans hfr4.brk)
      rw [hb] at ha
      rw [h6_level]
      have := hmem_other a (by omega) (by omega)
      unfold sl_impl.get_level
      rw [this]
    · rw [h6_head, h6_tail]; omega
    · rw [h6_head, h6_len]
      exact hlen1
    · rw [h6_head, h6_next, hfr4.next _ _ (le_refl _)]
      simp [sl_impl.get_next, hmem1, node0]
    · rw [h6_head, h6_value]
      simp [sl_impl.get_value, hmem1, node0]
    · rw [h6_tail, h6_level]
      simp [sl_impl.get_level, hmem2]
    · rw [h6_tail, h6_value]
      simp [sl_impl.get_value, hmem2, node0]
    · exact List.nodup_nil
    · simp
    · simp
    · intro e he
      cases he
    · have : s6.levels = 0 := hw6.levels.trans (hw5.levels.trans hfr4.levels)
      omega
    · exact hN
    · intro l hl
      show s6.get_next s6.head l = some s6.tail
      rw [h6_head, h6_tail, h6_next]
      exact hset4 l (by omega) (by omega)
    · show s6.get_prev s6.tail = some s6.head
      rw [h6_head, h6_tail, hw6.prev]
      simp
    · show s6.item_count = 0
      exact hw6.item_count.trans (hw5.item_count.trans hfr4.item_count)
  · exact hw6.less.trans (hw5.less.trans hfr4.less)
  · exact hw6.brk.trans (hw5.brk.trans hfr4.brk)
  · exact hw6.levels.trans (hw5.levels.trans hfr4.levels)
  · exact hw6.item_count.trans (hw5.item_count.trans hfr4.item_count)

end detail

namespace detail

variable {T K : Type}

/-! ## Looking a key up and erasing it -/

theorem takeWhile_dropWhile_of_cut {α : Type} (p : α → Bool) {A B : List α}
    (hA : ∀ a ∈ A, p a = true) (hB : ∀ b ∈ B, p b = false) :
    (A ++ B).takeWhile p = A ∧ (A ++ B).dropWhile p = B := by
  induction A with
  | nil =>
    cases B with
    | nil => exact ⟨rfl, rfl⟩
    | cons b B =>
      have hb : p b = false := hB b (List.mem_cons_self _ _)
      simp [List.takeWhile_cons, List.dropWhile_cons, hb]
  | cons a A ih =>
    have ha : p a = true := hA a (List.mem_cons_self _ _)
    obtain ⟨h1, h2⟩ := ih (fun x hx => hA x (List.mem_cons_of_mem _ hx))
    simp [List.takeWhile_cons, List.dropWhile_cons, ha, h1, h2]

/-- Keys around a node of a list without duplicates: the keys before it are
below its key, the keys behind it are above. -/
theorem Inv.around {P : sl_traits T K} {s : sl_impl T K} {X Y : List (Item T)} {e : Item T}
    (hinv : Inv P s (X ++ e :: Y)) (hdup : P.AllowDuplicates = false) :
    (∀ x ∈ X, s.less (P.KeyFromValue x.value) (P.KeyFromValue e.value) = true) ∧
      (∀ y ∈ Y, s.less (P.KeyFromValue e.value) (P.KeyFromValue y.value) = true) := by
  have hsorted := hinv.sorted
  rw [List.pairwise_append] at hsorted
  constructor
  · intro x hx
    have := hsorted.2.2 x hx e (List.mem_cons_self _ _)
    simpa [ordered, hdup] using this
  · intro y hy
    have := (List.pairwise_cons.mp hsorted.2.1).1 y hy
    simpa [ordered, hdup] using this

/-- Keys around a node equivalent to `key`, in a list without duplicates. -/
theorem Inv.around_key {P : sl_traits T K} {s : sl_impl T K} {X Y : List (Item T)} {e : Item T}
    (hinv : Inv P s (X ++ e :: Y)) (hswo : StrictWeakOrder s.less)
    (hdup : P.AllowDuplicates = false) {key : K}
    (heq : equivalent s.less (P.KeyFromValue e.value) key = true) :
    (∀ x ∈ X, s.less (P.KeyFromValue x.value) key = true) ∧
      (∀ y ∈ Y, s.less key (P.KeyFromValue y.value) = true) := by
  obtain ⟨hX, hY⟩ := hinv.around hdup
  constructor
  · intro x hx
    exact hswo.lt_of_lt_of_not_lt (hX x hx) (not_gt_of_equivalent heq)
  · intro y hy
    exact hswo.lt_of_not_lt_of_lt (not_lt_of_equivalent heq) (hY y hy)

/-- When a node is equivalent to `key` in a list without duplicates, the
engine-level `find` returns it. -/
theorem find_hit {P : sl_traits T K} {s : sl_impl T K} {X Y : List (Item T)} {e : Item T}
    (hinv : Inv P s (X ++ e :: Y)) (hswo : StrictWeakOrder s.less)
    (hdup : P.AllowDuplicates = false) {key : K}
    (heq : equivalent s.less (P.KeyFromValue e.value) key = true) :
    sl_impl.find P s key = some e.addr := by
  obtain ⟨hX, hY⟩ := hinv.around_key hswo hdup heq
  have hs1 : Shape P s ((X ++ [e]) ++ Y) := by
    have : X ++ e :: Y = (X ++ [e]) ++ Y := by simp
    rw [← this]
    exact hinv.shape
  have := @find_spec _ _ _ _ _ _ key hs1
    (by
      intro x hx
      rcases List.mem_append.mp hx with h | h
      · simp [less_or_equal, hswo.asymm (hX x h)]
      · rw [List.mem_singleton] at h
        subst h
        simp [less_or_equal, not_gt_of_equivalent heq])
    (by
      intro y hy
      simp [less_or_equal, hY y hy])
  rw [this, List.map_append, List.map_cons, List.map_nil, lastD_concat]

/-- When no node is equivalent to `key`, the engine-level `find` returns `head`
or a node whose key is not equivalent to `key`. -/
theorem find_miss {P : sl_traits T K} {s : sl_impl T K} {es : List (Item T)}
    (hinv : Inv P s es) (hswo : StrictWeakOrder s.less) {key : K}
    (hne : ∀ e ∈ es, equivalent s.less (P.KeyFromValue e.value) key = false) :
    ∃ node, sl_impl.find P s key = some node ∧
      (s.is_valid node = false ∨
        (s.is_valid node = true ∧ ∃ v, s.get_value node = some v ∧
          equivalent s.less (P.KeyFromValue v) key = false)) := by
  obtain ⟨A1, A2, B, hes, h1, h2, h3, _⟩ := sorted_cut hswo P.KeyFromValue hinv.sorted key
  have hA2 : A2 = [] := by
    cases A2 with
    | nil => rfl
    | cons a A2 =>
      have ha : a ∈ es := by rw [hes]; simp
      have := hne a ha
      rw [h2 a (List.mem_cons_self _ _)] at this
      cases this
  subst hA2
  rw [List.append_nil] at hes
  have hs : Shape P s (A1 ++ B) := hes ▸ hinv.shape
  have hfind := @find_spec _ _ _ _ _ _ key hs
    (fun x hx => by simp [less_or_equal, hswo.asymm (h1 x hx)])
    (fun y hy => by simp [less_or_equal, h3 y hy])
  refine ⟨_, hfind, ?_⟩
  rcases lastD_map_cases s.head A1 with ⟨_, hX⟩ | ⟨x, hx, hX⟩
  · left
    rw [hX]
    exact hs.is_valid_head
  · right
    have hxm : x ∈ A1 ++ B := List.mem_append_left _ hx
    rw [hX]
    exact ⟨hs.is_valid hxm, x.value, hs.value hxm, hne x (hes ▸ hxm)⟩

/-- Erasing a key that is present, without duplicates. -/
theorem erase_hit {P : sl_traits T K} {s : sl_impl T K} {X Y : List (Item T)} {e : Item T}
    (hinv : Inv P s (X ++ e :: Y)) (hswo : StrictWeakOrder s.less)
    (hdup : P.AllowDuplicates = false) {key : K}
    (heq : equivalent s.less (P.KeyFromValue e.value) key = true) :
    ∃ s1, sl_impl.erase P s key = some (s1, 1) ∧ Inv P s1 (X ++ Y) ∧ s1.less = s.less ∧
      s1.levels = s.levels ∧ s1.head = s.head ∧ s1.tail = s.tail ∧ s1.brk = s.brk := by
  obtain ⟨hX, hY⟩ := hinv.around hdup
  have he : e ∈ X ++ e :: Y := by simp
  obtain ⟨s1, hs1, hshape, hless, hlevels, hhead, htail, hbrk⟩ :=
    remove_spec hinv.shape hdup hX (by
      intro x hx
      rcases List.mem_cons.mp hx with rfl | hx
      · exact hswo.irrefl _
      · exact hswo.asymm (hY x hx))
  refine ⟨s1, ?_, ⟨hshape, ?_⟩, hless, hlevels, hhead, htail, hbrk⟩
  · unfold sl_impl.erase
    rw [find_hit hinv hswo hdup heq]
    simp only [hinv.shape.is_valid he, if_true, hinv.shape.value he, heq, hs1]
  · rw [hless]
    have hsorted := hinv.sorted
    exact hsorted.sublist
      (List.Sublist.append (List.Sublist.refl _) (List.sublist_cons_self _ _))

/-- Erasing a key that is absent changes nothing. -/
theorem erase_miss {P : sl_traits T K} {s : sl_impl T K} {es : List (Item T)}
    (hinv : Inv P s es) (hswo : StrictWeakOrder s.less) {key : K}
    (hne : ∀ e ∈ es, equivalent s.less (P.KeyFromValue e.value) key = false) :
    sl_impl.erase P s key = some (s, 0) := by
  obtain ⟨node, hfind, hcase⟩ := find_miss hinv hswo hne
  unfold sl_impl.erase
  rw [hfind]
  rcases hcase with hv | ⟨hv, v, hval, hneq⟩
  · simp [hv]
  · simp [hv, hval, hneq]

/-- After a node was taken out of a list without duplicates no key is
equivalent to its key. -/
theorem Inv.absent_after {P : sl_traits T K} {s : sl_impl T K} {X Y : List (Item T)}
    {e : Item T} (hinv : Inv P s (X ++ e :: Y)) (hswo : StrictWeakOrder s.less)
    (hdup : P.AllowDuplicates = false) {key : K}
    (heq : equivalent s.less (P.KeyFromValue e.value) key = true) :
    ∀ x ∈ X ++ Y, equivalent s.less (P.KeyFromValue x.value) key = false := by
  obtain ⟨hX, hY⟩ := hinv.around_key hswo hdup heq
  intro x hx
  rcases List.mem_append.mp hx with h | h
  · exact equivalent_eq_false_of_lt (hX x h)
  · exact equivalent_eq_false_of_gt (hY x h)

end detail

namespace detail

variable {T K : Type}

/-! ## Bounds in terms of the stored sequence -/

theorem headD_map_addr (xs : List (Item T)) (d : Nat) :
    (xs.map Item.addr).headD d = ((xs.head?).map Item.addr).getD d := by
  cases xs <;> rfl

theorem getElem?_length_append (xs ys : List Nat) (d : Nat) :
    (xs ++ (ys ++ [d]))[xs.length]? = some (ys.headD d) := by
  rw [List.getElem?_append_right (le_refl _)]
  cases ys <;> simp

/-- The engine-level `lower_bound` in terms of the stored sequence: the first
node whose key is not below `key` (`tail` when there is none), which is the
position numbered by the count of keys below `key`. -/
theorem lower_bound_first {P : sl_traits T K} {s : sl_impl T K} {es : List (Item T)}
    (hinv : Inv P s es) (hswo : StrictWeakOrder s.less) (key : K) :
    sl_impl.lower_bound P s key
        = some (((es.find? (fun e => !s.less (P.KeyFromValue e.value) key)).map Item.addr).getD
            s.tail) ∧
      (es.map Item.addr ++ [s.tail])[es.countP (fun e => s.less (P.KeyFromValue e.value) key)]?
        = sl_impl.lower_bound P s key := by
  obtain ⟨A1, A2, B, hes, h1, h2, h3, _⟩ := sorted_cut hswo P.KeyFromValue hinv.sorted key
  have hrest : ∀ x ∈ A2 ++ B, s.less (P.KeyFromValue x.value) key = false := by
    intro x hx
    rcases List.mem_append.mp hx with h | h
    · exact not_lt_of_equivalent (h2 x h)
    · exact hswo.asymm (h3 x h)
  have hlb := lower_bound_spec (hes ▸ hinv.shape) hswo h1 h2 h3
  have hes1 : es = A1 ++ (A2 ++ B) := by rw [hes, List.append_assoc]
  have hcut := takeWhile_dropWhile_of_cut
    (fun e : Item T => s.less (P.KeyFromValue e.value) key) h1 hrest
  constructor
  · rw [hlb, ← head?_dropWhile_eq_find?, hes1, hcut.2, headD_map_addr]
  · rw [hlb, hes1, countP_eq_length_of_cut _ h1 hrest, List.map_append, List.append_assoc]
    have := getElem?_length_append (A1.map Item.addr) ((A2 ++ B).map Item.addr) s.tail
    rw [List.length_map] at this
    exact this

/-- The engine-level `upper_bound` in terms of the stored sequence: the first
node whose key is above `key` (`tail` when there is none), which is the position
numbered by the count of keys not above `key`. -/
theorem upper_bound_first {P : sl_traits T K} {s : sl_impl T K} {es : List (Item T)}
    (hinv : Inv P s es) (hswo : StrictWeakOrder s.less) (key : K) :
    sl_impl.upper_bound P s key
        = some (((es.find? (fun e => s.less key (P.KeyFromValue e.value))).map Item.addr).getD
            s.tail) ∧
      (es.map Item.addr ++ [s.tail])[es.countP (fun e => !s.less key (P.KeyFromValue e.value))]?
        = sl_impl.upper_bound P s key := by
  obtain ⟨A1, A2, B, hes, h1, h2, h3, _⟩ := sorted_cut hswo P.KeyFromValue hinv.sorted key
  have hle : ∀ x ∈ A1 ++ A2, (!s.less key (P.KeyFromValue x.value)) = true := by
    intro x hx
    rcases List.mem_append.mp hx with h | h
    · simp [hswo.asymm (h1 x h)]
    · simp [not_gt_of_equivalent (h2 x h)]
  have hgt : ∀ x ∈ B, (!s.less key (P.KeyFromValue x.value)) = false := by
    intro x hx
    simp [h3 x hx]
  have hub := upper_bound_spec (hes ▸ hinv.shape) hswo h1 h2 h3
  have hcut := takeWhile_dropWhile_of_cut
    (fun e : Item T => !s.less key (P.KeyFromValue e.value)) hle hgt
  have hfun : (fun e : Item T => s.less key (P.KeyFromValue e.value))
      = (fun e : Item T => !(fun e : Item T => !s.less key (P.KeyFromValue e.value)) e) := by
    funext e
    simp
  constructor
  · rw [hub, hfun, ← head?_dropWhile_eq_find?, hes, hcut.2, headD_map_addr]
  · rw [hub, hes, countP_eq_length_of_cut _ hle hgt, List.map_append]
    have := getElem?_length_append ((A1 ++ A2).map Item.addr) (B.map Item.addr) s.tail
    rw [List.length_map] at this
    rw [List.append_assoc]
    exact this

end detail

/-! ## The containers on an engine satisfying the invariant -/

open detail

theorem skip_list.upper_bound_walk_eq {T : Type} (N : Nat) (D : Bool) (s : sl_impl T T)
    (value : T) (fuel : Nat) :
    ∀ node, skip_list.upper_bound_walk s value fuel node
      = sl_impl.skip_equivalent (skip_list.traits N D) s value fuel node := by
  induction fuel with
  | zero => intro node; rfl
  | succ fuel ih =>
    intro node
    unfold skip_list.upper_bound_walk sl_impl.skip_equivalent
    cases s.is_valid node with
    | false => rfl
    | true =>
      simp only [if_true]
      cases s.get_value node with
      | none => rfl
      | some v =>
        simp only [skip_list.traits]
        cases equivalent s.less v value with
        | false => rfl
        | true =>
          simp only [if_true]
          cases s.get_next node 0 with
          | none => rfl
          | some nx => exact ih nx

theorem skip_list.upper_bound_eq {T : Type} (N : Nat) (D : Bool) (s : sl_impl T T) (value : T) :
    skip_list.upper_bound N D s value = sl_impl.upper_bound (skip_list.traits N D) s value := by
  unfold skip_list.upper_bound sl_impl.upper_bound
  cases sl_impl.find_first (skip_list.traits N D) s value with
  | none => rfl
  | some node0 =>
    simp only
    cases (if node0 = s.one_past_front then s.get_next node0 0 else some node0) with
    | none => rfl
    | some node => exact skip_list.upper_bound_walk_eq N D s value s.brk node

theorem skip_list.lower_bound_eq {T : Type} (N : Nat) (D : Bool) (s : sl_impl T T) (value : T) :
    skip_list.lower_bound N D s value = sl_impl.lower_bound (skip_list.traits N D) s value :=
  rfl

theorem skip_list.erase_eq {T : Type} (N : Nat) (D : Bool) (s : sl_impl T T) (value : T) :
    skip_list.erase N D s value = sl_impl.erase (skip_list.traits N D) s value := by
  unfold skip_list.erase sl_impl.erase
  cases sl_impl.find (skip_list.traits N D) s value with
  | none => rfl
  | some node =>
    simp only
    cases s.is_valid node with
    | false => rfl
    | true =>
      simp only [if_true]
      cases s.get_value node with
      | none => rfl
      | some v =>
        simp only [skip_list.traits]
        cases equivalent s.less v value with
        | false => rfl
        | true =>
          simp only [if_true]
          cases sl_impl.remove
            ({ KeyFromValue := fun t => t, num_levels := N, AllowDuplicates := D } :
              sl_traits T T) s node <;> rfl

theorem skip_list.find_of_hit {T : Type} {N : Nat} {s : sl_impl T T} {es : List (Item T)}
    (hinv : Inv (skip_list.traits N false) s es) (hswo : StrictWeakOrder s.less) {k : T}
    {e : Item T} (he : e ∈ es) (heq : equivalent s.less e.value k = true) :
    skip_list.find N false s k = some e.addr := by
  obtain ⟨X, Y, rfl⟩ := List.append_of_mem he
  unfold skip_list.find skip_list.to_iterator
  rw [find_hit hinv hswo rfl heq]
  simp only [hinv.shape.is_valid he, if_true, hinv.shape.value he, heq]

theorem skip_list.find_of_miss {T : Type} {N : Nat} {s : sl_impl T T} {es : List (Item T)}
    (hinv : Inv (skip_list.traits N false) s es) (hswo : StrictWeakOrder s.less) {k : T}
    (hne : ∀ e ∈ es, equivalent s.less e.value k = false) :
    skip_list.find N false s k = some (skip_list.cend s) := by
  obtain ⟨node, hfind, hcase⟩ := @find_miss _ _ _ _ _ hinv hswo k hne
  unfold skip_list.find skip_list.to_iterator
  rw [hfind]
  rcases hcase with hv | ⟨hv, v, hval, hneq⟩
  · simp [hv]
  · have hneq1 : equivalent s.less v k = false := hneq
    simp [hv, hval, hneq1]

theorem skip_list.count_of_hit {T : Type} {N : Nat} {s : sl_impl T T} {es : List (Item T)}
    (hinv : Inv (skip_list.traits N false) s es) (hswo : StrictWeakOrder s.less) {k : T}
    {e : Item T} (he : e ∈ es) (heq : equivalent s.less e.value k = true) :
    skip_list.count N false s k = some 1 := by
  obtain ⟨X, Y, rfl⟩ := List.append_of_mem he
  unfold skip_list.count
  rw [find_hit hinv hswo rfl heq]
  simp only [hinv.shape.is_valid he, if_true, hinv.shape.value he, heq]

theorem skip_list.count_of_miss {T : Type} {N : Nat} {s : sl_impl T T} {es : List (Item T)}
    (hinv : Inv (skip_list.traits N false) s es) (hswo : StrictWeakOrder s.less) {k : T}
    (hne : ∀ e ∈ es, equivalent s.less e.value k = false) :
    skip_list.count N false s k = some 0 := by
  obtain ⟨node, hfind, hcase⟩ := @find_miss _ _ _ _ _ hinv hswo k hne
  unfold skip_list.count
  rw [hfind]
  rcases hcase with hv | ⟨hv, v, hval, hneq⟩
  · simp [hv]
  · have hneq1 : equivalent s.less v k = false := hneq
    simp [hv, hval, hneq1]

theorem skip_list_map.map_find_of_hit {Key MappedTo : Type} {N : Nat}
    {s : sl_impl (Key × MappedTo) Key} {es : List (Item (Key × MappedTo))}
    (hinv : Inv (skip_list_map.traits N) s es) (hswo : StrictWeakOrder s.less) {k : Key}
    {e : Item (Key × MappedTo)} (he : e ∈ es) (heq : equivalent s.less e.value.1 k = true) :
    skip_list_map.find N s k = some e.addr := by
  obtain ⟨X, Y, rfl⟩ := List.append_of_mem he
  unfold skip_list_map.find skip_list_map.to_iterator
  rw [find_hit hinv hswo rfl heq]
  simp only [hinv.shape.is_valid he, if_true, hinv.shape.value he, heq]

theorem skip_list_map.map_find_of_miss {Key MappedTo : Type} {N : Nat}
    {s : sl_impl (Key × MappedTo) Key} {es : List (Item (Key × MappedTo))}
    (hinv : Inv (skip_list_map.traits N) s es) (hswo : StrictWeakOrder s.less) {k : Key}
    (hne : ∀ e ∈ es, equivalent s.less e.value.1 k = false) :
    skip_list_map.find N s k = some (skip_list_map.cend s) := by
  obtain ⟨node, hfind, hcase⟩ := @find_miss _ _ _ _ _ hinv hswo k hne
  unfold skip_list_map.find skip_list_map.to_iterator
  rw [hfind]
  rcases hcase with hv | ⟨hv, v, hval, hneq⟩
  · simp [hv]
  · have hneq1 : equivalent s.less v.1 k = false := hneq
    simp [hv, hval, hneq1]

theorem skip_list_map.map_count_of_miss {Key MappedTo : Type} {N : Nat}
    {s : sl_impl (Key × MappedTo) Key} {es : List (Item (Key × MappedTo))}
    (hinv : Inv (skip_list_map.traits N) s es) (hswo : StrictWeakOrder s.less) {k : Key}
    (hne : ∀ e ∈ es, equivalent s.less e.value.1 k = false) :
    skip_list_map.count N s k = some 0 := by
  obtain ⟨node, hfind, hcase⟩ := @find_miss _ _ _ _ _ hinv hswo k hne
  unfold skip_list_map.count
  rw [hfind]
  rcases hcase with hv | ⟨hv, v, hval, hneq⟩
  · simp [hv]
  · have hneq1 : equivalent s.less v.1 k = false := hneq
    simp [hv, hval, hneq1]

theorem skip_list_map.map_count_of_hit {Key MappedTo : Type} {N : Nat}
    {s : sl_impl (Key × MappedTo) Key} {es : List (Item (Key × MappedTo))}
    (hinv : Inv (skip_list_map.traits N) s es) (hswo : StrictWeakOrder s.less) {k : Key}
    {e : Item (Key × MappedTo)} (he : e ∈ es) (heq : equivalent s.less e.value.1 k = true) :
    skip_list_map.count N s k = some 1 := by
  obtain ⟨X, Y, rfl⟩ := List.append_of_mem he
  unfold skip_list_map.count
  rw [find_hit hinv hswo rfl heq]
  simp only [hinv.shape.is_valid he, if_true, hinv.shape.value he, heq]

/-! ## Insertion through the containers -/

theorem strictWeakOrder_std_less : StrictWeakOrder std_less :=
  strictWeakOrder_nat

theorem new_level_no_overflow {T K : Type} {P : sl_traits T K} {s : sl_impl T K} {g : Nat}
    (hle : s.levels ≤ P.num_levels) (hg : g < P.num_levels) :
    (s.new_level g).2.levels ≤ P.num_levels := by
  rw [new_level_levels]
  split <;> omega

/-- Inserting a value whose key is not yet present into a set. -/
theorem skip_list.insert_new {T : Type} {N : Nat} {s : sl_impl T T} {es : List (Item T)}
    {value : T} {g : Nat} (hinv : Inv (skip_list.traits N false) s es)
    (hswo : StrictWeakOrder s.less) (hov : (s.new_level g).2.levels ≤ N)
    (hne : ∀ e ∈ es, equivalent s.less e.value value = false) :
    ∃ s1, skip_list.insert N false s value g = some (s1, s.brk, true) ∧
      Inv (skip_list.traits N false) s1
        (es.takeWhile (fun e => s.less e.value value)
          ++ ⟨s.brk, (s.new_level g).1, value⟩ :: es.dropWhile (fun e => s.less e.value value)) ∧
      s1.less = s.less ∧ s1.head = s.head ∧ s1.tail = s.tail ∧ s1.brk = s.brk + 1 ∧
      s1.levels = (s.new_level g).2.levels := by
  obtain ⟨s1, hins, hinv1, hless, hhead, htail, hbrk, hlevels⟩ :=
    @insert_accept _ _ (skip_list.traits N false) _ _ value g hinv hswo hov
      (Or.inr hne)
  refine ⟨s1, ?_, hinv1, hless, hhead, htail, hbrk, hlevels⟩
  have hvalid : s1.is_valid s.brk = true :=
    hinv1.shape.is_valid (e := ⟨s.brk, (s.new_level g).1, value⟩) (by simp)
  unfold skip_list.insert
  rw [hins]
  simp only [hvalid]

/-- Inserting a value whose key is already present into a set. -/
theorem skip_list.insert_dup {T : Type} {N : Nat} {s : sl_impl T T} {es : List (Item T)}
    {value : T} {g : Nat} (hinv : Inv (skip_list.traits N false) s es)
    (hswo : StrictWeakOrder s.less) (hov : (s.new_level g).2.levels ≤ N)
    (hex : ∃ e ∈ es, equivalent s.less e.value value = true) :
    ∃ s1, skip_list.insert N false s value g = some (s1, skip_list.cend s1, false) ∧
      Inv (skip_list.traits N false) s1 es ∧
      s1.less = s.less ∧ s1.head = s.head ∧ s1.tail = s.tail ∧ s1.brk = s.brk + 1 ∧
      s1.levels = (s.new_level g).2.levels := by
  obtain ⟨s1, hins, hinv1, hless, hhead, htail, hbrk, hlevels⟩ :=
    @insert_reject _ _ (skip_list.traits N false) _ _ value g hinv hswo hov rfl hex
  refine ⟨s1, ?_, hinv1, hless, hhead, htail, hbrk, hlevels⟩
  unfold skip_list.insert
  rw [hins]
  simp only [hinv1.shape.is_valid_tail, skip_list.cend, sl_impl.one_past_end]

/-- Inserting a pair whose key is not yet present into a map. -/
theorem skip_list_map.map_insert_new {Key MappedTo : Type} {N : Nat}
    {s : sl_impl (Key × MappedTo) Key} {es : List (Item (Key × MappedTo))}
    {value : Key × MappedTo} {g : Nat} (hinv : Inv (skip_list_map.traits N) s es)
    (hswo : StrictWeakOrder s.less) (hov : (s.new_level g).2.levels ≤ N)
    (hne : ∀ e ∈ es, equivalent s.less e.value.1 value.1 = false) :
    ∃ s1, skip_list_map.insert N s value g = some (s1, s.brk, true) ∧
      Inv (skip_list_map.traits N) s1
        (es.takeWhile (fun e => s.less e.value.1 value.1)
          ++ ⟨s.brk, (s.new_level g).1, value⟩ ::
            es.dropWhile (fun e => s.less e.value.1 value.1)) ∧
      s1.less = s.less ∧ s1.head = s.head ∧ s1.tail = s.tail ∧ s1.brk = s.brk + 1 ∧
      s1.levels = (s.new_level g).2.levels := by
  obtain ⟨s1, hins, hinv1, hless, hhead, htail, hbrk, hlevels⟩ :=
    @insert_accept _ _ (skip_list_map.traits N) _ _ value g hinv hswo hov
      (Or.inr hne)
  refine ⟨s1, ?_, hinv1, hless, hhead, htail, hbrk, hlevels⟩
  have hvalid : s1.is_valid s.brk = true :=
    hinv1.shape.is_valid (e := ⟨s.brk, (s.new_level g).1, value⟩) (by simp)
  unfold skip_list_map.insert
  rw [hins]
  simp only [hvalid]

/-- Inserting a pair whose key is already present into a map. -/
theorem skip_list_map.map_insert_dup {Key MappedTo : Type} {N : Nat}
    {s : sl_impl (Key × MappedTo) Key} {es : List (Item (Key × MappedTo))}
    {value : Key × MappedTo} {g : Nat} (hinv : Inv (skip_list_map.traits N) s es)
    (hswo : StrictWeakOrder s.less) (hov : (s.new_level g).2.levels ≤ N)
    (hex : ∃ e ∈ es, equivalent s.less e.value.1 value.1 = true) :
    ∃ s1, skip_list_map.insert N s value g = some (s1, skip_list_map.cend s1, false) ∧
      Inv (skip_list_map.traits N) s1 es ∧
      s1.less = s.less ∧ s1.head = s.head ∧ s1.tail = s.tail ∧ s1.brk = s.brk + 1 ∧
      s1.levels = (s.new_level g).2.levels := by
  obtain ⟨s1, hins, hinv1, hless, hhead, htail, hbrk, hlevels⟩ :=
    @insert_reject _ _ (skip_list_map.traits N) _ _ value g hinv hswo hov rfl hex
  refine ⟨s1, ?_, hinv1, hless, hhead, htail, hbrk, hlevels⟩
  unfold skip_list_map.insert
  rw [hins]
  simp only [hinv1.shape.is_valid_tail, skip_list_map.cend, sl_impl.one_past_end]

/-! ## Two small containers -/

/-- The set built by `insert(20); insert(10); insert(30)` with the levels 1, 0, 5
drawn: its nodes are 4, 3, 5 in lane 0 order. -/
theorem skip_list.sample :
    ∃ s : sl_impl Nat Nat,
      (skip_list.create 4 false std_less).bind
        (skip_list.run 4 false [.insert 20 1, .insert 10 0, .insert 30 5]) = some s ∧
      Inv (skip_list.traits 4 false) s [⟨4, 0, 10⟩, ⟨3, 0, 20⟩, ⟨5, 1, 30⟩] ∧
      s.less = std_less ∧ s.head = 1 ∧ s.tail = 2 := by
  obtain ⟨s0, hc, hinv0, hless0, hhead0, htail0, hbrk0, hlev0, _⟩ :=
    create_spec (skip_list.traits 4 false) std_less (by decide)
  have hswo0 : StrictWeakOrder s0.less := hless0 ▸ strictWeakOrder_std_less
  obtain ⟨s1, hi1, hinv1, hless1, hhead1, htail1, hbrk1, hlev1⟩ :=
    @skip_list.insert_new _ _ _ _ 20 1 hinv0 hswo0
      (by rw [new_level_levels, hlev0]; decide) (by simp)
  have hl1 : s1.less = std_less := hless1.trans hless0
  have hswo1 : StrictWeakOrder s1.less := hl1 ▸ strictWeakOrder_std_less
  rw [new_level_fst, hlev0, hbrk0] at hinv1
  rw [new_level_levels, hlev0] at hlev1
  simp only [List.takeWhile_nil, List.dropWhile_nil, List.nil_append, ge_iff_le, Nat.zero_le,
    if_true] at hinv1 hlev1
  obtain ⟨s2, hi2, hinv2, hless2, hhead2, htail2, hbrk2, hlev2⟩ :=
    @skip_list.insert_new _ _ _ _ 10 0 hinv1 hswo1
      (by rw [new_level_levels, hlev1]; decide)
      (by rw [hl1]; simp [equivalent, std_less])
  have hl2 : s2.less = std_less := hless2.trans hl1
  have hswo2 : StrictWeakOrder s2.less := hl2 ▸ strictWeakOrder_std_less
  rw [new_level_fst, hlev1, hbrk1, hbrk0, hl1] at hinv2
  rw [new_level_levels, hlev1] at hlev2
  simp [std_less, List.takeWhile, List.dropWhile] at hinv2 hlev2
  obtain ⟨s3, hi3, hinv3, hless3, hhead3, htail3, hbrk3, hlev3⟩ :=
    @skip_list.insert_new _ _ _ _ 30 5 hinv2 hswo2
      (by rw [new_level_levels, hlev2]; decide)
      (by rw [hl2]; simp [equivalent, std_less])
  rw [new_level_fst, hlev2, hbrk2, hbrk1, hbrk0, hl2] at hinv3
  simp [std_less, List.takeWhile, List.dropWhile] at hinv3
  refine ⟨s3, ?_, hinv3, hless3.trans hl2, ?_, ?_⟩
  · unfold skip_list.create
    rw [hc]
    simp only [Option.bind, skip_list.run, skip_list.step, hi1, hi2, hi3]
  · rw [hhead3, hhead2, hhead1, hhead0]
  · rw [htail3, htail2, htail1, htail0]

/-- The map built by inserting `(7, 70)`, `(5, 50)`, `(11, 110)` with the levels
0, 2, 1 drawn: its nodes are 4, 3, 5 in lane 0 order. -/
theorem skip_list_map.map_sample :
    ∃ s : sl_impl (Nat × Nat) Nat,
      (skip_list_map.create 4 std_less).bind
        (skip_list_map.run 4 [.insert (7, 70) 0, .insert (5, 50) 2, .insert (11, 110) 1])
        = some s ∧
      Inv (skip_list_map.traits 4) s [⟨4, 1, (5, 50)⟩, ⟨3, 0, (7, 70)⟩, ⟨5, 1, (11, 110)⟩] ∧
      s.less = std_less ∧ s.head = 1 ∧ s.tail = 2 := by
  obtain ⟨s0, hc, hinv0, hless0, hhead0, htail0, hbrk0, hlev0, _⟩ :=
    create_spec (@skip_list_map.traits Nat Nat 4) std_less (by decide)
  have hswo0 : StrictWeakOrder s0.less := hless0 ▸ strictWeakOrder_std_less
  obtain ⟨s1, hi1, hinv1, hless1, hhead1, htail1, hbrk1, hlev1⟩ :=
    @skip_list_map.map_insert_new _ _ _ _ _ (7, 70) 0 hinv0 hswo0
      (by rw [new_level_levels, hlev0]; decide) (by simp)
  have hl1 : s1.less = std_less := hless1.trans hless0
  have hswo1 : StrictWeakOrder s1.less := hl1 ▸ strictWeakOrder_std_less
  rw [new_level_fst, hlev0, hbrk0] at hinv1
  rw [new_level_levels, hlev0] at hlev1
  simp only [List.takeWhile_nil, List.dropWhile_nil, List.nil_append, ge_iff_le, Nat.zero_le,
    if_true] at hinv1 hlev1
  obtain ⟨s2, hi2, hinv2, hless2, hhead2, htail2, hbrk2, hlev2⟩ :=
    @skip_list_map.map_insert_new _ _ _ _ _ (5, 50) 2 hinv1 hswo1
      (by rw [new_level_levels, hlev1]; decide)
      (by rw [hl1]; simp [equivalent, std_less])
  have hl2 : s2.less = std_less := hless2.trans hl1
  have hswo2 : StrictWeakOrder s2.less := hl2 ▸ strictWeakOrder_std_less
  rw [new_level_fst, hlev1, hbrk1, hbrk0, hl1] at hinv2
  rw [new_level_levels, hlev1] at hlev2
  simp [std_less, List.takeWhile, List.dropWhile] at hinv2 hlev2
  obtain ⟨s3, hi3, hinv3, hless3, hhead3, htail3, hbrk3, hlev3⟩ :=
    @skip_list_map.map_insert_new _ _ _ _ _ (11, 110) 1 hinv2 hswo2
      (by rw [new_level_levels, hlev2]; decide)
      (by rw [hl2]; simp [equivalent, std_less])
  rw [new_level_fst, hlev2, hbrk2, hbrk1, hbrk0, hl2] at hinv3
  simp [std_less, List.takeWhile, List.dropWhile] at hinv3
  refine ⟨s3, ?_, hinv3, hless3.trans hl2, ?_, ?_⟩
  · unfold skip_list_map.create
    rw [hc]
    simp only [Option.bind, skip_list_map.run, skip_list_map.step, hi1, hi2, hi3]
  · rw [hhead3, hhead2, hhead1, hhead0]
  · rw [htail3, htail2, htail1, htail0]


namespace detail

variable {T K : Type}

/-- Once `levels` has reached `num_levels`, an insertion whose generated level is
at least `num_levels` raises `levels` to `num_levels + 1` and begins its walk at
`head->next[num_levels]`, which no operation has written: the insertion has no
defined result, whatever the value and whatever the list holds. -/
theorem insert_top_lane_undefined {P : sl_traits T K} {s : sl_impl T K} {es : List (Item T)}
    (hs : Shape P s es) (hfull : s.levels = P.num_levels) (value : T) (g : Nat)
    (hg : P.num_levels ≤ g) :
    sl_impl.insert P s value 0 g = none := by
  have hnl : s.new_level g = (s.levels, { s with levels := s.levels + 1 }) := by
    unfold sl_impl.new_level
    rw [if_pos (by omega)]
  obtain ⟨hsa_less, hsa_head, hsa_tail, hsa_count, hsa_brk, hsa_mem⟩ := new_level_frame s g
  obtain ⟨sc, hsc, hf⟩ := sl_impl.allocate_construct_spec (s.new_level g).2 (s.new_level g).1
    value
  have hnew : ((s.new_level g).2.allocate (s.new_level g).1).1 = s.brk := by
    simp [sl_impl.allocate, hsa_brk]
  rw [hnew] at hsc hf
  have hc_head : sc.head = s.head := hf.head.trans hsa_head
  have hc_tail : sc.tail = s.tail := hf.tail.trans hsa_tail
  have hc_brk : sc.brk = s.brk + 1 := by rw [hf.brk, hsa_brk]
  have hc_levels : sc.levels = P.num_levels + 1 := by
    rw [hf.levels, hnl, hfull]
  have hhead_ne : s.head ≠ s.brk := hs.ne_brk (sl_impl.get_level_of_len hs.head_len)
  have hnull_ne : (0 : Nat) ≠ s.brk := by
    have := hs.length_lt_brk
    omega
  have hgh : sl_impl.good_hint P sc (P.KeyFromValue value) 0 = some false := by
    simp [sl_impl.good_hint, sl_impl.is_valid]
  have htop : sc.get_next sc.head P.num_levels = some 0 := by
    rw [hc_head, (hf.next s.head P.num_levels hhead_ne).trans (get_next_congr hsa_mem _ _)]
    exact hs.head_top
  have hval0 : sc.get_value 0 = none := by
    rw [(hf.value 0 hnull_ne).trans (get_value_congr hsa_mem 0)]
    exact sl_impl.get_value_of_unallocated hs.null_free
  have hadv : ∀ pred : T → Bool, sc.advance P.num_levels pred sc.brk sc.head = none := by
    intro pred
    rw [hc_brk]
    unfold sl_impl.advance
    simp only [htop]
    rw [if_neg (by rw [hc_tail]; exact fun h => hs.tail_ne_null h.symm)]
    simp only [hval0]
  unfold sl_impl.insert
  simp only [hnew, hsc, hgh, Bool.false_eq_true, if_false, hc_levels]
  unfold sl_impl.insert_lanes
  simp only [hadv]

end detail


/-! ## Counting a run of equivalent keys -/

namespace detail

variable {T K : Type}

/-- The backward loop of `count` walks the run `E` of equivalent keys from its
last node and adds its length. -/
theorem count_back_spec {P : sl_traits T K} {s : sl_impl T K} {A1 : List (Item T)} {key : K}
    (h1 : ∀ e ∈ A1, equivalent s.less (P.KeyFromValue e.value) key = false)
    (E : List (Item T)) :
    ∀ (B : List (Item T)) (fuel c : Nat), Shape P s (A1 ++ E ++ B) →
      (∀ e ∈ E, equivalent s.less (P.KeyFromValue e.value) key = true) →
      E.length < fuel →
      sl_impl.count_back P s key fuel (lastD s.head ((A1 ++ E).map Item.addr)) c
        = some (c + E.length) := by
  induction E using List.reverseRecOn with
  | nil =>
    intro B fuel c hs _ hfuel
    cases fuel with
    | zero => simp at hfuel
    | succ fuel =>
      simp only [List.append_nil, List.length_nil, Nat.add_zero]
      unfold sl_impl.count_back
      rcases lastD_map_cases s.head A1 with ⟨_, hX⟩ | ⟨x, hx, hX⟩
      · rw [hX, if_pos rfl]
      · have hxm : x ∈ A1 ++ [] ++ B := by simp [hx]
        rw [hX, if_neg (hs.ne_head hxm)]
        simp only [hs.value hxm, h1 x hx, Bool.false_eq_true, if_false]
  | append_singleton E e ih =>
    intro B fuel c hs h2 hfuel
    cases fuel with
    | zero => simp at hfuel
    | succ fuel =>
      have hs1 : Shape P s (A1 ++ E ++ (e :: B)) := by
        have : A1 ++ (E ++ [e]) ++ B = A1 ++ E ++ (e :: B) := by simp
        rwa [this] at hs
      have he : e ∈ A1 ++ E ++ (e :: B) := by simp
      have hlast : lastD s.head ((A1 ++ (E ++ [e])).map Item.addr) = e.addr := by
        rw [← List.append_assoc, List.map_append, List.map_cons, List.map_nil, lastD_concat]
      rw [hlast]
      unfold sl_impl.count_back
      rw [if_neg (hs1.ne_head he)]
      have hprev := hs1.prev0
      simp only [List.map_cons, List.headD_cons] at hprev
      simp only [hs1.value he, h2 e (by simp), if_true, hprev]
      rw [ih (e :: B) fuel (c + 1) hs1 (fun x hx => h2 x (by simp [hx]))
        (by simp only [List.length_append, List.length_cons, List.length_nil] at hfuel; omega)]
      simp only [List.length_append, List.length_cons, List.length_nil]
      congr 1
      omega

/-- The forward loop of `count` walks the run `A2` of equivalent keys from its
first node and adds its length. -/
theorem count_forward_spec {P : sl_traits T K} {s : sl_impl T K} {key : K}
    (A2 : List (Item T)) :
    ∀ (X B : List (Item T)) (fuel c : Nat), Shape P s (X ++ A2 ++ B) →
      (∀ e ∈ A2, equivalent s.less (P.KeyFromValue e.value) key = true) →
      (∀ e ∈ B, equivalent s.less (P.KeyFromValue e.value) key = false) →
      A2.length < fuel →
      sl_impl.count_forward P s key fuel (((A2 ++ B).map Item.addr).headD s.tail) c
        = some (c + A2.length) := by
  induction A2 with
  | nil =>
    intro X B fuel c hs _ h3 hfuel
    cases fuel with
    | zero => simp at hfuel
    | succ fuel =>
      unfold sl_impl.count_forward
      cases B with
      | nil => simp [hs.is_valid_tail]
      | cons b B =>
        have hb : b ∈ X ++ [] ++ (b :: B) := by simp
        simp [hs.is_valid hb, hs.value hb, h3 b (List.mem_cons_self _ _)]
  | cons a A2 ih =>
    intro X B fuel c hs h2 h3 hfuel
    cases fuel with
    | zero => simp at hfuel
    | succ fuel =>
      unfold sl_impl.count_forward
      have ha : a ∈ X ++ (a :: A2) ++ B := by simp
      have hs1 : Shape P s ((X ++ [a]) ++ (A2 ++ B)) := by
        have : X ++ (a :: A2) ++ B = (X ++ [a]) ++ (A2 ++ B) := by simp
        rwa [this] at hs
      have hnext := hs1.next0
      rw [List.map_append, List.map_cons, List.map_nil, lastD_concat] at hnext
      simp only [List.cons_append, List.map_cons, List.headD_cons, hs.is_valid ha, if_true,
        hs.value ha, h2 a (List.mem_cons_self _ _), hnext]
      have hs2 : Shape P s ((X ++ [a]) ++ A2 ++ B) := by
        have : (X ++ [a]) ++ (A2 ++ B) = (X ++ [a]) ++ A2 ++ B := by simp
        rwa [this] at hs1
      rw [ih (X ++ [a]) B fuel (c + 1) hs2 (fun e he => h2 e (List.mem_cons_of_mem _ he)) h3
        (by simpa using hfuel)]
      simp only [List.length_cons]
      congr 1
      omega

/-- The engine-level `count` is the length of the run of keys equivalent to `key`. -/
theorem count_spec {P : sl_traits T K} {s : sl_impl T K} {A1 A2 B : List (Item T)}
    {key : K} (hs : Shape P s (A1 ++ A2 ++ B)) (hswo : StrictWeakOrder s.less)
    (h1 : ∀ e ∈ A1, s.less (P.KeyFromValue e.value) key = true)
    (h2 : ∀ e ∈ A2, equivalent s.less (P.KeyFromValue e.value) key = true)
    (h3 : ∀ e ∈ B, s.less key (P.KeyFromValue e.value) = true) :
    sl_impl.count P s key = some A2.length := by
  have hfind : sl_impl.find P s key = some (lastD s.head ((A1 ++ A2).map Item.addr)) := by
    refine find_spec hs ?_ ?_
    · intro e he
      rcases List.mem_append.mp he with h | h
      · simp [less_or_equal, hswo.asymm (h1 e h)]
      · simp [less_or_equal, not_gt_of_equivalent (h2 e h)]
    · intro e he
      simp [less_or_equal, h3 e he]
  have hlen := hs.length_lt_brk
  simp only [List.length_append] at hlen
  have h1e : ∀ e ∈ A1, equivalent s.less (P.KeyFromValue e.value) key = false :=
    fun e he => equivalent_eq_false_of_lt (h1 e he)
  have h3e : ∀ e ∈ B, equivalent s.less (P.KeyFromValue e.value) key = false :=
    fun e he => equivalent_eq_false_of_gt (h3 e he)
  unfold sl_impl.count
  rw [hfind]
  simp only
  rcases List.eq_nil_or_concat A2 with hA2 | ⟨E, e, hA2⟩
  · subst hA2
    simp only [List.append_nil, List.length_nil]
    have hfuel : ∃ f, s.brk = f + 1 := ⟨s.brk - 1, by omega⟩
    obtain ⟨f, hf⟩ := hfuel
    rcases lastD_map_cases s.head A1 with ⟨_, hX⟩ | ⟨x, hx, hX⟩
    · rw [hX]
      simp only [ne_eq, not_true_eq_false, if_false]
      rw [hf]
      unfold sl_impl.count_forward
      simp [hs.is_valid_head]
    · have hxm : x ∈ A1 ++ [] ++ B := by simp [hx]
      rcases List.eq_nil_or_concat A1 with hA | ⟨X, y, hA⟩
      · subst hA; simp at hx
      · rw [List.concat_eq_append] at hA
        subst hA
        have hy : lastD s.head ((X ++ [y]).map Item.addr) = y.addr := by
          rw [List.map_append, List.map_cons, List.map_nil, lastD_concat]
        have hym : y ∈ X ++ [y] ++ [] ++ B := by simp
        have hs1 : Shape P s (X ++ (y :: B)) := by
          have : X ++ [y] ++ [] ++ B = X ++ (y :: B) := by simp
          rwa [this] at hs
        have hprev := hs1.prev0
        simp only [List.map_cons, List.headD_cons] at hprev
        rw [hy]
        simp only [ne_eq, hs.ne_head hym, not_false_eq_true, if_true, hprev]
        have hback := @count_back_spec _ _ P s X key
          (fun e he => h1e e (by simp [he])) [] (y :: B) s.brk 0
          (by simpa using hs1) (by simp) (by simp; omega)
        simp only [List.append_nil, List.length_nil, Nat.add_zero] at hback
        rw [hback]
        simp only
        rw [hf]
        unfold sl_impl.count_forward
        simp [hs.is_valid hym, hs.value hym, h1e y (by simp)]
  · rw [List.concat_eq_append] at hA2
    subst hA2
    have hem : e ∈ A1 ++ (E ++ [e]) ++ B := by simp
    have hs1 : Shape P s (A1 ++ E ++ (e :: B)) := by
      have : A1 ++ (E ++ [e]) ++ B = A1 ++ E ++ (e :: B) := by simp
      rwa [this] at hs
    have hlast : lastD s.head ((A1 ++ (E ++ [e])).map Item.addr) = e.addr := by
      rw [← List.append_assoc, List.map_append, List.map_cons, List.map_nil, lastD_concat]
    have hprev := hs1.prev0
    simp only [List.map_cons, List.headD_cons] at hprev
    rw [hlast]
    simp only [ne_eq, hs.ne_head hem, not_false_eq_true, if_true, hprev]
    rw [count_back_spec h1e E (e :: B) s.brk 0 hs1 (fun x hx => h2 x (by simp [hx]))
      (by simp only [List.length_append, List.length_cons, List.length_nil] at hlen; omega)]
    simp only
    have hs2 : Shape P s ((A1 ++ E) ++ [e] ++ B) := by
      have : A1 ++ (E ++ [e]) ++ B = (A1 ++ E) ++ [e] ++ B := by simp
      rwa [this] at hs
    have hfw := @count_forward_spec _ _ P s key [e] (A1 ++ E) B s.brk
      (0 + E.length) hs2 (fun x hx => h2 x (by simp at hx; simp [hx])) h3e
      (by simp; omega)
    simp only [List.cons_append, List.nil_append, List.map_cons, List.headD_cons,
      List.length_cons, List.length_nil] at hfw
    rw [hfw]
    simp only [List.length_append, List.length_cons, List.length_nil]
    congr 1
    omega

/-- The engine-level `count` is the number of stored elements with a key
equivalent to `key`. -/
theorem count_eq_countP {P : sl_traits T K} {s : sl_impl T K} {es : List (Item T)}
    (hinv : Inv P s es) (hswo : StrictWeakOrder s.less) (key : K) :
    sl_impl.count P s key
      = some (es.countP (fun e => equivalent s.less (P.KeyFromValue e.value) key)) := by
  obtain ⟨A1, A2, B, hes, h1, h2, h3, _⟩ := sorted_cut hswo P.KeyFromValue hinv.sorted key
  rw [count_spec (hes ▸ hinv.shape) hswo h1 h2 h3, hes]
  congr 1
  rw [List.countP_append, List.countP_append]
  have e1 : A1.countP (fun e => equivalent s.less (P.KeyFromValue e.value) key) = 0 := by
    rw [List.countP_eq_zero]
    intro e he
    simp [equivalent_eq_false_of_lt (h1 e he)]
  have e2 : A2.countP (fun e => equivalent s.less (P.KeyFromValue e.value) key) = A2.length :=
    List.countP_eq_length.mpr h2
  have e3 : B.countP (fun e => equivalent s.less (P.KeyFromValue e.value) key) = 0 := by
    rw [List.countP_eq_zero]
    intro e he
    simp [equivalent_eq_false_of_gt (h3 e he)]
  omega

end detail


/-! ## Erasing at a position -/

namespace detail

variable {T K : Type}

/-- Every node of a chain points, on the lane of the chain, to a later node of
the chain or to its end. -/
theorem Linked.next_mem {s : sl_impl T K} {l : Nat} {a : Nat} {xs : List Nat} {t : Nat}
    (h : Linked s l a xs t) {b : Nat} (hb : b ∈ a :: xs) :
    ∃ c, s.get_next b l = some c ∧ (c ∈ xs ∨ c = t) := by
  induction xs generalizing a with
  | nil =>
    simp only [List.mem_singleton] at hb
    subst hb
    exact ⟨t, h, Or.inr rfl⟩
  | cons x xs ih =>
    rcases List.mem_cons.mp hb with rfl | hb
    · exact ⟨x, h.1, Or.inl (List.mem_cons_self _ _)⟩
    · obtain ⟨c, hc, hcm⟩ := ih h.2 hb
      refine ⟨c, hc, ?_⟩
      rcases hcm with hcm | hcm
      · exact Or.inl (List.mem_cons_of_mem _ hcm)
      · exact Or.inr hcm

/-- A forward pointer of `head` or of a node of the list never refers to an
address that is neither a node of the list nor `tail` nor null. -/
theorem Shape.next_ne_of_absent {P : sl_traits T K} {s : sl_impl T K} {es : List (Item T)}
    (hs : Shape P s es) {n : Nat} (hn : n ∉ es.map Item.addr) (hnt : n ≠ s.tail)
    (hn0 : n ≠ 0) :
    ∀ a ∈ s.head :: es.map Item.addr, ∀ l, s.get_next a l ≠ some n := by
  intro a ha l hnext
  have hlane : l < P.num_levels → a ∈ s.head :: onLane l es → False := by
    intro hl hal
    obtain ⟨c, hc, hcm⟩ := (hs.lanes l hl).next_mem hal
    rw [hc] at hnext
    cases hnext
    rcases hcm with hcm | hcm
    · exact hn (onLane_subset _ _ hcm)
    · exact hnt hcm
  obtain ⟨k, hk, hlk⟩ := sl_impl.get_next_lt_len hnext
  rcases List.mem_cons.mp ha with h | h
  · subst h
    rw [hs.head_len] at hk
    cases hk
    by_cases hl : l < P.num_levels
    · exact hlane hl (List.mem_cons_self _ _)
    · have hl2 : l = P.num_levels := by omega
      rw [hl2, hs.head_top] at hnext
      cases hnext
      exact hn0 rfl
  · obtain ⟨x, hx, rfl⟩ := List.mem_map.mp h
    have hx4 := hs.nodes x hx
    rw [hx4.2.2.1] at hk
    cases hk
    have hl : l < P.num_levels := by
      have := hx4.2.2.2
      have := hs.levels_le
      omega
    exact hlane hl (List.mem_cons_of_mem _ (mem_onLane.mpr ⟨x, hx, by omega, rfl⟩))

/-- Taking a node out of a list without duplicates: the list that remains, and
no forward pointer left that refers to the node. -/
theorem remove_inv {P : sl_traits T K} {s : sl_impl T K} {X Y : List (Item T)} {e : Item T}
    (hinv : Inv P s (X ++ e :: Y)) (hswo : StrictWeakOrder s.less)
    (hdup : P.AllowDuplicates = false) :
    ∃ s1, sl_impl.remove P s e.addr = some s1 ∧ Inv P s1 (X ++ Y) ∧ s1.less = s.less ∧
      s1.levels = s.levels ∧ s1.head = s.head ∧ s1.tail = s.tail ∧ s1.brk = s.brk ∧
      (∀ a ∈ s1.head :: (X ++ Y).map Item.addr, ∀ l, s1.get_next a l ≠ some e.addr) := by
  obtain ⟨hX, hY⟩ := hinv.around hdup
  have he : e ∈ X ++ e :: Y := by simp
  obtain ⟨s1, hs1, hshape, hless, hlevels, hhead, htail, hbrk⟩ :=
    remove_spec hinv.shape hdup hX (by
      intro x hx
      rcases List.mem_cons.mp hx with rfl | hx
      · exact hswo.irrefl _
      · exact hswo.asymm (hY x hx))
  refine ⟨s1, hs1, ⟨hshape, ?_⟩, hless, hlevels, hhead, htail, hbrk, ?_⟩
  · rw [hless]
    exact hinv.sorted.sublist
      (List.Sublist.append (List.Sublist.refl _) (List.sublist_cons_self _ _))
  · refine hshape.next_ne_of_absent ?_ ?_ (hinv.shape.ne_null he)
    · have hnd := hinv.shape.nodup
      rw [List.map_append, List.map_cons] at hnd
      have hnd2 := List.nodup_middle.mp hnd
      rw [List.map_append]
      exact (List.nodup_cons.mp hnd2).1
    · rw [htail]
      exact hinv.shape.ne_tail he

end detail


/-! ## `remove` with duplicates -/

namespace detail

variable {T K : Type}

theorem addr_ne_of_nodup_middle {X Y : List (Item T)} {e : Item T}
    (hnd : ((X ++ e :: Y).map Item.addr).Nodup) : ∀ x ∈ X ++ Y, x.addr ≠ e.addr := by
  intro x hx hc
  rw [List.map_append, List.map_cons] at hnd
  have h1 := (List.nodup_cons.mp (List.nodup_middle.mp hnd)).1
  apply h1
  rw [← List.map_append, ← hc]
  exact List.mem_map_of_mem _ hx

/-- The second loop of `remove` on a lane that does not hold `node`: `cur` stays
as it was. -/
theorem remove_scan_absent {P : sl_traits T K} {s : sl_impl T K} {key : K} {node l cur : Nat}
    (xs : List (Item T)) :
    ∀ (a fuel : Nat), Linked s l a (xs.map Item.addr) s.tail →
      (∀ x ∈ xs, s.get_value x.addr = some x.value) →
      (∀ x ∈ xs, x.addr ≠ node) → xs.length < fuel →
      sl_impl.remove_scan P s key node l cur fuel a = some cur := by
  induction xs with
  | nil =>
    intro a fuel hlink _ _ hfuel
    cases fuel with
    | zero => simp at hfuel
    | succ fuel =>
      unfold sl_impl.remove_scan
      by_cases hat : a = s.tail
      · rw [if_pos hat]
      · rw [if_neg hat]
        have h : s.get_next a l = some s.tail := hlink
        simp only [h, if_true]
  | cons x xs ih =>
    intro a fuel hlink hval hne hfuel
    cases fuel with
    | zero => simp at hfuel
    | succ fuel =>
      unfold sl_impl.remove_scan
      by_cases hat : a = s.tail
      · rw [if_pos hat]
      · rw [if_neg hat]
        have h : s.get_next a l = some x.addr := hlink.1
        simp only [h]
        by_cases hxt : x.addr = s.tail
        · rw [if_pos hxt]
        · rw [if_neg hxt, if_neg (hne x (List.mem_cons_self _ _))]
          simp only [hval x (List.mem_cons_self _ _)]
          by_cases heq : equivalent s.less (P.KeyFromValue x.value) key = true
          · rw [if_pos heq]
            exact ih x.addr fuel hlink.2 (fun y hy => hval y (List.mem_cons_of_mem _ hy))
              (fun y hy => hne y (List.mem_cons_of_mem _ hy)) (by simpa using hfuel)
          · rw [if_neg heq]

/-- The second loop of `remove` on a lane that holds `node` behind a run of
equivalent keys: `cur` becomes the node in front of `node`. -/
theorem remove_scan_found {P : sl_traits T K} {s : sl_impl T K} {key : K} {node l cur : Nat}
    (xs : List (Item T)) (zs : List Nat) :
    ∀ (a fuel : Nat), Linked s l a (xs.map Item.addr ++ node :: zs) s.tail →
      a ≠ s.tail → node ≠ s.tail →
      (∀ x ∈ xs, s.get_value x.addr = some x.value ∧ x.addr ≠ s.tail ∧ x.addr ≠ node ∧
        equivalent s.less (P.KeyFromValue x.value) key = true) →
      xs.length < fuel →
      sl_impl.remove_scan P s key node l cur fuel a = some (lastD a (xs.map Item.addr)) := by
  induction xs with
  | nil =>
    intro a fuel hlink hat hnt _ hfuel
    cases fuel with
    | zero => simp at hfuel
    | succ fuel =>
      unfold sl_impl.remove_scan
      rw [if_neg hat]
      have h : s.get_next a l = some node := hlink.1
      simp only [h, if_neg hnt, if_true, List.map_nil, lastD_nil]
  | cons x xs ih =>
    intro a fuel hlink hat hnt hxs hfuel
    cases fuel with
    | zero => simp at hfuel
    | succ fuel =>
      obtain ⟨hv, hxt, hxn, heq⟩ := hxs x (List.mem_cons_self _ _)
      unfold sl_impl.remove_scan
      rw [if_neg hat]
      have h : s.get_next a l = some x.addr := hlink.1
      simp only [h, if_neg hxt, if_neg hxn, hv, heq, if_true]
      rw [List.map_cons, lastD_cons]
      exact ih x.addr fuel hlink.2 hxt hnt (fun y hy => hxs y (List.mem_cons_of_mem _ hy))
        (by simpa using hfuel)

/-- One round of the lane loop of `remove` on a lane that holds `node`: from the
last node of lane `l + 1` in front of `node`, the walk along the smaller keys
followed by the scan along the equivalent keys ends at the node in front of
`node` on lane `l`. -/
theorem locate_on_lane {P : sl_traits T K} {s : sl_impl T K} {A E1 E2 : List (Item T)}
    {key : K} {node l fuel : Nat} {rest : List Nat}
    (hlink : Linked s l s.head (onLane l (A ++ E1 ++ E2) ++ node :: rest) s.tail)
    (hval : ∀ x ∈ A ++ E1 ++ E2, s.get_value x.addr = some x.value)
    (htail : ∀ x ∈ A ++ E1 ++ E2, x.addr ≠ s.tail)
    (hnode : ∀ x ∈ A ++ E1 ++ E2, x.addr ≠ node) (hnt : node ≠ s.tail)
    (hht : s.head ≠ s.tail)
    (hA : ∀ x ∈ A, s.less (P.KeyFromValue x.value) key = true)
    (hE1 : ∀ x ∈ E1, equivalent s.less (P.KeyFromValue x.value) key = true)
    (hE2 : ∀ x ∈ E2, equivalent s.less (P.KeyFromValue x.value) key = true)
    (hnv : ∃ v, s.get_value node = some v ∧ s.less (P.KeyFromValue v) key = false)
    (hfuel : (A ++ E1 ++ E2).length < fuel) :
    ∃ cur1, s.advance l (fun v => s.less (P.KeyFromValue v) key) fuel
        (lastD s.head (onLane (l + 1) (A ++ E1))) = some cur1 ∧
      sl_impl.remove_scan P s key node l cur1 fuel cur1
        = some (lastD s.head (onLane l (A ++ E1 ++ E2))) := by
  obtain ⟨xs, ys, hxy, hlast, _⟩ := onLane_split l (A ++ E1) s.head
  have hsub : List.Sublist ys (A ++ E1) :=
    (List.sublist_append_right xs ys).trans (hxy ▸ List.filter_sublist _)
  obtain ⟨ya, ye, hys, hya, hye⟩ := List.sublist_append_iff.mp hsub
  subst hys
  have hxs_mem : ∀ x ∈ xs, x ∈ A ++ E1 := by
    intro x hx
    have : x ∈ (A ++ E1).filter (fun e => decide (l ≤ e.level)) := by
      rw [hxy]; exact List.mem_append_left _ hx
    exact List.mem_of_mem_filter this
  have hlane : onLane l (A ++ E1 ++ E2)
      = xs.map Item.addr ++ (ya.map Item.addr ++
          ((ye ++ E2.filter (fun e => decide (l ≤ e.level))).map Item.addr)) := by
    rw [onLane_append]
    unfold onLane
    rw [hxy]
    simp only [List.map_append, List.append_assoc]
  have hlen_a : ya.length ≤ A.length := hya.length_le
  have hlen_e : ye.length ≤ E1.length := hye.length_le
  have hlen_z : (E2.filter (fun e => decide (l ≤ e.level))).length ≤ E2.length :=
    List.length_filter_le _ _
  simp only [List.length_append] at hfuel
  rw [hlane, List.append_assoc] at hlink
  have hsuf := hlink.suffix
  rw [hlast, List.append_assoc] at hsuf
  -- elements of the run on this lane
  have hrun : ∀ x ∈ ye ++ E2.filter (fun e => decide (l ≤ e.level)),
      x ∈ A ++ E1 ++ E2 ∧ equivalent s.less (P.KeyFromValue x.value) key = true := by
    intro x hx
    rcases List.mem_append.mp hx with h | h
    · have := hye.subset h
      exact ⟨by simp [this], hE1 x this⟩
    · have := List.mem_of_mem_filter h
      exact ⟨by simp [this], hE2 x this⟩
  have hadv := @advance_spec _ _ s l (fun v => s.less (P.KeyFromValue v) key) ya
    ((ye ++ E2.filter (fun e => decide (l ≤ e.level))).map Item.addr ++ node :: rest)
    (lastD s.head (onLane (l + 1) (A ++ E1))) fuel hsuf
    (fun x hx => by
      have hxa := hya.subset hx
      exact ⟨hval x (by simp [hxa]), htail x (by simp [hxa]), hA x hxa⟩)
    (by
      intro y hy
      cases hrl : ye ++ E2.filter (fun e => decide (l ≤ e.level)) with
      | nil =>
        rw [hrl] at hy
        simp only [List.map_nil, List.nil_append, List.head?_cons, Option.some.injEq] at hy
        subst hy
        exact ⟨hnt, hnv⟩
      | cons z zs =>
        rw [hrl] at hy
        simp only [List.map_cons, List.cons_append, List.head?_cons, Option.some.injEq] at hy
        subst hy
        obtain ⟨hzm, hzeq⟩ := hrun z (by rw [hrl]; exact List.mem_cons_self _ _)
        exact ⟨htail z hzm, z.value, hval z hzm, not_lt_of_equivalent hzeq⟩)
    (by omega)
  refine ⟨_, hadv, ?_⟩
  have hsuf2 := hsuf.suffix
  have hcur_ne : lastD (lastD s.head (onLane (l + 1) (A ++ E1))) (ya.map Item.addr) ≠ s.tail := by
    rw [← hlast, ← lastD_append, ← List.map_append]
    rcases lastD_mem s.head ((xs ++ ya).map Item.addr) with h | h
    · rw [h]; exact hht
    · obtain ⟨x, hx, hxe⟩ := List.mem_map.mp h
      rw [← hxe]
      rcases List.mem_append.mp hx with h1 | h1
      · exact htail x (List.mem_append_left _ (hxs_mem x h1))
      · exact htail x (by simp [hya.subset h1])
  rw [remove_scan_found (ye ++ E2.filter (fun e => decide (l ≤ e.level))) rest _ fuel hsuf2
    hcur_ne hnt
    (fun x hx => by
      obtain ⟨hxm, hxeq⟩ := hrun x hx
      exact ⟨hval x hxm, htail x hxm, hnode x hxm, hxeq⟩)
    (by rw [List.length_append]; omega)]
  rw [hlane, lastD_append, lastD_append, hlast]

/-- The lane loop of `remove` when duplicates are allowed. The list is
`A ++ E ++ e :: Y`: the keys of `A` are below the key of `e`, those of `E` are
equivalent to it, and no key of `Y` is below it. -/
theorem remove_lanes_dup_spec {P : sl_traits T K} {A E Y : List (Item T)} {e : Item T}
    {key : K} (hdup : P.AllowDuplicates = true) (l : Nat) :
    ∀ (s : sl_impl T K),
      (∀ j, j < l → Linked s j s.head (onLane j (A ++ E ++ e :: Y)) s.tail) →
      (∀ x ∈ A ++ E ++ e :: Y, s.get_value x.addr = some x.value) →
      (∀ x ∈ A ++ E ++ e :: Y, x.addr ≠ s.tail) →
      (s.head :: (A ++ E ++ e :: Y).map Item.addr).Nodup →
      s.head ≠ s.tail →
      (∀ x ∈ A, s.less (P.KeyFromValue x.value) key = true) →
      (∀ x ∈ E, equivalent s.less (P.KeyFromValue x.value) key = true) →
      (∀ x ∈ e :: Y, s.less (P.KeyFromValue x.value) key = false) →
      (A ++ E ++ e :: Y).length < s.brk →
      ∃ s1, sl_impl.remove_lanes P key e.addr l s
          (lastD s.head (onLane l (A ++ (if l ≤ e.level then E else [])))) = some s1 ∧
        LaneFrame l s s1 ∧ ∀ j, j < l → Linked s1 j s.head (onLane j (A ++ E ++ Y)) s.tail := by
  induction l with
  | zero =>
    intro s _ _ _ _ _ _ _ _ _
    exact ⟨s, rfl, LaneFrame.refl 0 s, fun j hj => absurd hj (by omega)⟩
  | succ l ih =>
    intro s hlanes hval htail hnd hht hA hE hY hfuel
    have he : e ∈ A ++ E ++ e :: Y := by simp
    have hAEm : ∀ x ∈ A ++ E, x ∈ A ++ E ++ e :: Y := fun x hx => List.mem_append_left _ hx
    have hne_e : ∀ x ∈ A ++ E ++ Y, x.addr ≠ e.addr :=
      addr_ne_of_nodup_middle (List.nodup_cons.mp hnd).2
    have hEY : ∀ x ∈ E ++ e :: Y, s.less (P.KeyFromValue x.value) key = false := by
      intro x hx
      rcases List.mem_append.mp hx with h | h
      · exact not_lt_of_equivalent (hE x h)
      · exact hY x h
    have hlink := hlanes l (by omega)
    have hlen : (A ++ E).length < s.brk := by
      simp only [List.length_append, List.length_cons] at hfuel ⊢
      omega
    unfold sl_impl.remove_lanes
    by_cases hle : l ≤ e.level
    · -- the node is on this lane
      have hstart : ∃ E1 E2, E = E1 ++ E2 ∧
          lastD s.head (onLane (l + 1) (A ++ (if l + 1 ≤ e.level then E else [])))
            = lastD s.head (onLane (l + 1) (A ++ E1)) := by
        by_cases h1 : l + 1 ≤ e.level
        · exact ⟨E, [], by simp, by rw [if_pos h1]⟩
        · exact ⟨[], E, by simp, by rw [if_neg h1]⟩
      obtain ⟨E1, E2, hE12, hst⟩ := hstart
      have hAE : A ++ E = A ++ E1 ++ E2 := by rw [hE12, List.append_assoc]
      have hlink2 : Linked s l s.head
          (onLane l (A ++ E1 ++ E2) ++ e.addr :: onLane l Y) s.tail := by
        have := hlink
        rw [onLane_append, onLane_cons_of_le hle, hAE] at this
        exact this
      obtain ⟨cur1, hadv, hscan⟩ := @locate_on_lane _ _ P s A E1 E2 key e.addr l s.brk
        (onLane l Y) hlink2
        (fun x hx => hval x (hAEm x (hAE ▸ hx)))
        (fun x hx => htail x (hAEm x (hAE ▸ hx)))
        (fun x hx => hne_e x (List.mem_append_left _ (hAE ▸ hx)))
        (htail e he) hht hA
        (fun x hx => hE x (by rw [hE12]; exact List.mem_append_left _ hx))
        (fun x hx => hE x (by rw [hE12]; exact List.mem_append_right _ hx))
        ⟨e.value, hval e he, hY e (List.mem_cons_self _ _)⟩
        (by rw [← hAE]; exact hlen)
      rw [← hAE] at hscan
      rw [hst, hadv]
      simp only [hdup, if_true, hscan]
      rw [onLane_append] at hlink
      have hsuf := hlink.suffix
      have hcn := hsuf.next_first
      have hnd_lane : (s.head :: (onLane l (A ++ E) ++ onLane l (e :: Y))).Nodup := by
        rw [← onLane_append]
        exact List.nodup_cons.mpr ⟨fun hc => (List.nodup_cons.mp hnd).1 (onLane_subset _ _ hc),
          onLane_nodup (List.nodup_cons.mp hnd).2⟩
      rw [onLane_cons_of_le hle] at hsuf hcn hnd_lane
      simp only [hcn, List.headD_cons, if_true]
      have hnn := hsuf.2.next_first
      rw [hnn]
      obtain ⟨k, hk, hlk⟩ := sl_impl.get_next_lt_len hcn
      obtain ⟨s1, hs1, hw⟩ := sl_impl.set_next_spec ((onLane l Y).headD s.tail) hk hlk
      simp only [hs1]
      have hfr := hw.frame
      obtain ⟨s2, hs2, hfr2, hl2⟩ := ih s1
        (fun j hj => by
          rw [hfr.head, hfr.tail]
          exact hw.linked_other (by omega) (hlanes j (by omega)))
        (fun x hx => by rw [hfr.value]; exact hval x hx)
        (fun x hx => by rw [hfr.tail]; exact htail x hx)
        (by rw [hfr.head]; exact hnd)
        (by rw [hfr.head, hfr.tail]; exact hht)
        (fun x hx => by rw [hfr.less]; exact hA x hx)
        (fun x hx => by rw [hfr.less]; exact hE x hx)
        (fun x hx => by rw [hfr.less]; exact hY x hx)
        (by rw [hfr.brk]; exact hfuel)
      rw [hfr.head, if_pos hle] at hs2
      rw [hfr.head] at hl2
      rw [hfr.tail] at hl2
      refine ⟨s2, hs2, hfr.trans (hfr2.mono (by omega)), ?_⟩
      intro j hj
      by_cases hjl : j = l
      · subst hjl
        rw [onLane_append]
        have := hw.linked_unlink (by rw [onLane_cons_of_le hle] at hlink; exact hlink) hnd_lane
        exact hfr2.linked (le_refl _) this
      · exact hl2 j (by omega)
    · -- the node is not on this lane
      have hlt : e.level < l := by omega
      have h1 : ¬ l + 1 ≤ e.level := by omega
      rw [if_neg h1, List.append_nil]
      have hlink1 : Linked s l s.head (onLane l (A ++ (E ++ e :: Y))) s.tail := by
        rw [← List.append_assoc]; exact hlink
      have hstep := @advance_lane _ _ s l
        (fun v => s.less (P.KeyFromValue v) key) A (E ++ e :: Y) s.brk hlink1
        (fun x hx => hval x (by rw [List.append_assoc]; exact hx))
        (fun x hx => htail x (by rw [List.append_assoc]; exact hx)) hA hEY
        (by simp only [List.length_append, List.length_cons] at hfuel; omega)
      rw [hstep]
      rw [onLane_append] at hlink1
      have hsuf := hlink1.suffix
      have hrest : onLane l (E ++ e :: Y)
          = ((E ++ Y).filter (fun x => decide (l ≤ x.level))).map Item.addr := by
        rw [onLane_append, onLane_cons_of_lt hlt, ← onLane_append]
        rfl
      rw [hrest] at hsuf
      have hfm : ∀ x ∈ (E ++ Y).filter (fun x => decide (l ≤ x.level)),
          x ∈ A ++ E ++ e :: Y ∧ x.addr ≠ e.addr := by
        intro x hx
        have hx1 := List.mem_of_mem_filter hx
        rcases List.mem_append.mp hx1 with h | h
        · exact ⟨by simp [h], hne_e x (by simp [h])⟩
        · exact ⟨by simp [h], hne_e x (by simp [h])⟩
      have hscan := @remove_scan_absent _ _ P s key e.addr l (lastD s.head (onLane l A))
        ((E ++ Y).filter (fun x => decide (l ≤ x.level))) (lastD s.head (onLane l A)) s.brk
        hsuf (fun x hx => hval x (hfm x hx).1) (fun x hx => (hfm x hx).2)
        (by
          have := List.length_filter_le (fun x : Item T => decide (l ≤ x.level)) (E ++ Y)
          simp only [List.length_append, List.length_cons] at hfuel this
          omega)
      simp only [hdup, if_true, hscan]
      have hcn := hsuf.next_first
      rw [hcn]
      have hne : (((E ++ Y).filter (fun x => decide (l ≤ x.level))).map Item.addr).headD s.tail
          ≠ e.addr := by
        cases hfl : (E ++ Y).filter (fun x => decide (l ≤ x.level)) with
        | nil => exact fun hc => htail e he hc.symm
        | cons y ys =>
          simp only [List.map_cons, List.headD_cons]
          exact (hfm y (by rw [hfl]; exact List.mem_cons_self _ _)).2
      simp only [hne, if_false]
      obtain ⟨s2, hs2, hfr2, hl2⟩ := ih s (fun j hj => hlanes j (by omega)) hval htail hnd hht
        hA hE hY hfuel
      rw [if_neg (by omega : ¬ l ≤ e.level), List.append_nil] at hs2
      refine ⟨s2, hs2, hfr2.mono (by omega), ?_⟩
      intro j hj
      by_cases hjl : j = l
      · subst hjl
        have h0 := hlanes j (by omega)
        rw [onLane_append, onLane_cons_of_lt hlt, ← onLane_append] at h0
        exact hfr2.linked (le_refl _) h0
      · exact hl2 j (by omega)

end detail

/-! ## `remove` in general -/

namespace detail

variable {T K : Type}

/-- Removing a node, given what the lane loop does: the node is released, every
other node stays, and the back pointers skip the node. -/
theorem remove_of_lanes {P : sl_traits T K} {s : sl_impl T K} {X Y : List (Item T)} {e : Item T}
    (hs : Shape P s (X ++ e :: Y))
    (hl : ∀ s1 : sl_impl T K,
      PrevWrite s s1 ((Y.map Item.addr).headD s.tail) (lastD s.head (X.map Item.addr)) →
      ∃ s2, sl_impl.remove_lanes P (P.KeyFromValue e.value) e.addr s1.levels s1 s1.head = some s2 ∧
        LaneFrame s1.levels s1 s2 ∧
        ∀ j, j < s1.levels → Linked s2 j s1.head (onLane j (X ++ Y)) s1.tail) :
    ∃ s1, sl_impl.remove P s e.addr = some s1 ∧ Shape P s1 (X ++ Y) ∧ s1.less = s.less ∧
      s1.levels = s.levels ∧ s1.head = s.head ∧ s1.tail = s.tail ∧ s1.brk = s.brk ∧
      s1.get_level e.addr = none := by
  have he : e ∈ X ++ e :: Y := by simp
  have hXm : ∀ x ∈ X, x ∈ X ++ e :: Y := fun x hx => List.mem_append_left _ hx
  have hYm : ∀ x ∈ Y, x ∈ X ++ e :: Y := fun x hx =>
    List.mem_append_right _ (List.mem_cons_of_mem _ hx)
  have hXYm : ∀ x ∈ X ++ Y, x ∈ X ++ e :: Y := by
    intro x hx
    rcases List.mem_append.mp hx with h | h
    · exact hXm x h
    · exact hYm x h
  have hv := hs.value he
  have hn0 : s.get_next e.addr 0 = some ((Y.map Item.addr).headD s.tail) := by
    have hs1 : Shape P s ((X ++ [e]) ++ Y) := by
      have : X ++ e :: Y = (X ++ [e]) ++ Y := by simp
      rwa [this] at hs
    have := hs1.next0
    rwa [List.map_append, List.map_cons, List.map_nil, lastD_concat] at this
  have hnp : s.get_prev e.addr = some (lastD s.head (X.map Item.addr)) := by
    have := hs.prev0
    simpa using this
  obtain ⟨s1, hs1, hw1⟩ := sl_impl.set_prev_spec (lastD s.head (X.map Item.addr))
    (hs.headD_allocated hYm)
  have hnd : (X.map Item.addr ++ e.addr :: Y.map Item.addr).Nodup := by
    have := hs.nodup
    simpa using this
  have he_notin : e.addr ∉ (X ++ Y).map Item.addr := by
    intro hc
    rw [List.map_append] at hc
    rcases List.mem_append.mp hc with h | h
    · exact List.disjoint_left.mp (List.nodup_append.mp hnd).2.2 h (List.mem_cons_self _ _)
    · exact (List.nodup_cons.mp (List.nodup_append.mp hnd).2.1).1 h
  obtain ⟨s2, hs2, hfr, hl2⟩ := hl s1 hw1
  have halloc2 : s2.get_level e.addr ≠ none := by
    rw [hfr.level, hw1.level, (hs.nodes e he).2.1]
    simp
  obtain ⟨s3, hs3, hr⟩ := sl_impl.deallocate_spec halloc2
  refine ⟨{ s3 with item_count := s3.item_count - 1 }, ?_, ?_, ?_, ?_, ?_, ?_, ?_, ?_⟩
  · unfold sl_impl.remove
    simp only [hv, hn0, hnp, hs1, hs2, hs3]
  · have hhead : s3.head = s.head := hr.head.trans (hfr.head.trans hw1.head)
    have htail : s3.tail = s.tail := hr.tail.trans (hfr.tail.trans hw1.tail)
    have hlevels : s3.levels = s.levels := hr.levels.trans (hfr.levels.trans hw1.levels)
    have hhe : s.head ≠ e.addr := fun hc => hs.ne_head he hc.symm
    have hte : s.tail ≠ e.addr := fun hc => hs.ne_tail he hc.symm
    have hvalue : ∀ a, a ≠ e.addr → s3.get_value a = s.get_value a := fun a ha =>
      (hr.value a ha).trans ((hfr.value a).trans (hw1.value a))
    have hlevel : ∀ a, a ≠ e.addr → s3.get_level a = s.get_level a := fun a ha =>
      (hr.level a ha).trans ((hfr.level a).trans (hw1.level a))
    have hlen : ∀ a, a ≠ e.addr → s3.get_len a = s.get_len a := fun a ha =>
      (hr.len a ha).trans ((hfr.len a).trans (hw1.len a))
    have hxe : ∀ x ∈ X ++ Y, x.addr ≠ e.addr := fun x hx hc =>
      he_notin (hc ▸ List.mem_map_of_mem _ hx)
    have hlane_ne : ∀ j x, x = s.head ∨ x ∈ onLane j (X ++ Y) → x ≠ e.addr := by
      intro j x hx
      rcases hx with rfl | hx
      · exact hhe
      · exact fun hc => he_notin (hc ▸ onLane_subset j _ hx)
    constructor
    · show s3.get_level 0 = none
      rw [hlevel 0 (fun hc => hs.ne_null he hc.symm)]
      exact hs.null_free
    · intro a ha
      show s3.get_level a = none
      by_cases hae : a = e.addr
      · rw [hae]; exact hr.gone
      · rw [hlevel a hae]
        have hb : s3.brk = s.brk := hr.brk.trans (hfr.brk.trans hw1.brk)
        exact hs.above_brk a (by
          have : ({ s3 with item_count := s3.item_count - 1 } : sl_impl T K).brk = s3.brk := rfl
          rw [this, hb] at ha
          exact ha)
    · show s3.head ≠ s3.tail
      rw [hhead, htail]; exact hs.head_ne_tail
    · show s3.get_len s3.head = _
      rw [hhead, hlen _ hhe]; exact hs.head_len
    · show s3.get_next s3.head P.num_levels = _
      rw [hhead, hr.next _ _ hhe, hfr.next _ _ (by rw [hw1.levels]; exact hs.levels_le),
        hw1.next]
      exact hs.head_top
    · show s3.get_value s3.head = none
      rw [hhead, hvalue _ hhe]; exact hs.head_value
    · show s3.get_level s3.tail ≠ none
      rw [htail, hlevel _ hte]; exact hs.tail_level
    · show s3.get_value s3.tail = none
      rw [htail, hvalue _ hte]; exact hs.tail_value
    · have : List.Sublist ((X ++ Y).map Item.addr) ((X ++ e :: Y).map Item.addr) := by
        apply List.Sublist.map
        exact List.Sublist.append (List.Sublist.refl _) (List.sublist_cons_self _ _)
      exact hs.nodup.sublist this
    · show s3.head ∉ _
      rw [hhead]
      intro hc
      obtain ⟨x, hx, hxe1⟩ := List.mem_map.mp hc
      exact hs.ne_head (hXYm x hx) hxe1
    · show s3.tail ∉ _
      rw [htail]
      intro hc
      obtain ⟨x, hx, hxe1⟩ := List.mem_map.mp hc
      exact hs.ne_tail (hXYm x hx) hxe1
    · intro x hx
      have hx1 := hs.nodes x (hXYm x hx)
      have hne := hxe x hx
      refine ⟨?_, ?_, ?_, ?_⟩
      · show s3.get_value x.addr = _
        rw [hvalue _ hne]; exact hx1.1
      · show s3.get_level x.addr = _
        rw [hlevel _ hne]; exact hx1.2.1
      · show s3.get_len x.addr = _
        rw [hlen _ hne]; exact hx1.2.2.1
      · show x.level < s3.levels
        rw [hlevels]; exact hx1.2.2.2
    · show s3.levels ≤ _
      rw [hlevels]; exact hs.levels_le
    · exact hs.levels_pos
    · intro j hj
      refine Linked.frame (s := s3) ?_ (fun _ _ => rfl)
      show Linked s3 j s3.head (onLane j (X ++ Y)) s3.tail
      rw [hhead, htail]
      have h2 : Linked s2 j s.head (onLane j (X ++ Y)) s.tail := by
        by_cases hjl : j < s.levels
        · have := hl2 j (by rw [hw1.levels]; exact hjl)
          rwa [hw1.head, hw1.tail] at this
        · have h0 := hs.lanes j hj
          have hnil1 : onLane j (X ++ e :: Y) = [] :=
            onLane_eq_nil (fun x hx => by have := (hs.nodes x hx).2.2.2; omega)
          have hnil2 : onLane j (X ++ Y) = [] :=
            onLane_eq_nil (fun x hx => by have := (hs.nodes x (hXYm x hx)).2.2.2; omega)
          rw [hnil1] at h0
          rw [hnil2]
          exact hfr.linked (by rw [hw1.levels]; omega) (hw1.linked_kept h0)
      exact h2.frame (fun x hx => hr.next x j (hlane_ne j x hx))
    · refine BackLinked.frame_prev (s := s3) ?_ (fun _ _ => rfl)
      show BackLinked s3 s3.head ((X ++ Y).map Item.addr) s3.tail
      rw [hhead, htail]
      have h0 := hs.back
      rw [List.map_append, List.map_cons] at h0
      have hndt : (X.map Item.addr ++ e.addr :: Y.map Item.addr ++ [s.tail]).Nodup := by
        have := hs.nodup_tail
        simpa using this
      have h1 := hw1.backLinked_unlink h0 hndt
      have h2 := hfr.backLinked h1
      rw [List.map_append]
      apply h2.frame_prev
      intro x hx
      apply hr.prev
      rcases hx with rfl | hx
      · exact hte
      · rw [← List.map_append] at hx
        exact fun hc => he_notin (hc ▸ hx)
    · show s3.item_count - 1 = (X ++ Y).length
      rw [hr.item_count, hfr.item_count, hw1.item_count, hs.count]
      simp
  · exact hr.less.trans (hfr.less.trans hw1.less)
  · exact hr.levels.trans (hfr.levels.trans hw1.levels)
  · exact hr.head.trans (hfr.head.trans hw1.head)
  · exact hr.tail.trans (hfr.tail.trans hw1.tail)
  · exact hr.brk.trans (hfr.brk.trans hw1.brk)
  · exact hr.gone

/-- Removing a node when duplicates are allowed. The list is `A ++ E ++ e :: Y`:
the keys of `A` are below the key of `e`, those of `E` are equivalent to it, and
no key of `Y` is below it. -/
theorem remove_dup_spec {P : sl_traits T K} {s : sl_impl T K} {A E Y : List (Item T)}
    {e : Item T} (hs : Shape P s (A ++ E ++ e :: Y)) (hdup : P.AllowDuplicates = true)
    (hA : ∀ x ∈ A, s.less (P.KeyFromValue x.value) (P.KeyFromValue e.value) = true)
    (hE : ∀ x ∈ E, equivalent s.less (P.KeyFromValue x.value) (P.KeyFromValue e.value) = true)
    (hY : ∀ x ∈ e :: Y, s.less (P.KeyFromValue x.value) (P.KeyFromValue e.value) = false) :
    ∃ s1, sl_impl.remove P s e.addr = some s1 ∧ Shape P s1 (A ++ E ++ Y) ∧ s1.less = s.less ∧
      s1.levels = s.levels ∧ s1.head = s.head ∧ s1.tail = s.tail ∧ s1.brk = s.brk ∧
      s1.get_level e.addr = none := by
  have he : e ∈ A ++ E ++ e :: Y := by simp
  refine remove_of_lanes hs ?_
  intro s1 hw1
  have hstart : lastD s1.head (onLane s1.levels (A ++ (if s1.levels ≤ e.level then E else [])))
      = s1.head := by
    have hlv : e.level < s.levels := (hs.nodes e he).2.2.2
    rw [hw1.levels, if_neg (by omega), List.append_nil,
      hs.onLane_levels (fun x hx => by simp [hx])]
    rfl
  obtain ⟨s2, hs2, hfr, hl2⟩ := @remove_lanes_dup_spec _ _ P A E Y e
    (P.KeyFromValue e.value) hdup s1.levels s1
    (fun j hj => by
      rw [hw1.head, hw1.tail]
      rw [hw1.levels] at hj
      exact hw1.linked_kept (hs.lanes j (by have := hs.levels_le; omega)))
    (fun x hx => by rw [hw1.value]; exact hs.value hx)
    (fun x hx => by rw [hw1.tail]; exact hs.ne_tail hx)
    (by rw [hw1.head]; exact hs.nodup_head)
    (by rw [hw1.head, hw1.tail]; exact hs.head_ne_tail)
    (fun x hx => by rw [hw1.less]; exact hA x hx)
    (fun x hx => by rw [hw1.less]; exact hE x hx)
    (fun x hx => by rw [hw1.less]; exact hY x hx)
    (by
      rw [hw1.brk]
      have := hs.length_lt_brk
      omega)
  rw [hstart] at hs2
  exact ⟨s2, hs2, hfr, hl2⟩

end detail

/-! ## Removing any node, and erasing a run of equivalent keys -/

namespace detail

variable {T K : Type}

/-- Taking any node out of a list, with or without duplicates: the other nodes
keep their order, and no forward pointer is left that refers to the node. -/
theorem remove_any {P : sl_traits T K} {s : sl_impl T K} {X Y : List (Item T)} {e : Item T}
    (hinv : Inv P s (X ++ e :: Y)) (hswo : StrictWeakOrder s.less) :
    ∃ s1, sl_impl.remove P s e.addr = some s1 ∧ Inv P s1 (X ++ Y) ∧ s1.less = s.less ∧
      s1.levels = s.levels ∧ s1.head = s.head ∧ s1.tail = s.tail ∧ s1.brk = s.brk ∧
      (∀ a ∈ s1.head :: (X ++ Y).map Item.addr, ∀ l, s1.get_next a l ≠ some e.addr) := by
  cases hD : P.AllowDuplicates with
  | false => exact remove_inv hinv hswo hD
  | true =>
    have he : e ∈ X ++ e :: Y := by simp
    have hsorted := hinv.sorted
    rw [List.pairwise_append] at hsorted
    have hXs := hsorted.1
    have hXe : ∀ x ∈ X, s.less (P.KeyFromValue e.value) (P.KeyFromValue x.value) = false := by
      intro x hx
      have := hsorted.2.2 x hx e (List.mem_cons_self _ _)
      simpa [ordered, hD] using this
    have hYe : ∀ y ∈ Y, s.less (P.KeyFromValue y.value) (P.KeyFromValue e.value) = false := by
      intro y hy
      have := (List.pairwise_cons.mp hsorted.2.1).1 y hy
      simpa [ordered, hD] using this
    have hcut : X = X.takeWhile (fun x => s.less (P.KeyFromValue x.value) (P.KeyFromValue e.value))
        ++ X.dropWhile (fun x => s.less (P.KeyFromValue x.value) (P.KeyFromValue e.value)) :=
      (List.takeWhile_append_dropWhile _ X).symm
    generalize hA : X.takeWhile
      (fun x => s.less (P.KeyFromValue x.value) (P.KeyFromValue e.value)) = A at hcut
    generalize hE : X.dropWhile
      (fun x => s.less (P.KeyFromValue x.value) (P.KeyFromValue e.value)) = E at hcut
    have hAlt : ∀ x ∈ A, s.less (P.KeyFromValue x.value) (P.KeyFromValue e.value) = true := by
      intro x hx
      rw [← hA] at hx
      exact takeWhile_all_true x hx
    have hEeq : ∀ x ∈ E,
        equivalent s.less (P.KeyFromValue x.value) (P.KeyFromValue e.value) = true := by
      intro x hx
      have hxX : x ∈ X := by rw [hcut]; exact List.mem_append_right _ hx
      rw [← hE] at hx
      have h1 := dropWhile_all_false hXs
        (fun a b hab hb => ordered_lt_mono hswo hab hb) x hx
      simp only at h1
      simp [equivalent, h1, hXe x hxX]
    have hs : Shape P s (A ++ E ++ e :: Y) := by
      rw [← hcut]; exact hinv.shape
    obtain ⟨s1, hs1, hshape, hless, hlevels, hhead, htail, hbrk, _⟩ :=
      remove_dup_spec hs hD hAlt hEeq (by
        intro x hx
        rcases List.mem_cons.mp hx with rfl | hx
        · exact hswo.irrefl _
        · exact hYe x hx)
    rw [← hcut] at hshape
    refine ⟨s1, hs1, ⟨hshape, ?_⟩, hless, hlevels, hhead, htail, hbrk, ?_⟩
    · rw [hless, hD]
      have := hinv.sorted
      rw [hD] at this
      exact this.sublist
        (List.Sublist.append (List.Sublist.refl _) (List.sublist_cons_self _ _))
    · refine hshape.next_ne_of_absent ?_ ?_ (hinv.shape.ne_null he)
      · intro hc
        obtain ⟨x, hx, hxe⟩ := List.mem_map.mp hc
        exact addr_ne_of_nodup_middle hinv.shape.nodup x hx hxe
      · rw [htail]
        exact hinv.shape.ne_tail he

theorem equivalent_comm {less : K → K → Bool} (a b : K) :
    equivalent less a b = equivalent less b a := by
  unfold equivalent
  exact Bool.and_comm _ _

end detail


/-! ## `multi_skip_list` on an engine satisfying the invariant -/

/-- The loop of `multi_skip_list::erase(value)`, for an argument that lives
outside the container, removes the run `A2` of elements equivalent to `value`,
last node first, and counts them. -/
theorem multi_skip_list.erase_loop_spec {T : Type} {N : Nat} {value : T} {A1 : List (Item T)}
    (A2 : List (Item T)) :
    ∀ (B : List (Item T)) (s : sl_impl T T) (fuel c : Nat),
      Inv (skip_list.traits N true) s (A1 ++ A2 ++ B) → StrictWeakOrder s.less →
      (∀ e ∈ A1, s.less e.value value = true) →
      (∀ e ∈ A2, equivalent s.less e.value value = true) →
      (∀ e ∈ B, s.less value e.value = true) →
      A2.length < fuel →
      ∃ s1, multi_skip_list.erase_loop N (.outside value) fuel s c = some (s1, c + A2.length) ∧
        Inv (skip_list.traits N true) s1 (A1 ++ B) ∧ s1.less = s.less ∧
        s1.levels = s.levels ∧ s1.head = s.head ∧ s1.tail = s.tail ∧ s1.brk = s.brk := by
  induction A2 using List.reverseRecOn with
  | nil =>
    intro B s fuel c hinv hswo h1 _ h3 hfuel
    cases fuel with
    | zero => simp at hfuel
    | succ fuel =>
      have hinv1 : Inv (skip_list.traits N true) s (A1 ++ B) := by simpa using hinv
      have hne : ∀ e ∈ A1 ++ B, equivalent s.less e.value value = false := by
        intro e he
        rcases List.mem_append.mp he with h | h
        · exact equivalent_eq_false_of_lt (h1 e h)
        · exact equivalent_eq_false_of_gt (h3 e h)
      obtain ⟨node, hfind, hcase⟩ := @find_miss _ _ _ _ _ hinv1 hswo value hne
      refine ⟨s, ?_, hinv1, rfl, rfl, rfl, rfl, rfl⟩
      unfold multi_skip_list.erase_loop
      simp only [sl_impl.read_ref, find_ref_some]
      rw [hfind]
      rcases hcase with hv | ⟨hv, v, hval, hneq⟩
      · simp [hv]
      · have hneq1 : equivalent s.less v value = false := hneq
        simp [hv, hval, hneq1]
  | append_singleton E e ih =>
    intro B s fuel c hinv hswo h1 h2 h3 hfuel
    cases fuel with
    | zero => simp at hfuel
    | succ fuel =>
      have hes : A1 ++ (E ++ [e]) ++ B = (A1 ++ E) ++ e :: B := by simp
      have hinv1 : Inv (skip_list.traits N true) s ((A1 ++ E) ++ e :: B) := hes ▸ hinv
      have he : e ∈ (A1 ++ E) ++ e :: B := by simp
      have hfind : sl_impl.find (skip_list.traits N true) s value = some e.addr := by
        have hs1 : Shape (skip_list.traits N true) s ((A1 ++ E ++ [e]) ++ B) := by
          have : A1 ++ (E ++ [e]) ++ B = (A1 ++ E ++ [e]) ++ B := by simp
          exact this ▸ hinv.shape
        have := @find_spec _ _ _ _ _ _ value hs1
          (by
            intro x hx
            have hx1 : x ∈ A1 ∨ x ∈ E ++ [e] := by
              rcases List.mem_append.mp hx with h | h
              · rcases List.mem_append.mp h with h | h
                · exact Or.inl h
                · exact Or.inr (List.mem_append_left _ h)
              · exact Or.inr (List.mem_append_right _ h)
            rcases hx1 with h | h
            · have := hswo.asymm (h1 x h)
              simp only [less_or_equal, skip_list.traits]
              simp [this]
            · have := not_gt_of_equivalent (h2 x h)
              simp only [less_or_equal, skip_list.traits]
              simp [this])
          (by
            intro x hx
            simp only [less_or_equal, skip_list.traits]
            simp [h3 x hx])
        rw [this, List.map_append, List.map_cons, List.map_nil, lastD_concat]
      obtain ⟨s1, hrem, hinv2, hless, hlevels, hhead, htail, hbrk, _⟩ := remove_any hinv1 hswo
      obtain ⟨s2, hloop, hinv3, hless2, hlevels2, hhead2, htail2, hbrk2⟩ :=
        ih B s1 fuel (c + 1) hinv2 (hless ▸ hswo)
          (fun x hx => by rw [hless]; exact h1 x hx)
          (fun x hx => by rw [hless]; exact h2 x (List.mem_append_left _ hx))
          (fun x hx => by rw [hless]; exact h3 x hx)
          (by simp only [List.length_append, List.length_cons, List.length_nil] at hfuel; omega)
      refine ⟨s2, ?_, hinv3, hless2.trans hless, hlevels2.trans hlevels, hhead2.trans hhead,
        htail2.trans htail, hbrk2.trans hbrk⟩
      unfold multi_skip_list.erase_loop
      simp only [sl_impl.read_ref, find_ref_some]
      rw [hfind]
      simp only [hinv1.shape.is_valid he, if_true, hinv1.shape.value he,
        h2 e (by simp), hrem, hloop]
      simp only [List.length_append, List.length_cons, List.length_nil]
      congr 2
      omega

/-- Modifier `multi_skip_list::erase(value)` for an argument that lives outside
the container: every element equivalent to `value` goes, the others stay in
their order, and the result is the number removed. -/
theorem multi_skip_list.erase_all {T : Type} {N : Nat} {s : sl_impl T T} {es : List (Item T)}
    (hinv : Inv (skip_list.traits N true) s es) (hswo : StrictWeakOrder s.less) (value : T) :
    ∃ s1, multi_skip_list.erase N s (.outside value)
        = some (s1, es.countP (fun e => equivalent s.less e.value value)) ∧
      Inv (skip_list.traits N true) s1 (es.filter (fun e => !equivalent s.less e.value value)) ∧
      s1.less = s.less ∧ s1.levels = s.levels ∧ s1.head = s.head ∧ s1.tail = s.tail ∧
      s1.brk = s.brk := by
  obtain ⟨A1, A2, B, hes, h1c, h2c, h3c, _⟩ :=
    sorted_cut hswo (skip_list.traits N true).KeyFromValue hinv.sorted value
  have h1 : ∀ e ∈ A1, s.less e.value value = true := h1c
  have h2 : ∀ e ∈ A2, equivalent s.less e.value value = true := h2c
  have h3 : ∀ e ∈ B, s.less value e.value = true := h3c
  have hlen := hinv.shape.length_lt_brk
  obtain ⟨s1, hloop, hinv1, hrest⟩ := multi_skip_list.erase_loop_spec A2 B s (s.brk + 1) 0
    (hes ▸ hinv) hswo h1 h2 h3 (by
      rw [hes] at hlen
      simp only [List.length_append] at hlen
      omega)
  have hcount : es.countP (fun e => equivalent s.less e.value value) = A2.length := by
    rw [hes, List.countP_append, List.countP_append]
    have e1 : A1.countP (fun e => equivalent s.less e.value value) = 0 := by
      rw [List.countP_eq_zero]
      intro e he
      simp [equivalent_eq_false_of_lt (h1 e he)]
    have e2 : A2.countP (fun e => equivalent s.less e.value value) = A2.length :=
      List.countP_eq_length.mpr h2
    have e3 : B.countP (fun e => equivalent s.less e.value value) = 0 := by
      rw [List.countP_eq_zero]
      intro e he
      simp [equivalent_eq_false_of_gt (h3 e he)]
    omega
  have hfilter : es.filter (fun e => !equivalent s.less e.value value) = A1 ++ B := by
    rw [hes, List.filter_append, List.filter_append]
    have f1 : A1.filter (fun e => !equivalent s.less e.value value) = A1 :=
      List.filter_eq_self.mpr (fun e he => by simp [equivalent_eq_false_of_lt (h1 e he)])
    have f2 : A2.filter (fun e => !equivalent s.less e.value value) = [] := by
      rw [List.filter_eq_nil_iff]
      intro e he
      simp [h2 e he]
    have f3 : B.filter (fun e => !equivalent s.less e.value value) = B :=
      List.filter_eq_self.mpr (fun e he => by simp [equivalent_eq_false_of_gt (h3 e he)])
    rw [f1, f2, f3, List.append_nil]
  refine ⟨s1, ?_, hfilter ▸ hinv1, hrest⟩
  unfold multi_skip_list.erase
  rw [hloop, hcount, Nat.zero_add]


/-- Modifier `multi_skip_list::erase(v)` on a multiset `u` with lane 0 sequence
`us`, for an argument `v` that lives outside the container. The call returns the
number of elements equivalent to `v`; the lane 0 sequence afterwards is the old
one without those elements, the others in their old order; `count(v)` is then 0
and `size()` has gone down by the number returned. -/
theorem multi_skip_list.erase_outside_argument {T : Type} (N : Nat)
    (u : sl_impl T T) (us : List (Item T))
    (hu : Inv (skip_list.traits N true) u us) (hul : StrictWeakOrder u.less) (v : T) :
    ∃ u1, multi_skip_list.erase N u (.outside v)
        = some (u1, (us.map Item.value).countP (fun x => equivalent u.less x v)) ∧
      u.lane0 = some (us.map Item.value) ∧
      u1.lane0 = some ((us.map Item.value).filter (fun x => !equivalent u.less x v)) ∧
      multi_skip_list.count N u1 v = some 0 ∧
      skip_list.size u1 + (us.map Item.value).countP (fun x => equivalent u.less x v)
        = skip_list.size u := by
  obtain ⟨u1, herase, hinv1, hless, _, _, _, _⟩ := multi_skip_list.erase_all hu hul v
  have hul1 : StrictWeakOrder u1.less := hless ▸ hul
  have hcp : (us.map Item.value).countP (fun x => equivalent u.less x v)
      = us.countP (fun e => equivalent u.less e.value v) := by
    rw [List.countP_map]
    rfl
  refine ⟨u1, by rw [hcp]; exact herase, hu.shape.lane0_eq, ?_, ?_, ?_⟩
  · rw [hinv1.shape.lane0_eq, List.filter_map]
    rfl
  · have h := count_eq_countP hinv1 hul1 v
    have h0 : (us.filter (fun e => !equivalent u.less e.value v)).countP
        (fun e => equivalent u1.less e.value v) = 0 := by
      rw [List.countP_eq_zero]
      intro e he
      have := (List.mem_filter.mp he).2
      rw [hless]
      simpa using this
    unfold multi_skip_list.count
    rw [h]
    exact congrArg some h0
  · show u1.item_count + _ = u.item_count
    rw [hinv1.shape.count, hu.shape.count, hcp]
    have := List.length_eq_countP_add_countP (fun e : Item T => equivalent u.less e.value v) us
    rw [List.countP_eq_length_filter (fun e : Item T => ¬ equivalent u.less e.value v = true)]
      at this
    have hf : us.filter (fun e => !equivalent u.less e.value v)
        = us.filter (fun e => decide (¬ equivalent u.less e.value v = true)) := by
      congr 1
      funext e
      simp
    rw [hf]
    omega


/-! ## `remove_between` -/

namespace detail

variable {T K : Type}

/-- Cutting the run `rs` out of a lane: the forward pointer of the node in front
of the run is redirected to the node behind it. -/
theorem NextWrite.linked_cut {s s1 : sl_impl T K} {l : Nat} {a : Nat} {xs rs ys : List Nat}
    {t : Nat} (hl : Linked s l a (xs ++ rs ++ ys) t) (hnd : (a :: (xs ++ rs ++ ys)).Nodup)
    (h : NextWrite s s1 (lastD a xs) l (ys.headD t)) : Linked s1 l a (xs ++ ys) t := by
  have hl1 : Linked s l a (xs ++ (rs ++ ys)) t := by rwa [List.append_assoc] at hl
  obtain ⟨h1, _⟩ := Linked_append.mp hl1
  obtain ⟨_, h2⟩ := Linked_append.mp hl
  have hnd0 : (a :: xs ++ (rs ++ ys)).Nodup := by simpa [List.append_assoc] using hnd
  have hnd1 : (a :: xs).Nodup := (List.nodup_append.mp hnd0).1
  have hlast : lastD a xs ∈ a :: xs := by
    rcases lastD_mem a xs with h3 | h3
    · rw [h3]; exact List.mem_cons_self _ _
    · exact List.mem_cons_of_mem _ h3
  have hdisj : ∀ y ∈ ys, y ≠ lastD a xs := by
    intro y hy hc
    have := (List.nodup_append.mp hnd0).2.2
    exact List.disjoint_left.mp this hlast (List.mem_append_right _ (hc ▸ hy))
  refine Linked_append.mpr ⟨h.linked_redirect h1 hnd1, ?_⟩
  cases ys with
  | nil =>
    show s1.get_next (lastD a xs) l = some t
    rw [h.next]
    simp
  | cons y ys =>
    refine ⟨?_, ?_⟩
    · rw [h.next]
      simp
    · have h3 : Linked s l y ys t := h2.2
      apply h.linked_away h3
      · exact (hdisj y (List.mem_cons_self _ _)).symm
      · intro hc
        exact hdisj _ (List.mem_cons_of_mem _ hc) rfl

/-- Cutting the run `rs` out of the chain of back pointers. -/
theorem PrevWrite.backLinked_cut {s s1 : sl_impl T K} {a t : Nat} {xs rs ys : List Nat}
    (hl : BackLinked s a (xs ++ rs ++ ys) t) (hnd : (xs ++ rs ++ ys ++ [t]).Nodup)
    (h : PrevWrite s s1 (ys.headD t) (lastD a xs)) : BackLinked s1 a (xs ++ ys) t := by
  have hl1 : BackLinked s a (xs ++ (rs ++ ys)) t := by rwa [List.append_assoc] at hl
  obtain ⟨h1, _⟩ := BackLinked_append.mp hl1
  obtain ⟨_, h2⟩ := BackLinked_append.mp hl
  have hhd : ys.headD t ∈ ys ++ [t] := by
    cases ys with
    | nil => simp
    | cons y ys => simp
  have hnd0 : (xs ++ (rs ++ (ys ++ [t]))).Nodup := by simpa [List.append_assoc] using hnd
  have hq_notin : ys.headD t ∉ xs := by
    intro hc
    exact List.disjoint_left.mp (List.nodup_append.mp hnd0).2.2 hc
      (List.mem_append_right _ hhd)
  refine BackLinked_append.mpr ⟨?_, ?_⟩
  · apply h1.retarget
    · intro x hx
      have : x ≠ ys.headD t := fun hc => hq_notin (hc ▸ hx)
      rw [h.prev, if_neg this]
    · rw [h.prev, if_pos rfl]
  · cases ys with
    | nil =>
      show s1.get_prev t = some (lastD a xs)
      rw [h.prev]
      exact if_pos rfl
    | cons y ys =>
      refine ⟨by rw [h.prev]; exact if_pos rfl, ?_⟩
      have h3 : BackLinked s y ys t := h2.2
      have hnd2 : (y :: ys ++ [t]).Nodup := by
        have := (List.nodup_append.mp (List.nodup_append.mp hnd0).2.1).2.1
        simpa using this
      have hy : y ∉ ys ++ [t] := (List.nodup_cons.mp hnd2).1
      apply h.backLinked_away h3
      · intro hc
        exact hy (by simp only [List.headD_cons] at hc; rw [hc]; simp)
      · intro hc
        exact hy (List.mem_append_left _ (by simpa using hc))

/-- The inner loop of `remove_between` runs along the keys up to `last_key` and
stops at the first node behind them. -/
theorem skip_range_spec {P : sl_traits T K} {s : sl_impl T K} {last_key : K} {l : Nat}
    (rs : List (Item T)) (ys : List Nat) :
    ∀ (a fuel : Nat), Linked s l a (rs.map Item.addr ++ ys) s.tail →
      (∀ r ∈ rs, s.get_value r.addr = some r.value ∧ r.addr ≠ s.tail ∧
        less_or_equal s.less (P.KeyFromValue r.value) last_key = true) →
      (∀ y, ys.head? = some y → y ≠ s.tail ∧
        ∃ v, s.get_value y = some v ∧ less_or_equal s.less (P.KeyFromValue v) last_key = false) →
      rs.length < fuel →
      sl_impl.skip_range P s last_key l fuel ((rs.map Item.addr ++ ys).headD s.tail)
        = some (ys.headD s.tail) := by
  induction rs with
  | nil =>
    intro a fuel _ _ hys hfuel
    cases fuel with
    | zero => simp at hfuel
    | succ fuel =>
      unfold sl_impl.skip_range
      cases ys with
      | nil => simp
      | cons y ys =>
        obtain ⟨hy, v, hv, hp⟩ := hys y rfl
        simp [hy, hv, hp]
  | cons r rs ih =>
    intro a fuel hlink hrs hys hfuel
    cases fuel with
    | zero => simp at hfuel
    | succ fuel =>
      obtain ⟨hv, ht, hp⟩ := hrs r (List.mem_cons_self _ _)
      simp only [List.map_cons, List.cons_append] at hlink
      unfold sl_impl.skip_range
      simp only [List.map_cons, List.cons_append, List.headD_cons, if_neg ht, hv, hp, if_true,
        hlink.2.next_first]
      exact ih r.addr fuel hlink.2 (fun x hx => hrs x (List.mem_cons_of_mem _ hx)) hys
        (by simpa using hfuel)

/-- The lane loop of `remove_between`. The list is `X ++ R ++ Y`: the keys of `X`
are below `first_key`, those of `R` lie between `first_key` and `last_key`, and
those of `Y` are above `last_key`. Every lane is led around `R`, and only nodes
in front of `R` are written. -/
theorem remove_between_lanes_spec {P : sl_traits T K} {X R Y : List (Item T)}
    {first_key last_key : K} (l : Nat) :
    ∀ (s : sl_impl T K),
      (∀ j, j < l → Linked s j s.head (onLane j (X ++ R ++ Y)) s.tail) →
      (∀ x ∈ X ++ R ++ Y, s.get_value x.addr = some x.value) →
      (∀ x ∈ X ++ R ++ Y, x.addr ≠ s.tail) →
      (s.head :: (X ++ R ++ Y).map Item.addr).Nodup →
      (∀ x ∈ X, s.less (P.KeyFromValue x.value) first_key = true) →
      (∀ x ∈ R ++ Y, s.less (P.KeyFromValue x.value) first_key = false) →
      (∀ x ∈ R, less_or_equal s.less (P.KeyFromValue x.value) last_key = true) →
      (∀ x ∈ Y, less_or_equal s.less (P.KeyFromValue x.value) last_key = false) →
      (X ++ R ++ Y).length < s.brk →
      ∃ s1, sl_impl.remove_between_lanes P first_key last_key l s
          (lastD s.head (onLane l X)) = some s1 ∧
        LaneFrame l s s1 ∧ (∀ j, j < l → Linked s1 j s.head (onLane j (X ++ Y)) s.tail) ∧
        ∀ a, a ∉ s.head :: X.map Item.addr → ∀ j, s1.get_next a j = s.get_next a j := by
  induction l with
  | zero =>
    intro s _ _ _ _ _ _ _ _ _
    exact ⟨s, rfl, LaneFrame.refl 0 s, fun j hj => absurd hj (by omega), fun _ _ _ => rfl⟩
  | succ l ih =>
    intro s hlanes hval htail hnd hX hRY hR hY hfuel
    have hlink := hlanes l (by omega)
    have hlink1 : Linked s l s.head (onLane l (X ++ (R ++ Y))) s.tail := by
      rw [← List.append_assoc]; exact hlink
    have hstep := @advance_lane _ _ s l
      (fun v => s.less (P.KeyFromValue v) first_key) X (R ++ Y) s.brk hlink1
      (fun x hx => hval x (by rw [List.append_assoc]; exact hx))
      (fun x hx => htail x (by rw [List.append_assoc]; exact hx)) hX hRY
      (by simp only [List.length_append] at hfuel; omega)
    have hRl : onLane l R = (R.filter (fun e => decide (l ≤ e.level))).map Item.addr := rfl
    have hYm : ∀ y, (onLane l Y).head? = some y → y ≠ s.tail ∧
        ∃ v, s.get_value y = some v ∧
          less_or_equal s.less (P.KeyFromValue v) last_key = false := by
      intro y hy
      have hmem : y ∈ onLane l Y := List.mem_of_mem_head? hy
      obtain ⟨e, he, _, rfl⟩ := mem_onLane.mp hmem
      exact ⟨htail e (by simp [he]), e.value, hval e (by simp [he]), hY e he⟩
    have hlink2 : Linked s l s.head (onLane l X ++ (onLane l R ++ onLane l Y)) s.tail := by
      rw [onLane_append, onLane_append] at hlink1
      exact hlink1
    have hsuf := hlink2.suffix
    have hcn := hsuf.next_first
    have hcur_mem : lastD s.head (onLane l X) ∈ s.head :: X.map Item.addr := by
      rcases lastD_mem s.head (onLane l X) with h | h
      · rw [h]; exact List.mem_cons_self _ _
      · exact List.mem_cons_of_mem _ (onLane_subset _ _ h)
    unfold sl_impl.remove_between_lanes
    rw [hstep]
    simp only [hcn]
    cases hRf : R.filter (fun e => decide (l ≤ e.level)) with
    | nil =>
      have hRnil : onLane l R = [] := by rw [hRl, hRf]; rfl
      obtain ⟨s2, hs2, hfr2, hl2, hw2⟩ := ih s (fun j hj => hlanes j (by omega)) hval htail hnd
        hX hRY hR hY hfuel
      have hlane_l : Linked s2 l s.head (onLane l (X ++ Y)) s.tail := by
        have h0 := hlink2
        rw [hRnil, List.nil_append, ← onLane_append] at h0
        exact hfr2.linked (le_refl _) h0
      have hcont : (if (onLane l R ++ onLane l Y).headD s.tail = s.tail then
            sl_impl.remove_between_lanes P first_key last_key l s (lastD s.head (onLane l X))
          else
            match s.get_value ((onLane l R ++ onLane l Y).headD s.tail) with
            | none => none
            | some v =>
              if less_or_equal s.less (P.KeyFromValue v) last_key = true then
                match sl_impl.skip_range P s last_key l s.brk
                    ((onLane l R ++ onLane l Y).headD s.tail) with
                | none => none
                | some e =>
                  match s.set_next (lastD s.head (onLane l X)) l e with
                  | none => none
                  | some s1 =>
                    sl_impl.remove_between_lanes P first_key last_key l s1
                      (lastD s.head (onLane l X))
              else
                sl_impl.remove_between_lanes P first_key last_key l s
                  (lastD s.head (onLane l X))) = some s2 := by
        rw [hRnil, List.nil_append]
        cases hYl : onLane l Y with
        | nil => simpa using hs2
        | cons y ys =>
          obtain ⟨hy, v, hv, hp⟩ := hYm y (by rw [hYl]; rfl)
          simp only [List.headD_cons, if_neg hy, hv, hp, Bool.false_eq_true, if_false]
          exact hs2
      refine ⟨s2, hcont, hfr2.mono (by omega), ?_, hw2⟩
      intro j hj
      by_cases hjl : j = l
      · subst hjl; exact hlane_l
      · exact hl2 j (by omega)
    | cons r rs =>
      have hrm : ∀ x ∈ r :: rs, x ∈ R := by
        intro x hx
        have : x ∈ R.filter (fun e => decide (l ≤ e.level)) := by rw [hRf]; exact hx
        exact List.mem_of_mem_filter this
      have hRcons : onLane l R = r.addr :: rs.map Item.addr := by rw [hRl, hRf]; rfl
      have hr := hrm r (List.mem_cons_self _ _)
      have hrt : r.addr ≠ s.tail := htail r (by simp [hr])
      have hrv : s.get_value r.addr = some r.value := hval r (by simp [hr])
      have hsuf2 : Linked s l (lastD s.head (onLane l X))
          ((r :: rs).map Item.addr ++ onLane l Y) s.tail := by
        rw [hRcons] at hsuf
        exact hsuf
      have hskip := @skip_range_spec _ _ P s last_key l (r :: rs) (onLane l Y)
        (lastD s.head (onLane l X)) s.brk hsuf2
        (fun x hx => ⟨hval x (by simp [hrm x hx]), htail x (by simp [hrm x hx]),
          hR x (hrm x hx)⟩)
        hYm
        (by
          have h1 : (r :: rs).length ≤ R.length := by
            rw [← hRf]; exact List.length_filter_le _ _
          simp only [List.length_append] at hfuel
          omega)
      rw [hRcons]
      simp only [List.cons_append, List.headD_cons, if_neg hrt, hrv, hR r hr, if_true]
      simp only [List.map_cons, List.cons_append, List.headD_cons] at hskip
      rw [hskip]
      simp only
      obtain ⟨k, hk, hlk⟩ := sl_impl.get_next_lt_len hcn
      obtain ⟨s1, hs1, hw⟩ := sl_impl.set_next_spec ((onLane l Y).headD s.tail) hk hlk
      simp only [hs1]
      have hfr := hw.frame
      obtain ⟨s2, hs2, hfr2, hl2, hw2⟩ := ih s1
        (fun j hj => by
          rw [hfr.head, hfr.tail]
          exact hw.linked_other (by omega) (hlanes j (by omega)))
        (fun x hx => by rw [hfr.value]; exact hval x hx)
        (fun x hx => by rw [hfr.tail]; exact htail x hx)
        (by rw [hfr.head]; exact hnd)
        (fun x hx => by rw [hfr.less]; exact hX x hx)
        (fun x hx => by rw [hfr.less]; exact hRY x hx)
        (fun x hx => by rw [hfr.less]; exact hR x hx)
        (fun x hx => by rw [hfr.less]; exact hY x hx)
        (by rw [hfr.brk]; exact hfuel)
      rw [hfr.head] at hs2 hl2 hw2
      rw [hfr.tail] at hl2
      refine ⟨s2, hs2, hfr.trans (hfr2.mono (by omega)), ?_, ?_⟩
      · intro j hj
        by_cases hjl : j = l
        · subst hjl
          rw [onLane_append]
          have hnd_lane : (s.head :: (onLane j X ++ onLane j R ++ onLane j Y)).Nodup := by
            rw [← onLane_append, ← onLane_append]
            exact List.nodup_cons.mpr
              ⟨fun hc => (List.nodup_cons.mp hnd).1 (onLane_subset _ _ hc),
                onLane_nodup (List.nodup_cons.mp hnd).2⟩
          have := hw.linked_cut (by rw [← List.append_assoc] at hlink2; exact hlink2) hnd_lane
          exact hfr2.linked (le_refl _) this
        · exact hl2 j (by omega)
      · intro a ha j
        rw [hw2 a ha j, hw.next]
        have : ¬ (a = lastD s.head (onLane l X) ∧ j = l) := fun hc => ha (hc.1 ▸ hcur_mem)
        rw [if_neg this]

/-- The final loop of `remove_between` releases the nodes of the run, following
their lane 0 pointers up to `one_past_end`. -/
theorem remove_between_nodes_spec {one_past_end : Nat} (R : List (Item T)) :
    ∀ (r : Item T) (s : sl_impl T K) (fuel : Nat),
      Linked s 0 r.addr (R.map Item.addr) one_past_end →
      (∀ x ∈ r :: R, s.get_level x.addr ≠ none) →
      ((r :: R).map Item.addr).Nodup → one_past_end ∉ (r :: R).map Item.addr →
      R.length + 1 < fuel →
      ∃ s1, sl_impl.remove_between_nodes one_past_end fuel s r.addr = some s1 ∧
        ReleasedRun s s1 ((r :: R).map Item.addr) := by
  induction R with
  | nil =>
    intro r s fuel hlink halloc _ hope hfuel
    obtain ⟨f, rfl⟩ : ∃ f, fuel = f + 2 := ⟨fuel - 2, by simp at hfuel; omega⟩
    have hne : r.addr ≠ one_past_end := fun hc => hope (by simp [hc])
    have hnext : s.get_next r.addr 0 = some one_past_end := hlink
    obtain ⟨s1, hs1, hr⟩ := sl_impl.deallocate_spec (halloc r (List.mem_cons_self _ _))
    refine ⟨{ s1 with item_count := s1.item_count - 1 }, ?_, ?_⟩
    · unfold sl_impl.remove_between_nodes
      rw [if_neg hne]
      simp only [hnext, hs1]
      unfold sl_impl.remove_between_nodes
      rw [if_pos rfl]
    · have hmem : ∀ a, a ∉ [r].map Item.addr → a ≠ r.addr := fun a ha hc => ha (by simp [hc])
      exact ⟨hr.less, hr.levels, hr.head, hr.tail,
        by show s1.item_count - 1 = _; rw [hr.item_count]; simp, hr.brk,
        fun p hp => by
          simp only [List.map_cons, List.map_nil, List.mem_singleton] at hp
          rw [hp]; exact hr.gone,
        fun a ha => hr.value a (hmem a ha), fun a ha => hr.level a (hmem a ha),
        fun a ha => hr.len a (hmem a ha), fun a j ha => hr.next a j (hmem a ha),
        fun a ha => hr.prev a (hmem a ha)⟩
  | cons r2 R ih =>
    intro r s fuel hlink halloc hnd hope hfuel
    obtain ⟨f, rfl⟩ : ∃ f, fuel = f + 1 := ⟨fuel - 1, by omega⟩
    have hne : r.addr ≠ one_past_end := fun hc => hope (by simp [hc])
    have hnext : s.get_next r.addr 0 = some r2.addr := hlink.1
    obtain ⟨s1, hs1, hr⟩ := sl_impl.deallocate_spec (halloc r (List.mem_cons_self _ _))
    have hnd1 : ((r2 :: R).map Item.addr).Nodup := by
      rw [List.map_cons] at hnd
      exact (List.nodup_cons.mp hnd).2
    have hr_notin : r.addr ∉ (r2 :: R).map Item.addr := by
      rw [List.map_cons] at hnd
      exact (List.nodup_cons.mp hnd).1
    have hne_r : ∀ x ∈ r2 :: R, x.addr ≠ r.addr := fun x hx hc =>
      hr_notin (hc ▸ List.mem_map_of_mem _ hx)
    obtain ⟨s2, hs2, hrr⟩ := ih r2 { s1 with item_count := s1.item_count - 1 } f
      (by
        refine Linked.frame (s := s1) ?_ (fun _ _ => rfl)
        apply hlink.2.frame
        intro x hx
        apply hr.next
        rcases hx with rfl | hx
        · exact hne_r _ (List.mem_cons_self _ _)
        · obtain ⟨y, hy, rfl⟩ := List.mem_map.mp hx
          exact hne_r y (List.mem_cons_of_mem _ hy))
      (fun x hx => by
        show s1.get_level x.addr ≠ none
        rw [hr.level _ (hne_r x hx)]
        exact halloc x (List.mem_cons_of_mem _ hx))
      hnd1 (fun hc => hope (by rw [List.map_cons]; exact List.mem_cons_of_mem _ hc))
      (by simp only [List.length_cons] at hfuel; omega)
    refine ⟨s2, ?_, ?_⟩
    · unfold sl_impl.remove_between_nodes
      rw [if_neg hne]
      simp only [hnext, hs1]
      exact hs2
    · have hsplit : ∀ a, a ∉ (r :: r2 :: R).map Item.addr →
          a ≠ r.addr ∧ a ∉ (r2 :: R).map Item.addr := by
        intro a ha
        rw [List.map_cons] at ha
        exact ⟨fun hc => ha (hc ▸ List.mem_cons_self _ _),
          fun hc => ha (List.mem_cons_of_mem _ hc)⟩
      refine ⟨hrr.less.trans hr.less, hrr.levels.trans hr.levels, hrr.head.trans hr.head,
        hrr.tail.trans hr.tail, ?_, hrr.brk.trans hr.brk, ?_, ?_, ?_, ?_, ?_, ?_⟩
      · rw [hrr.item_count]
        show s1.item_count - 1 - _ = _
        rw [hr.item_count]
        simp only [List.length_map, List.length_cons]
        omega
      · intro p hp
        rw [List.map_cons] at hp
        by_cases hpin : p ∈ (r2 :: R).map Item.addr
        · exact hrr.gone p hpin
        · have hpr : p = r.addr := by
            rcases List.mem_cons.mp hp with h | h
            · exact h
            · exact absurd h hpin
          rw [hrr.level p hpin, hpr]
          exact hr.gone
      · intro a ha
        rw [hrr.value a (hsplit a ha).2]
        exact hr.value a (hsplit a ha).1
      · intro a ha
        rw [hrr.level a (hsplit a ha).2]
        exact hr.level a (hsplit a ha).1
      · intro a ha
        rw [hrr.len a (hsplit a ha).2]
        exact hr.len a (hsplit a ha).1
      · intro a j ha
        rw [hrr.next a j (hsplit a ha).2]
        exact hr.next a j (hsplit a ha).1
      · intro a ha
        rw [hrr.prev a (hsplit a ha).2]
        exact hr.prev a (hsplit a ha).1

/-- Engine operation `remove_between(first, last)` on the list `X ++ R ++ Y`,
where `R` runs from the node `f` to the node `la`: the nodes of `R` are released
and `X ++ Y` remains. -/
theorem remove_between_spec {P : sl_traits T K} {s : sl_impl T K} {X R1 R2 Y : List (Item T)}
    {f la : Item T} (hR : f :: R1 = R2 ++ [la])
    (hs : Shape P s (X ++ (f :: R1) ++ Y))
    (hX : ∀ x ∈ X, s.less (P.KeyFromValue x.value) (P.KeyFromValue f.value) = true)
    (hRY : ∀ x ∈ (f :: R1) ++ Y,
      s.less (P.KeyFromValue x.value) (P.KeyFromValue f.value) = false)
    (hRle : ∀ x ∈ f :: R1,
      less_or_equal s.less (P.KeyFromValue x.value) (P.KeyFromValue la.value) = true)
    (hYle : ∀ x ∈ Y,
      less_or_equal s.less (P.KeyFromValue x.value) (P.KeyFromValue la.value) = false) :
    ∃ s1, sl_impl.remove_between P s f.addr la.addr = some s1 ∧ Shape P s1 (X ++ Y) ∧
      s1.less = s.less ∧ s1.levels = s.levels ∧ s1.head = s.head ∧ s1.tail = s.tail ∧
      s1.brk = s.brk := by
  have hf : f ∈ X ++ (f :: R1) ++ Y := by simp
  have hla : la ∈ X ++ (f :: R1) ++ Y := by rw [hR]; simp
  have hXm : ∀ x ∈ X, x ∈ X ++ (f :: R1) ++ Y := fun x hx => by simp [hx]
  have hYm : ∀ x ∈ Y, x ∈ X ++ (f :: R1) ++ Y := fun x hx => by simp [hx]
  have hRm : ∀ x ∈ f :: R1, x ∈ X ++ (f :: R1) ++ Y := fun x hx =>
    List.mem_append_left _ (List.mem_append_right _ hx)
  have hXYm : ∀ x ∈ X ++ Y, x ∈ X ++ (f :: R1) ++ Y := by
    intro x hx
    rcases List.mem_append.mp hx with h | h
    · exact hXm x h
    · exact hYm x h
  -- addresses
  have hnd : (X.map Item.addr ++ ((f :: R1).map Item.addr ++ Y.map Item.addr)).Nodup := by
    have := hs.nodup
    simpa [List.append_assoc] using this
  have hndR : ((f :: R1).map Item.addr).Nodup :=
    (List.nodup_append.mp (List.nodup_append.mp hnd).2.1).1
  have hX_notR : ∀ x ∈ X, x.addr ∉ (f :: R1).map Item.addr := by
    intro x hx hc
    exact List.disjoint_left.mp (List.nodup_append.mp hnd).2.2 (List.mem_map_of_mem _ hx)
      (List.mem_append_left _ hc)
  have hY_notR : ∀ x ∈ Y, x.addr ∉ (f :: R1).map Item.addr := by
    intro x hx hc
    exact List.disjoint_left.mp (List.nodup_append.mp (List.nodup_append.mp hnd).2.1).2.2 hc
      (List.mem_map_of_mem _ hx)
  have hXY_notR : ∀ x ∈ X ++ Y, x.addr ∉ (f :: R1).map Item.addr := by
    intro x hx
    rcases List.mem_append.mp hx with h | h
    · exact hX_notR x h
    · exact hY_notR x h
  have hhead_notR : s.head ∉ (f :: R1).map Item.addr := by
    intro hc
    obtain ⟨x, hx, hxe⟩ := List.mem_map.mp hc
    exact hs.ne_head (hRm x hx) hxe
  have htail_notR : s.tail ∉ (f :: R1).map Item.addr := by
    intro hc
    obtain ⟨x, hx, hxe⟩ := List.mem_map.mp hc
    exact hs.ne_tail (hRm x hx) hxe
  have hnull_notR : (0 : Nat) ∉ (f :: R1).map Item.addr := by
    intro hc
    obtain ⟨x, hx, hxe⟩ := List.mem_map.mp hc
    exact hs.ne_null (hRm x hx) hxe
  have hR_notX : ∀ x ∈ f :: R1, x.addr ∉ s.head :: X.map Item.addr := by
    intro x hx hc
    rcases List.mem_cons.mp hc with h | h
    · exact hs.ne_head (hRm x hx) h
    · exact List.disjoint_left.mp (List.nodup_append.mp hnd).2.2 h
        (List.mem_append_left _ (List.mem_map_of_mem _ hx))
  have hope_notR : (Y.map Item.addr).headD s.tail ∉ (f :: R1).map Item.addr := by
    cases Y with
    | nil => exact htail_notR
    | cons y Y => exact hY_notR y (List.mem_cons_self _ _)
  -- pointers read at the start
  have hprev : s.get_prev f.addr = some (lastD s.head (X.map Item.addr)) := by
    have hs1 : Shape P s (X ++ (f :: (R1 ++ Y))) := by
      have : X ++ (f :: R1) ++ Y = X ++ (f :: (R1 ++ Y)) := by simp
      rwa [this] at hs
    have := hs1.prev0
    simpa using this
  have hnext : s.get_next la.addr 0 = some ((Y.map Item.addr).headD s.tail) := by
    have := hs.next0
    rw [hR, ← List.append_assoc, List.map_append, List.map_cons, List.map_nil,
      lastD_concat] at this
    exact this
  obtain ⟨s1, hs1, hw1⟩ := sl_impl.set_prev_spec (lastD s.head (X.map Item.addr))
    (hs.headD_allocated hYm)
  have hstart : lastD s1.head (onLane s1.levels X) = s1.head := by
    rw [hw1.levels, hs.onLane_levels hXm]
    rfl
  obtain ⟨s2, hs2, hfr, hl2, hw2⟩ := @remove_between_lanes_spec _ _ P X (f :: R1) Y
    (P.KeyFromValue f.value) (P.KeyFromValue la.value) s1.levels s1
    (fun j hj => by
      rw [hw1.head, hw1.tail]
      rw [hw1.levels] at hj
      exact hw1.linked_kept (hs.lanes j (by have := hs.levels_le; omega)))
    (fun x hx => by rw [hw1.value]; exact hs.value hx)
    (fun x hx => by rw [hw1.tail]; exact hs.ne_tail hx)
    (by rw [hw1.head]; exact hs.nodup_head)
    (fun x hx => by rw [hw1.less]; exact hX x hx)
    (fun x hx => by rw [hw1.less]; exact hRY x hx)
    (fun x hx => by rw [hw1.less]; exact hRle x hx)
    (fun x hx => by rw [hw1.less]; exact hYle x hx)
    (by
      rw [hw1.brk]
      have := hs.length_lt_brk
      omega)
  rw [hstart] at hs2
  rw [hw1.head] at hw2
  have hlen := hs.length_lt_brk
  simp only [List.length_append, List.length_cons] at hlen
  obtain ⟨s3, hs3, hrr⟩ := @remove_between_nodes_spec _ _ ((Y.map Item.addr).headD s.tail)
    R1 f s2 s2.brk
    (by
      have h0 := hs.lane0
      have h1 : (X ++ (f :: R1) ++ Y).map Item.addr
          = (X.map Item.addr ++ [f.addr]) ++ (R1.map Item.addr ++ Y.map Item.addr) := by simp
      rw [h1] at h0
      have h2 := h0.suffix
      rw [lastD_concat] at h2
      have h3 := (Linked_append.mp h2).1
      apply h3.frame
      intro x hx
      have hxR : x ∈ (f :: R1).map Item.addr := by
        rcases hx with rfl | hx
        · simp
        · rw [List.map_cons]; exact List.mem_cons_of_mem _ hx
      obtain ⟨y, hy, rfl⟩ := List.mem_map.mp hxR
      rw [hw2 _ (hR_notX y hy) 0, hw1.next])
    (fun x hx => by
      rw [hfr.level, hw1.level, (hs.nodes x (hRm x hx)).2.1]
      simp)
    hndR hope_notR
    (by rw [hfr.brk, hw1.brk]; omega)
  have hhead : s3.head = s.head := hrr.head.trans (hfr.head.trans hw1.head)
  have htail : s3.tail = s.tail := hrr.tail.trans (hfr.tail.trans hw1.tail)
  have hlevels : s3.levels = s.levels := hrr.levels.trans (hfr.levels.trans hw1.levels)
  have hbrk : s3.brk = s.brk := hrr.brk.trans (hfr.brk.trans hw1.brk)
  have hvalue : ∀ a, a ∉ (f :: R1).map Item.addr → s3.get_value a = s.get_value a :=
    fun a ha => (hrr.value a ha).trans ((hfr.value a).trans (hw1.value a))
  have hlevel : ∀ a, a ∉ (f :: R1).map Item.addr → s3.get_level a = s.get_level a :=
    fun a ha => (hrr.level a ha).trans ((hfr.level a).trans (hw1.level a))
  have hlength : ∀ a, a ∉ (f :: R1).map Item.addr → s3.get_len a = s.get_len a :=
    fun a ha => (hrr.len a ha).trans ((hfr.len a).trans (hw1.len a))
  have hlane_notR : ∀ j x, x = s.head ∨ x ∈ onLane j (X ++ Y) →
      x ∉ (f :: R1).map Item.addr := by
    intro j x hx
    rcases hx with rfl | hx
    · exact hhead_notR
    · obtain ⟨y, hy, _, rfl⟩ := mem_onLane.mp hx
      exact hXY_notR y hy
  refine ⟨s3, ?_, ?_, hrr.less.trans (hfr.less.trans hw1.less), hlevels, hhead, htail, hbrk⟩
  · unfold sl_impl.remove_between
    simp only [hprev, hnext, hs.value hf, hs.value hla, hs1, hs2]
    exact hs3
  · constructor
    · rw [hlevel 0 hnull_notR]
      exact hs.null_free
    · intro a ha
      by_cases haR : a ∈ (f :: R1).map Item.addr
      · exact hrr.gone a haR
      · rw [hlevel a haR]
        exact hs.above_brk a (by rw [hbrk] at ha; exact ha)
    · rw [hhead, htail]; exact hs.head_ne_tail
    · rw [hhead, hlength _ hhead_notR]; exact hs.head_len
    · rw [hhead, hrr.next _ _ hhead_notR,
        hfr.next _ _ (by rw [hw1.levels]; exact hs.levels_le), hw1.next]
      exact hs.head_top
    · rw [hhead, hvalue _ hhead_notR]; exact hs.head_value
    · rw [htail, hlevel _ htail_notR]; exact hs.tail_level
    · rw [htail, hvalue _ htail_notR]; exact hs.tail_value
    · have : List.Sublist ((X ++ Y).map Item.addr) ((X ++ (f :: R1) ++ Y).map Item.addr) := by
        apply List.Sublist.map
        exact List.Sublist.append (List.sublist_append_left _ _) (List.Sublist.refl _)
      exact hs.nodup.sublist this
    · rw [hhead]
      intro hc
      obtain ⟨x, hx, hxe1⟩ := List.mem_map.mp hc
      exact hs.ne_head (hXYm x hx) hxe1
    · rw [htail]
      intro hc
      obtain ⟨x, hx, hxe1⟩ := List.mem_map.mp hc
      exact hs.ne_tail (hXYm x hx) hxe1
    · intro x hx
      have hx1 := hs.nodes x (hXYm x hx)
      have hne := hXY_notR x hx
      refine ⟨?_, ?_, ?_, ?_⟩
      · rw [hvalue _ hne]; exact hx1.1
      · rw [hlevel _ hne]; exact hx1.2.1
      · rw [hlength _ hne]; exact hx1.2.2.1
      · rw [hlevels]; exact hx1.2.2.2
    · rw [hlevels]; exact hs.levels_le
    · exact hs.levels_pos
    · intro j hj
      rw [hhead, htail]
      have h2 : Linked s2 j s.head (onLane j (X ++ Y)) s.tail := by
        by_cases hjl : j < s.levels
        · have := hl2 j (by rw [hw1.levels]; exact hjl)
          rwa [hw1.head, hw1.tail] at this
        · have h0 := hs.lanes j hj
          have hnil1 : onLane j (X ++ (f :: R1) ++ Y) = [] :=
            onLane_eq_nil (fun x hx => by have := (hs.nodes x hx).2.2.2; omega)
          have hnil2 : onLane j (X ++ Y) = [] :=
            onLane_eq_nil (fun x hx => by have := (hs.nodes x (hXYm x hx)).2.2.2; omega)
          rw [hnil1] at h0
          rw [hnil2]
          exact hfr.linked (by rw [hw1.levels]; omega) (hw1.linked_kept h0)
      exact h2.frame (fun x hx => hrr.next x j (hlane_notR j x hx))
    · rw [hhead, htail]
      have h0 := hs.back
      rw [List.map_append, List.map_append] at h0
      have hndt : (X.map Item.addr ++ (f :: R1).map Item.addr ++ Y.map Item.addr
          ++ [s.tail]).Nodup := by
        have := hs.nodup_tail
        simpa using this
      have h1 := hw1.backLinked_cut h0 hndt
      have h2 := hfr.backLinked h1
      rw [List.map_append]
      apply h2.frame_prev
      intro x hx
      apply hrr.prev
      rcases hx with rfl | hx
      · exact htail_notR
      · rw [← List.map_append] at hx
        obtain ⟨y, hy, rfl⟩ := List.mem_map.mp hx
        exact hXY_notR y hy
    · rw [hrr.item_count, hfr.item_count, hw1.item_count, hs.count]
      simp only [List.length_append, List.length_cons, List.length_map]
      omega

end detail

/-! ## Erasing a range -/

namespace detail

variable {T K : Type}

/-- Erasing the range `f :: R1` of a list without duplicates: `last->prev` is the
last node of the range, and `remove_between` leaves the nodes around the range. -/
theorem remove_between_inv {P : sl_traits T K} {s : sl_impl T K} {X R1 Y : List (Item T)}
    {f : Item T} (hinv : Inv P s (X ++ (f :: R1) ++ Y)) (hswo : StrictWeakOrder s.less)
    (hdup : P.AllowDuplicates = false) :
    ∃ la s1, s.get_prev ((Y.map Item.addr).headD s.tail) = some la ∧
      sl_impl.remove_between P s f.addr la = some s1 ∧ Inv P s1 (X ++ Y) ∧
      s1.less = s.less ∧ s1.levels = s.levels ∧ s1.head = s.head ∧ s1.tail = s.tail ∧
      s1.brk = s.brk := by
  obtain ⟨R2, la, hR⟩ : ∃ R2 la, f :: R1 = R2 ++ [la] := by
    rcases List.eq_nil_or_concat (f :: R1) with h | ⟨R2, la, h⟩
    · cases h
    · exact ⟨R2, la, by rw [h, List.concat_eq_append]⟩
  have hprev : s.get_prev ((Y.map Item.addr).headD s.tail) = some la.addr := by
    have := hinv.shape.prev0
    rw [hR, ← List.append_assoc, List.map_append, List.map_cons, List.map_nil,
      lastD_concat] at this
    exact this
  have hinv_f : Inv P s (X ++ f :: (R1 ++ Y)) := by
    have : X ++ (f :: R1) ++ Y = X ++ f :: (R1 ++ Y) := by simp
    rwa [this] at hinv
  have hinv_l : Inv P s ((X ++ R2) ++ la :: Y) := by
    have : X ++ (f :: R1) ++ Y = (X ++ R2) ++ la :: Y := by rw [hR]; simp
    rwa [this] at hinv
  obtain ⟨hf1, hf2⟩ := hinv_f.around hdup
  obtain ⟨hl1, hl2⟩ := hinv_l.around hdup
  obtain ⟨s1, hs1, hshape, hless, hrest⟩ := remove_between_spec hR hinv.shape hf1
    (by
      intro x hx
      have hx1 : x = f ∨ x ∈ R1 ++ Y := by
        rcases List.mem_append.mp hx with h | h
        · rcases List.mem_cons.mp h with h | h
          · exact Or.inl h
          · exact Or.inr (List.mem_append_left _ h)
        · exact Or.inr (List.mem_append_right _ h)
      rcases hx1 with rfl | h
      · exact hswo.irrefl _
      · exact hswo.asymm (hf2 x h))
    (by
      intro x hx
      rw [hR] at hx
      rcases List.mem_append.mp hx with h | h
      · have := hswo.asymm (hl1 x (List.mem_append_right _ h))
        simp [less_or_equal, this]
      · rw [List.mem_singleton] at h
        subst h
        simp [less_or_equal, hswo.irrefl])
    (by
      intro x hx
      simp [less_or_equal, hl2 x hx])
  refine ⟨la.addr, s1, hprev, hs1, ⟨hshape, ?_⟩, hless, hrest⟩
  rw [hless]
  exact hinv.sorted.sublist
    (List.Sublist.append (List.sublist_append_left _ _) (List.Sublist.refl _))

/-- The first node of a non-empty range is not the node behind the range. -/
theorem Shape.range_first_ne {P : sl_traits T K} {s : sl_impl T K} {X R1 Y : List (Item T)}
    {f : Item T} (hs : Shape P s (X ++ (f :: R1) ++ Y)) :
    f.addr ≠ (Y.map Item.addr).headD s.tail := by
  have hf : f ∈ X ++ (f :: R1) ++ Y := by simp
  cases Y with
  | nil => exact hs.ne_tail hf
  | cons y Y =>
    intro hc
    have hnd : ((X ++ f :: (R1 ++ y :: Y)).map Item.addr).Nodup := by
      have := hs.nodup
      simpa using this
    exact addr_ne_of_nodup_middle hnd y (by simp) hc.symm

end detail

open detail

/-- Modifier `skip_list::erase(first, last)` on a list `X ++ R ++ Y` without
duplicates, `first` at the start of `R` and `last` at the start of `Y` (or at
`end()`): the range `R` goes, `last` is returned. -/
theorem skip_list.erase_range_spec {T : Type} {N : Nat} {s : sl_impl T T}
    {X R Y : List (Item T)} (hinv : Inv (skip_list.traits N false) s (X ++ R ++ Y))
    (hswo : StrictWeakOrder s.less) :
    ∃ s1, skip_list.erase_range N false s (((R ++ Y).map Item.addr).headD s.tail)
        ((Y.map Item.addr).headD s.tail) = some (s1, (Y.map Item.addr).headD s.tail) ∧
      Inv (skip_list.traits N false) s1 (X ++ Y) ∧ s1.less = s.less ∧
      s1.levels = s.levels ∧ s1.head = s.head ∧ s1.tail = s.tail ∧ s1.brk = s.brk := by
  cases R with
  | nil =>
    refine ⟨s, ?_, by simpa using hinv, rfl, rfl, rfl, rfl, rfl⟩
    unfold skip_list.erase_range
    simp
  | cons f R1 =>
    obtain ⟨la, s1, hprev, hrb, hinv1, hrest⟩ := remove_between_inv hinv hswo rfl
    refine ⟨s1, ?_, hinv1, hrest⟩
    unfold skip_list.erase_range
    simp only [List.cons_append, List.map_cons, List.headD_cons, ne_eq,
      hinv.shape.range_first_ne, not_false_eq_true, if_true, hprev, hrb]

/-- Modifier `skip_list_map::erase(first, last)`, as for the set. -/
theorem skip_list_map.map_erase_range_spec {Key MappedTo : Type} {N : Nat}
    {s : sl_impl (Key × MappedTo) Key} {X R Y : List (Item (Key × MappedTo))}
    (hinv : Inv (skip_list_map.traits N) s (X ++ R ++ Y)) (hswo : StrictWeakOrder s.less) :
    ∃ s1, skip_list_map.erase_range N s (((R ++ Y).map Item.addr).headD s.tail)
        ((Y.map Item.addr).headD s.tail) = some (s1, (Y.map Item.addr).headD s.tail) ∧
      Inv (skip_list_map.traits N) s1 (X ++ Y) ∧ s1.less = s.less ∧
      s1.levels = s.levels ∧ s1.head = s.head ∧ s1.tail = s.tail ∧ s1.brk = s.brk := by
  cases R with
  | nil =>
    refine ⟨s, ?_, by simpa using hinv, rfl, rfl, rfl, rfl, rfl⟩
    unfold skip_list_map.erase_range
    simp
  | cons f R1 =>
    obtain ⟨la, s1, hprev, hrb, hinv1, hrest⟩ := remove_between_inv hinv hswo rfl
    refine ⟨s1, ?_, hinv1, hrest⟩
    unfold skip_list_map.erase_range
    simp only [List.cons_append, List.map_cons, List.headD_cons, ne_eq,
      hinv.shape.range_first_ne, not_false_eq_true, if_true, hprev, hrb]


/-! ## Queries on an empty list, position erasure, and a sample multiset -/

namespace detail

variable {T K : Type}

/-- The lookups of the engine on a list without nodes; no key is compared. -/
theorem empty_queries {P : sl_traits T K} {s : sl_impl T K} (hs : Shape P s []) (key : K) :
    sl_impl.find P s key = some s.head ∧ sl_impl.lower_bound P s key = some s.tail ∧
      sl_impl.upper_bound P s key = some s.tail ∧ sl_impl.count P s key = some 0 ∧
      s.get_next s.head 0 = some s.tail := by
  have hfind : sl_impl.find P s key = some s.head := by
    have hs1 : Shape P s ([] ++ []) := hs
    have := @find_spec _ _ _ _ _ _ key hs1 (by simp) (by simp)
    simpa [lastD] using this
  obtain ⟨f, hf⟩ : ∃ f, s.brk = f + 1 := ⟨s.brk - 1, by have := hs.length_lt_brk; omega⟩
  have hnext : s.get_next s.head 0 = some s.tail := hs.lane0
  have hff : sl_impl.find_first P s key = some s.head := by
    unfold sl_impl.find_first
    rw [hfind]
    simp only [hf]
    unfold sl_impl.find_first_back
    simp
  refine ⟨hfind, ?_, ?_, ?_, hnext⟩
  · unfold sl_impl.lower_bound
    rw [hff]
    simp [sl_impl.one_past_front, hnext]
  · unfold sl_impl.upper_bound
    rw [hff]
    simp only [sl_impl.one_past_front, if_true, hnext, hf]
    unfold sl_impl.skip_equivalent
    simp [hs.is_valid_tail]
  · unfold sl_impl.count
    rw [hfind]
    simp only [ne_eq, not_true_eq_false, if_false, hf]
    unfold sl_impl.count_forward
    simp [hs.is_valid_head]

end detail

open detail

/-- Modifier `multi_skip_list::erase(value)` when no element is equivalent to
the value `k` that the argument `r` refers to: the loop ends at once and the
container is untouched. -/
theorem multi_skip_list.multi_erase_miss {T : Type} {N : Nat} {s : sl_impl T T} {es : List (Item T)}
    (hinv : Inv (skip_list.traits N true) s es) (hswo : StrictWeakOrder s.less) {k : T}
    (r : value_ref T) (hr : s.read_ref r = some k)
    (hne : ∀ e ∈ es, equivalent s.less e.value k = false) :
    multi_skip_list.erase N s r = some (s, 0) := by
  obtain ⟨node, hfind, hcase⟩ := @find_miss _ _ _ _ _ hinv hswo k hne
  unfold multi_skip_list.erase multi_skip_list.erase_loop
  simp only [hr, find_ref_some]
  rw [hfind]
  rcases hcase with hv | ⟨hv, v, hval, hneq⟩
  · simp [hv]
  · have hneq1 : equivalent s.less v k = false := hneq
    simp [hv, hval, hneq1]

/-- Modifier `erase(position)` of a set, with or without duplicates. -/
theorem skip_list.erase_at_spec {T : Type} {N : Nat} {D : Bool} {s : sl_impl T T}
    {X Y : List (Item T)} {e : Item T} (hinv : Inv (skip_list.traits N D) s (X ++ e :: Y))
    (hswo : StrictWeakOrder s.less) :
    ∃ s1, skip_list.erase_at N D s e.addr = some (s1, (Y.map Item.addr).headD s.tail) ∧
      Inv (skip_list.traits N D) s1 (X ++ Y) ∧ s1.less = s.less ∧ s1.levels = s.levels ∧
      s1.head = s.head ∧ s1.tail = s.tail ∧ s1.brk = s.brk ∧
      (∀ a ∈ s1.head :: (X ++ Y).map Item.addr, ∀ l, s1.get_next a l ≠ some e.addr) := by
  have hn0 : s.get_next e.addr 0 = some ((Y.map Item.addr).headD s.tail) := by
    have hs1 : Shape (skip_list.traits N D) s ((X ++ [e]) ++ Y) := by
      have : X ++ e :: Y = (X ++ [e]) ++ Y := by simp
      exact this ▸ hinv.shape
    have := hs1.next0
    rwa [List.map_append, List.map_cons, List.map_nil, lastD_concat] at this
  obtain ⟨s1, hrem, hrest⟩ := remove_any hinv hswo
  refine ⟨s1, ?_, hrest⟩
  unfold skip_list.erase_at
  simp only [hn0, hrem]

/-- Modifier `erase(position)` of a map. -/
theorem skip_list_map.map_erase_at_spec {Key MappedTo : Type} {N : Nat}
    {s : sl_impl (Key × MappedTo) Key} {X Y : List (Item (Key × MappedTo))}
    {e : Item (Key × MappedTo)} (hinv : Inv (skip_list_map.traits N) s (X ++ e :: Y))
    (hswo : StrictWeakOrder s.less) :
    ∃ s1, skip_list_map.erase_at N s e.addr = some (s1, (Y.map Item.addr).headD s.tail) ∧
      Inv (skip_list_map.traits N) s1 (X ++ Y) ∧ s1.less = s.less ∧ s1.levels = s.levels ∧
      s1.head = s.head ∧ s1.tail = s.tail ∧ s1.brk = s.brk ∧
      (∀ a ∈ s1.head :: (X ++ Y).map Item.addr, ∀ l, s1.get_next a l ≠ some e.addr) := by
  have hn0 : s.get_next e.addr 0 = some ((Y.map Item.addr).headD s.tail) := by
    have hs1 : Shape (skip_list_map.traits N) s ((X ++ [e]) ++ Y) := by
      have : X ++ e :: Y = (X ++ [e]) ++ Y := by simp
      exact this ▸ hinv.shape
    have := hs1.next0
    rwa [List.map_append, List.map_cons, List.map_nil, lastD_concat] at this
  obtain ⟨s1, hrem, hrest⟩ := remove_any hinv hswo
  refine ⟨s1, ?_, hrest⟩
  unfold skip_list_map.erase_at
  simp only [hn0, hrem]

/-- Inserting a value into a multiset: it is always accepted. -/
theorem multi_skip_list.insert_any {T : Type} {N : Nat} {s : sl_impl T T} {es : List (Item T)}
    (value : T) (g : Nat) (hinv : Inv (skip_list.traits N true) s es)
    (hswo : StrictWeakOrder s.less) (hov : (s.new_level g).2.levels ≤ N) :
    ∃ s1, skip_list.insert N true s value g = some (s1, s.brk, true) ∧
      Inv (skip_list.traits N true) s1
        (es.takeWhile (fun e => s.less e.value value)
          ++ ⟨s.brk, (s.new_level g).1, value⟩ :: es.dropWhile (fun e => s.less e.value value)) ∧
      s1.less = s.less ∧ s1.head = s.head ∧ s1.tail = s.tail ∧ s1.brk = s.brk + 1 ∧
      s1.levels = (s.new_level g).2.levels := by
  obtain ⟨s1, hins, hinv1, hless, hhead, htail, hbrk, hlevels⟩ :=
    @insert_accept _ _ (skip_list.traits N true) _ _ value g hinv hswo hov (Or.inl rfl)
  refine ⟨s1, ?_, hinv1, hless, hhead, htail, hbrk, hlevels⟩
  have hvalid : s1.is_valid s.brk = true :=
    hinv1.shape.is_valid (e := ⟨s.brk, (s.new_level g).1, value⟩) (by simp)
  unfold skip_list.insert
  rw [hins]
  simp only [hvalid]

/-- The multiset built by `insert(5); insert(7); insert(5); insert(5)` with the
levels 0, 1, 0, 2 drawn: its nodes are 6, 5, 3, 4 in lane 0 order. -/
theorem multi_skip_list.multi_sample :
    ∃ s : sl_impl Nat Nat,
      (skip_list.create 4 true std_less).bind
        (multi_skip_list.run 4 [.insert 5 0, .insert 7 1, .insert 5 0, .insert 5 2]) = some s ∧
      Inv (skip_list.traits 4 true) s [⟨6, 2, 5⟩, ⟨5, 0, 5⟩, ⟨3, 0, 5⟩, ⟨4, 1, 7⟩] ∧
      s.less = std_less ∧ s.head = 1 ∧ s.tail = 2 := by
  obtain ⟨s0, hc, hinv0, hless0, hhead0, htail0, hbrk0, hlev0, _⟩ :=
    create_spec (skip_list.traits 4 true) std_less (by decide)
  have hswo0 : StrictWeakOrder s0.less := hless0 ▸ strictWeakOrder_std_less
  obtain ⟨s1, hi1, hinv1, hless1, hhead1, htail1, hbrk1, hlev1⟩ :=
    multi_skip_list.insert_any 5 0 hinv0 hswo0 (by rw [new_level_levels, hlev0]; decide)
  have hl1 : s1.less = std_less := hless1.trans hless0
  have hswo1 : StrictWeakOrder s1.less := hl1 ▸ strictWeakOrder_std_less
  rw [new_level_fst, hlev0, hbrk0] at hinv1
  rw [new_level_levels, hlev0] at hlev1
  simp only [List.takeWhile_nil, List.dropWhile_nil, List.nil_append, ge_iff_le, Nat.zero_le,
    if_true] at hinv1 hlev1
  obtain ⟨s2, hi2, hinv2, hless2, hhead2, htail2, hbrk2, hlev2⟩ :=
    multi_skip_list.insert_any 7 1 hinv1 hswo1 (by rw [new_level_levels, hlev1]; decide)
  have hl2 : s2.less = std_less := hless2.trans hl1
  have hswo2 : StrictWeakOrder s2.less := hl2 ▸ strictWeakOrder_std_less
  rw [new_level_fst, hlev1, hbrk1, hbrk0, hl1] at hinv2
  rw [new_level_levels, hlev1] at hlev2
  simp [std_less, List.takeWhile, List.dropWhile] at hinv2 hlev2
  obtain ⟨s3, hi3, hinv3, hless3, hhead3, htail3, hbrk3, hlev3⟩ :=
    multi_skip_list.insert_any 5 0 hinv2 hswo2 (by rw [new_level_levels, hlev2]; decide)
  have hl3 : s3.less = std_less := hless3.trans hl2
  have hswo3 : StrictWeakOrder s3.less := hl3 ▸ strictWeakOrder_std_less
  rw [new_level_fst, hlev2, hbrk2, hbrk1, hbrk0, hl2] at hinv3
  rw [new_level_levels, hlev2] at hlev3
  simp [std_less, List.takeWhile, List.dropWhile] at hinv3 hlev3
  obtain ⟨s4, hi4, hinv4, hless4, hhead4, htail4, hbrk4, hlev4⟩ :=
    multi_skip_list.insert_any 5 2 hinv3 hswo3 (by rw [new_level_levels, hlev3]; decide)
  rw [new_level_fst, hlev3, hbrk3, hbrk2, hbrk1, hbrk0, hl3] at hinv4
  simp [std_less, List.takeWhile, List.dropWhile] at hinv4
  refine ⟨s4, ?_, hinv4, hless4.trans hl3, ?_, ?_⟩
  · unfold skip_list.create
    rw [hc]
    simp only [Option.bind, multi_skip_list.run, multi_skip_list.step, hi1, hi2, hi3, hi4]
  · rw [hhead4, hhead3, hhead2, hhead1, hhead0]
  · rw [htail4, htail3, htail2, htail1, htail0]

/-! ## The ends of the list and the engine-level searches -/

namespace detail

variable {T K : Type}

theorem ordered_not_gt {D : Bool} {less : K → K → Bool} (hswo : StrictWeakOrder less)
    {a b : K} (hab : ordered D less a b) : less b a = false := by
  unfold ordered at hab
  cases D with
  | false => exact hswo.asymm (by simpa using hab)
  | true => simpa using hab

/-- In a non-empty list `front()` is the first node and `tail->prev` the last
one; no key is below the first key and none is above the last. -/
theorem ends_spec {P : sl_traits T K} {s : sl_impl T K} {es : List (Item T)}
    (hinv : Inv P s es) (hswo : StrictWeakOrder s.less) (hne : es ≠ []) :
    ∃ f b, es.head? = some f ∧ es.getLast? = some b ∧
      s.front = some f.addr ∧ s.get_prev s.one_past_end = some b.addr ∧
      s.get_value f.addr = some f.value ∧ s.get_value b.addr = some b.value ∧
      (∀ e ∈ es, s.less (P.KeyFromValue e.value) (P.KeyFromValue f.value) = false) ∧
      (∀ e ∈ es, s.less (P.KeyFromValue b.value) (P.KeyFromValue e.value) = false) := by
  obtain ⟨f, rest, hfr⟩ := List.exists_cons_of_ne_nil hne
  rcases List.eq_nil_or_concat es with h | ⟨init, b, hib⟩
  · exact absurd h hne
  rw [List.concat_eq_append] at hib
  refine ⟨f, b, by rw [hfr]; rfl, by rw [hib]; simp, ?_, ?_, ?_, ?_, ?_, ?_⟩
  · have hs1 : Shape P s ([] ++ es) := by simpa using hinv.shape
    have := hs1.next0
    rw [hfr] at this
    simpa [sl_impl.front] using this
  · have hs1 : Shape P s (es ++ []) := by simpa using hinv.shape
    have := hs1.prev0
    rw [hib] at this
    simpa [sl_impl.one_past_end, lastD_concat] using this
  · exact hinv.shape.value (by rw [hfr]; exact List.mem_cons_self _ _)
  · exact hinv.shape.value (by rw [hib]; simp)
  · intro e he
    have hsorted := hinv.sorted
    rw [hfr] at hsorted he
    rcases List.mem_cons.mp he with rfl | he
    · exact hswo.irrefl _
    · exact ordered_not_gt hswo ((List.pairwise_cons.mp hsorted).1 e he)
  · intro e he
    have hsorted := hinv.sorted
    rw [hib] at hsorted he
    rcases List.mem_append.mp he with he | he
    · exact ordered_not_gt hswo ((List.pairwise_append.mp hsorted).2.2 e he b (by simp))
    · rw [List.mem_singleton] at he
      subst he
      exact hswo.irrefl _

/-- The engine-level `find` returns the last node whose key is not above `key`. -/
theorem find_last_le {P : sl_traits T K} {s : sl_impl T K} {X Y : List (Item T)} {e : Item T}
    (hinv : Inv P s (X ++ e :: Y)) (hswo : StrictWeakOrder s.less) {key : K}
    (he : less_or_equal s.less (P.KeyFromValue e.value) key = true)
    (hY : ∀ y ∈ Y, less_or_equal s.less (P.KeyFromValue y.value) key = false) :
    sl_impl.find P s key = some e.addr ∧
      ∀ x ∈ X, s.less (P.KeyFromValue e.value) (P.KeyFromValue x.value) = false := by
  have hsorted := hinv.sorted
  rw [List.pairwise_append] at hsorted
  have hXe : ∀ x ∈ X, ordered P.AllowDuplicates s.less (P.KeyFromValue x.value)
      (P.KeyFromValue e.value) := fun x hx => hsorted.2.2 x hx e (List.mem_cons_self _ _)
  have hs1 : Shape P s ((X ++ [e]) ++ Y) := by
    have : X ++ e :: Y = (X ++ [e]) ++ Y := by simp
    rw [← this]
    exact hinv.shape
  have hfind := @find_spec _ _ _ _ _ _ key hs1
    (by
      intro x hx
      rcases List.mem_append.mp hx with h | h
      · have h1 : s.less key (P.KeyFromValue e.value) = false := by
          simpa [less_or_equal] using he
        simp [less_or_equal, ordered_le_mono hswo (hXe x h) h1]
      · rw [List.mem_singleton] at h
        subst h
        exact he)
    hY
  rw [List.map_append, List.map_cons, List.map_nil, lastD_concat] at hfind
  exact ⟨hfind, fun x hx => ordered_not_gt hswo (hXe x hx)⟩

/-- The engine-level `find` returns `head` when every key is above `key`, and
never returns `tail`. -/
theorem find_head_or_node {P : sl_traits T K} {s : sl_impl T K} {es : List (Item T)}
    (hinv : Inv P s es) (hswo : StrictWeakOrder s.less) (key : K) :
    (∃ node, sl_impl.find P s key = some node ∧ node ≠ s.tail) ∧
      ((∀ e ∈ es, less_or_equal s.less (P.KeyFromValue e.value) key = false) →
        sl_impl.find P s key = some s.head) := by
  constructor
  · obtain ⟨A1, A2, B, hes, h1, h2, h3, _⟩ := sorted_cut hswo P.KeyFromValue hinv.sorted key
    have hs : Shape P s ((A1 ++ A2) ++ B) := hes ▸ hinv.shape
    have hfind := @find_spec _ _ _ _ _ _ key hs
      (by
        intro x hx
        rcases List.mem_append.mp hx with h | h
        · simp [less_or_equal, hswo.asymm (h1 x h)]
        · simp [less_or_equal, not_gt_of_equivalent (h2 x h)])
      (fun y hy => by simp [less_or_equal, h3 y hy])
    exact ⟨_, hfind, hs.lastD_ne_tail (fun x hx => List.mem_append_left _ hx)⟩
  · intro hall
    have hs : Shape P s ([] ++ es) := by simpa using hinv.shape
    have := @find_spec _ _ _ _ _ _ key hs (by simp) hall
    simpa [lastD] using this

/-- The engine-level `find_first` in the three cases the searches rely on: the
first node of the run of keys equivalent to `key`; `tail` when the list is not
empty and every key is below `key`; `head` on the empty list. -/
theorem find_first_cases {P : sl_traits T K} {s : sl_impl T K} {es : List (Item T)}
    (hinv : Inv P s es) (hswo : StrictWeakOrder s.less) (key : K) :
    (∃ node, sl_impl.find_first P s key = some node) ∧
    (∀ X e Y, es = X ++ e :: Y →
      equivalent s.less (P.KeyFromValue e.value) key = true →
      (∀ x ∈ X, s.less (P.KeyFromValue x.value) key = true) →
      sl_impl.find_first P s key = some e.addr) ∧
    (es ≠ [] → (∀ e ∈ es, s.less (P.KeyFromValue e.value) key = true) →
      sl_impl.find_first P s key = some s.tail) ∧
    (es = [] → sl_impl.find_first P s key = some s.head) := by
  obtain ⟨A1, A2, B, hes, h1, h2, h3, hA1⟩ := sorted_cut hswo P.KeyFromValue hinv.sorted key
  have hff := find_first_spec (hes ▸ hinv.shape) hswo h1 h2 h3
  have hrest : ∀ x ∈ A2 ++ B, s.less (P.KeyFromValue x.value) key = false := by
    intro x hx
    rcases List.mem_append.mp hx with h | h
    · exact not_lt_of_equivalent (h2 x h)
    · exact hswo.asymm (h3 x h)
  have hes1 : es = A1 ++ (A2 ++ B) := by rw [hes, List.append_assoc]
  refine ⟨⟨_, hff⟩, ?_, ?_, ?_⟩
  · intro X e Y hXY heq hX
    have hcut := takeWhile_dropWhile_of_cut
      (fun x : Item T => s.less (P.KeyFromValue x.value) key) h1 hrest
    have hcut2 := @takeWhile_dropWhile_of_cut _
      (fun x : Item T => s.less (P.KeyFromValue x.value) key) X (e :: Y) hX
      (by
        intro y hy
        have hy1 : y ∈ es.dropWhile (fun x : Item T => s.less (P.KeyFromValue x.value) key) := by
          rw [hXY]
          have hd : (X ++ e :: Y).dropWhile
              (fun x : Item T => s.less (P.KeyFromValue x.value) key) = e :: Y := by
            have hp : ∀ x ∈ X, (fun x : Item T => s.less (P.KeyFromValue x.value) key) x = true :=
              hX
            rw [List.dropWhile_append_of_pos hp, List.dropWhile_cons_of_neg]
            simp [not_lt_of_equivalent heq]
          rw [hd]
          exact hy
        exact dropWhile_all_false hinv.sorted
          (fun a b hab hb => ordered_lt_mono hswo hab hb) y hy1)
    have hA1X : A1 = X := by
      rw [← hcut.1, ← hes1, hXY, hcut2.1]
    have hrestY : A2 ++ B = e :: Y := by
      rw [← hcut.2, ← hes1, hXY, hcut2.2]
    cases A2 with
    | nil =>
      rw [List.nil_append] at hrestY
      have := h3 e (by rw [hrestY]; exact List.mem_cons_self _ _)
      rw [equivalent_eq_false_of_gt this] at heq
      cases heq
    | cons a A2 =>
      rw [List.cons_append] at hrestY
      rw [hff]
      simp only [List.map_cons, List.headD_cons]
      rw [(List.cons.inj hrestY).1]
  · intro hne hall
    have hAB : A2 ++ B = [] := by
      cases hab : A2 ++ B with
      | nil => rfl
      | cons x xs =>
        have hx : x ∈ A2 ++ B := by rw [hab]; exact List.mem_cons_self _ _
        have := hall x (by rw [hes1]; exact List.mem_append_right _ hx)
        rw [hrest x hx] at this
        cases this
    obtain ⟨hA2, hB⟩ := List.append_eq_nil.mp hAB
    have hA1ne : A1 ≠ [] := by
      intro h
      apply hne
      rw [hes1, h, hAB]
      rfl
    rw [hff, hA2, hB]
    cases A1 with
    | nil => exact absurd rfl hA1ne
    | cons a A1 => rfl
  · intro hnil
    rw [hnil] at hes1
    have hA1nil : A1 = [] := (List.append_eq_nil.mp hes1.symm).1
    have hABnil : A2 ++ B = [] := (List.append_eq_nil.mp hes1.symm).2
    obtain ⟨hA2, hB⟩ := List.append_eq_nil.mp hABnil
    rw [hff, hA1nil, hA2, hB]
    rfl

end detail

/-! ## `insert` with a hint -/

namespace detail

variable {T K : Type}

/-- The engine `insert` works on once the new node is allocated and constructed:
away from the new node it reads like the engine before the call. -/
theorem insert_prefix_spec {P : sl_traits T K} {s : sl_impl T K} {es : List (Item T)}
    (hs : Shape P s es) (value : T) (g : Nat) :
    ∃ sc, ((s.new_level g).2.allocate (s.new_level g).1).1 = s.brk ∧
      ((s.new_level g).2.allocate (s.new_level g).1).2.construct s.brk value = some sc ∧
      sc.head = s.head ∧ sc.tail = s.tail ∧ sc.less = s.less ∧ sc.brk = s.brk + 1 ∧
      sc.levels = (s.new_level g).2.levels ∧
      (∀ a, a ≠ s.brk → sc.get_value a = s.get_value a) ∧
      (∀ a, a ≠ s.brk → sc.get_level a = s.get_level a) ∧
      (∀ a j, a ≠ s.brk → sc.get_next a j = s.get_next a j) ∧
      s.head ≠ s.brk ∧ s.tail ≠ s.brk ∧ (∀ x ∈ es, x.addr ≠ s.brk) := by
  obtain ⟨hsa_less, hsa_head, hsa_tail, _, hsa_brk, hsa_mem⟩ := new_level_frame s g
  obtain ⟨sc, hsc, hf⟩ := sl_impl.allocate_construct_spec (s.new_level g).2 (s.new_level g).1
    value
  have hnew : ((s.new_level g).2.allocate (s.new_level g).1).1 = s.brk := by
    simp [sl_impl.allocate, hsa_brk]
  rw [hnew] at hsc hf
  refine ⟨sc, hnew, hsc, hf.head.trans hsa_head, hf.tail.trans hsa_tail, hf.less.trans hsa_less,
    by rw [hf.brk, hsa_brk], hf.levels,
    fun a ha => (hf.value a ha).trans (get_value_congr hsa_mem a),
    fun a ha => (hf.level a ha).trans (get_level_congr hsa_mem a),
    fun a j ha => (hf.next a j ha).trans (get_next_congr hsa_mem a j),
    hs.ne_brk (sl_impl.get_level_of_len hs.head_len), hs.ne_brk hs.tail_level,
    fun x hx => hs.ne_brk (by rw [(hs.nodes x hx).2.1]; simp)⟩

/-- On the top lane the walk of `insert` from a node whose key is below `key`
ends where the walk from `head` ends. -/
theorem advance_from_hint {s : sl_impl T K} {l : Nat} {pred : T → Bool} {A B : List (Item T)}
    {e : Item T} {fuel : Nat}
    (hlink : Linked s l s.head (onLane l (A ++ B)) s.tail)
    (hval : ∀ x ∈ A ++ B, s.get_value x.addr = some x.value)
    (htail : ∀ x ∈ A ++ B, x.addr ≠ s.tail)
    (hA : ∀ x ∈ A, pred x.value = true) (hB : ∀ x ∈ B, pred x.value = false)
    (htop : onLane (l + 1) A = [])
    (he : e ∈ A) (hel : l ≤ e.level) (hfuel : A.length < fuel) :
    s.advance l pred fuel e.addr = s.advance l pred fuel s.head := by
  have hhead := @advance_lane _ _ s l pred A B fuel hlink hval htail hA hB hfuel
  rw [htop, lastD_nil] at hhead
  rw [hhead]
  have heF : e ∈ A.filter (fun x => decide (l ≤ x.level)) :=
    List.mem_filter.mpr ⟨he, by simpa using hel⟩
  obtain ⟨F1, F2, hF⟩ := List.append_of_mem heF
  have hlaneA : onLane l A = (F1.map Item.addr ++ [e.addr]) ++ F2.map Item.addr := by
    unfold onLane
    rw [hF]
    simp
  rw [onLane_append, hlaneA, List.append_assoc] at hlink
  have hsuf := hlink.suffix
  rw [lastD_concat] at hsuf
  have hF2A : ∀ x ∈ F2, x ∈ A := by
    intro x hx
    have : x ∈ A.filter (fun x => decide (l ≤ x.level)) := by
      rw [hF]
      exact List.mem_append_right _ (List.mem_cons_of_mem _ hx)
    exact (List.mem_filter.mp this).1
  have hlen : F2.length < fuel := by
    have h1 : (A.filter (fun x => decide (l ≤ x.level))).length ≤ A.length :=
      List.length_filter_le _ _
    rw [hF] at h1
    simp only [List.length_append, List.length_cons] at h1
    omega
  have := @advance_spec _ _ s l pred F2 (onLane l B) e.addr fuel hsuf
    (fun x hx => ⟨hval x (List.mem_append_left _ (hF2A x hx)),
      htail x (List.mem_append_left _ (hF2A x hx)), hA x (hF2A x hx)⟩)
    (by
      intro y hy
      have hmem : y ∈ onLane l B := List.mem_of_mem_head? hy
      obtain ⟨x, hx, _, rfl⟩ := mem_onLane.mp hmem
      exact ⟨htail x (List.mem_append_right _ hx), x.value,
        hval x (List.mem_append_right _ hx), hB x hx⟩)
    hlen
  rw [this, hlaneA, lastD_append, lastD_concat]

/-- The hint never changes what `insert` does: with a hint that is null, a
sentinel or a node of the list, `insert` computes what it computes without. -/
theorem insert_hint_eq {P : sl_traits T K} {s : sl_impl T K} {es : List (Item T)}
    (hinv : Inv P s es) (hswo : StrictWeakOrder s.less) (value : T) (hint g : Nat)
    (hh : hint = 0 ∨ hint = s.head ∨ hint = s.tail ∨ hint ∈ es.map Item.addr) :
    sl_impl.insert P s value hint g = sl_impl.insert P s value 0 g := by
  have hs := hinv.shape
  obtain ⟨sc, hnew, hsc, hc_head, hc_tail, hc_less, hc_brk, hc_levels, hc_value, hc_level,
    hc_next, hhead_ne, htail_ne, hx_ne⟩ := insert_prefix_spec hs value g
  have hgh0 : sl_impl.good_hint P sc (P.KeyFromValue value) 0 = some false := by
    simp [sl_impl.good_hint, sl_impl.is_valid]
  have hlev_lt := new_level_lt s g
  have hlev_le := new_level_le s g
  -- what the test `good_hint` answers
  have hgh : ∃ gh, sl_impl.good_hint P sc (P.KeyFromValue value) hint = some gh ∧
      (gh = true → ∃ e ∈ es, hint = e.addr ∧ e.level + 1 = sc.levels ∧
        s.less (P.KeyFromValue e.value) (P.KeyFromValue value) = true) := by
    rcases hh with rfl | rfl | rfl | hmem
    · exact ⟨false, hgh0, fun h => by cases h⟩
    · exact ⟨false, by simp [sl_impl.good_hint, sl_impl.is_valid, hc_head],
        fun h => by cases h⟩
    · exact ⟨false, by simp [sl_impl.good_hint, sl_impl.is_valid, hc_tail],
        fun h => by cases h⟩
    · obtain ⟨e, he, rfl⟩ := List.mem_map.mp hmem
      have hvalid : sc.is_valid e.addr = true := by
        simp [sl_impl.is_valid, hc_head, hc_tail, hs.ne_null he, hs.ne_head he, hs.ne_tail he]
      have hlevel : sc.get_level e.addr = some e.level := by
        rw [hc_level _ (hx_ne e he)]
        exact (hs.nodes e he).2.1
      have hvalue : sc.get_value e.addr = some e.value := by
        rw [hc_value _ (hx_ne e he)]
        exact hs.value he
      by_cases htop : e.level = sc.levels - 1
      · refine ⟨!less_or_equal sc.less (P.KeyFromValue value) (P.KeyFromValue e.value), ?_, ?_⟩
        · unfold sl_impl.good_hint
          simp only [hvalid, if_true, hlevel, htop, hvalue]
        · intro hgood
          refine ⟨e, he, rfl, ?_, ?_⟩
          · rw [hc_levels] at htop ⊢
            omega
          · rw [hc_less] at hgood
            simpa [less_or_equal] using hgood
      · refine ⟨false, ?_, fun h => by cases h⟩
        unfold sl_impl.good_hint
        simp only [hvalid, if_true, hlevel, htop, if_false]
  obtain ⟨gh, hghv, hgood⟩ := hgh
  have hlanes : sl_impl.insert_lanes P (P.KeyFromValue value) (s.new_level g).1 s.brk sc.levels sc
        (if gh = true then hint else sc.head)
      = sl_impl.insert_lanes P (P.KeyFromValue value) (s.new_level g).1 s.brk sc.levels sc
        sc.head := by
    cases hghb : gh with
    | false => simp
    | true =>
      obtain ⟨e, he, rfl, hel, hek⟩ := hgood hghb
      simp only [if_true]
      have helev := (hs.nodes e he).2.2.2
      have hsame : sc.levels = s.levels := by
        rw [hc_levels] at hel ⊢
        omega
      rw [← hel]
      unfold sl_impl.insert_lanes
      have hA := hinv.below_key (P.KeyFromValue value)
      have hB := hinv.not_below_key hswo (P.KeyFromValue value)
      have hcut := hinv.shape_cut
        (fun x : Item T => s.less (P.KeyFromValue x.value) (P.KeyFromValue value))
      have hesplit := List.takeWhile_append_dropWhile
        (fun x : Item T => s.less (P.KeyFromValue x.value) (P.KeyFromValue value)) es
      have hmemAB : ∀ x, x ∈ es.takeWhile
            (fun x : Item T => s.less (P.KeyFromValue x.value) (P.KeyFromValue value)) ++
          es.dropWhile
            (fun x : Item T => s.less (P.KeyFromValue x.value) (P.KeyFromValue value)) →
          x ∈ es := by
        intro x hx
        rw [hesplit] at hx
        exact hx
      have heA : e ∈ es.takeWhile
          (fun x : Item T => s.less (P.KeyFromValue x.value) (P.KeyFromValue value)) := by
        have : e ∈ es.takeWhile
              (fun x : Item T => s.less (P.KeyFromValue x.value) (P.KeyFromValue value)) ++
            es.dropWhile
              (fun x : Item T => s.less (P.KeyFromValue x.value) (P.KeyFromValue value)) := by
          rw [hesplit]
          exact he
        rcases List.mem_append.mp this with h | h
        · exact h
        · have := hB e h
          rw [hek] at this
          cases this
      have hadv := @advance_from_hint _ _ sc e.level
        (fun v => sc.less (P.KeyFromValue v) (P.KeyFromValue value)) _ _ e sc.brk
        (by
          rw [hc_head, hc_tail]
          refine (hcut.lanes e.level (by have := hs.levels_le; omega)).frame ?_
          intro x hx
          apply hc_next
          rcases hx with rfl | hx
          · exact hhead_ne
          · obtain ⟨y, hy, _, rfl⟩ := mem_onLane.mp hx
            exact hx_ne y (hmemAB y hy))
        (fun x hx => by
          rw [hc_value _ (hx_ne x (hmemAB x hx))]
          exact hs.value (hmemAB x hx))
        (fun x hx => by rw [hc_tail]; exact hs.ne_tail (hmemAB x hx))
        (fun x hx => by rw [hc_less]; exact hA x hx)
        (fun x hx => by rw [hc_less]; exact hB x hx)
        (onLane_eq_nil (fun x hx => by
          have := (hs.nodes x ((List.takeWhile_sublist _).subset hx)).2.2.2
          omega))
        heA (le_refl _)
        (by
          rw [hc_brk]
          have h1 := hs.length_lt_brk
          have h2 : (es.takeWhile
            (fun x : Item T => s.less (P.KeyFromValue x.value) (P.KeyFromValue value))).length
              ≤ es.length := (List.takeWhile_sublist _).length_le
          omega)
      rw [hc_head] at hadv ⊢
      rw [hadv]
  unfold sl_impl.insert
  simp only [hnew, hsc, hghv, hgh0, hlanes, Bool.false_eq_true, if_false]

end detail

/-! ## `remove_all` -/

namespace detail

variable {T K : Type}

/-- The first loop of `remove_all` releases the nodes of lane 0 one after the
other up to `tail` and touches nothing else. -/
theorem remove_all_nodes_spec (R : List (Item T)) :
    ∀ (r : Item T) (s : sl_impl T K) (fuel : Nat),
      Linked s 0 r.addr (R.map Item.addr) s.tail →
      (∀ x ∈ r :: R, s.get_level x.addr ≠ none) →
      ((r :: R).map Item.addr).Nodup → s.tail ∉ (r :: R).map Item.addr →
      R.length + 1 < fuel →
      ∃ s1, sl_impl.remove_all_nodes fuel s r.addr = some s1 ∧
        s1.less = s.less ∧ s1.levels = s.levels ∧ s1.head = s.head ∧ s1.tail = s.tail ∧
        s1.item_count = s.item_count ∧ s1.brk = s.brk ∧
        (∀ p ∈ (r :: R).map Item.addr, s1.get_level p = none) ∧
        (∀ a, a ∉ (r :: R).map Item.addr →
          s1.get_value a = s.get_value a ∧ s1.get_level a = s.get_level a ∧
          s1.get_len a = s.get_len a ∧ s1.get_prev a = s.get_prev a ∧
          ∀ j, s1.get_next a j = s.get_next a j) := by
  induction R with
  | nil =>
    intro r s fuel hlink halloc _ htail hfuel
    obtain ⟨f, rfl⟩ : ∃ f, fuel = f + 2 := ⟨fuel - 2, by simp at hfuel; omega⟩
    have hne : r.addr ≠ s.tail := fun hc => htail (by simp [hc])
    have hnext : s.get_next r.addr 0 = some s.tail := hlink
    obtain ⟨s1, hs1, hr⟩ := sl_impl.deallocate_spec (halloc r (List.mem_cons_self _ _))
    refine ⟨s1, ?_, hr.less, hr.levels, hr.head, hr.tail, hr.item_count, hr.brk, ?_, ?_⟩
    · unfold sl_impl.remove_all_nodes
      rw [if_neg hne]
      simp only [hnext, hs1]
      unfold sl_impl.remove_all_nodes
      rw [if_pos hr.tail.symm]
    · intro p hp
      simp only [List.map_cons, List.map_nil, List.mem_singleton] at hp
      rw [hp]
      exact hr.gone
    · intro a ha
      have hane : a ≠ r.addr := fun hc => ha (by simp [hc])
      exact ⟨hr.value a hane, hr.level a hane, hr.len a hane, hr.prev a hane,
        fun j => hr.next a j hane⟩
  | cons r2 R ih =>
    intro r s fuel hlink halloc hnd htail hfuel
    obtain ⟨f, rfl⟩ : ∃ f, fuel = f + 1 := ⟨fuel - 1, by omega⟩
    have hne : r.addr ≠ s.tail := fun hc => htail (by simp [hc])
    have hnext : s.get_next r.addr 0 = some r2.addr := hlink.1
    obtain ⟨s1, hs1, hr⟩ := sl_impl.deallocate_spec (halloc r (List.mem_cons_self _ _))
    have hnd1 : ((r2 :: R).map Item.addr).Nodup := by
      rw [List.map_cons] at hnd
      exact (List.nodup_cons.mp hnd).2
    have hr_notin : r.addr ∉ (r2 :: R).map Item.addr := by
      rw [List.map_cons] at hnd
      exact (List.nodup_cons.mp hnd).1
    have hne_r : ∀ x ∈ r2 :: R, x.addr ≠ r.addr := fun x hx hc =>
      hr_notin (hc ▸ List.mem_map_of_mem _ hx)
    obtain ⟨s2, hs2, h2less, h2levels, h2head, h2tail, h2count, h2brk, h2gone, h2same⟩ :=
      ih r2 s1 f
        (by
          rw [hr.tail]
          apply hlink.2.frame
          intro x hx
          apply hr.next
          rcases hx with rfl | hx
          · exact hne_r _ (List.mem_cons_self _ _)
          · obtain ⟨y, hy, rfl⟩ := List.mem_map.mp hx
            exact hne_r y (List.mem_cons_of_mem _ hy))
        (fun x hx => by
          rw [hr.level _ (hne_r x hx)]
          exact halloc x (List.mem_cons_of_mem _ hx))
        hnd1
        (by
          rw [hr.tail]
          exact fun hc => htail (by rw [List.map_cons]; exact List.mem_cons_of_mem _ hc))
        (by simp only [List.length_cons] at hfuel; omega)
    refine ⟨s2, ?_, h2less.trans hr.less, h2levels.trans hr.levels, h2head.trans hr.head,
      h2tail.trans hr.tail, h2count.trans hr.item_count, h2brk.trans hr.brk, ?_, ?_⟩
    · unfold sl_impl.remove_all_nodes
      rw [if_neg hne]
      simp only [hnext, hs1]
      exact hs2
    · intro p hp
      rw [List.map_cons] at hp
      rcases List.mem_cons.mp hp with hp | hp
      · by_cases hin : p ∈ (r2 :: R).map Item.addr
        · exact h2gone p hin
        · rw [(h2same p hin).2.1, hp]
          exact hr.gone
      · exact h2gone p hp
    · intro a ha
      rw [List.map_cons] at ha
      have hane : a ≠ r.addr := fun hc => ha (hc ▸ List.mem_cons_self _ _)
      have hanin : a ∉ (r2 :: R).map Item.addr := fun hc => ha (List.mem_cons_of_mem _ hc)
      obtain ⟨hv, hl, hn, hp, hx⟩ := h2same a hanin
      exact ⟨hv.trans (hr.value a hane), hl.trans (hr.level a hane), hn.trans (hr.len a hane),
        hp.trans (hr.prev a hane), fun j => (hx j).trans (hr.next a j hane)⟩

/-- The second loop of `remove_all` points the lanes `n, ..., n + count - 1` of
`head` at `tail`. -/
theorem reset_lanes_spec (count : Nat) :
    ∀ (n : Nat) (s : sl_impl T K) (k1 : Nat), s.get_len s.head = some k1 → n + count ≤ k1 →
      ∃ s1, sl_impl.reset_lanes count n s = some s1 ∧ LaneFrame (n + count) s s1 ∧
        (∀ a j, j < n → s1.get_next a j = s.get_next a j) ∧
        (∀ a j, a ≠ s.head → s1.get_next a j = s.get_next a j) ∧
        (∀ j, n ≤ j → j < n + count → s1.get_next s.head j = some s.tail) := by
  induction count with
  | zero =>
    intro n s k1 _ _
    exact ⟨s, rfl, LaneFrame.refl _ s, fun _ _ _ => rfl, fun _ _ _ => rfl,
      fun j h1 h2 => absurd h2 (by omega)⟩
  | succ count ih =>
    intro n s k1 hk1 hn1
    obtain ⟨s1, hs1, hw1⟩ := sl_impl.set_next_spec (s := s) (p := s.head) (l := n) s.tail hk1
      (by omega)
    have hfr : LaneFrame (n + 1) s s1 := hw1.frame
    obtain ⟨s3, hs3, hfr3, hlow, hother, hset⟩ := ih (n + 1) s1 k1
      (by rw [hfr.head, hfr.len]; exact hk1) (by omega)
    refine ⟨s3, ?_, ?_, ?_, ?_, ?_⟩
    · unfold sl_impl.reset_lanes
      simp only [hs1, hs3]
    · have : n + (count + 1) = n + 1 + count := by omega
      rw [this]
      exact (hfr.mono (by omega)).trans hfr3
    · intro a j hj
      rw [hlow a j (by omega), hw1.next]
      have h2 : ¬ (a = s.head ∧ j = n) := by omega
      simp [h2]
    · intro a j ha
      rw [hother a j (by rw [hfr.head]; exact ha), hw1.next]
      have h2 : ¬ (a = s.head ∧ j = n) := fun hc => ha hc.1
      simp [h2]
    · intro j hj1 hj2
      rw [hfr.head] at hset
      rw [hfr.tail] at hset
      by_cases hjn : j = n
      · subst hjn
        rw [hlow s.head j (by omega), hw1.next]
        simp
      · exact hset j (by omega) (by omega)

/-- After `remove_all` the engine holds no node: every lane of `head` below
`num_levels` leads to `tail`, `tail->prev` is `head`, `item_count` is 0, and the
nodes of the list are released. `levels` keeps its value. -/
theorem remove_all_spec {P : sl_traits T K} {s : sl_impl T K} {es : List (Item T)}
    (hs : Shape P s es) :
    ∃ s1, sl_impl.remove_all P s = some s1 ∧ Inv P s1 [] ∧ s1.less = s.less ∧
      s1.head = s.head ∧ s1.tail = s.tail ∧ s1.brk = s.brk ∧ s1.levels = s.levels ∧
      (∀ e ∈ es, s1.get_level e.addr = none) := by
  have hfirst : s.get_next s.head 0 = some ((es.map Item.addr).headD s.tail) :=
    hs.lane0.next_first
  -- the first loop
  have hloop : ∃ s1, sl_impl.remove_all_nodes s.brk s ((es.map Item.addr).headD s.tail) = some s1 ∧
      s1.less = s.less ∧ s1.levels = s.levels ∧ s1.head = s.head ∧ s1.tail = s.tail ∧
      s1.brk = s.brk ∧
      (∀ p ∈ es.map Item.addr, s1.get_level p = none) ∧
      (∀ a, a ∉ es.map Item.addr →
        s1.get_value a = s.get_value a ∧ s1.get_level a = s.get_level a ∧
        s1.get_len a = s.get_len a ∧ s1.get_prev a = s.get_prev a ∧
        ∀ j, s1.get_next a j = s.get_next a j) := by
    cases es with
    | nil =>
      obtain ⟨f, hf⟩ : ∃ f, s.brk = f + 1 := ⟨s.brk - 1, by have := hs.length_lt_brk; omega⟩
      refine ⟨s, ?_, rfl, rfl, rfl, rfl, rfl, by simp, fun a _ => ⟨rfl, rfl, rfl, rfl, fun _ => rfl⟩⟩
      rw [hf]
      unfold sl_impl.remove_all_nodes
      simp
    | cons r R =>
      obtain ⟨s1, h1, hless, hlevels, hhead, htail, _, hbrk, hgone, hsame⟩ :=
        remove_all_nodes_spec R r s s.brk
          (by
            have := hs.lane0
            rw [List.map_cons] at this
            exact this.2)
          (fun x hx => by rw [(hs.nodes x hx).2.1]; simp)
          hs.nodup hs.tail_notin
          (by have := hs.length_lt_brk; simp only [List.length_cons] at this; omega)
      exact ⟨s1, by simpa using h1, hless, hlevels, hhead, htail, hbrk, hgone, hsame⟩
  obtain ⟨s1, h1, h1less, h1levels, h1head, h1tail, h1brk, h1gone, h1same⟩ := hloop
  -- the second loop
  obtain ⟨s2, h2, hfr2, _, h2other, h2set⟩ := reset_lanes_spec P.num_levels 0 s1
    (P.num_levels + 1)
    (by rw [h1head, (h1same s.head hs.head_notin).2.2.1]; exact hs.head_len) (by omega)
  rw [Nat.zero_add] at hfr2
  have h2tail_alloc : s2.get_level s2.tail ≠ none := by
    rw [hfr2.tail, hfr2.level, h1tail, (h1same s.tail hs.tail_notin).2.1]
    exact hs.tail_level
  obtain ⟨s3, h3, hw3⟩ := sl_impl.set_prev_spec s2.head h2tail_alloc
  have h3head : s3.head = s.head := hw3.head.trans (hfr2.head.trans h1head)
  have h3tail : s3.tail = s.tail := hw3.tail.trans (hfr2.tail.trans h1tail)
  have h3level : ∀ a, s3.get_level a = s1.get_level a := fun a =>
    (hw3.level a).trans (hfr2.level a)
  have h3value : ∀ a, s3.get_value a = s1.get_value a := fun a =>
    (hw3.value a).trans (hfr2.value a)
  have h3len : ∀ a, s3.get_len a = s1.get_len a := fun a =>
    (hw3.len a).trans (hfr2.len a)
  refine ⟨{ s3 with item_count := 0 }, ?_, ⟨?_, List.Pairwise.nil⟩,
    hw3.less.trans (hfr2.less.trans h1less), h3head, h3tail,
    hw3.brk.trans (hfr2.brk.trans h1brk), hw3.levels.trans (hfr2.levels.trans h1levels), ?_⟩
  · unfold sl_impl.remove_all
    simp only [hfirst, h1, h2, h3]
  · constructor
    · show s3.get_level 0 = none
      rw [h3level]
      by_cases h0 : (0 : Nat) ∈ es.map Item.addr
      · exact h1gone 0 h0
      · rw [(h1same 0 h0).2.1]
        exact hs.null_free
    · intro a ha
      show s3.get_level a = none
      rw [h3level]
      by_cases h0 : a ∈ es.map Item.addr
      · exact h1gone a h0
      · rw [(h1same a h0).2.1]
        apply hs.above_brk
        have : ({ s3 with item_count := 0 } : sl_impl T K).brk = s.brk :=
          hw3.brk.trans (hfr2.brk.trans h1brk)
        rw [this] at ha
        exact ha
    · show s3.head ≠ s3.tail
      rw [h3head, h3tail]
      exact hs.head_ne_tail
    · show s3.get_len s3.head = _
      rw [h3head, h3len, (h1same s.head hs.head_notin).2.2.1]
      exact hs.head_len
    · show s3.get_next s3.head P.num_levels = _
      rw [h3head, hw3.next, hfr2.next _ _ (le_refl _), (h1same s.head hs.head_notin).2.2.2.2]
      exact hs.head_top
    · show s3.get_value s3.head = none
      rw [h3head, h3value, (h1same s.head hs.head_notin).1]
      exact hs.head_value
    · show s3.get_level s3.tail ≠ none
      rw [h3tail, h3level, (h1same s.tail hs.tail_notin).2.1]
      exact hs.tail_level
    · show s3.get_value s3.tail = none
      rw [h3tail, h3value, (h1same s.tail hs.tail_notin).1]
      exact hs.tail_value
    · exact List.nodup_nil
    · simp
    · simp
    · intro e he
      cases he
    · show s3.levels ≤ _
      rw [hw3.levels, hfr2.levels, h1levels]
      exact hs.levels_le
    · exact hs.levels_pos
    · intro l hl
      show s3.get_next s3.head l = some s3.tail
      rw [h3head, h3tail, hw3.next, ← h1head, ← h1tail]
      exact h2set l (by omega) (by omega)
    · show s3.get_prev s3.tail = some s3.head
      rw [hw3.prev, hw3.tail, hw3.head]
      simp
    · rfl
  · intro e he
    show s3.get_level e.addr = none
    rw [h3level]
    exact h1gone _ (List.mem_map_of_mem _ he)

end detail

/-! ## `insert` on any engine satisfying the invariant, and range insertion -/

namespace detail

variable {T K : Type}

/-- Either `levels` stays within the lanes of `head`, or the list is at its top
lane and the generator drew the highest level. -/
theorem new_level_cases {P : sl_traits T K} {s : sl_impl T K} (hle : s.levels ≤ P.num_levels)
    (g : Nat) :
    (s.new_level g).2.levels ≤ P.num_levels ∨ (s.levels = P.num_levels ∧ P.num_levels ≤ g) := by
  rw [new_level_levels]
  by_cases hg : g ≥ s.levels
  · rw [if_pos hg]
    by_cases hfull : s.levels = P.num_levels
    · exact Or.inr ⟨hfull, by omega⟩
    · exact Or.inl (by omega)
  · rw [if_neg hg]
    exact Or.inl hle

/-- While `levels` stays within the lanes of `head`, `insert` has a result, the
invariant holds again, and the returned pointer is `tail` or a node of the list. -/
theorem insert_inv {P : sl_traits T K} {s : sl_impl T K} {es : List (Item T)}
    (hinv : Inv P s es) (hswo : StrictWeakOrder s.less) (value : T) (g : Nat)
    (hov : (s.new_level g).2.levels ≤ P.num_levels) :
    ∃ s1 node es1, sl_impl.insert P s value 0 g = some (s1, node) ∧ Inv P s1 es1 ∧
      s1.less = s.less ∧ s1.head = s.head ∧ s1.tail = s.tail ∧
      (node = s1.tail ∨ node ∈ es1.map Item.addr) ∧
      (es1 = es ∨
        es1 = es.takeWhile (fun e => s.less (P.KeyFromValue e.value) (P.KeyFromValue value))
          ++ ⟨s.brk, (s.new_level g).1, value⟩ ::
            es.dropWhile (fun e => s.less (P.KeyFromValue e.value) (P.KeyFromValue value))) := by
  by_cases hacc : P.AllowDuplicates = true ∨
      ∀ e ∈ es, equivalent s.less (P.KeyFromValue e.value) (P.KeyFromValue value) = false
  · obtain ⟨s1, hins, hinv1, hless, hhead, htail, _, _⟩ := insert_accept hinv hswo hov hacc
    exact ⟨s1, s.brk, _, hins, hinv1, hless, hhead, htail, Or.inr (by simp), Or.inr rfl⟩
  · have hdup : P.AllowDuplicates = false := by
      cases h : P.AllowDuplicates with
      | false => rfl
      | true => exact absurd (Or.inl h) hacc
    have hex : ∃ e ∈ es,
        equivalent s.less (P.KeyFromValue e.value) (P.KeyFromValue value) = true := by
      by_contra hno
      apply hacc
      right
      intro e he
      cases h : equivalent s.less (P.KeyFromValue e.value) (P.KeyFromValue value) with
      | false => rfl
      | true => exact absurd ⟨e, he, h⟩ hno
    obtain ⟨s1, hins, hinv1, hless, hhead, htail, _, _⟩ := insert_reject hinv hswo hov hdup hex
    exact ⟨s1, s1.tail, es, hins, hinv1, hless, hhead, htail, Or.inl rfl, Or.inl rfl⟩

/-- An insertion into an engine satisfying the invariant has no defined result
(the top lane of `head`) or restores the invariant. -/
theorem insert_none_or_inv {P : sl_traits T K} {s : sl_impl T K} {es : List (Item T)}
    (hinv : Inv P s es) (hswo : StrictWeakOrder s.less) (value : T) (g : Nat) :
    sl_impl.insert P s value 0 g = none ∨
      ∃ s1 node es1, sl_impl.insert P s value 0 g = some (s1, node) ∧ Inv P s1 es1 ∧
        s1.less = s.less ∧ s1.head = s.head ∧ s1.tail = s.tail ∧
        (node = s1.tail ∨ node ∈ es1.map Item.addr) := by
  rcases @new_level_cases _ _ P s hinv.shape.levels_le g with hov | ⟨hfull, hg⟩
  · obtain ⟨s1, node, es1, h1, h2, h3, h4, h5, h6, _⟩ := insert_inv hinv hswo value g hov
    exact Or.inr ⟨s1, node, es1, h1, h2, h3, h4, h5, h6⟩
  · exact Or.inl (insert_top_lane_undefined hinv.shape hfull value g hg)

end detail

open detail

/-- The guarded `insert(hint, value)` of a set computes what the engine-level
`insert` computes without a hint. -/
theorem skip_list.insert_hint_plain {T : Type} {N : Nat} {D : Bool} {s : sl_impl T T}
    {es : List (Item T)} (hinv : Inv (skip_list.traits N D) s es)
    (hswo : StrictWeakOrder s.less) (value : T) (hint g : Nat)
    (hh : hint = 0 ∨ hint = s.head ∨ hint = s.tail ∨ hint ∈ es.map Item.addr) :
    skip_list.insert_hint N D s hint value g
      = sl_impl.insert (skip_list.traits N D) s value 0 g := by
  have heq := insert_hint_eq hinv hswo value hint g hh
  unfold skip_list.insert_hint
  cases hv : s.is_valid hint with
  | false => simpa using heq
  | true =>
    have hmem : hint ∈ es.map Item.addr := by
      rcases hh with rfl | rfl | rfl | h
      · simp [sl_impl.is_valid] at hv
      · simp [sl_impl.is_valid] at hv
      · simp [sl_impl.is_valid] at hv
      · exact h
    obtain ⟨e, he, rfl⟩ := List.mem_map.mp hmem
    simp only [if_true, hinv.shape.value he]
    split
    · rfl
    · exact heq

/-- Range insertion into a set, with or without duplicates, is the sequence of
the single insertions. -/
theorem skip_list.insert_range_eq {T : Type} {N : Nat} {D : Bool} (xs : List (T × Nat)) :
    ∀ (s : sl_impl T T) (es : List (Item T)) (hint : Nat),
      Inv (skip_list.traits N D) s es → StrictWeakOrder s.less →
      (hint = 0 ∨ hint = s.head ∨ hint = s.tail ∨ hint ∈ es.map Item.addr) →
      skip_list.insert_range N D xs s hint
        = skip_list.run N D (xs.map (fun x => skip_list.call.insert x.1 x.2)) s := by
  induction xs with
  | nil =>
    intro s es hint _ _ _
    rfl
  | cons x xs ih =>
    intro s es hint hinv hswo hh
    obtain ⟨value, g⟩ := x
    unfold skip_list.insert_range
    rw [skip_list.insert_hint_plain hinv hswo value hint g hh]
    simp only [List.map_cons, skip_list.run, skip_list.step, skip_list.insert]
    rcases insert_none_or_inv hinv hswo value g with hnone | ⟨s1, node, es1, hins, hinv1, hless,
      _, _, hnode⟩
    · simp only [hnone]
    · simp only [hins]
      exact ih s1 es1 node hinv1 (hless ▸ hswo)
        (by
          rcases hnode with h | h
          · exact Or.inr (Or.inr (Or.inl h))
          · exact Or.inr (Or.inr (Or.inr h)))

/-- A sequence of insertions whose levels stay below `num_levels` has a result,
and the result satisfies the invariant. -/
theorem skip_list.run_inserts_inv {T : Type} {N : Nat} {D : Bool} (xs : List (T × Nat)) :
    ∀ (s : sl_impl T T) (es : List (Item T)),
      Inv (skip_list.traits N D) s es → StrictWeakOrder s.less → (∀ x ∈ xs, x.2 < N) →
      ∃ s1 es1, skip_list.run N D (xs.map (fun x => skip_list.call.insert x.1 x.2)) s = some s1 ∧
        Inv (skip_list.traits N D) s1 es1 ∧ s1.less = s.less := by
  induction xs with
  | nil =>
    intro s es hinv _ _
    exact ⟨s, es, rfl, hinv, rfl⟩
  | cons x xs ih =>
    intro s es hinv hswo hg
    obtain ⟨value, g⟩ := x
    obtain ⟨s1, node, es1, hins, hinv1, hless, _, _, _, _⟩ := insert_inv hinv hswo value g
      (new_level_no_overflow hinv.shape.levels_le (hg (value, g) (List.mem_cons_self _ _)))
    obtain ⟨s2, es2, hrun, hinv2, hless2⟩ := ih s1 es1 hinv1 (hless ▸ hswo)
      (fun y hy => hg y (List.mem_cons_of_mem _ hy))
    refine ⟨s2, es2, ?_, hinv2, hless2.trans hless⟩
    simp only [List.map_cons, skip_list.run, skip_list.step, skip_list.insert, hins]
    exact hrun

/-- Range insertion into a map is the sequence of the single insertions. -/
theorem skip_list_map.map_insert_range_eq {Key MappedTo : Type} {N : Nat}
    (xs : List ((Key × MappedTo) × Nat)) :
    ∀ (s : sl_impl (Key × MappedTo) Key) (es : List (Item (Key × MappedTo))) (hint : Nat),
      Inv (skip_list_map.traits N) s es → StrictWeakOrder s.less →
      (hint = 0 ∨ hint = s.head ∨ hint = s.tail ∨ hint ∈ es.map Item.addr) →
      skip_list_map.insert_range N xs s hint
        = skip_list_map.run N (xs.map (fun x => skip_list_map.call.insert x.1 x.2)) s := by
  induction xs with
  | nil =>
    intro s es hint _ _ _
    rfl
  | cons x xs ih =>
    intro s es hint hinv hswo hh
    obtain ⟨value, g⟩ := x
    unfold skip_list_map.insert_range skip_list_map.insert_hint
    rw [insert_hint_eq hinv hswo value hint g hh]
    simp only [List.map_cons, skip_list_map.run, skip_list_map.step, skip_list_map.insert]
    rcases insert_none_or_inv hinv hswo value g with hnone | ⟨s1, node, es1, hins, hinv1, hless,
      _, _, hnode⟩
    · simp only [hnone]
    · simp only [hins]
      exact ih s1 es1 node hinv1 (hless ▸ hswo)
        (by
          rcases hnode with h | h
          · exact Or.inr (Or.inr (Or.inl h))
          · exact Or.inr (Or.inr (Or.inr h)))

/-- A sequence of insertions into a map whose levels stay below `num_levels` has
a result, and the result satisfies the invariant. -/
theorem skip_list_map.map_run_inserts_inv {Key MappedTo : Type} {N : Nat}
    (xs : List ((Key × MappedTo) × Nat)) :
    ∀ (s : sl_impl (Key × MappedTo) Key) (es : List (Item (Key × MappedTo))),
      Inv (skip_list_map.traits N) s es → StrictWeakOrder s.less → (∀ x ∈ xs, x.2 < N) →
      ∃ s1 es1,
        skip_list_map.run N (xs.map (fun x => skip_list_map.call.insert x.1 x.2)) s = some s1 ∧
        Inv (skip_list_map.traits N) s1 es1 ∧ s1.less = s.less := by
  induction xs with
  | nil =>
    intro s es hinv _ _
    exact ⟨s, es, rfl, hinv, rfl⟩
  | cons x xs ih =>
    intro s es hinv hswo hg
    obtain ⟨value, g⟩ := x
    obtain ⟨s1, node, es1, hins, hinv1, hless, _, _, _, _⟩ := insert_inv hinv hswo value g
      (new_level_no_overflow hinv.shape.levels_le (hg (value, g) (List.mem_cons_self _ _)))
    obtain ⟨s2, es2, hrun, hinv2, hless2⟩ := ih s1 es1 hinv1 (hless ▸ hswo)
      (fun y hy => hg y (List.mem_cons_of_mem _ hy))
    refine ⟨s2, es2, ?_, hinv2, hless2.trans hless⟩
    simp only [List.map_cons, skip_list_map.run, skip_list_map.step, skip_list_map.insert, hins]
    exact hrun

/-! ## Reverse iteration -/

namespace detail

variable {T K : Type}

theorem values_back_spec {P : sl_traits T K} {s : sl_impl T K} (X : List (Item T)) :
    ∀ (Y : List (Item T)) (fuel : Nat), Shape P s (X ++ Y) → X.length < fuel →
      sl_impl.values_back s (((X ++ Y).map Item.addr).headD s.tail) fuel
          ((Y.map Item.addr).headD s.tail)
        = some ((X.map Item.value).reverse) := by
  induction X using List.reverseRecOn with
  | nil =>
    intro Y fuel _ hfuel
    obtain ⟨f, rfl⟩ : ∃ f, fuel = f + 1 := ⟨fuel - 1, by simp at hfuel; omega⟩
    unfold sl_impl.values_back
    simp
  | append_singleton X x ih =>
    intro Y fuel hs hfuel
    obtain ⟨f, rfl⟩ : ∃ f, fuel = f + 1 := ⟨fuel - 1, by omega⟩
    have hfirst_mem : ((X ++ [x] ++ Y).map Item.addr).headD s.tail
        ∈ (X ++ [x]).map Item.addr := by
      cases X with
      | nil => simp
      | cons a X => simp
    have hbase_notin : (Y.map Item.addr).headD s.tail ∉ (X ++ [x]).map Item.addr := by
      cases Y with
      | nil =>
        intro hc
        apply hs.tail_notin
        rw [List.map_append]
        exact List.mem_append_left _ hc
      | cons y Y =>
        intro hc
        have hnd := hs.nodup
        rw [List.map_append, List.nodup_append] at hnd
        exact hnd.2.2 hc (by simp)
    have hne : (Y.map Item.addr).headD s.tail ≠ ((X ++ [x] ++ Y).map Item.addr).headD s.tail :=
      fun hc => hbase_notin (hc ▸ hfirst_mem)
    have hprev := hs.prev0
    rw [List.map_append, List.map_cons, List.map_nil, lastD_concat] at hprev
    have hval : s.get_value x.addr = some x.value := hs.value (by simp)
    have hs1 : Shape P s (X ++ x :: Y) := by
      have : X ++ [x] ++ Y = X ++ x :: Y := by simp
      rw [← this]
      exact hs
    have hrec := ih (x :: Y) f hs1 (by
      simp only [List.length_append, List.length_cons, List.length_nil] at hfuel
      omega)
    have hlist : X ++ [x] ++ Y = X ++ x :: Y := by simp
    unfold sl_impl.values_back
    rw [if_neg hne]
    simp only [hprev, hval]
    rw [hlist]
    simp only [List.map_cons, List.headD_cons] at hrec
    rw [hrec]
    simp

/-- Reverse iteration reads the stored sequence backwards. -/
theorem Shape.lane0_reversed_eq {P : sl_traits T K} {s : sl_impl T K} {es : List (Item T)}
    (hs : Shape P s es) : s.lane0_reversed = some ((es.map Item.value).reverse) := by
  have hs1 : Shape P s (es ++ []) := by simpa using hs
  have hs0 : Shape P s ([] ++ es) := by simpa using hs
  have hfront := hs0.next0
  simp only [List.map_nil, lastD_nil] at hfront
  have := values_back_spec es [] s.brk hs1 (by have := hs.length_lt_brk; omega)
  rw [List.append_nil] at this
  unfold sl_impl.lane0_reversed sl_impl.front
  rw [hfront]
  simpa [sl_impl.one_past_end] using this

end detail

/-! ## The lanes as lists of nodes -/

namespace detail

variable {T K : Type}

theorem nodes_from_spec {s : sl_impl T K} {l : Nat} (xs : List Nat) :
    ∀ (a fuel : Nat), Linked s l a xs s.tail → (∀ x ∈ xs, x ≠ s.tail) → xs.length < fuel →
      sl_impl.nodes_from s l fuel (xs.headD s.tail) = some xs := by
  induction xs with
  | nil =>
    intro a fuel _ _ hfuel
    obtain ⟨f, rfl⟩ : ∃ f, fuel = f + 1 := ⟨fuel - 1, by simp at hfuel; omega⟩
    unfold sl_impl.nodes_from
    simp
  | cons x xs ih =>
    intro a fuel hlink hne hfuel
    obtain ⟨f, rfl⟩ : ∃ f, fuel = f + 1 := ⟨fuel - 1, by omega⟩
    have hx : x ≠ s.tail := hne x (List.mem_cons_self _ _)
    have hrest := ih x f hlink.2 (fun y hy => hne y (List.mem_cons_of_mem _ hy))
      (by simp only [List.length_cons] at hfuel; omega)
    unfold sl_impl.nodes_from
    simp only [List.headD_cons, hx, if_false, hlink.2.next_first, hrest]

/-- On every lane that `head` has initialised, the nodes met between `head` and
`tail` are the nodes of the list whose level reaches the lane, in lane 0 order. -/
theorem Shape.lane_eq {P : sl_traits T K} {s : sl_impl T K} {es : List (Item T)}
    (hs : Shape P s es) {l : Nat} (hl : l < P.num_levels) :
    s.lane l = some (onLane l es) := by
  have hlink := hs.lanes l hl
  have hne : ∀ x ∈ onLane l es, x ≠ s.tail := by
    intro x hx
    obtain ⟨e, he, _, rfl⟩ := mem_onLane.mp hx
    exact hs.ne_tail he
  have hlen : (onLane l es).length < s.brk := by
    have h1 : (onLane l es).length ≤ (es.map Item.addr).length :=
      (onLane_sublist l es).length_le
    have h2 := hs.length_lt_brk
    rw [List.length_map] at h1
    omega
  unfold sl_impl.lane
  rw [hlink.next_first]
  exact nodes_from_spec (onLane l es) s.head s.brk hlink hne hlen

/-- Lane 0 holds every node of the list. -/
theorem Shape.lane_zero {P : sl_traits T K} {s : sl_impl T K} {es : List (Item T)}
    (hs : Shape P s es) : s.lane 0 = some (es.map Item.addr) := by
  rw [hs.lane_eq hs.levels_pos, onLane_zero]

/-- A node that is not in the list is on none of its lanes. -/
theorem not_mem_onLane {l a : Nat} {es : List (Item T)} (h : a ∉ es.map Item.addr) :
    a ∉ onLane l es :=
  fun hc => h (onLane_subset l es hc)

end detail

namespace detail

variable {T K : Type}

/-- Taking a node out of the list takes exactly its address out of every lane. -/
theorem onLane_erase (l : Nat) (X Y : List (Item T)) (e : Item T)
    (hnd : ((X ++ e :: Y).map Item.addr).Nodup) :
    (onLane l (X ++ e :: Y)).erase e.addr = onLane l (X ++ Y) ∧
      e.addr ∉ onLane l (X ++ Y) := by
  rw [List.map_append, List.map_cons, List.nodup_append] at hnd
  have heX : e.addr ∉ X.map Item.addr := fun hc => hnd.2.2 hc (List.mem_cons_self _ _)
  have heY : e.addr ∉ Y.map Item.addr := (List.nodup_cons.mp hnd.2.1).1
  have hX : e.addr ∉ onLane l X := not_mem_onLane heX
  have hY : e.addr ∉ onLane l Y := not_mem_onLane heY
  have hXY : e.addr ∉ onLane l (X ++ Y) := by
    rw [onLane_append]
    intro hc
    rcases List.mem_append.mp hc with h | h
    · exact hX h
    · exact hY h
  refine ⟨?_, hXY⟩
  by_cases hle : l ≤ e.level
  · rw [onLane_append, onLane_cons_of_le hle, List.erase_append_right _ hX,
      List.erase_cons_head, onLane_append]
  · rw [onLane_append, onLane_cons_of_lt (by omega), ← onLane_append,
      List.erase_of_not_mem hXY]

end detail

/-! ## `levels`, runs of equivalent keys, and the bit-scan generator -/

namespace detail

variable {T K : Type}

/-- While `levels` stays within the lanes of `head`, `insert` leaves `levels` as
`new_level` set it, and a node it keeps has the level `new_level` returned. -/
theorem insert_levels {P : sl_traits T K} {s : sl_impl T K} {es : List (Item T)}
    (hinv : Inv P s es) (hswo : StrictWeakOrder s.less) (value : T) (g : Nat)
    (hov : (s.new_level g).2.levels ≤ P.num_levels) :
    ∃ s1 node, sl_impl.insert P s value 0 g = some (s1, node) ∧
      s1.levels = (s.new_level g).2.levels ∧
      (node = s1.tail ∨ (node = s.brk ∧ s1.get_level node = some (s.new_level g).1)) := by
  by_cases hacc : P.AllowDuplicates = true ∨
      ∀ e ∈ es, equivalent s.less (P.KeyFromValue e.value) (P.KeyFromValue value) = false
  · obtain ⟨s1, hins, hinv1, _, _, _, _, hlevels⟩ := insert_accept hinv hswo hov hacc
    refine ⟨s1, s.brk, hins, hlevels, Or.inr ⟨rfl, ?_⟩⟩
    exact (hinv1.shape.nodes ⟨s.brk, (s.new_level g).1, value⟩ (by simp)).2.1
  · have hdup : P.AllowDuplicates = false := by
      cases h : P.AllowDuplicates with
      | false => rfl
      | true => exact absurd (Or.inl h) hacc
    have hex : ∃ e ∈ es,
        equivalent s.less (P.KeyFromValue e.value) (P.KeyFromValue value) = true := by
      by_contra hno
      apply hacc
      right
      intro e he
      cases h : equivalent s.less (P.KeyFromValue e.value) (P.KeyFromValue value) with
      | false => rfl
      | true => exact absurd ⟨e, he, h⟩ hno
    obtain ⟨s1, hins, _, _, _, _, _, hlevels⟩ := insert_reject hinv hswo hov hdup hex
    exact ⟨s1, s1.tail, hins, hlevels, Or.inl rfl⟩

/-- The engine-level `find` returns the last node of the run of keys equivalent
to `key`. -/
theorem find_last_of_run {P : sl_traits T K} {s : sl_impl T K} {X Y : List (Item T)}
    {e : Item T} (hinv : Inv P s (X ++ e :: Y)) (hswo : StrictWeakOrder s.less) {key : K}
    (heq : equivalent s.less (P.KeyFromValue e.value) key = true)
    (hY : ∀ y ∈ Y, equivalent s.less (P.KeyFromValue y.value) key = false) :
    sl_impl.find P s key = some e.addr ∧ ∀ x ∈ X, x.addr ≠ e.addr := by
  have hsorted := hinv.sorted
  rw [List.pairwise_append] at hsorted
  have heY : ∀ y ∈ Y, s.less (P.KeyFromValue y.value) (P.KeyFromValue e.value) = false :=
    fun y hy => ordered_not_gt hswo ((List.pairwise_cons.mp hsorted.2.1).1 y hy)
  have hek : s.less (P.KeyFromValue e.value) key = false := not_lt_of_equivalent heq
  have hke : s.less key (P.KeyFromValue e.value) = false := not_gt_of_equivalent heq
  have hfind := @find_last_le _ _ _ _ _ _ _ hinv hswo key (by simp [less_or_equal, hke])
    (by
      intro y hy
      cases hky : s.less key (P.KeyFromValue y.value) with
      | true => simp [less_or_equal, hky]
      | false =>
        exfalso
        have hyk : s.less (P.KeyFromValue y.value) key = true := by
          cases h : s.less (P.KeyFromValue y.value) key with
          | true => rfl
          | false =>
            have := hY y hy
            simp [equivalent, h, hky] at this
        have := hswo.lt_of_lt_of_not_lt hyk hek
        rw [heY y hy] at this
        cases this)
  refine ⟨hfind.1, ?_⟩
  intro x hx hc
  have hnd := hinv.shape.nodup
  rw [List.map_append, List.map_cons, List.nodup_append] at hnd
  exact hnd.2.2 (List.mem_map_of_mem _ hx) (by rw [hc]; exact List.mem_cons_self _ _)

end detail

open detail

/-- The loop of `multi_skip_list::erase(first, last)` takes the nodes of the range
out one by one. -/
theorem multi_skip_list.erase_range_loop_spec {T : Type} {N : Nat} (R : List (Item T)) :
    ∀ (s : sl_impl T T) (X Y : List (Item T)) (fuel : Nat),
      Inv (skip_list.traits N true) s (X ++ R ++ Y) → StrictWeakOrder s.less →
      R.length < fuel →
      ∃ s1, multi_skip_list.erase_range_loop N ((Y.map Item.addr).headD s.tail) fuel s
          (((R ++ Y).map Item.addr).headD s.tail) = some s1 ∧
        Inv (skip_list.traits N true) s1 (X ++ Y) ∧ s1.less = s.less ∧
        s1.levels = s.levels ∧ s1.head = s.head ∧ s1.tail = s.tail ∧ s1.brk = s.brk := by
  induction R with
  | nil =>
    intro s X Y fuel hinv _ hfuel
    obtain ⟨f, rfl⟩ : ∃ f, fuel = f + 1 := ⟨fuel - 1, by simp at hfuel; omega⟩
    refine ⟨s, ?_, by simpa using hinv, rfl, rfl, rfl, rfl, rfl⟩
    unfold multi_skip_list.erase_range_loop
    simp
  | cons r R ih =>
    intro s X Y fuel hinv hswo hfuel
    obtain ⟨f, rfl⟩ : ∃ f, fuel = f + 1 := ⟨fuel - 1, by omega⟩
    have hlist : X ++ r :: R ++ Y = X ++ r :: (R ++ Y) := by simp
    have hinv0 : Inv (skip_list.traits N true) s (X ++ r :: (R ++ Y)) := hlist ▸ hinv
    have hs := hinv0.shape
    have hne : r.addr ≠ (Y.map Item.addr).headD s.tail := by
      cases Y with
      | nil => exact hs.ne_tail (by simp)
      | cons y Y =>
        intro hc
        have hnd := hs.nodup
        rw [List.map_append, List.map_cons, List.nodup_append] at hnd
        have hnd2 := (List.nodup_cons.mp hnd.2.1).1
        apply hnd2
        rw [hc]
        simp
    have hnext : s.get_next r.addr 0 = some (((R ++ Y).map Item.addr).headD s.tail) := by
      have hs1 : Shape (skip_list.traits N true) s ((X ++ [r]) ++ (R ++ Y)) := by
        have : X ++ r :: (R ++ Y) = (X ++ [r]) ++ (R ++ Y) := by simp
        exact this ▸ hs
      have := hs1.next0
      rwa [List.map_append, List.map_cons, List.map_nil, lastD_concat] at this
    obtain ⟨s1, hrem, hinv1, hless1, hlev1, hhead1, htail1, hbrk1, _⟩ := remove_any hinv0 hswo
    have hinv1a : Inv (skip_list.traits N true) s1 (X ++ R ++ Y) := by
      rw [List.append_assoc]
      exact hinv1
    obtain ⟨s2, hloop, hinv2, hless2, hlev2, hhead2, htail2, hbrk2⟩ :=
      ih s1 X Y f hinv1a (hless1 ▸ hswo) (by simp only [List.length_cons] at hfuel; omega)
    rw [htail1] at hloop
    refine ⟨s2, ?_, hinv2, hless2.trans hless1, hlev2.trans hlev1, hhead2.trans hhead1,
      htail2.trans htail1, hbrk2.trans hbrk1⟩
    unfold multi_skip_list.erase_range_loop
    simp only [List.cons_append, List.map_cons, List.headD_cons, hne, if_false, hnext, hrem]
    exact hloop

/-! ## The value slots of the sentinels -/

namespace detail

variable {T K : Type}

end detail

open detail

/-- C1: a unique set with two levels and a map with one level, at level streams
that stay inside the range of the generator. The set holds `10, 20` in
increasing order after two insertions, and the third insertion (generated level
2) has no defined result; the map holds the pair of 7 after one insertion, and
the second insertion (generated level 1) has no defined result. -/
theorem unique_order_lost_at_top_lane :
    ((skip_list.create 2 false std_less).bind
        (skip_list.run 2 false [.insert 20 0, .insert 10 1])).bind sl_impl.lane0
      = some [10, 20] ∧
    ((skip_list.create 2 false std_less).bind
        (skip_list.run 2 false [.insert 20 0, .insert 10 1, .insert 30 2])).isSome = false ∧
    ((skip_list_map.create 1 std_less).bind
        (skip_list_map.run 1 [.insert (7, 70) 0])).bind sl_impl.lane0 = some [(7, 70)] ∧
    ((skip_list_map.create 1 std_less).bind
        (skip_list_map.run 1 [.insert (7, 70) 0, .insert (5, 50) 1])).isSome = false :=
  ⟨rfl, rfl, rfl, rfl⟩

/-- C2: a multiset with two levels. After inserting 5 twice (generated levels 0
and 1) and erasing 5 the list is empty, but `levels` is still 2, and the next
insertion (generated level 2) has no defined result. With one level the second
insertion of 5 is kept in front of the first when the generated level is 0 and
has no defined result when it is 1. -/
theorem multi_order_lost_at_top_lane :
    ((skip_list.create 2 true std_less).bind
        (multi_skip_list.run 2 [.insert 5 0, .insert 5 1, .erase 5])).bind sl_impl.lane0
      = some [] ∧
    ((skip_list.create 2 true std_less).bind
        (multi_skip_list.run 2 [.insert 5 0, .insert 5 1, .erase 5, .insert 7 2])).isSome
      = false ∧
    ((skip_list.create 1 true std_less).bind
        (multi_skip_list.run 1 [.insert 5 0, .insert 5 0])).bind sl_impl.lane0 = some [5, 5] ∧
    ((skip_list.create 1 true std_less).bind
        (multi_skip_list.run 1 [.insert 5 0, .insert 5 1])).isSome = false :=
  ⟨rfl, rfl, rfl, rfl⟩

/-- C3: a unique set with one level. After `insert(10)` and `clear()` the list is
empty and `size()` is 0, after `insert(10)` and `erase(10)` likewise, but
`levels` is still 1 in both cases, and the following `insert(20)` with generated
level 1 has no defined result, so there is no `size()` to compare with lane 0. -/
theorem size_lost_at_top_lane :
    ((skip_list.create 1 false std_less).bind
        (skip_list.run 1 false [.insert 10 0, .clear])).map
          (fun s => (s.lane0, skip_list.size s, skip_list.empty s, s.levels))
      = some (some [], 0, true, 1) ∧
    ((skip_list.create 1 false std_less).bind
        (skip_list.run 1 false [.insert 10 0, .clear, .insert 20 1])).isSome = false ∧
    ((skip_list.create 1 false std_less).bind
        (skip_list.run 1 false [.insert 10 0, .erase 10])).map
          (fun s => (s.lane0, skip_list.size s, skip_list.empty s, s.levels))
      = some (some [], 0, true, 1) ∧
    ((skip_list.create 1 false std_less).bind
        (skip_list.run 1 false [.insert 10 0, .erase 10, .insert 20 1])).isSome = false :=
  ⟨rfl, rfl, rfl, rfl⟩

/-- C4: the unique set `{10}` with one level. With generated level 0, `insert(20)`
returns the new node and `true`, and `insert(10)` returns `end()` and `false`.
With generated level 1 neither call has a defined result. -/
theorem insert_result_lost_at_top_lane :
    (((skip_list.create 1 false std_less).bind (skip_list.run 1 false [.insert 10 0])).bind
        (fun s => (skip_list.insert 1 false s 20 0).bind
          (fun r => (r.1.get_value r.2.1).map (fun v => (v, r.2.2)))))
      = some (20, true) ∧
    (((skip_list.create 1 false std_less).bind (skip_list.run 1 false [.insert 10 0])).bind
        (fun s => (skip_list.insert 1 false s 10 0).map
          (fun r => (decide (r.2.1 = skip_list.cend r.1), r.2.2))))
      = some (true, false) ∧
    (((skip_list.create 1 false std_less).bind (skip_list.run 1 false [.insert 10 0])).bind
        (fun s => skip_list.insert 1 false s 20 1)).isSome = false ∧
    (((skip_list.create 1 false std_less).bind (skip_list.run 1 false [.insert 10 0])).bind
        (fun s => skip_list.insert 1 false s 10 1)).isSome = false :=
  ⟨rfl, rfl, rfl, rfl⟩

/-- C5: the map `{7 ↦ 70}` and the set `{10}`, each with one level. With generated
level 0 the insertion of `(7, 99)` is refused and leaves the pair `(7, 70)` and
the size 1; with generated level 1 the same insertion, and the insertion of 10
into the set, have no defined result. -/
theorem refused_insert_lost_at_top_lane :
    (((skip_list_map.create 1 std_less).bind (skip_list_map.run 1 [.insert (7, 70) 0])).bind
        (fun s => skip_list_map.insert 1 s (7, 99) 0)).map
          (fun r => (r.1.lane0, skip_list_map.size r.1, r.2.2))
      = some (some [(7, 70)], 1, false) ∧
    (((skip_list_map.create 1 std_less).bind (skip_list_map.run 1 [.insert (7, 70) 0])).bind
        (fun s => skip_list_map.insert 1 s (7, 99) 1)).isSome = false ∧
    (((skip_list.create 1 false std_less).bind (skip_list.run 1 false [.insert 10 0])).bind
        (fun s => skip_list.insert 1 false s 10 1)).isSome = false :=
  ⟨rfl, rfl, rfl⟩

/-- C6: the unique set `{10, 30}` with two levels and the multiset `{10}` with one
level. With generated level 0, `insert(20)` gives `10, 20, 30` and the size 3;
with generated level 2 it has no defined result. In the multiset, `insert(10)`
with generated level 1 has no defined result. -/
theorem accepted_insert_lost_at_top_lane :
    (((skip_list.create 2 false std_less).bind
        (skip_list.run 2 false [.insert 10 0, .insert 30 1])).bind
        (fun s => skip_list.insert 2 false s 20 0)).map
          (fun r => (r.1.lane0, skip_list.size r.1, r.2.2))
      = some (some [10, 20, 30], 3, true) ∧
    (((skip_list.create 2 false std_less).bind
        (skip_list.run 2 false [.insert 10 0, .insert 30 1])).bind
        (fun s => skip_list.insert 2 false s 20 2)).isSome = false ∧
    (((skip_list.create 1 true std_less).bind (multi_skip_list.run 1 [.insert 10 0])).bind
        (fun s => skip_list.insert 1 true s 10 1)).isSome = false :=
  ⟨rfl, rfl, rfl⟩

/-! ## Lookup and erasure in a set and in a map -/

/-- C7: `find(k)` on a set `s` and on a map `m` whose lane 0 sequences are `es` and
`ms`. When an element with a key equivalent to the key asked for is stored,
`find` returns the iterator at its node, and the value in that node is that
element (for a map: the stored pair, hence the mapped value kept under the key).
When no such element is stored, `find` returns `end()`. -/
theorem find_returns_stored_element_or_end {T Key MappedTo : Type} (N M : Nat)
    (s : sl_impl T T) (es : List (Item T))
    (m : sl_impl (Key × MappedTo) Key) (ms : List (Item (Key × MappedTo)))
    (hs : Inv (skip_list.traits N false) s es) (hsl : StrictWeakOrder s.less)
    (hm : Inv (skip_list_map.traits M) m ms) (hml : StrictWeakOrder m.less)
    (k : T) (km : Key) :
    (s.lane0 = some (es.map Item.value) ∧
      (∀ e ∈ es, equivalent s.less e.value k = true →
        skip_list.find N false s k = some e.addr ∧ s.get_value e.addr = some e.value) ∧
      ((∀ e ∈ es, equivalent s.less e.value k = false) →
        skip_list.find N false s k = some (skip_list.cend s))) ∧
    (m.lane0 = some (ms.map Item.value) ∧
      (∀ e ∈ ms, equivalent m.less e.value.1 km = true →
        skip_list_map.find M m km = some e.addr ∧ m.get_value e.addr = some e.value) ∧
      ((∀ e ∈ ms, equivalent m.less e.value.1 km = false) →
        skip_list_map.find M m km = some (skip_list_map.cend m))) :=
  ⟨⟨hs.shape.lane0_eq,
      fun _ he heq => ⟨skip_list.find_of_hit hs hsl he heq, hs.shape.value he⟩,
      fun hne => skip_list.find_of_miss hs hsl hne⟩,
    ⟨hm.shape.lane0_eq,
      fun _ he heq => ⟨skip_list_map.map_find_of_hit hm hml he heq, hm.shape.value he⟩,
      fun hne => skip_list_map.map_find_of_miss hm hml hne⟩⟩

/-- C7 at the set `{10, 20, 30}` and the map `{5 ↦ 50, 7 ↦ 70, 11 ↦ 110}`: the
keys 20 and 5 are found at their nodes, the keys 25 and 6 give `end()`. -/
theorem find_returns_stored_element_or_end_witness :
    ∃ (s : sl_impl Nat Nat) (m : sl_impl (Nat × Nat) Nat),
      (skip_list.create 4 false std_less).bind
        (skip_list.run 4 false [.insert 20 1, .insert 10 0, .insert 30 5]) = some s ∧
      (skip_list_map.create 4 std_less).bind
        (skip_list_map.run 4 [.insert (7, 70) 0, .insert (5, 50) 2, .insert (11, 110) 1])
        = some m ∧
      skip_list.find 4 false s 20 = some 3 ∧ s.get_value 3 = some 20 ∧
      skip_list.find 4 false s 25 = some (skip_list.cend s) ∧
      skip_list_map.find 4 m 5 = some 4 ∧ m.get_value 4 = some (5, 50) ∧
      skip_list_map.find 4 m 6 = some (skip_list_map.cend m) := by
  obtain ⟨s, hrun, hinv, hless, _, _⟩ := skip_list.sample
  obtain ⟨m, hmrun, hminv, hmless, _, _⟩ := skip_list_map.map_sample
  have hsl : StrictWeakOrder s.less := hless ▸ strictWeakOrder_std_less
  have hml : StrictWeakOrder m.less := hmless ▸ strictWeakOrder_std_less
  have hit := find_returns_stored_element_or_end 4 4 s _ m _ hinv hsl hminv hml 20 5
  have miss := find_returns_stored_element_or_end 4 4 s _ m _ hinv hsl hminv hml 25 6
  have h1 := hit.1.2.1 ⟨3, 0, 20⟩ (by simp) (by rw [hless]; rfl)
  have h2 := hit.2.2.1 ⟨4, 1, (5, 50)⟩ (by simp) (by rw [hmless]; rfl)
  have h3 := miss.1.2.2 (by
    intro e he
    simp only [List.mem_cons, List.mem_singleton, List.not_mem_nil, or_false] at he
    rcases he with rfl | rfl | rfl <;> rw [hless] <;> rfl)
  have h4 := miss.2.2.2 (by
    intro e he
    simp only [List.mem_cons, List.mem_singleton, List.not_mem_nil, or_false] at he
    rcases he with rfl | rfl | rfl <;> rw [hmless] <;> rfl)
  exact ⟨s, m, hrun, hmrun, h1.1, h1.2, h3, h2.1, h2.2, h4⟩

/-- C8: `lower_bound(k)` on a set `s` (duplicates allowed or not) and on a map `m`
whose lane 0 sequences are `es` and `ms`. It returns the iterator at the first
element whose key is not less than the key asked for, or `end()` when there is
none; counted from `begin()` this is the position whose number is the count of
elements with a key strictly less than that key. -/
theorem lower_bound_is_first_not_less {T Key MappedTo : Type} (N M : Nat) (D : Bool)
    (s : sl_impl T T) (es : List (Item T))
    (m : sl_impl (Key × MappedTo) Key) (ms : List (Item (Key × MappedTo)))
    (hs : Inv (skip_list.traits N D) s es) (hsl : StrictWeakOrder s.less)
    (hm : Inv (skip_list_map.traits M) m ms) (hml : StrictWeakOrder m.less)
    (k : T) (km : Key) :
    (s.lane0 = some (es.map Item.value) ∧
      skip_list.lower_bound N D s k
        = some (((es.find? (fun e => !s.less e.value k)).map Item.addr).getD (skip_list.cend s)) ∧
      (es.map Item.addr ++ [skip_list.cend s])[es.countP (fun e => s.less e.value k)]?
        = skip_list.lower_bound N D s k) ∧
    (m.lane0 = some (ms.map Item.value) ∧
      skip_list_map.lower_bound M m km
        = some (((ms.find? (fun e => !m.less e.value.1 km)).map Item.addr).getD
            (skip_list_map.cend m)) ∧
      (ms.map Item.addr ++ [skip_list_map.cend m])[ms.countP (fun e => m.less e.value.1 km)]?
        = skip_list_map.lower_bound M m km) := by
  have h1 := lower_bound_first hs hsl k
  have h2 := lower_bound_first hm hml km
  exact ⟨⟨hs.shape.lane0_eq, (skip_list.lower_bound_eq N D s k).trans h1.1,
      h1.2.trans (skip_list.lower_bound_eq N D s k).symm⟩,
    ⟨hm.shape.lane0_eq, h2.1, h2.2⟩⟩

/-- C8 at the set `{10, 20, 30}` and the map `{5 ↦ 50, 7 ↦ 70, 11 ↦ 110}`:
`lower_bound(20)` is the node of 20, `lower_bound(31)` is `end()`,
`lower_bound(6)` is the node of 7. -/
theorem lower_bound_is_first_not_less_witness :
    ∃ (s : sl_impl Nat Nat) (m : sl_impl (Nat × Nat) Nat),
      (skip_list.create 4 false std_less).bind
        (skip_list.run 4 false [.insert 20 1, .insert 10 0, .insert 30 5]) = some s ∧
      (skip_list_map.create 4 std_less).bind
        (skip_list_map.run 4 [.insert (7, 70) 0, .insert (5, 50) 2, .insert (11, 110) 1])
        = some m ∧
      skip_list.lower_bound 4 false s 20 = some 3 ∧
      skip_list.lower_bound 4 false s 31 = some (skip_list.cend s) ∧
      skip_list_map.lower_bound 4 m 6 = some 3 := by
  obtain ⟨s, hrun, hinv, hless, _, htail⟩ := skip_list.sample
  obtain ⟨m, hmrun, hminv, hmless, _, _⟩ := skip_list_map.map_sample
  have hsl : StrictWeakOrder s.less := hless ▸ strictWeakOrder_std_less
  have hml : StrictWeakOrder m.less := hmless ▸ strictWeakOrder_std_less
  have h1 := (lower_bound_is_first_not_less 4 4 false s _ m _ hinv hsl hminv hml 20 6)
  have h2 := (lower_bound_is_first_not_less 4 4 false s _ m _ hinv hsl hminv hml 31 6)
  refine ⟨s, m, hrun, hmrun, ?_, ?_, ?_⟩
  · rw [h1.1.2.1, hless]
    rfl
  · rw [h2.1.2.1, hless]
    rfl
  · rw [h1.2.2.1, hmless]
    rfl

/-- C9: `upper_bound(k)` on a set `s` (duplicates allowed or not) and on a map `m`
whose lane 0 sequences are `es` and `ms`. It returns the iterator at the first
element whose key is strictly greater than the key asked for, or `end()` when
there is none; counted from `begin()` this is the position whose number is the
count of elements with a key less than or equivalent to that key. -/
theorem upper_bound_is_first_greater {T Key MappedTo : Type} (N M : Nat) (D : Bool)
    (s : sl_impl T T) (es : List (Item T))
    (m : sl_impl (Key × MappedTo) Key) (ms : List (Item (Key × MappedTo)))
    (hs : Inv (skip_list.traits N D) s es) (hsl : StrictWeakOrder s.less)
    (hm : Inv (skip_list_map.traits M) m ms) (hml : StrictWeakOrder m.less)
    (k : T) (km : Key) :
    (s.lane0 = some (es.map Item.value) ∧
      skip_list.upper_bound N D s k
        = some (((es.find? (fun e => s.less k e.value)).map Item.addr).getD (skip_list.cend s)) ∧
      (es.map Item.addr ++ [skip_list.cend s])[es.countP (fun e => !s.less k e.value)]?
        = skip_list.upper_bound N D s k) ∧
    (m.lane0 = some (ms.map Item.value) ∧
      skip_list_map.upper_bound M m km
        = some (((ms.find? (fun e => m.less km e.value.1)).map Item.addr).getD
            (skip_list_map.cend m)) ∧
      (ms.map Item.addr ++ [skip_list_map.cend m])[ms.countP (fun e => !m.less km e.value.1)]?
        = skip_list_map.upper_bound M m km) := by
  have h1 := upper_bound_first hs hsl k
  have h2 := upper_bound_first hm hml km
  exact ⟨⟨hs.shape.lane0_eq, (skip_list.upper_bound_eq N D s k).trans h1.1,
      h1.2.trans (skip_list.upper_bound_eq N D s k).symm⟩,
    ⟨hm.shape.lane0_eq, h2.1, h2.2⟩⟩

/-- C9 at the set `{10, 20, 30}` and the map `{5 ↦ 50, 7 ↦ 70, 11 ↦ 110}`:
`upper_bound(20)` is the node of 30, `upper_bound(30)` is `end()`,
`upper_bound(7)` is the node of 11. -/
theorem upper_bound_is_first_greater_witness :
    ∃ (s : sl_impl Nat Nat) (m : sl_impl (Nat × Nat) Nat),
      (skip_list.create 4 false std_less).bind
        (skip_list.run 4 false [.insert 20 1, .insert 10 0, .insert 30 5]) = some s ∧
      (skip_list_map.create 4 std_less).bind
        (skip_list_map.run 4 [.insert (7, 70) 0, .insert (5, 50) 2, .insert (11, 110) 1])
        = some m ∧
      skip_list.upper_bound 4 false s 20 = some 5 ∧
      skip_list.upper_bound 4 false s 30 = some (skip_list.cend s) ∧
      skip_list_map.upper_bound 4 m 7 = some 5 := by
  obtain ⟨s, hrun, hinv, hless, _, htail⟩ := skip_list.sample
  obtain ⟨m, hmrun, hminv, hmless, _, _⟩ := skip_list_map.map_sample
  have hsl : StrictWeakOrder s.less := hless ▸ strictWeakOrder_std_less
  have hml : StrictWeakOrder m.less := hmless ▸ strictWeakOrder_std_less
  have h1 := (upper_bound_is_first_greater 4 4 false s _ m _ hinv hsl hminv hml 20 7)
  have h2 := (upper_bound_is_first_greater 4 4 false s _ m _ hinv hsl hminv hml 30 7)
  refine ⟨s, m, hrun, hmrun, ?_, ?_, ?_⟩
  · rw [h1.1.2.1, hless]
    rfl
  · rw [h2.1.2.1, hless]
    rfl
  · rw [h1.2.2.1, hmless]
    rfl

/-- C10: `erase(k)` of a key that is present, on a set `s` with lane 0 sequence
`X ++ e :: Y` and on a map `m` with lane 0 sequence `MX ++ me :: MY`, where `e`
and `me` are the elements with a key equivalent to the key asked for. The call
returns 1, the lane 0 sequence afterwards is the old one without that element,
`size()` has gone down by one, `count(k)` is 0 and a second `erase(k)` returns 0
and changes nothing. -/
theorem erase_present_key_removes_it {T Key MappedTo : Type} (N M : Nat)
    (s : sl_impl T T) (X : List (Item T)) (e : Item T) (Y : List (Item T))
    (m : sl_impl (Key × MappedTo) Key) (MX : List (Item (Key × MappedTo)))
    (me : Item (Key × MappedTo)) (MY : List (Item (Key × MappedTo)))
    (hs : Inv (skip_list.traits N false) s (X ++ e :: Y)) (hsl : StrictWeakOrder s.less)
    (hm : Inv (skip_list_map.traits M) m (MX ++ me :: MY)) (hml : StrictWeakOrder m.less)
    (k : T) (km : Key) (hk : equivalent s.less e.value k = true)
    (hkm : equivalent m.less me.value.1 km = true) :
    (∃ s1, skip_list.erase N false s k = some (s1, 1) ∧
      s.lane0 = some ((X ++ e :: Y).map Item.value) ∧
      s1.lane0 = some ((X ++ Y).map Item.value) ∧
      skip_list.size s1 + 1 = skip_list.size s ∧
      skip_list.count N false s1 k = some 0 ∧
      skip_list.erase N false s1 k = some (s1, 0)) ∧
    (∃ m1, skip_list_map.erase M m km = some (m1, 1) ∧
      m.lane0 = some ((MX ++ me :: MY).map Item.value) ∧
      m1.lane0 = some ((MX ++ MY).map Item.value) ∧
      skip_list_map.size m1 + 1 = skip_list_map.size m ∧
      skip_list_map.count M m1 km = some 0 ∧
      skip_list_map.erase M m1 km = some (m1, 0)) := by
  constructor
  · obtain ⟨s1, herase, hinv1, hless, _, _, _, _⟩ :=
      @erase_hit _ _ (skip_list.traits N false) _ _ _ _ hs hsl rfl k hk
    have habs := @Inv.absent_after _ _ _ _ _ _ _ hs hsl rfl k hk
    have hsl1 : StrictWeakOrder s1.less := hless ▸ hsl
    have habs1 : ∀ x ∈ X ++ Y, equivalent s1.less x.value k = false := by
      rw [hless]; exact habs
    refine ⟨s1, (skip_list.erase_eq N false s k).trans herase, hs.shape.lane0_eq,
      hinv1.shape.lane0_eq, ?_, skip_list.count_of_miss hinv1 hsl1 habs1, ?_⟩
    · show s1.item_count + 1 = s.item_count
      rw [hinv1.shape.count, hs.shape.count]
      simp only [List.length_append, List.length_cons]
      omega
    · exact (skip_list.erase_eq N false s1 k).trans (erase_miss hinv1 hsl1 habs1)
  · obtain ⟨m1, herase, hinv1, hless, _, _, _, _⟩ :=
      @erase_hit _ _ (skip_list_map.traits M) _ _ _ _ hm hml rfl km hkm
    have habs := @Inv.absent_after _ _ _ _ _ _ _ hm hml rfl km hkm
    have hml1 : StrictWeakOrder m1.less := hless ▸ hml
    have habs1 : ∀ x ∈ MX ++ MY, equivalent m1.less x.value.1 km = false := by
      rw [hless]; exact habs
    refine ⟨m1, herase, hm.shape.lane0_eq, hinv1.shape.lane0_eq, ?_,
      skip_list_map.map_count_of_miss hinv1 hml1 habs1, erase_miss hinv1 hml1 habs1⟩
    show m1.item_count + 1 = m.item_count
    rw [hinv1.shape.count, hm.shape.count]
    simp only [List.length_append, List.length_cons]
    omega

/-- C10 at the set `{10, 20, 30}` and the map `{5 ↦ 50, 7 ↦ 70, 11 ↦ 110}`:
erasing 20 leaves `10, 30`, erasing the key 7 leaves the pairs of 5 and 11. -/
theorem erase_present_key_removes_it_witness :
    ∃ (s s1 : sl_impl Nat Nat) (m m1 : sl_impl (Nat × Nat) Nat),
      (skip_list.create 4 false std_less).bind
        (skip_list.run 4 false [.insert 20 1, .insert 10 0, .insert 30 5]) = some s ∧
      (skip_list_map.create 4 std_less).bind
        (skip_list_map.run 4 [.insert (7, 70) 0, .insert (5, 50) 2, .insert (11, 110) 1])
        = some m ∧
      skip_list.erase 4 false s 20 = some (s1, 1) ∧ s1.lane0 = some [10, 30] ∧
      skip_list.erase 4 false s1 20 = some (s1, 0) ∧
      skip_list_map.erase 4 m 7 = some (m1, 1) ∧ m1.lane0 = some [(5, 50), (11, 110)] ∧
      skip_list_map.erase 4 m1 7 = some (m1, 0) := by
  obtain ⟨s, hrun, hinv, hless, _, _⟩ := skip_list.sample
  obtain ⟨m, hmrun, hminv, hmless, _, _⟩ := skip_list_map.map_sample
  have hsl : StrictWeakOrder s.less := hless ▸ strictWeakOrder_std_less
  have hml : StrictWeakOrder m.less := hmless ▸ strictWeakOrder_std_less
  obtain ⟨⟨s1, h1, _, h2, _, _, h3⟩, ⟨m1, h4, _, h5, _, _, h6⟩⟩ :=
    erase_present_key_removes_it 4 4 s [⟨4, 0, 10⟩] ⟨3, 0, 20⟩ [⟨5, 1, 30⟩]
      m [⟨4, 1, (5, 50)⟩] ⟨3, 0, (7, 70)⟩ [⟨5, 1, (11, 110)⟩] hinv hsl hminv hml 20 7
      (by rw [hless]; rfl) (by rw [hmless]; rfl)
  exact ⟨s, s1, m, m1, hrun, hmrun, h1, h2, h3, h4, h5, h6⟩

/-! ## Erasing: absent keys, positions and ranges -/

/-- C11: `erase(k)` of a key that is not present, on a set `s`, a multiset `u` and
a map `m` whose lane 0 sequences are `es`, `us` and `ms`. The call returns 0 and
the container afterwards is the container before: the same size and the same
lane 0 sequence. The multiset reads its argument through the reference `r`,
wherever the object with the value `ku` lives. -/
theorem erase_absent_key_changes_nothing {T Key MappedTo : Type} (N M : Nat)
    (s : sl_impl T T) (es : List (Item T)) (u : sl_impl T T) (us : List (Item T))
    (m : sl_impl (Key × MappedTo) Key) (ms : List (Item (Key × MappedTo)))
    (hs : Inv (skip_list.traits N false) s es) (hsl : StrictWeakOrder s.less)
    (hu : Inv (skip_list.traits N true) u us) (hul : StrictWeakOrder u.less)
    (hm : Inv (skip_list_map.traits M) m ms) (hml : StrictWeakOrder m.less)
    (k ku : T) (km : Key) (r : value_ref T) (hr : u.read_ref r = some ku)
    (hk : ∀ e ∈ es, equivalent s.less e.value k = false)
    (hku : ∀ e ∈ us, equivalent u.less e.value ku = false)
    (hkm : ∀ e ∈ ms, equivalent m.less e.value.1 km = false) :
    (skip_list.erase N false s k = some (s, 0) ∧ s.lane0 = some (es.map Item.value) ∧
      skip_list.size s = es.length) ∧
    (multi_skip_list.erase N u r = some (u, 0) ∧ u.lane0 = some (us.map Item.value) ∧
      skip_list.size u = us.length) ∧
    (skip_list_map.erase M m km = some (m, 0) ∧ m.lane0 = some (ms.map Item.value) ∧
      skip_list_map.size m = ms.length) :=
  ⟨⟨(skip_list.erase_eq N false s k).trans (erase_miss hs hsl hk), hs.shape.lane0_eq,
      hs.shape.count⟩,
    ⟨multi_skip_list.multi_erase_miss hu hul r hr hku, hu.shape.lane0_eq, hu.shape.count⟩,
    ⟨erase_miss hm hml hkm, hm.shape.lane0_eq, hm.shape.count⟩⟩

/-- C11 at the set `{10, 20, 30}`, the multiset `{5, 5, 5, 7}` and the map
`{5 ↦ 50, 7 ↦ 70, 11 ↦ 110}`: erasing the absent keys 15, 6 and 6. -/
theorem erase_absent_key_changes_nothing_witness :
    ∃ (s u : sl_impl Nat Nat) (m : sl_impl (Nat × Nat) Nat),
      (skip_list.create 4 false std_less).bind
        (skip_list.run 4 false [.insert 20 1, .insert 10 0, .insert 30 5]) = some s ∧
      (skip_list.create 4 true std_less).bind
        (multi_skip_list.run 4 [.insert 5 0, .insert 7 1, .insert 5 0, .insert 5 2]) = some u ∧
      (skip_list_map.create 4 std_less).bind
        (skip_list_map.run 4 [.insert (7, 70) 0, .insert (5, 50) 2, .insert (11, 110) 1])
        = some m ∧
      skip_list.erase 4 false s 15 = some (s, 0) ∧ s.lane0 = some [10, 20, 30] ∧
      multi_skip_list.erase 4 u (.outside 6) = some (u, 0) ∧ u.lane0 = some [5, 5, 5, 7] ∧
      skip_list_map.erase 4 m 6 = some (m, 0) ∧
      m.lane0 = some [(5, 50), (7, 70), (11, 110)] := by
  obtain ⟨s, hrun, hinv, hless, _, _⟩ := skip_list.sample
  obtain ⟨u, hurun, huinv, huless, _, _⟩ := multi_skip_list.multi_sample
  obtain ⟨m, hmrun, hminv, hmless, _, _⟩ := skip_list_map.map_sample
  have hsl : StrictWeakOrder s.less := hless ▸ strictWeakOrder_std_less
  have hul : StrictWeakOrder u.less := huless ▸ strictWeakOrder_std_less
  have hml : StrictWeakOrder m.less := hmless ▸ strictWeakOrder_std_less
  have h := erase_absent_key_changes_nothing 4 4 s _ u _ m _ hinv hsl huinv hul hminv hml
    15 6 6 (.outside 6) rfl
    (by
      intro e he
      simp only [List.mem_cons, List.mem_singleton, List.not_mem_nil, or_false] at he
      rcases he with rfl | rfl | rfl <;> rw [hless] <;> rfl)
    (by
      intro e he
      simp only [List.mem_cons, List.mem_singleton, List.not_mem_nil, or_false] at he
      rcases he with rfl | rfl | rfl | rfl <;> rw [huless] <;> rfl)
    (by
      intro e he
      simp only [List.mem_cons, List.mem_singleton, List.not_mem_nil, or_false] at he
      rcases he with rfl | rfl | rfl <;> rw [hmless] <;> rfl)
  exact ⟨s, u, m, hrun, hurun, hmrun, h.1.1, h.1.2.1, h.2.1.1, h.2.1.2.1, h.2.2.1, h.2.2.2.1⟩

/-- C12: `erase(position)` with `position` at the node of `e`, on a set `s`
(duplicates allowed or not) with lane 0 sequence `X ++ e :: Y` and on a map `m`
with lane 0 sequence `MX ++ me :: MY`. The call returns the iterator at the node
that followed on lane 0, or `end()` when there was none; the lane 0 sequence
afterwards is the old one without that node, every lane is a sound chain of the
remaining nodes, and no forward pointer of `head` or of a remaining node, on any
lane, refers to the erased node. -/
theorem erase_position_unlinks_node {T Key MappedTo : Type} (N M : Nat) (D : Bool)
    (s : sl_impl T T) (X : List (Item T)) (e : Item T) (Y : List (Item T))
    (m : sl_impl (Key × MappedTo) Key) (MX : List (Item (Key × MappedTo)))
    (me : Item (Key × MappedTo)) (MY : List (Item (Key × MappedTo)))
    (hs : Inv (skip_list.traits N D) s (X ++ e :: Y)) (hsl : StrictWeakOrder s.less)
    (hm : Inv (skip_list_map.traits M) m (MX ++ me :: MY)) (hml : StrictWeakOrder m.less) :
    (∃ s1, skip_list.erase_at N D s e.addr
        = some (s1, (Y.map Item.addr).headD (skip_list.cend s)) ∧
      skip_list.cend s1 = skip_list.cend s ∧
      s.lane0 = some ((X ++ e :: Y).map Item.value) ∧
      s1.lane0 = some ((X ++ Y).map Item.value) ∧
      Inv (skip_list.traits N D) s1 (X ++ Y) ∧
      ∀ a ∈ s1.head :: (X ++ Y).map Item.addr, ∀ l, s1.get_next a l ≠ some e.addr) ∧
    (∃ m1, skip_list_map.erase_at M m me.addr
        = some (m1, (MY.map Item.addr).headD (skip_list_map.cend m)) ∧
      skip_list_map.cend m1 = skip_list_map.cend m ∧
      m.lane0 = some ((MX ++ me :: MY).map Item.value) ∧
      m1.lane0 = some ((MX ++ MY).map Item.value) ∧
      Inv (skip_list_map.traits M) m1 (MX ++ MY) ∧
      ∀ a ∈ m1.head :: (MX ++ MY).map Item.addr, ∀ l, m1.get_next a l ≠ some me.addr) := by
  obtain ⟨s1, h1, hinv1, _, _, _, htail, _, hfree⟩ := skip_list.erase_at_spec hs hsl
  obtain ⟨m1, h2, hminv1, _, _, _, hmtail, _, hmfree⟩ := skip_list_map.map_erase_at_spec hm hml
  exact ⟨⟨s1, h1, htail, hs.shape.lane0_eq, hinv1.shape.lane0_eq, hinv1, hfree⟩,
    ⟨m1, h2, hmtail, hm.shape.lane0_eq, hminv1.shape.lane0_eq, hminv1, hmfree⟩⟩

/-- C12 at the set `{10, 20, 30}` and the map `{5 ↦ 50, 7 ↦ 70, 11 ↦ 110}`:
erasing at the node of 20 returns the node of 30 and leaves `10, 30`; erasing at
the node of the key 11, the last one, returns `end()`. -/
theorem erase_position_unlinks_node_witness :
    ∃ (s s1 : sl_impl Nat Nat) (m m1 : sl_impl (Nat × Nat) Nat),
      (skip_list.create 4 false std_less).bind
        (skip_list.run 4 false [.insert 20 1, .insert 10 0, .insert 30 5]) = some s ∧
      (skip_list_map.create 4 std_less).bind
        (skip_list_map.run 4 [.insert (7, 70) 0, .insert (5, 50) 2, .insert (11, 110) 1])
        = some m ∧
      skip_list.erase_at 4 false s 3 = some (s1, 5) ∧ s1.lane0 = some [10, 30] ∧
      skip_list_map.erase_at 4 m 5 = some (m1, skip_list_map.cend m) ∧
      m1.lane0 = some [(5, 50), (7, 70)] := by
  obtain ⟨s, hrun, hinv, hless, _, _⟩ := skip_list.sample
  obtain ⟨m, hmrun, hminv, hmless, _, _⟩ := skip_list_map.map_sample
  have hsl : StrictWeakOrder s.less := hless ▸ strictWeakOrder_std_less
  have hml : StrictWeakOrder m.less := hmless ▸ strictWeakOrder_std_less
  obtain ⟨⟨s1, h1, _, _, h2, _, _⟩, ⟨m1, h3, _, _, h4, _, _⟩⟩ :=
    erase_position_unlinks_node 4 4 false s [⟨4, 0, 10⟩] ⟨3, 0, 20⟩ [⟨5, 1, 30⟩]
      m [⟨4, 1, (5, 50)⟩, ⟨3, 0, (7, 70)⟩] ⟨5, 1, (11, 110)⟩ [] hinv hsl hminv hml
  exact ⟨s, s1, m, m1, hrun, hmrun, h1, h2, h3, h4⟩

/-- C13: `erase(first, last)` on a set `s` with lane 0 sequence `X ++ R ++ Y` and
on a map `m` with lane 0 sequence `MX ++ MR ++ MY`, `first` being the iterator at
the start of `R` and `last` the iterator at the start of `Y` (`end()` when `Y` is
empty). The call returns `last`, the lane 0 sequence afterwards is `X ++ Y`, and
`size()` has gone down by the length of `R`. With `first = last` the call returns
the container as it was. -/
theorem erase_range_removes_range {T Key MappedTo : Type} (N M : Nat)
    (s : sl_impl T T) (X R Y : List (Item T))
    (m : sl_impl (Key × MappedTo) Key) (MX MR MY : List (Item (Key × MappedTo)))
    (hs : Inv (skip_list.traits N false) s (X ++ R ++ Y)) (hsl : StrictWeakOrder s.less)
    (hm : Inv (skip_list_map.traits M) m (MX ++ MR ++ MY)) (hml : StrictWeakOrder m.less)
    (p : Nat) :
    (∃ s1, skip_list.erase_range N false s (((R ++ Y).map Item.addr).headD (skip_list.cend s))
          ((Y.map Item.addr).headD (skip_list.cend s))
        = some (s1, (Y.map Item.addr).headD (skip_list.cend s)) ∧
      skip_list.cend s1 = skip_list.cend s ∧
      s.lane0 = some ((X ++ R ++ Y).map Item.value) ∧
      s1.lane0 = some ((X ++ Y).map Item.value) ∧
      skip_list.size s1 + R.length = skip_list.size s ∧
      Inv (skip_list.traits N false) s1 (X ++ Y)) ∧
    skip_list.erase_range N false s p p = some (s, p) ∧
    (∃ m1, skip_list_map.erase_range M m
          (((MR ++ MY).map Item.addr).headD (skip_list_map.cend m))
          ((MY.map Item.addr).headD (skip_list_map.cend m))
        = some (m1, (MY.map Item.addr).headD (skip_list_map.cend m)) ∧
      skip_list_map.cend m1 = skip_list_map.cend m ∧
      m.lane0 = some ((MX ++ MR ++ MY).map Item.value) ∧
      m1.lane0 = some ((MX ++ MY).map Item.value) ∧
      skip_list_map.size m1 + MR.length = skip_list_map.size m ∧
      Inv (skip_list_map.traits M) m1 (MX ++ MY)) ∧
    skip_list_map.erase_range M m p p = some (m, p) := by
  obtain ⟨s1, h1, hinv1, _, _, _, htail, _⟩ := skip_list.erase_range_spec hs hsl
  obtain ⟨m1, h2, hminv1, _, _, _, hmtail, _⟩ := skip_list_map.map_erase_range_spec hm hml
  refine ⟨⟨s1, h1, htail, hs.shape.lane0_eq, hinv1.shape.lane0_eq, ?_, hinv1⟩, ?_,
    ⟨m1, h2, hmtail, hm.shape.lane0_eq, hminv1.shape.lane0_eq, ?_, hminv1⟩, ?_⟩
  · show s1.item_count + R.length = s.item_count
    rw [hinv1.shape.count, hs.shape.count]
    simp only [List.length_append]
    omega
  · simp [skip_list.erase_range]
  · show m1.item_count + MR.length = m.item_count
    rw [hminv1.shape.count, hm.shape.count]
    simp only [List.length_append]
    omega
  · simp [skip_list_map.erase_range]

/-- C13 at the set `{10, 20, 30}` and the map `{5 ↦ 50, 7 ↦ 70, 11 ↦ 110}`: erasing
from the node of 10 up to the node of 30 leaves `30`; erasing from the node of
the key 7 up to `end()` leaves the pair of 5. -/
theorem erase_range_removes_range_witness :
    ∃ (s s1 : sl_impl Nat Nat) (m m1 : sl_impl (Nat × Nat) Nat),
      (skip_list.create 4 false std_less).bind
        (skip_list.run 4 false [.insert 20 1, .insert 10 0, .insert 30 5]) = some s ∧
      (skip_list_map.create 4 std_less).bind
        (skip_list_map.run 4 [.insert (7, 70) 0, .insert (5, 50) 2, .insert (11, 110) 1])
        = some m ∧
      skip_list.erase_range 4 false s 4 5 = some (s1, 5) ∧ s1.lane0 = some [30] ∧
      skip_list.size s1 = 1 ∧
      skip_list_map.erase_range 4 m 3 (skip_list_map.cend m)
        = some (m1, skip_list_map.cend m) ∧
      m1.lane0 = some [(5, 50)] := by
  obtain ⟨s, hrun, hinv, hless, _, _⟩ := skip_list.sample
  obtain ⟨m, hmrun, hminv, hmless, _, _⟩ := skip_list_map.map_sample
  have hsl : StrictWeakOrder s.less := hless ▸ strictWeakOrder_std_less
  have hml : StrictWeakOrder m.less := hmless ▸ strictWeakOrder_std_less
  obtain ⟨⟨s1, h1, _, _, h2, _, hinv1⟩, _, ⟨m1, h3, _, _, h4, _, _⟩, _⟩ :=
    erase_range_removes_range 4 4 s [] [⟨4, 0, 10⟩, ⟨3, 0, 20⟩] [⟨5, 1, 30⟩]
      m [⟨4, 1, (5, 50)⟩] [⟨3, 0, (7, 70)⟩, ⟨5, 1, (11, 110)⟩] [] hinv hsl hminv hml 0
  exact ⟨s, s1, m, m1, hrun, hmrun, h1, h2, hinv1.shape.count, h3, h4⟩

/-! ## Counting, equal ranges and erasure in a multiset -/

/-- C14: `count(k)` on a multiset `u` with lane 0 sequence `us` is the number of
stored elements whose key is equivalent to `k`. -/
theorem multiset_count_is_number_of_equivalents {T : Type} (N : Nat)
    (u : sl_impl T T) (us : List (Item T))
    (hu : Inv (skip_list.traits N true) u us) (hul : StrictWeakOrder u.less) (k : T) :
    u.lane0 = some (us.map Item.value) ∧
    multi_skip_list.count N u k
      = some ((us.map Item.value).countP (fun v => equivalent u.less v k)) := by
  refine ⟨hu.shape.lane0_eq, ?_⟩
  have h := count_eq_countP hu hul k
  rw [List.countP_map]
  exact h

/-- C14 at the multiset `{5, 5, 5, 7}`: `count(5)` is 3, `count(7)` is 1 and
`count(6)` is 0. -/
theorem multiset_count_is_number_of_equivalents_witness :
    ∃ u : sl_impl Nat Nat,
      (skip_list.create 4 true std_less).bind
        (multi_skip_list.run 4 [.insert 5 0, .insert 7 1, .insert 5 0, .insert 5 2]) = some u ∧
      multi_skip_list.count 4 u 5 = some 3 ∧ multi_skip_list.count 4 u 7 = some 1 ∧
      multi_skip_list.count 4 u 6 = some 0 := by
  obtain ⟨u, hurun, huinv, huless, _, _⟩ := multi_skip_list.multi_sample
  have hul : StrictWeakOrder u.less := huless ▸ strictWeakOrder_std_less
  have h5 := (multiset_count_is_number_of_equivalents 4 u _ huinv hul 5).2
  have h7 := (multiset_count_is_number_of_equivalents 4 u _ huinv hul 7).2
  have h6 := (multiset_count_is_number_of_equivalents 4 u _ huinv hul 6).2
  rw [huless] at h5 h7 h6
  exact ⟨u, hurun, h5, h7, h6⟩

/-- C15: the multiset `{5, 7}`, with 5 in node 3 and 7 in node 4. `erase` of the
value 5 held outside the container returns 1 and leaves `[7]`, as the claim
says. `m.erase(*m.begin())` hands over a reference to the value in node 3. The
first round of the loop removes node 3 and frees it; the slot the reference
names is then gone, and the next `find(value)` has to compare the value of
node 4 with it: the call has no defined result. The same holds for a reference
to the value in node 4. Only on the multiset `{5}` is `erase(*begin())`
defined: once node 3 is gone, `find` meets `tail` at once and compares
nothing. -/
theorem multiset_erase_rereads_freed_argument :
    ((skip_list.create 4 true std_less).bind
        (multi_skip_list.run 4 [.insert 5 0, .insert 7 0])).map
      (fun s => (s.lane0, s.read_ref (.node 3), s.read_ref (.node 4),
        (multi_skip_list.erase 4 s (.outside 5)).map (fun r => (r.1.lane0, r.2)),
        (multi_skip_list.erase 4 s (.node 3)).isSome,
        (multi_skip_list.erase 4 s (.node 4)).isSome,
        (sl_impl.remove (skip_list.traits 4 true) s 3).map
          (fun s1 => (s1.lane0, s1.read_ref (.node 3),
            sl_impl.find_ref (skip_list.traits 4 true) s1 (s1.read_ref (.node 3)),
            sl_impl.find_ref (skip_list.traits 4 true) s1 (s1.read_ref (.outside 5))))))
      = some (some [5, 7], some 5, some 7, some (some [7], 1), false, false,
          some (some [7], none, none, some 1)) ∧
    ((skip_list.create 4 true std_less).bind
        (multi_skip_list.run 4 [.insert 5 0])).map
      (fun s => (s.lane0, s.read_ref (.node 3),
        (multi_skip_list.erase 4 s (.node 3)).map (fun r => (r.1.lane0, r.2))))
      = some (some [5], some 5, some (some [], 1)) :=
  ⟨rfl, rfl⟩

/-- C16: `equal_range(v)` on a multiset `u` with lane 0 sequence `us`. The
sequence is the elements below `v`, then the elements equivalent to `v`, then
the elements above `v`. The call returns the pair of `lower_bound(v)` and
`upper_bound(v)`: the iterator at the first equivalent element and the iterator
at the first element above `v` (each falling through to the next part, at last
to `end()`, when its part is empty). So the range holds exactly the equivalent
elements, its length is `count(v)`, and both iterators coincide when no element
is equivalent to `v`. -/
theorem multiset_equal_range_is_run {T : Type} (N : Nat)
    (u : sl_impl T T) (us : List (Item T))
    (hu : Inv (skip_list.traits N true) u us) (hul : StrictWeakOrder u.less) (v : T) :
    us = us.takeWhile (fun e => u.less e.value v)
        ++ us.filter (fun e => equivalent u.less e.value v)
        ++ us.filter (fun e => u.less v e.value) ∧
      (∀ e ∈ us.takeWhile (fun e => u.less e.value v) ++ us.filter (fun e => u.less v e.value),
        equivalent u.less e.value v = false) ∧
      skip_list.lower_bound N true u v
        = some (((us.filter (fun e => equivalent u.less e.value v)
            ++ us.filter (fun e => u.less v e.value)).map Item.addr).headD (skip_list.cend u)) ∧
      skip_list.upper_bound N true u v
        = some (((us.filter (fun e => u.less v e.value)).map Item.addr).headD
            (skip_list.cend u)) ∧
      multi_skip_list.equal_range N u v
        = some (((us.filter (fun e => equivalent u.less e.value v)
              ++ us.filter (fun e => u.less v e.value)).map Item.addr).headD (skip_list.cend u),
            ((us.filter (fun e => u.less v e.value)).map Item.addr).headD (skip_list.cend u)) ∧
      multi_skip_list.count N u v
        = some (us.filter (fun e => equivalent u.less e.value v)).length ∧
      (us.filter (fun e => equivalent u.less e.value v) = [] →
        skip_list.lower_bound N true u v = skip_list.upper_bound N true u v) := by
  obtain ⟨A1, A2, B, hes, h1c, h2c, h3c, hA1⟩ :=
    sorted_cut hul (skip_list.traits N true).KeyFromValue hu.sorted v
  have h1 : ∀ e ∈ A1, u.less e.value v = true := h1c
  have h2 : ∀ e ∈ A2, equivalent u.less e.value v = true := h2c
  have h3 : ∀ e ∈ B, u.less v e.value = true := h3c
  have hA1t : us.takeWhile (fun e => u.less e.value v) = A1 := hA1.symm
  have hs : Shape (skip_list.traits N true) u (A1 ++ A2 ++ B) := hes ▸ hu.shape
  have hfe : us.filter (fun e => equivalent u.less e.value v) = A2 := by
    rw [hes, List.filter_append, List.filter_append]
    have f1 : A1.filter (fun e => equivalent u.less e.value v) = [] := by
      rw [List.filter_eq_nil_iff]
      intro e he
      simp [equivalent_eq_false_of_lt (h1 e he)]
    have f2 : A2.filter (fun e => equivalent u.less e.value v) = A2 :=
      List.filter_eq_self.mpr h2
    have f3 : B.filter (fun e => equivalent u.less e.value v) = [] := by
      rw [List.filter_eq_nil_iff]
      intro e he
      simp [equivalent_eq_false_of_gt (h3 e he)]
    rw [f1, f2, f3, List.nil_append, List.append_nil]
  have hfg : us.filter (fun e => u.less v e.value) = B := by
    rw [hes, List.filter_append, List.filter_append]
    have f1 : A1.filter (fun e => u.less v e.value) = [] := by
      rw [List.filter_eq_nil_iff]
      intro e he
      simp [hul.asymm (h1 e he)]
    have f2 : A2.filter (fun e => u.less v e.value) = [] := by
      rw [List.filter_eq_nil_iff]
      intro e he
      simp [not_gt_of_equivalent (h2 e he)]
    have f3 : B.filter (fun e => u.less v e.value) = B := List.filter_eq_self.mpr h3
    rw [f1, f2, f3, List.nil_append, List.nil_append]
  have hlb : skip_list.lower_bound N true u v
      = some (((A2 ++ B).map Item.addr).headD u.tail) :=
    (skip_list.lower_bound_eq N true u v).trans (lower_bound_spec hs hul h1 h2 h3)
  have hub : skip_list.upper_bound N true u v = some ((B.map Item.addr).headD u.tail) :=
    (skip_list.upper_bound_eq N true u v).trans (upper_bound_spec hs hul h1 h2 h3)
  rw [hA1t, hfe, hfg]
  refine ⟨hes, ?_, hlb, hub, ?_, count_spec hs hul h1 h2 h3, ?_⟩
  · intro e he
    rcases List.mem_append.mp he with h | h
    · exact equivalent_eq_false_of_lt (h1 e h)
    · exact equivalent_eq_false_of_gt (h3 e h)
  · unfold multi_skip_list.equal_range
    rw [hlb, hub]
    rfl
  · intro hnil
    rw [hlb, hub, hnil, List.nil_append]

/-- C16 at the multiset `{5, 5, 5, 7}`, whose nodes are 6, 5, 3, 4 in lane 0
order: `equal_range(5)` runs from node 6 to node 4, the node of 7, and holds
three elements; `equal_range(6)` is the empty range at node 4. -/
theorem multiset_equal_range_is_run_witness :
    ∃ u : sl_impl Nat Nat,
      (skip_list.create 4 true std_less).bind
        (multi_skip_list.run 4 [.insert 5 0, .insert 7 1, .insert 5 0, .insert 5 2]) = some u ∧
      multi_skip_list.equal_range 4 u 5 = some (6, 4) ∧
      multi_skip_list.count 4 u 5 = some 3 ∧
      multi_skip_list.equal_range 4 u 6 = some (4, 4) ∧
      multi_skip_list.count 4 u 6 = some 0 := by
  obtain ⟨u, hurun, huinv, huless, _, _⟩ := multi_skip_list.multi_sample
  have hul : StrictWeakOrder u.less := huless ▸ strictWeakOrder_std_less
  obtain ⟨_, _, _, _, her5, hc5, _⟩ := multiset_equal_range_is_run 4 u _ huinv hul 5
  obtain ⟨_, _, _, _, her6, hc6, _⟩ := multiset_equal_range_is_run 4 u _ huinv hul 6
  rw [huless] at her5 hc5 her6 hc6
  exact ⟨u, hurun, her5, hc5, her6, hc6⟩

/-- C17: `count(k)` and `contains(k)` on a set `s` and on a map `m` whose lane 0
sequences are `es` and `ms`. When an element with a key equivalent to the key
asked for is stored, `count` is 1 and `contains` is true; when none is stored,
`count` is 0 and `contains` is false. -/
theorem count_is_one_or_zero {T Key MappedTo : Type} (N M : Nat)
    (s : sl_impl T T) (es : List (Item T))
    (m : sl_impl (Key × MappedTo) Key) (ms : List (Item (Key × MappedTo)))
    (hs : Inv (skip_list.traits N false) s es) (hsl : StrictWeakOrder s.less)
    (hm : Inv (skip_list_map.traits M) m ms) (hml : StrictWeakOrder m.less)
    (k : T) (km : Key) :
    ((∀ e ∈ es, equivalent s.less e.value k = true →
        skip_list.count N false s k = some 1 ∧ skip_list.contains N false s k = some true) ∧
      ((∀ e ∈ es, equivalent s.less e.value k = false) →
        skip_list.count N false s k = some 0 ∧ skip_list.contains N false s k = some false)) ∧
    ((∀ e ∈ ms, equivalent m.less e.value.1 km = true →
        skip_list_map.count M m km = some 1 ∧ skip_list_map.contains M m km = some true) ∧
      ((∀ e ∈ ms, equivalent m.less e.value.1 km = false) →
        skip_list_map.count M m km = some 0 ∧ skip_list_map.contains M m km = some false)) := by
  refine ⟨⟨?_, ?_⟩, ⟨?_, ?_⟩⟩
  · intro e he heq
    have h := skip_list.count_of_hit hs hsl he heq
    exact ⟨h, by unfold skip_list.contains; rw [h]; rfl⟩
  · intro hne
    have h := skip_list.count_of_miss hs hsl hne
    exact ⟨h, by unfold skip_list.contains; rw [h]; rfl⟩
  · intro e he heq
    have h := skip_list_map.map_count_of_hit hm hml he heq
    exact ⟨h, by unfold skip_list_map.contains; rw [h]; rfl⟩
  · intro hne
    have h := skip_list_map.map_count_of_miss hm hml hne
    exact ⟨h, by unfold skip_list_map.contains; rw [h]; rfl⟩

/-- C17 at the set `{10, 20, 30}` and the map `{5 ↦ 50, 7 ↦ 70, 11 ↦ 110}`. -/
theorem count_is_one_or_zero_witness :
    ∃ (s : sl_impl Nat Nat) (m : sl_impl (Nat × Nat) Nat),
      (skip_list.create 4 false std_less).bind
        (skip_list.run 4 false [.insert 20 1, .insert 10 0, .insert 30 5]) = some s ∧
      (skip_list_map.create 4 std_less).bind
        (skip_list_map.run 4 [.insert (7, 70) 0, .insert (5, 50) 2, .insert (11, 110) 1])
        = some m ∧
      skip_list.count 4 false s 20 = some 1 ∧ skip_list.contains 4 false s 20 = some true ∧
      skip_list.count 4 false s 25 = some 0 ∧ skip_list.contains 4 false s 25 = some false ∧
      skip_list_map.count 4 m 5 = some 1 ∧ skip_list_map.contains 4 m 5 = some true ∧
      skip_list_map.count 4 m 6 = some 0 ∧ skip_list_map.contains 4 m 6 = some false := by
  obtain ⟨s, hrun, hinv, hless, _, _⟩ := skip_list.sample
  obtain ⟨m, hmrun, hminv, hmless, _, _⟩ := skip_list_map.map_sample
  have hsl : StrictWeakOrder s.less := hless ▸ strictWeakOrder_std_less
  have hml : StrictWeakOrder m.less := hmless ▸ strictWeakOrder_std_less
  have hit := count_is_one_or_zero 4 4 s _ m _ hinv hsl hminv hml 20 5
  have miss := count_is_one_or_zero 4 4 s _ m _ hinv hsl hminv hml 25 6
  have h1 := hit.1.1 ⟨3, 0, 20⟩ (by simp) (by rw [hless]; rfl)
  have h2 := hit.2.1 ⟨4, 1, (5, 50)⟩ (by simp) (by rw [hmless]; rfl)
  have h3 := miss.1.2 (by
    intro e he
    simp only [List.mem_cons, List.mem_singleton, List.not_mem_nil, or_false] at he
    rcases he with rfl | rfl | rfl <;> rw [hless] <;> rfl)
  have h4 := miss.2.2 (by
    intro e he
    simp only [List.mem_cons, List.mem_singleton, List.not_mem_nil, or_false] at he
    rcases he with rfl | rfl | rfl <;> rw [hmless] <;> rfl)
  exact ⟨s, m, hrun, hmrun, h1.1, h1.2, h3.1, h3.2, h2.1, h2.2, h4.1, h4.2⟩

/-! ## Inserting a collection, and the order of equivalent elements -/

/-- C18: the members `assign` of a set, a multiset and a map, and insertion one by
one. With four levels and generated levels that stay below them, the values
`3, 1, 3, 2` give `1, 2, 3` in the set and `1, 2, 3, 3` in the multiset, and the
pairs `(3, 30), (1, 10), (3, 99)` give `(1, 10), (3, 30)` in the map: the sorted
input, the first of equivalent keys kept. With one level, the values `3, 1` with
the generated levels 0, 1 have no defined result, in `assign` of the set and of
the map and inserted one by one: the second insertion starts at
`head->next[1]`, which was never written. -/
theorem round_trip_lost_at_top_lane :
    ((skip_list.create 4 false std_less).bind
        (fun s => skip_list.assign 4 false s [(3, 0), (1, 0), (3, 1), (2, 0)])).bind
          sl_impl.lane0 = some [1, 2, 3] ∧
    ((skip_list.create 4 true std_less).bind
        (fun s => skip_list.assign 4 true s [(3, 0), (1, 0), (3, 1), (2, 0)])).bind
          sl_impl.lane0 = some [1, 2, 3, 3] ∧
    ((skip_list_map.create 4 std_less).bind
        (fun s => skip_list_map.assign 4 s [((3, 30), 0), ((1, 10), 0), ((3, 99), 1)])).bind
          sl_impl.lane0 = some [(1, 10), (3, 30)] ∧
    ((skip_list.create 1 false std_less).bind
        (fun s => skip_list.assign 1 false s [(3, 0), (1, 1)])).isSome = false ∧
    ((skip_list_map.create 1 std_less).bind
        (fun s => skip_list_map.assign 1 s [((3, 30), 0), ((1, 10), 1)])).isSome = false ∧
    ((skip_list.create 1 true std_less).bind
        (multi_skip_list.run 1 [.insert 3 0, .insert 1 1])).isSome = false :=
  ⟨rfl, rfl, rfl, rfl, rfl, rfl⟩

/-- C19: a multiset of pairs ordered by their first component, so that pairs with
the same first component are equivalent and can still be told apart. Inserting
`(5, 1)`, `(5, 2)`, `(5, 3)` in this order gives the lane 0 sequence
`(5, 3), (5, 2), (5, 1)`: every new element lands in front of the elements
equivalent to it, so equivalent elements stand in the reverse of the order in
which they were inserted. Inserting `(7, 0)` between them does not change that. -/
theorem equivalent_elements_stand_in_reverse_order :
    ((skip_list.create 4 true (fun a b : Nat × Nat => decide (a.1 < b.1))).bind
        (multi_skip_list.run 4 [.insert (5, 1) 0, .insert (5, 2) 0, .insert (5, 3) 1])).bind
          sl_impl.lane0 = some [(5, 3), (5, 2), (5, 1)] ∧
    ((skip_list.create 4 true (fun a b : Nat × Nat => decide (a.1 < b.1))).bind
        (multi_skip_list.run 4 [.insert (5, 1) 0, .insert (7, 0) 1, .insert (5, 2) 0])).bind
          sl_impl.lane0 = some [(5, 2), (5, 1), (7, 0)] :=
  ⟨rfl, rfl⟩

/-! ## A newly constructed container -/

/-- C20: a newly constructed set, multiset and map, with at least one level, and
any key: `size()` is 0, `empty()` holds, `begin()` is `end()`, and `find`,
`lower_bound` and `upper_bound` return `end()` while `count` returns 0. No
property of the comparator is used. -/
theorem new_container_answers_empty {T Key MappedTo : Type} (N M : Nat)
    (less : T → T → Bool) (mless : Key → Key → Bool) (hN : 0 < N) (hM : 0 < M)
    (k : T) (km : Key) :
    (∃ s, skip_list.create N false less = some s ∧
      skip_list.size s = 0 ∧ skip_list.empty s = true ∧
      skip_list.cbegin s = some (skip_list.cend s) ∧ s.lane0 = some [] ∧
      skip_list.find N false s k = some (skip_list.cend s) ∧
      skip_list.lower_bound N false s k = some (skip_list.cend s) ∧
      skip_list.upper_bound N false s k = some (skip_list.cend s) ∧
      skip_list.count N false s k = some 0) ∧
    (∃ u, skip_list.create N true less = some u ∧
      skip_list.size u = 0 ∧ skip_list.empty u = true ∧
      skip_list.cbegin u = some (skip_list.cend u) ∧ u.lane0 = some [] ∧
      skip_list.find N true u k = some (skip_list.cend u) ∧
      skip_list.lower_bound N true u k = some (skip_list.cend u) ∧
      skip_list.upper_bound N true u k = some (skip_list.cend u) ∧
      multi_skip_list.count N u k = some 0) ∧
    (∃ m : sl_impl (Key × MappedTo) Key, skip_list_map.create M mless = some m ∧
      skip_list_map.size m = 0 ∧ skip_list_map.empty m = true ∧
      skip_list_map.cbegin m = some (skip_list_map.cend m) ∧ m.lane0 = some [] ∧
      skip_list_map.find M m km = some (skip_list_map.cend m) ∧
      skip_list_map.lower_bound M m km = some (skip_list_map.cend m) ∧
      skip_list_map.upper_bound M m km = some (skip_list_map.cend m) ∧
      skip_list_map.count M m km = some 0) := by
  have hset : ∀ D : Bool, ∃ s, skip_list.create N D less = some s ∧
      skip_list.size s = 0 ∧ skip_list.empty s = true ∧
      skip_list.cbegin s = some (skip_list.cend s) ∧ s.lane0 = some [] ∧
      skip_list.find N D s k = some (skip_list.cend s) ∧
      skip_list.lower_bound N D s k = some (skip_list.cend s) ∧
      skip_list.upper_bound N D s k = some (skip_list.cend s) ∧
      skip_list.count N D s k = some 0 ∧
      sl_impl.count (skip_list.traits N D) s k = some 0 := by
    intro D
    obtain ⟨s, hc, hinv, _, _, _, _, _, hcount⟩ := create_spec (skip_list.traits N D) less hN
    obtain ⟨hfind, hlb, hub, hcnt, hnext⟩ := empty_queries hinv.shape k
    refine ⟨s, hc, hcount, ?_, hnext, hinv.shape.lane0_eq, ?_,
      (skip_list.lower_bound_eq N D s k).trans hlb,
      (skip_list.upper_bound_eq N D s k).trans hub, ?_, hcnt⟩
    · simp [skip_list.empty, sl_impl.size, hcount]
    · unfold skip_list.find skip_list.to_iterator
      rw [hfind]
      simp [hinv.shape.is_valid_head]
    · unfold skip_list.count
      rw [hfind]
      simp [hinv.shape.is_valid_head]
  refine ⟨?_, ?_, ?_⟩
  · obtain ⟨s, h1, h2, h3, h4, h5, h6, h7, h8, h9, _⟩ := hset false
    exact ⟨s, h1, h2, h3, h4, h5, h6, h7, h8, h9⟩
  · obtain ⟨s, h1, h2, h3, h4, h5, h6, h7, h8, _, h10⟩ := hset true
    exact ⟨s, h1, h2, h3, h4, h5, h6, h7, h8, h10⟩
  · have hM1 : 0 < (skip_list_map.traits M : sl_traits (Key × MappedTo) Key).num_levels := hM
    obtain ⟨m, hc, hinv, _, _, _, _, _, hcount⟩ :=
      create_spec (skip_list_map.traits M : sl_traits (Key × MappedTo) Key) mless hM1
    obtain ⟨hfind, hlb, hub, _, hnext⟩ := empty_queries hinv.shape km
    refine ⟨m, hc, hcount, ?_, hnext, hinv.shape.lane0_eq, ?_, hlb, hub, ?_⟩
    · simp [skip_list_map.empty, sl_impl.size, hcount]
    · unfold skip_list_map.find skip_list_map.to_iterator
      rw [hfind]
      simp [hinv.shape.is_valid_head]
    · unfold skip_list_map.count
      rw [hfind]
      simp [hinv.shape.is_valid_head]

/-- C20 at a set and a multiset of numbers with 32 levels and a map with 4
levels, for the keys 0 and 7. -/
theorem new_container_answers_empty_witness :
    (∃ s : sl_impl Nat Nat, skip_list.create 32 false std_less = some s ∧
      skip_list.size s = 0 ∧ skip_list.cbegin s = some (skip_list.cend s) ∧
      skip_list.find 32 false s 0 = some (skip_list.cend s) ∧
      skip_list.lower_bound 32 false s 0 = some (skip_list.cend s) ∧
      skip_list.count 32 false s 0 = some 0) ∧
    (∃ u : sl_impl Nat Nat, skip_list.create 32 true std_less = some u ∧
      skip_list.upper_bound 32 true u 0 = some (skip_list.cend u) ∧
      multi_skip_list.count 32 u 0 = some 0) ∧
    (∃ m : sl_impl (Nat × Nat) Nat, skip_list_map.create 4 std_less = some m ∧
      skip_list_map.empty m = true ∧
      skip_list_map.find 4 m 7 = some (skip_list_map.cend m) ∧
      skip_list_map.count 4 m 7 = some 0) := by
  obtain ⟨⟨s, h1, h2, _, h4, _, h6, h7, _, h9⟩, ⟨u, g1, _, _, _, _, _, _, g8, g9⟩,
      ⟨m, k1, _, k3, _, _, k6, _, _, k9⟩⟩ :=
    @new_container_answers_empty Nat Nat Nat 32 4 std_less std_less (by decide) (by decide) 0 7
  exact ⟨⟨s, h1, h2, h4, h6, h7, h9⟩, ⟨u, g1, g8, g9⟩, ⟨m, k1, k3, k6, k9⟩⟩

/-! ## `clear`, hints and range insertion -/

/-- C21: a unique set and a map with one level. After `insert` and `clear()` the
container is as `clear()` leaves it: `size()` is 0, `begin()` is `end()`,
`head->next[0]` is `tail`, `tail->prev` is `head`, and `find`, `lower_bound`,
`upper_bound` and `count` answer as on a new container. An insertion with
generated level 0 then behaves as on a new container. But `levels` is still 1,
and an insertion with generated level 1 has no defined result (it starts at
`head->next[1]`, which `clear()` does not write either), while the same
insertion into a newly constructed container succeeds. -/
theorem insert_after_clear_lost_at_top_lane :
    ((skip_list.create 1 false std_less).bind
        (skip_list.run 1 false [.insert 10 0, .clear])).map
          (fun s => (skip_list.size s, skip_list.cbegin s, skip_list.cend s,
            s.get_next s.head 0, s.get_prev s.tail, s.head, s.tail, s.levels,
            skip_list.find 1 false s 10, skip_list.lower_bound 1 false s 10,
            skip_list.upper_bound 1 false s 10, skip_list.count 1 false s 10))
      = some (0, some 2, 2, some 2, some 1, 1, 2, 1, some 2, some 2, some 2, some 0) ∧
    ((skip_list.create 1 false std_less).bind
        (skip_list.run 1 false [.insert 10 0, .clear, .insert 20 0])).bind sl_impl.lane0
      = some [20] ∧
    ((skip_list.create 1 false std_less).bind
        (skip_list.run 1 false [.insert 20 1])).bind sl_impl.lane0 = some [20] ∧
    ((skip_list.create 1 false std_less).bind
        (skip_list.run 1 false [.insert 10 0, .clear, .insert 20 1])).isSome = false ∧
    ((skip_list_map.create 1 std_less).bind
        (skip_list_map.run 1 [.insert (7, 70) 0, .clear])).map
          (fun m => (skip_list_map.size m, skip_list_map.cbegin m, skip_list_map.cend m,
            m.get_prev m.tail, m.head, m.levels, skip_list_map.find 1 m 7))
      = some (0, some 2, 2, some 1, 1, 1, some 2) ∧
    ((skip_list_map.create 1 std_less).bind
        (skip_list_map.run 1 [.insert (5, 50) 1])).bind sl_impl.lane0 = some [(5, 50)] ∧
    ((skip_list_map.create 1 std_less).bind
        (skip_list_map.run 1 [.insert (7, 70) 0, .clear, .insert (5, 50) 1])).isSome = false :=
  ⟨rfl, rfl, rfl, rfl, rfl, rfl, rfl⟩

/-- C22: an engine `s`, a set `t` (duplicates allowed or not) and a map `m`
satisfying the invariant, and a hint that is null, `head`, `tail` or a node of
the list. The engine-level `insert(value, hint)` is the same computation as
`insert(value)`: the same engine afterwards (every lane, back pointer,
`item_count`, `levels`) and the same returned node, hence the same acceptance or
rejection; where `insert(value)` has no defined result, neither has the hinted
call, and it has one whenever the generated level is below `num_levels`. The
guarded `insert(hint, value)` of the set and the unguarded one of the map return
the engine and the iterator `insert(value)` returns. -/
theorem hinted_insert_is_plain_insert {T K U Key MappedTo : Type} (P : sl_traits T K)
    (N M : Nat) (D : Bool)
    (s : sl_impl T K) (es : List (Item T)) (t : sl_impl U U) (ts : List (Item U))
    (m : sl_impl (Key × MappedTo) Key) (ms : List (Item (Key × MappedTo)))
    (hs : Inv P s es) (hsl : StrictWeakOrder s.less)
    (ht : Inv (skip_list.traits N D) t ts) (htl : StrictWeakOrder t.less)
    (hm : Inv (skip_list_map.traits M) m ms) (hml : StrictWeakOrder m.less)
    (v : T) (tv : U) (mv : Key × MappedTo) (hint thint mhint g : Nat)
    (hh : hint = 0 ∨ hint = s.head ∨ hint = s.tail ∨ hint ∈ es.map Item.addr)
    (hth : thint = 0 ∨ thint = t.head ∨ thint = t.tail ∨ thint ∈ ts.map Item.addr)
    (hmh : mhint = 0 ∨ mhint = m.head ∨ mhint = m.tail ∨ mhint ∈ ms.map Item.addr) :
    sl_impl.insert P s v hint g = sl_impl.insert P s v 0 g ∧
    (g < P.num_levels → ∃ s1 node, sl_impl.insert P s v hint g = some (s1, node)) ∧
    skip_list.insert_hint N D t thint tv g
      = (skip_list.insert N D t tv g).map (fun r => (r.1, r.2.1)) ∧
    skip_list_map.insert_hint M m mhint mv g
      = (skip_list_map.insert M m mv g).map (fun r => (r.1, r.2.1)) := by
  have h1 := insert_hint_eq hs hsl v hint g hh
  refine ⟨h1, ?_, ?_, ?_⟩
  · intro hg
    obtain ⟨s1, node, _, hins, _⟩ := insert_inv hs hsl v g
      (new_level_no_overflow hs.shape.levels_le hg)
    exact ⟨s1, node, h1.trans hins⟩
  · rw [skip_list.insert_hint_plain ht htl tv thint g hth]
    unfold skip_list.insert
    cases sl_impl.insert (skip_list.traits N D) t tv 0 g with
    | none => rfl
    | some r => rfl
  · unfold skip_list_map.insert_hint
    rw [insert_hint_eq hm hml mv mhint g hmh]
    unfold skip_list_map.insert
    cases sl_impl.insert (skip_list_map.traits M) m mv 0 g with
    | none => rfl
    | some r => rfl

/-- C22 at the set `{10, 20, 30}` and the map `{5 ↦ 50, 7 ↦ 70, 11 ↦ 110}`, with
the node of the last element as hint, which is on the top lane: inserting 40
behind the hint 30 and the pair of 13 behind the hint 11 is inserting them
without a hint. -/
theorem hinted_insert_is_plain_insert_witness :
    ∃ (s : sl_impl Nat Nat) (m : sl_impl (Nat × Nat) Nat),
      (skip_list.create 4 false std_less).bind
        (skip_list.run 4 false [.insert 20 1, .insert 10 0, .insert 30 5]) = some s ∧
      (skip_list_map.create 4 std_less).bind
        (skip_list_map.run 4 [.insert (7, 70) 0, .insert (5, 50) 2, .insert (11, 110) 1])
        = some m ∧
      sl_impl.insert (skip_list.traits 4 false) s 40 5 0
        = sl_impl.insert (skip_list.traits 4 false) s 40 0 0 ∧
      (∃ s1 node, sl_impl.insert (skip_list.traits 4 false) s 40 5 0 = some (s1, node)) ∧
      skip_list.insert_hint 4 false s 5 40 0
        = (skip_list.insert 4 false s 40 0).map (fun r => (r.1, r.2.1)) ∧
      skip_list_map.insert_hint 4 m 5 (13, 130) 0
        = (skip_list_map.insert 4 m (13, 130) 0).map (fun r => (r.1, r.2.1)) := by
  obtain ⟨s, hrun, hinv, hless, _, _⟩ := skip_list.sample
  obtain ⟨m, hmrun, hminv, hmless, _, _⟩ := skip_list_map.map_sample
  have hsl : StrictWeakOrder s.less := hless ▸ strictWeakOrder_std_less
  have hml : StrictWeakOrder m.less := hmless ▸ strictWeakOrder_std_less
  have h := hinted_insert_is_plain_insert (skip_list.traits 4 false) 4 4 false s _ s _ m _
    hinv hsl hinv hsl hminv hml 40 40 (13, 130) 5 5 5 0
    (Or.inr (Or.inr (Or.inr (by simp)))) (Or.inr (Or.inr (Or.inr (by simp))))
    (Or.inr (Or.inr (Or.inr (by simp))))
  exact ⟨s, m, hrun, hmrun, h.1, h.2.1 (by decide), h.2.2.1, h.2.2.2⟩

/-- C23: a set `s` (duplicates allowed or not) and a map `m` satisfying the
invariant, and any finite input. The range insertion `insert(first, last)`,
which hands the iterator returned for one element to the insertion of the next
as hint and starts with `end()`, is the same computation as calling `insert(x)`
for each element in order: the same engine afterwards, so the same lane 0
sequence and size. When the generated levels stay below `num_levels` it has a
result, and the result satisfies the invariant. -/
theorem range_insert_is_repeated_insert {T Key MappedTo : Type} (N M : Nat) (D : Bool)
    (s : sl_impl T T) (es : List (Item T))
    (m : sl_impl (Key × MappedTo) Key) (ms : List (Item (Key × MappedTo)))
    (hs : Inv (skip_list.traits N D) s es) (hsl : StrictWeakOrder s.less)
    (hm : Inv (skip_list_map.traits M) m ms) (hml : StrictWeakOrder m.less)
    (xs : List (T × Nat)) (ys : List ((Key × MappedTo) × Nat)) :
    (skip_list.insert_range N D xs s (skip_list.cend s)
        = skip_list.run N D (xs.map (fun x => skip_list.call.insert x.1 x.2)) s ∧
      ((∀ x ∈ xs, x.2 < N) → ∃ s1 es1,
        skip_list.insert_range N D xs s (skip_list.cend s) = some s1 ∧
        Inv (skip_list.traits N D) s1 es1 ∧ s1.lane0 = some (es1.map Item.value) ∧
        skip_list.size s1 = es1.length)) ∧
    (skip_list_map.insert_range M ys m (skip_list_map.cend m)
        = skip_list_map.run M (ys.map (fun y => skip_list_map.call.insert y.1 y.2)) m ∧
      ((∀ y ∈ ys, y.2 < M) → ∃ m1 ms1,
        skip_list_map.insert_range M ys m (skip_list_map.cend m) = some m1 ∧
        Inv (skip_list_map.traits M) m1 ms1 ∧ m1.lane0 = some (ms1.map Item.value) ∧
        skip_list_map.size m1 = ms1.length)) := by
  have h1 := skip_list.insert_range_eq xs s es (skip_list.cend s) hs hsl
    (Or.inr (Or.inr (Or.inl rfl)))
  have h2 := skip_list_map.map_insert_range_eq ys m ms (skip_list_map.cend m) hm hml
    (Or.inr (Or.inr (Or.inl rfl)))
  refine ⟨⟨h1, ?_⟩, ⟨h2, ?_⟩⟩
  · intro hg
    obtain ⟨s1, es1, hrun, hinv1, _⟩ := skip_list.run_inserts_inv xs s es hs hsl hg
    exact ⟨s1, es1, h1.trans hrun, hinv1, hinv1.shape.lane0_eq, hinv1.shape.count⟩
  · intro hg
    obtain ⟨m1, ms1, hrun, hinv1, _⟩ := skip_list_map.map_run_inserts_inv ys m ms hm hml hg
    exact ⟨m1, ms1, h2.trans hrun, hinv1, hinv1.shape.lane0_eq, hinv1.shape.count⟩

/-- C23 at the set `{10, 20, 30}` and the map `{5 ↦ 50, 7 ↦ 70, 11 ↦ 110}`: the
range `40, 20, 25` (20 is rejected, so the next hint is `end()`) and the range of
the pairs of 13 and 5. -/
theorem range_insert_is_repeated_insert_witness :
    ∃ (s : sl_impl Nat Nat) (m : sl_impl (Nat × Nat) Nat),
      (skip_list.create 4 false std_less).bind
        (skip_list.run 4 false [.insert 20 1, .insert 10 0, .insert 30 5]) = some s ∧
      (skip_list_map.create 4 std_less).bind
        (skip_list_map.run 4 [.insert (7, 70) 0, .insert (5, 50) 2, .insert (11, 110) 1])
        = some m ∧
      skip_list.insert_range 4 false [(40, 0), (20, 1), (25, 0)] s (skip_list.cend s)
        = skip_list.run 4 false [.insert 40 0, .insert 20 1, .insert 25 0] s ∧
      (∃ (s1 : sl_impl Nat Nat) (es1 : List (Item Nat)),
        skip_list.insert_range 4 false [(40, 0), (20, 1), (25, 0)] s (skip_list.cend s)
          = some s1 ∧ s1.lane0 = some (es1.map Item.value) ∧ skip_list.size s1 = es1.length) ∧
      skip_list_map.insert_range 4 [((13, 130), 1), ((5, 55), 0)] m (skip_list_map.cend m)
        = skip_list_map.run 4 [.insert (13, 130) 1, .insert (5, 55) 0] m := by
  obtain ⟨s, hrun, hinv, hless, _, _⟩ := skip_list.sample
  obtain ⟨m, hmrun, hminv, hmless, _, _⟩ := skip_list_map.map_sample
  have hsl : StrictWeakOrder s.less := hless ▸ strictWeakOrder_std_less
  have hml : StrictWeakOrder m.less := hmless ▸ strictWeakOrder_std_less
  have h := range_insert_is_repeated_insert 4 4 false s _ m _ hinv hsl hminv hml
    [(40, 0), (20, 1), (25, 0)] [((13, 130), 1), ((5, 55), 0)]
  obtain ⟨s1, es1, h1, _, h3, h4⟩ := h.1.2 (by
    intro x hx
    simp only [List.mem_cons, List.mem_singleton, List.not_mem_nil, or_false] at hx
    rcases hx with rfl | rfl | rfl <;> decide)
  exact ⟨s, m, hrun, hmrun, h.1.1, ⟨s1, es1, h1, h3, h4⟩, h.2.1⟩

/-! ## Stability, the ends of the list, back pointers and the engine-level searches -/

/-- C24: a unique set with two levels holding `10, 20, 30`, where 20 lives in node
3 between the nodes 4 and 5. Erasing 10 leaves node 3 with its value, `head` as
predecessor and node 5 as successor; erasing 30 leaves it with node 4 before and
`tail` behind; inserting 25 with generated level 0 leaves it with its value and
the new node 6 as successor. But `levels` is 2, and inserting 25 with generated
level 2 has no defined result, so nothing can be said of node 3 afterwards. -/
theorem surviving_node_lost_at_top_lane :
    ((skip_list.create 2 false std_less).bind
        (skip_list.run 2 false [.insert 20 0, .insert 10 1, .insert 30 0])).map
          (fun s => (s.lane0, s.levels, s.get_value 3, s.get_prev 3, s.get_next 3 0))
      = some (some [10, 20, 30], 2, some 20, some 4, some 5) ∧
    ((skip_list.create 2 false std_less).bind
        (skip_list.run 2 false [.insert 20 0, .insert 10 1, .insert 30 0, .erase 10])).map
          (fun s => (s.lane0, s.head, s.get_value 3, s.get_prev 3, s.get_next 3 0))
      = some (some [20, 30], 1, some 20, some 1, some 5) ∧
    ((skip_list.create 2 false std_less).bind
        (skip_list.run 2 false [.insert 20 0, .insert 10 1, .insert 30 0, .erase 30])).map
          (fun s => (s.lane0, s.tail, s.get_value 3, s.get_prev 3, s.get_next 3 0))
      = some (some [10, 20], 2, some 20, some 4, some 2) ∧
    ((skip_list.create 2 false std_less).bind
        (skip_list.run 2 false [.insert 20 0, .insert 10 1, .insert 30 0, .insert 25 0])).map
          (fun s => (s.lane0, s.get_value 3, s.get_prev 3, s.get_next 3 0, s.get_value 6))
      = some (some [10, 20, 25, 30], some 20, some 4, some 6, some 25) ∧
    ((skip_list.create 2 false std_less).bind
        (skip_list.run 2 false [.insert 20 0, .insert 10 1, .insert 30 0, .insert 25 2])).isSome
      = false :=
  ⟨rfl, rfl, rfl, rfl, rfl⟩

/-- C25: a non-empty set `s` (duplicates allowed or not) and a non-empty map `m`
whose lane 0 sequences are `es` and `ms`. `front()` returns the first element of
the sequence and `back()` the last one, the value of `tail->prev`; no element is
less than the first, and the last is less than no element. -/
theorem front_and_back_are_the_ends {T Key MappedTo : Type} (N M : Nat) (D : Bool)
    (s : sl_impl T T) (es : List (Item T))
    (m : sl_impl (Key × MappedTo) Key) (ms : List (Item (Key × MappedTo)))
    (hs : Inv (skip_list.traits N D) s es) (hsl : StrictWeakOrder s.less)
    (hm : Inv (skip_list_map.traits M) m ms) (hml : StrictWeakOrder m.less)
    (hes : es ≠ []) (hms : ms ≠ []) :
    (s.lane0 = some (es.map Item.value) ∧
      skip_list.front s = (es.map Item.value).head? ∧
      skip_list.back s = (es.map Item.value).getLast? ∧
      ∃ f b, skip_list.front s = some f ∧ skip_list.back s = some b ∧
        (∀ e ∈ es, s.less e.value f = false) ∧ (∀ e ∈ es, s.less b e.value = false)) ∧
    (m.lane0 = some (ms.map Item.value) ∧
      skip_list_map.front m = (ms.map Item.value).head? ∧
      skip_list_map.back m = (ms.map Item.value).getLast? ∧
      ∃ f b, skip_list_map.front m = some f ∧ skip_list_map.back m = some b ∧
        (∀ e ∈ ms, m.less e.value.1 f.1 = false) ∧ (∀ e ∈ ms, m.less b.1 e.value.1 = false)) := by
  obtain ⟨f, b, hf, hb, hfront, hback, hfv, hbv, hfmin, hbmax⟩ := ends_spec hs hsl hes
  obtain ⟨mf, mb, hmf, hmb, hmfront, hmback, hmfv, hmbv, hmfmin, hmbmax⟩ :=
    ends_spec hm hml hms
  have h1 : skip_list.front s = some f.value := by
    unfold skip_list.front
    rw [hfront]
    exact hfv
  have h2 : skip_list.back s = some b.value := by
    unfold skip_list.back
    rw [hback]
    exact hbv
  have h3 : skip_list_map.front m = some mf.value := by
    unfold skip_list_map.front
    rw [hmfront]
    exact hmfv
  have h4 : skip_list_map.back m = some mb.value := by
    unfold skip_list_map.back
    rw [hmback]
    exact hmbv
  refine ⟨⟨hs.shape.lane0_eq, ?_, ?_, f.value, b.value, h1, h2, hfmin, hbmax⟩,
    ⟨hm.shape.lane0_eq, ?_, ?_, mf.value, mb.value, h3, h4, hmfmin, hmbmax⟩⟩
  · rw [h1, List.head?_map, hf]
    rfl
  · rw [h2, List.getLast?_map, hb]
    rfl
  · rw [h3, List.head?_map, hmf]
    rfl
  · rw [h4, List.getLast?_map, hmb]
    rfl

/-- C25 at the set `{10, 20, 30}` and the map `{5 ↦ 50, 7 ↦ 70, 11 ↦ 110}`:
`front()` is 10 and `back()` is 30; in the map they are the pairs of 5 and 11. -/
theorem front_and_back_are_the_ends_witness :
    ∃ (s : sl_impl Nat Nat) (m : sl_impl (Nat × Nat) Nat),
      (skip_list.create 4 false std_less).bind
        (skip_list.run 4 false [.insert 20 1, .insert 10 0, .insert 30 5]) = some s ∧
      (skip_list_map.create 4 std_less).bind
        (skip_list_map.run 4 [.insert (7, 70) 0, .insert (5, 50) 2, .insert (11, 110) 1])
        = some m ∧
      skip_list.front s = some 10 ∧ skip_list.back s = some 30 ∧
      skip_list_map.front m = some (5, 50) ∧ skip_list_map.back m = some (11, 110) := by
  obtain ⟨s, hrun, hinv, hless, _, _⟩ := skip_list.sample
  obtain ⟨m, hmrun, hminv, hmless, _, _⟩ := skip_list_map.map_sample
  have hsl : StrictWeakOrder s.less := hless ▸ strictWeakOrder_std_less
  have hml : StrictWeakOrder m.less := hmless ▸ strictWeakOrder_std_less
  have h := front_and_back_are_the_ends 4 4 false s _ m _ hinv hsl hminv hml (by simp)
    (by simp)
  exact ⟨s, m, hrun, hmrun, h.1.2.1, h.1.2.2.1, h.2.2.1, h.2.2.2.1⟩

/-- C26: with four levels, inserting `30, 10, 40, 20, 0` gives a list that reads
`0, 10, 20, 30, 40` forwards and `40, 30, 20, 10, 0` backwards, with
`tail->prev` the node of 40 and `head` before the node of 0. With two levels,
inserting `30, 10` (generated levels 0 and 1) gives a list that reads `10, 30`
forwards and `30, 10` backwards, but the next insertion, of 40 with generated
level 2, has no defined result: there are no back pointers to speak of. -/
theorem back_pointers_lost_at_top_lane :
    ((skip_list.create 4 false std_less).bind
        (skip_list.run 4 false
          [.insert 30 0, .insert 10 1, .insert 40 0, .insert 20 2, .insert 0 1])).map
          (fun s => (s.lane0, s.lane0_reversed, s.get_prev s.tail, s.get_value 5,
            s.front, s.get_value 7, s.get_prev 7, s.head))
      = some (some [0, 10, 20, 30, 40], some [40, 30, 20, 10, 0], some 5, some 40,
          some 7, some 0, some 1, 1) ∧
    ((skip_list.create 2 false std_less).bind
        (skip_list.run 2 false [.insert 30 0, .insert 10 1])).map
          (fun s => (s.lane0, s.lane0_reversed, s.levels))
      = some (some [10, 30], some [30, 10], 2) ∧
    ((skip_list.create 2 false std_less).bind
        (skip_list.run 2 false [.insert 30 0, .insert 10 1, .insert 40 2])).isSome = false ∧
    ((skip_list.create 2 false std_less).bind
        (skip_list.run 2 false [.insert 30 0, .insert 10 1, .erase 10, .erase 30])).map
          (fun s => (s.lane0, s.lane0_reversed, s.get_prev s.tail, s.head, s.levels))
      = some (some [], some [], some 1, 1, 2) ∧
    ((skip_list.create 2 false std_less).bind
        (skip_list.run 2 false
          [.insert 30 0, .insert 10 1, .erase 10, .erase 30, .insert 40 2])).isSome = false :=
  ⟨rfl, rfl, rfl, rfl, rfl⟩

/-- C27, the claim fails: on a newly constructed set `levels` is 0, and after an
insertion whose allocation failed it is 1. -/
theorem failed_allocation_raises_levels :
    (skip_list.create 4 false std_less).map
        (fun s => (s.levels, (s.insert_bad_alloc 0).levels)) = some (0, 1) ∧
    ((skip_list.create 4 false std_less).bind
        (skip_list.run 4 false [.insert 20 1, .insert 10 0, .insert 30 5])).map
          (fun s => (s.levels, (s.insert_bad_alloc 3).levels, (s.insert_bad_alloc 1).levels))
      = some (2, 3, 2) :=
  ⟨rfl, rfl⟩

/-- C27, amended: when the allocation of the node fails inside `insert`, the
store (every node with its value, forward pointers and back pointer),
`item_count`, `head`, `tail` and the comparator are as before the call; `levels`
is as before when the generated level is below it and is raised by one
otherwise, since `new_level` runs before the allocation. -/
theorem failed_allocation_keeps_all_but_levels {T K : Type} (s : sl_impl T K) (g : Nat) :
    (s.insert_bad_alloc g).mem = s.mem ∧
    (s.insert_bad_alloc g).item_count = s.item_count ∧
    (s.insert_bad_alloc g).head = s.head ∧ (s.insert_bad_alloc g).tail = s.tail ∧
    (s.insert_bad_alloc g).brk = s.brk ∧ (s.insert_bad_alloc g).less = s.less ∧
    (∀ a j, (s.insert_bad_alloc g).get_next a j = s.get_next a j) ∧
    (∀ a, (s.insert_bad_alloc g).get_prev a = s.get_prev a) ∧
    (s.insert_bad_alloc g).levels = (if g < s.levels then s.levels else s.levels + 1) := by
  obtain ⟨hless, hhead, htail, hcount, hbrk, hmem⟩ := new_level_frame s g
  refine ⟨hmem, hcount, hhead, htail, hbrk, hless, fun a j => get_next_congr hmem a j,
    fun a => get_prev_congr hmem a, ?_⟩
  unfold sl_impl.insert_bad_alloc
  rw [new_level_levels]
  by_cases hg : g < s.levels
  · rw [if_neg (by omega), if_pos hg]
  · rw [if_pos (by omega), if_neg hg]

/-- C29: an engine `s` satisfying the invariant, with lane 0 sequence `es`, and a
key `k`. The engine-level `find(k)` has a result, which is never `tail`. It is
the node of the element `e` when the key of `e` is not greater than `k` and
every element behind `e` has a greater key; no element before `e` has a key
greater than the key of `e`, so `e` carries the largest key not greater than
`k`. It is `head` when every key is greater than `k`, in particular on the empty
list. -/
theorem engine_find_returns_last_not_greater {T K : Type} (P : sl_traits T K)
    (s : sl_impl T K) (es : List (Item T)) (hs : Inv P s es) (hsl : StrictWeakOrder s.less)
    (k : K) :
    (∃ node, sl_impl.find P s k = some node ∧ node ≠ s.tail) ∧
    (∀ X e Y, es = X ++ e :: Y →
      less_or_equal s.less (P.KeyFromValue e.value) k = true →
      (∀ y ∈ Y, less_or_equal s.less (P.KeyFromValue y.value) k = false) →
      sl_impl.find P s k = some e.addr ∧ s.get_value e.addr = some e.value ∧
        ∀ x ∈ X, s.less (P.KeyFromValue e.value) (P.KeyFromValue x.value) = false) ∧
    ((∀ e ∈ es, less_or_equal s.less (P.KeyFromValue e.value) k = false) →
      sl_impl.find P s k = some s.head) ∧
    (es = [] → sl_impl.find P s k = some s.head) := by
  obtain ⟨hdef, hhead⟩ := find_head_or_node hs hsl k
  refine ⟨hdef, ?_, hhead, ?_⟩
  · intro X e Y hes he hY
    subst hes
    obtain ⟨h1, h2⟩ := find_last_le hs hsl he hY
    exact ⟨h1, hs.shape.value (by simp), h2⟩
  · intro hes
    apply hhead
    intro e he
    rw [hes] at he
    cases he

/-- C29 at the set `{10, 20, 30}`: `find(25)` and `find(20)` return the node of
20, `find(5)` returns `head`, `find(35)` the node of 30. -/
theorem engine_find_returns_last_not_greater_witness :
    ∃ s : sl_impl Nat Nat,
      (skip_list.create 4 false std_less).bind
        (skip_list.run 4 false [.insert 20 1, .insert 10 0, .insert 30 5]) = some s ∧
      sl_impl.find (skip_list.traits 4 false) s 25 = some 3 ∧ s.get_value 3 = some 20 ∧
      sl_impl.find (skip_list.traits 4 false) s 20 = some 3 ∧
      sl_impl.find (skip_list.traits 4 false) s 5 = some s.head ∧
      sl_impl.find (skip_list.traits 4 false) s 35 = some 5 := by
  obtain ⟨s, hrun, hinv, hless, _, _⟩ := skip_list.sample
  have hsl : StrictWeakOrder s.less := hless ▸ strictWeakOrder_std_less
  have h25 := (engine_find_returns_last_not_greater (skip_list.traits 4 false) s _ hinv hsl
    25).2.1 [⟨4, 0, 10⟩] ⟨3, 0, 20⟩ [⟨5, 1, 30⟩] rfl (by rw [hless]; rfl)
    (by
      intro y hy
      simp only [List.mem_singleton] at hy
      subst hy
      rw [hless]
      rfl)
  have h20 := (engine_find_returns_last_not_greater (skip_list.traits 4 false) s _ hinv hsl
    20).2.1 [⟨4, 0, 10⟩] ⟨3, 0, 20⟩ [⟨5, 1, 30⟩] rfl (by rw [hless]; rfl)
    (by
      intro y hy
      simp only [List.mem_singleton] at hy
      subst hy
      rw [hless]
      rfl)
  have h5 := (engine_find_returns_last_not_greater (skip_list.traits 4 false) s _ hinv hsl
    5).2.2.1 (by
      intro e he
      simp only [List.mem_cons, List.mem_singleton, List.not_mem_nil, or_false] at he
      rcases he with rfl | rfl | rfl <;> rw [hless] <;> rfl)
  have h35 := (engine_find_returns_last_not_greater (skip_list.traits 4 false) s _ hinv hsl
    35).2.1 [⟨4, 0, 10⟩, ⟨3, 0, 20⟩] ⟨5, 1, 30⟩ [] rfl (by rw [hless]; rfl) (by simp)
  exact ⟨s, hrun, h25.1, h25.2.1, h20.1, h5, h35.1⟩

/-- C30, the claim fails on the empty list: on a newly constructed set and on a
newly constructed map `find_first` returns `head` (node 1), not `tail` (node 2). -/
theorem find_first_on_empty_list_returns_head :
    (skip_list.create 4 false std_less).map
        (fun s => (s.lane0, sl_impl.find_first (skip_list.traits 4 false) s 5, s.head, s.tail))
      = some (some [], some 1, 1, 2) ∧
    (skip_list_map.create 4 std_less).map
        (fun m : sl_impl (Nat × Nat) Nat =>
          (m.lane0, sl_impl.find_first (skip_list_map.traits 4) m 5, m.head, m.tail))
      = some (some [], some 1, 1, 2) :=
  ⟨rfl, rfl⟩

/-- C30, amended: an engine `s` satisfying the invariant, with lane 0 sequence
`es`, and a key `k`. `find_first(k)` has a result. It is the node of the element
`e` when the key of `e` is equivalent to `k` and every element before `e` has a
key less than `k`: the first node of the run of keys equivalent to `k`. It is
`tail` when the list is not empty and every key is less than `k`. On the empty
list it is `head`. -/
theorem find_first_returns_run_start_tail_or_head {T K : Type} (P : sl_traits T K)
    (s : sl_impl T K) (es : List (Item T)) (hs : Inv P s es) (hsl : StrictWeakOrder s.less)
    (k : K) :
    (∃ node, sl_impl.find_first P s k = some node) ∧
    (∀ X e Y, es = X ++ e :: Y →
      equivalent s.less (P.KeyFromValue e.value) k = true →
      (∀ x ∈ X, s.less (P.KeyFromValue x.value) k = true) →
      sl_impl.find_first P s k = some e.addr) ∧
    (es ≠ [] → (∀ e ∈ es, s.less (P.KeyFromValue e.value) k = true) →
      sl_impl.find_first P s k = some s.tail) ∧
    (es = [] → sl_impl.find_first P s k = some s.head) :=
  find_first_cases hs hsl k

/-- C30 amended, at the multiset `{5, 5, 5, 7}`, where `find_first(5)` is the
first of the three nodes holding 5 and `find_first(9)` is `tail`, and at a newly
constructed set, where `find_first(9)` is `head`. -/
theorem find_first_returns_run_start_tail_or_head_witness :
    ∃ (u s0 : sl_impl Nat Nat),
      (skip_list.create 4 true std_less).bind
        (multi_skip_list.run 4 [.insert 5 0, .insert 7 1, .insert 5 0, .insert 5 2]) = some u ∧
      skip_list.create 4 false std_less = some s0 ∧
      sl_impl.find_first (skip_list.traits 4 true) u 5 = some 6 ∧
      sl_impl.find_first (skip_list.traits 4 true) u 9 = some u.tail ∧
      sl_impl.find_first (skip_list.traits 4 false) s0 9 = some s0.head := by
  obtain ⟨u, hrun, hinv, hless, _, _⟩ := multi_skip_list.multi_sample
  obtain ⟨s0, hc, hinv0, hless0, _⟩ := create_spec (skip_list.traits 4 false) std_less
    (by decide)
  have hul : StrictWeakOrder u.less := hless ▸ strictWeakOrder_std_less
  have hsl0 : StrictWeakOrder s0.less := hless0 ▸ strictWeakOrder_std_less
  have h5 := (find_first_returns_run_start_tail_or_head (skip_list.traits 4 true) u _ hinv hul
    5).2.1 [] ⟨6, 2, 5⟩ [⟨5, 0, 5⟩, ⟨3, 0, 5⟩, ⟨4, 1, 7⟩] rfl (by rw [hless]; rfl) (by simp)
  have h9 := (find_first_returns_run_start_tail_or_head (skip_list.traits 4 true) u _ hinv hul
    9).2.2.1 (by simp) (by
      intro e he
      simp only [List.mem_cons, List.mem_singleton, List.not_mem_nil, or_false] at he
      rcases he with rfl | rfl | rfl | rfl <;> rw [hless] <;> rfl)
  have h0 := (find_first_returns_run_start_tail_or_head (skip_list.traits 4 false) s0 _ hinv0
    hsl0 9).2.2.2 rfl
  exact ⟨u, s0, hrun, hc, h5, h9, h0⟩

/-! ## Lanes, `levels`, the level generators, `swap` and runs of equivalent keys -/

/-- C31: with four levels, after inserting `30, 10, 40, 20, 0` (generated levels
0, 1, 0, 2, 1) `levels` is 3 and the lanes 0, 1, 2 hold the nodes `7, 4, 6, 3, 5`,
`7, 4, 6` and `6`: each a subsequence of lane 0 made of the nodes whose level
reaches the lane; after erasing 20 (node 6) no lane holds node 6. With two
levels, after inserting `30, 10` (generated levels 0 and 1) the lanes are
`4, 3` and `4`, but the next insertion, of 40 with generated level 2, has no
defined result: there are no lanes to speak of. -/
theorem lanes_lost_at_top_lane :
    ((skip_list.create 4 false std_less).bind
        (skip_list.run 4 false
          [.insert 30 0, .insert 10 1, .insert 40 0, .insert 20 2, .insert 0 1])).map
          (fun s => (s.levels, s.lane 0, s.lane 1, s.lane 2,
            s.get_level 3, s.get_level 4, s.get_level 5, s.get_level 6, s.get_level 7))
      = some (3, some [7, 4, 6, 3, 5], some [7, 4, 6], some [6],
          some 0, some 1, some 0, some 2, some 1) ∧
    ((skip_list.create 4 false std_less).bind
        (skip_list.run 4 false
          [.insert 30 0, .insert 10 1, .insert 40 0, .insert 20 2, .insert 0 1, .erase 20])).map
          (fun s => (s.levels, s.lane 0, s.lane 1, s.lane 2))
      = some (3, some [7, 4, 3, 5], some [7, 4], some []) ∧
    ((skip_list.create 2 false std_less).bind
        (skip_list.run 2 false [.insert 30 0, .insert 10 1])).map
          (fun s => (s.levels, s.lane 0, s.lane 1))
      = some (2, some [4, 3], some [4]) ∧
    ((skip_list.create 2 false std_less).bind
        (skip_list.run 2 false [.insert 30 0, .insert 10 1, .insert 40 2])).isSome = false ∧
    ((skip_list.create 2 true std_less).bind
        (multi_skip_list.run 2 [.insert 30 0, .insert 30 1, .insert 30 2])).isSome = false :=
  ⟨rfl, rfl, rfl, rfl, rfl⟩

/-- C32: a set with one level and generated levels 0 and 1, both within the range
of the generator. After the first insertion `levels` is 1; in the second
insertion `new_level` returns 1 and raises `levels` to 2, above the number of
levels, and the insertion then has no defined result: lane 1 of `head` is not
among the lanes the constructor has initialised. The same with two levels and
generated levels 0, 1, 2, where `levels` becomes 3. -/
theorem levels_exceed_number_of_levels :
    ((skip_list.create 1 false std_less).bind
        (skip_list.run 1 false [.insert 10 0])).map
          (fun s => (s.levels, (s.new_level 1).1, (s.new_level 1).2.levels,
            s.get_next s.head 1, s.tail,
            (sl_impl.insert (skip_list.traits 1 false) s 20 0 1).isSome))
      = some (1, 1, 2, some 0, 2, false) ∧
    ((skip_list.create 2 false std_less).bind
        (skip_list.run 2 false [.insert 10 0, .insert 20 1])).map
          (fun s => (s.levels, (s.new_level 2).1, (s.new_level 2).2.levels,
            s.get_next s.head 2, s.tail,
            (sl_impl.insert (skip_list.traits 2 false) s 30 0 2).isSome))
      = some (2, 2, 3, some 0, 2, false) :=
  ⟨rfl, rfl⟩

/-- C33: newly constructed engines with one and with four levels. `head` has
2 and 5 forward slots; the slots below the number of levels point to `tail`
(node 2), and the last slot, `head->next[1]` and `head->next[4]`, was never
written (the model reads null there). -/
theorem head_top_lane_not_initialised :
    (skip_list.create 1 false std_less).map
        (fun s => (s.head, s.tail, s.get_len s.head, s.get_next s.head 0, s.get_next s.head 1))
      = some (1, 2, some 2, some 2, some 0) ∧
    (skip_list.create 4 false std_less).map
        (fun s => (s.head, s.tail, s.get_len s.head, s.get_next s.head 0, s.get_next s.head 1,
          s.get_next s.head 2, s.get_next s.head 3, s.get_next s.head 4))
      = some (1, 2, some 5, some 2, some 2, some 2, some 2, some 0) ∧
    (skip_list_map.create 4 std_less).map
        (fun m : sl_impl (Nat × Nat) Nat => (m.tail, m.get_len m.head, m.get_next m.head 3,
          m.get_next m.head 4))
      = some (2, some 5, some 2, some 0) :=
  ⟨rfl, rfl, rfl⟩

/-- C34: a set with two levels. After inserting `30, 10` (generated levels 0 and
1) the nodes have the levels 0 and 1 and `levels` is 2; after erasing both,
`levels` is still 2, an upper bound and no more. The next insertion, of 40 with
generated level 2, gives its node the level 2 and raises `levels` to 3, and has
no defined result: there is no list whose nodes could be below `levels`. -/
theorem level_bound_lost_at_top_lane :
    ((skip_list.create 2 false std_less).bind
        (skip_list.run 2 false [.insert 30 0, .insert 10 1])).map
          (fun s => (s.lane 0, s.get_level 3, s.get_level 4, s.levels))
      = some (some [4, 3], some 0, some 1, 2) ∧
    ((skip_list.create 2 false std_less).bind
        (skip_list.run 2 false [.insert 30 0, .insert 10 1, .erase 10, .erase 30])).map
          (fun s => (s.lane 0, s.levels, (s.new_level 2).1, (s.new_level 2).2.levels))
      = some (some [], 2, 2, 3) ∧
    ((skip_list.create 2 false std_less).bind
        (skip_list.run 2 false
          [.insert 30 0, .insert 10 1, .erase 10, .erase 30, .insert 40 2])).isSome = false ∧
    ((skip_list_map.create 2 std_less).bind
        (skip_list_map.run 2 [.insert (3, 30) 0, .insert (1, 10) 1, .insert (4, 40) 2])).isSome
      = false :=
  ⟨rfl, rfl, rfl, rfl⟩

/-- C35: an engine `s` satisfying the invariant and a generated level `g`.
`new_level` returns the smaller of `g` and `levels`, raises `levels` by one when
`g` is not below it and leaves it otherwise, and touches nothing else. So
`levels` grows by at most one and the returned level is at most the old
`levels`. An insertion, which calls `new_level` once, ends with the `levels`
that `new_level` set, and a node it keeps has the level `new_level` returned
(stated where the insertion has a defined result, `levels` staying within
`num_levels`). -/
theorem new_level_returns_min_and_raises_by_one {T K : Type} (P : sl_traits T K)
    (s : sl_impl T K) (es : List (Item T)) (hs : Inv P s es) (hsl : StrictWeakOrder s.less)
    (v : T) (g : Nat) :
    (s.new_level g).1 = min g s.levels ∧
    (s.new_level g).2.levels = (if g ≥ s.levels then s.levels + 1 else s.levels) ∧
    (s.new_level g).2.levels ≤ s.levels + 1 ∧ (s.new_level g).1 ≤ s.levels ∧
    ((s.new_level g).2.mem = s.mem ∧ (s.new_level g).2.item_count = s.item_count ∧
      (s.new_level g).2.head = s.head ∧ (s.new_level g).2.tail = s.tail) ∧
    ((s.new_level g).2.levels ≤ P.num_levels →
      ∃ s1 node, sl_impl.insert P s v 0 g = some (s1, node) ∧
        s1.levels = (s.new_level g).2.levels ∧ s1.levels ≤ s.levels + 1 ∧
        (node = s1.tail ∨ s1.get_level node = some (min g s.levels))) := by
  obtain ⟨_, hhead, htail, hcount, _, hmem⟩ := new_level_frame s g
  have hfst : (s.new_level g).1 = min g s.levels := by
    rw [new_level_fst]
    by_cases hg : g ≥ s.levels
    · rw [if_pos hg, Nat.min_eq_right hg]
    · rw [if_neg hg, Nat.min_eq_left (by omega)]
  have hlev := new_level_levels s g
  have hle : (s.new_level g).2.levels ≤ s.levels + 1 := by
    rw [hlev]
    split <;> omega
  refine ⟨hfst, hlev, hle, by rw [hfst]; exact Nat.min_le_right _ _,
    ⟨hmem, hcount, hhead, htail⟩, ?_⟩
  intro hov
  obtain ⟨s1, node, hins, hlevels, hnode⟩ := insert_levels hs hsl v g hov
  refine ⟨s1, node, hins, hlevels, by rw [hlevels]; exact hle, ?_⟩
  rcases hnode with h | ⟨_, h⟩
  · exact Or.inl h
  · exact Or.inr (by rw [h, hfst])

/-- C35 at the set `{10, 20, 30}`, whose `levels` is 2, with the generated level
3: `new_level` returns 2 and raises `levels` to 3, and inserting 40 ends with
these `levels` and a node of level 2. -/
theorem new_level_returns_min_and_raises_by_one_witness :
    ∃ s : sl_impl Nat Nat,
      (skip_list.create 4 false std_less).bind
        (skip_list.run 4 false [.insert 20 1, .insert 10 0, .insert 30 5]) = some s ∧
      (s.new_level 3).1 = min 3 s.levels ∧
      (s.new_level 3).2.levels = (if 3 ≥ s.levels then s.levels + 1 else s.levels) ∧
      ∃ s1 node, sl_impl.insert (skip_list.traits 4 false) s 40 0 3 = some (s1, node) ∧
        s1.levels = (s.new_level 3).2.levels ∧
        (node = s1.tail ∨ s1.get_level node = some (min 3 s.levels)) := by
  obtain ⟨s, hrun, hinv, hless, _, _⟩ := skip_list.sample
  have hsl : StrictWeakOrder s.less := hless ▸ strictWeakOrder_std_less
  have h := new_level_returns_min_and_raises_by_one (skip_list.traits 4 false) s _ hinv hsl 40 3
  obtain ⟨s1, node, h1, h2, _, h4⟩ := h.2.2.2.2.2
    (new_level_no_overflow hinv.shape.levels_le (by decide))
  exact ⟨s, hrun, h.1, h.2.1, s1, node, h1, h2, h4⟩

/-- C37: a multiset `s` with lane 0 sequence `X ++ e :: Y`, where `e` may stand
anywhere in a run of equivalent elements and the nodes have any levels, and a
multiset `u` with lane 0 sequence `UX ++ UR ++ UY`. `remove` of the node of `e`,
and `erase(position)` at it, give a multiset whose lane 0 sequence is
`X ++ Y` and whose `size()` is one less; on every lane the nodes afterwards are
the nodes before without the node of `e`, in the same order, and no forward
pointer of `head` or of a remaining node refers to it. `erase(first, last)`,
which removes node by node, leaves `UX ++ UY`. -/
theorem multiset_remove_unlinks_one_instance {T : Type} (N : Nat)
    (s : sl_impl T T) (X : List (Item T)) (e : Item T) (Y : List (Item T))
    (u : sl_impl T T) (UX UR UY : List (Item T))
    (hs : Inv (skip_list.traits N true) s (X ++ e :: Y)) (hsl : StrictWeakOrder s.less)
    (hu : Inv (skip_list.traits N true) u (UX ++ UR ++ UY)) (hul : StrictWeakOrder u.less) :
    (∃ s1, sl_impl.remove (skip_list.traits N true) s e.addr = some s1 ∧
      skip_list.erase_at N true s e.addr = some (s1, (Y.map Item.addr).headD (skip_list.cend s)) ∧
      Inv (skip_list.traits N true) s1 (X ++ Y) ∧
      s.lane0 = some ((X ++ e :: Y).map Item.value) ∧
      s1.lane0 = some ((X ++ Y).map Item.value) ∧
      skip_list.size s1 + 1 = skip_list.size s ∧
      (∀ l, l < N → ∃ ns, s.lane l = some ns ∧ s1.lane l = some (ns.erase e.addr) ∧
        e.addr ∉ ns.erase e.addr) ∧
      (∀ a ∈ s1.head :: (X ++ Y).map Item.addr, ∀ l, s1.get_next a l ≠ some e.addr)) ∧
    (∃ u1, multi_skip_list.erase_range N u (((UR ++ UY).map Item.addr).headD (skip_list.cend u))
          ((UY.map Item.addr).headD (skip_list.cend u))
        = some (u1, (UY.map Item.addr).headD (skip_list.cend u)) ∧
      Inv (skip_list.traits N true) u1 (UX ++ UY) ∧
      u1.lane0 = some ((UX ++ UY).map Item.value)) := by
  constructor
  · obtain ⟨s1, hrem, hinv1, _, _, _, _, _, hfree⟩ := remove_any hs hsl
    obtain ⟨s2, hat, _⟩ := skip_list.erase_at_spec hs hsl
    have hsame : s2 = s1 := by
      unfold skip_list.erase_at at hat
      cases hn : s.get_next e.addr 0 with
      | none => simp [hn] at hat
      | some nx =>
        simp only [hn, hrem, Option.some.injEq, Prod.mk.injEq] at hat
        exact hat.1.symm
    subst hsame
    refine ⟨s2, hrem, hat, hinv1, hs.shape.lane0_eq, hinv1.shape.lane0_eq, ?_, ?_, hfree⟩
    · have h1 := hinv1.shape.count
      have h2 := hs.shape.count
      simp only [skip_list.size, sl_impl.size, h1, h2, List.length_append, List.length_cons]
      omega
    · intro l hl
      obtain ⟨her, hnot⟩ := onLane_erase l X Y e hs.shape.nodup
      refine ⟨onLane l (X ++ e :: Y), hs.shape.lane_eq hl, ?_, ?_⟩
      · rw [her]
        exact hinv1.shape.lane_eq hl
      · rw [her]
        exact hnot
  · obtain ⟨u1, hloop, hinv1, _⟩ := multi_skip_list.erase_range_loop_spec UR u UX UY
      (u.brk + 1) hu hul (by
        have := hu.shape.length_lt_brk
        simp only [List.length_append] at this
        omega)
    refine ⟨u1, ?_, hinv1, hinv1.shape.lane0_eq⟩
    unfold multi_skip_list.erase_range
    simp only [skip_list.cend, sl_impl.one_past_end, hloop]

/-- C37 at the multiset `{5, 5, 5, 7}`, nodes 6, 5, 3, 4 with levels 2, 0, 0, 1:
removing node 5, the second of the three nodes holding 5, leaves `5, 5, 7` in
the nodes 6, 3, 4, with lane 1 still `6, 4`; erasing the range of the last two
nodes holding 5 leaves `5, 7`. -/
theorem multiset_remove_unlinks_one_instance_witness :
    ∃ (s s1 u1 : sl_impl Nat Nat),
      (skip_list.create 4 true std_less).bind
        (multi_skip_list.run 4 [.insert 5 0, .insert 7 1, .insert 5 0, .insert 5 2]) = some s ∧
      sl_impl.remove (skip_list.traits 4 true) s 5 = some s1 ∧
      s1.lane0 = some [5, 5, 7] ∧ skip_list.size s1 + 1 = skip_list.size s ∧
      (∃ ns, s.lane 1 = some ns ∧ s1.lane 1 = some (ns.erase 5)) ∧
      s1.get_next s1.head 0 ≠ some 5 ∧
      multi_skip_list.erase_range 4 s 5 4 = some (u1, 4) ∧ u1.lane0 = some [5, 7] := by
  obtain ⟨s, hrun, hinv, hless, _, htail⟩ := multi_skip_list.multi_sample
  have hsl : StrictWeakOrder s.less := hless ▸ strictWeakOrder_std_less
  obtain ⟨⟨s1, h1, _, _, _, h5, h6, h7, h8⟩, ⟨u1, g1, _, g3⟩⟩ :=
    multiset_remove_unlinks_one_instance 4 s [⟨6, 2, 5⟩] ⟨5, 0, 5⟩ [⟨3, 0, 5⟩, ⟨4, 1, 7⟩]
      s [⟨6, 2, 5⟩] [⟨5, 0, 5⟩, ⟨3, 0, 5⟩] [⟨4, 1, 7⟩] hinv hsl hinv hsl
  obtain ⟨ns, hns, hns1, _⟩ := h7 1 (by decide)
  exact ⟨s, s1, u1, hrun, h1, h5, h6, ⟨ns, hns, hns1⟩,
    h8 s1.head (List.mem_cons_self _ _) 0, g1, g3⟩

/-- C38: `a.swap(b)` on two engines, and on two sets and two maps: afterwards the
first is what the second was and the second what the first was, so each has the
other's former lane 0 sequence, size and `levels`; swapping twice gives back
both. -/
theorem swap_exchanges_engines {T K U Key MappedTo : Type} (a b : sl_impl T K)
    (c d : sl_impl U U) (m n : sl_impl (Key × MappedTo) Key) :
    ((sl_impl.swap a b).1 = b ∧ (sl_impl.swap a b).2 = a) ∧
    ((sl_impl.swap a b).1.lane0 = b.lane0 ∧ (sl_impl.swap a b).1.size = b.size ∧
      (sl_impl.swap a b).1.levels = b.levels) ∧
    ((sl_impl.swap a b).2.lane0 = a.lane0 ∧ (sl_impl.swap a b).2.size = a.size ∧
      (sl_impl.swap a b).2.levels = a.levels) ∧
    sl_impl.swap (sl_impl.swap a b).1 (sl_impl.swap a b).2 = (a, b) ∧
    (skip_list.swap c d = (d, c) ∧
      skip_list.swap (skip_list.swap c d).1 (skip_list.swap c d).2 = (c, d)) ∧
    (skip_list_map.swap m n = (n, m) ∧
      skip_list_map.swap (skip_list_map.swap m n).1 (skip_list_map.swap m n).2 = (m, n)) :=
  ⟨⟨rfl, rfl⟩, ⟨rfl, rfl, rfl⟩, ⟨rfl, rfl, rfl⟩, rfl, ⟨rfl, rfl⟩, ⟨rfl, rfl⟩⟩

/-- C39: an engine `s` satisfying the invariant, with lane 0 sequence
`X ++ e :: Y`, and a key `k`, where `e` is equivalent to `k` and no element
behind `e` is: `e` is the last of the run of elements equivalent to `k`. The
engine-level `find(k)` returns the node of `e`, which holds the value of `e`,
and not the node of any earlier element. -/
theorem find_returns_last_of_equivalent_run {T K : Type} (P : sl_traits T K)
    (s : sl_impl T K) (X : List (Item T)) (e : Item T) (Y : List (Item T))
    (hs : Inv P s (X ++ e :: Y)) (hsl : StrictWeakOrder s.less) (k : K)
    (he : equivalent s.less (P.KeyFromValue e.value) k = true)
    (hY : ∀ y ∈ Y, equivalent s.less (P.KeyFromValue y.value) k = false) :
    sl_impl.find P s k = some e.addr ∧ s.get_value e.addr = some e.value ∧
      ∀ x ∈ X, sl_impl.find P s k ≠ some x.addr := by
  obtain ⟨hfind, hne⟩ := find_last_of_run hs hsl he hY
  refine ⟨hfind, hs.shape.value (by simp), ?_⟩
  intro x hx hc
  rw [hfind] at hc
  exact hne x hx (Option.some.inj hc).symm

/-- C39 at the multiset `{5, 5, 5, 7}`, nodes 6, 5, 3, 4: `find(5)` returns node
3, the last of the three nodes holding 5. -/
theorem find_returns_last_of_equivalent_run_witness :
    ∃ s : sl_impl Nat Nat,
      (skip_list.create 4 true std_less).bind
        (multi_skip_list.run 4 [.insert 5 0, .insert 7 1, .insert 5 0, .insert 5 2]) = some s ∧
      sl_impl.find (skip_list.traits 4 true) s 5 = some 3 ∧ s.get_value 3 = some 5 ∧
      sl_impl.find (skip_list.traits 4 true) s 5 ≠ some 6 ∧
      sl_impl.find (skip_list.traits 4 true) s 5 ≠ some 5 := by
  obtain ⟨s, hrun, hinv, hless, _, _⟩ := multi_skip_list.multi_sample
  have hsl : StrictWeakOrder s.less := hless ▸ strictWeakOrder_std_less
  have h := find_returns_last_of_equivalent_run (skip_list.traits 4 true) s
    [⟨6, 2, 5⟩, ⟨5, 0, 5⟩] ⟨3, 0, 5⟩ [⟨4, 1, 7⟩] hinv hsl 5 (by rw [hless]; rfl)
    (by
      intro y hy
      simp only [List.mem_singleton] at hy
      subst hy
      rw [hless]
      rfl)
  exact ⟨s, hrun, h.1, h.2.1, h.2.2 ⟨6, 2, 5⟩ (by simp), h.2.2 ⟨5, 0, 5⟩ (by simp)⟩

/-- C40: the same calls under two streams of generated levels. With four levels,
the calls `insert(20), insert(10), insert(20), erase(10), insert(30)` under the
streams `0, 1, 2, 0` and `0, 0, 0, 0` for the four accepted or rejected
insertions agree on the lane 0 sequence, the size and the positions `find`,
`lower_bound` and `upper_bound` return, and differ in `levels`. With one level,
the calls `insert(10), insert(20)` give `10, 20` under the stream `0, 0` and have
no defined result under the stream `0, 1`, both streams within the range of
the generator. -/
theorem level_streams_disagree_at_top_lane :
    ((skip_list.create 4 false std_less).bind
        (skip_list.run 4 false
          [.insert 20 0, .insert 10 1, .insert 20 2, .erase 10, .insert 30 0])).map
          (fun s => (s.lane0, skip_list.size s, skip_list.find 4 false s 30,
            skip_list.lower_bound 4 false s 25, skip_list.upper_bound 4 false s 20, s.levels))
      = some (some [20, 30], 2, some 6, some 6, some 6, 3) ∧
    ((skip_list.create 4 false std_less).bind
        (skip_list.run 4 false
          [.insert 20 0, .insert 10 0, .insert 20 0, .erase 10, .insert 30 0])).map
          (fun s => (s.lane0, skip_list.size s, skip_list.find 4 false s 30,
            skip_list.lower_bound 4 false s 25, skip_list.upper_bound 4 false s 20, s.levels))
      = some (some [20, 30], 2, some 6, some 6, some 6, 1) ∧
    ((skip_list.create 1 false std_less).bind
        (skip_list.run 1 false [.insert 10 0, .insert 20 0])).map
          (fun s => (s.lane0, skip_list.size s))
      = some (some [10, 20], 2) ∧
    ((skip_list.create 1 false std_less).bind
        (skip_list.run 1 false [.insert 10 0, .insert 20 1])).isSome = false ∧
    ((skip_list_map.create 1 std_less).bind
        (skip_list_map.run 1 [.insert (1, 10) 0, .insert (2, 20) 0])).map
          (fun m => (m.lane0, skip_list_map.size m))
      = some (some [(1, 10), (2, 20)], 2) ∧
    ((skip_list_map.create 1 std_less).bind
        (skip_list_map.run 1 [.insert (1, 10) 0, .insert (2, 20) 1])).isSome = false :=
  ⟨rfl, rfl, rfl, rfl, rfl, rfl⟩

end goodliffe
